import Mathlib

/-!
# Wikilon runtime: value words, sums and the evaluator

Two embeddings are used.

* `Word`: the bit-level layout of `wikrt.h` and the cell-level constructors of
  `wikrt.c` (sums, products, integers, texts, tokens), the opcode table, the
  context list of an environment, and the free list of `wikrt_mem.c` with its
  merge sort, its coalescing and its allocation calls. A value is a 64-bit word (a `Nat` below
  `2 ^ 64`), the context memory maps a byte address to the word stored there.
* `Eval`: the evaluator of `wikrt_eval.c`. Values are linear and acyclic, every
  cell has exactly one owner, so a word together with the cell it points to is
  a tree node; the constructors of `wikrt_val` are the eight tags of `wikrt.h`.

The small constants of `wikrt_private.h` are embedded in `WikrtPrivate`.
-/

namespace Word

/-! ## Value words (`wikrt.h`) -/

/-- Tag of a tagged object pointer (low bits `000`). -/
def WIKRT_O : Nat := 0
/-- Tag of a pair cell pointer. -/
def WIKRT_P : Nat := 1
/-- Tag of a pair cell in the left of a sum. -/
def WIKRT_PL : Nat := 2
/-- Tag of a pair cell in the right of a sum. -/
def WIKRT_PR : Nat := 3
/-- Tag of a small integer. -/
def WIKRT_I : Nat := 4
/-- Tag of unit. -/
def WIKRT_U : Nat := 5
/-- Tag of unit in the left. -/
def WIKRT_UL : Nat := 6
/-- Tag of unit in the right. -/
def WIKRT_UR : Nat := 7

def WIKRT_UNIT : Nat := WIKRT_U
def WIKRT_UNIT_INL : Nat := WIKRT_UL
def WIKRT_UNIT_INR : Nat := WIKRT_UR

def WIKRT_REF_MASK_TAG : Nat := 7
/-- The complement of the tag mask on a 64-bit word. -/
def WIKRT_REF_MASK_ADDR : Nat := 2 ^ 64 - 1 - WIKRT_REF_MASK_TAG

def wikrt_vaddr (v : Nat) : Nat := v &&& WIKRT_REF_MASK_ADDR
def wikrt_vtag (v : Nat) : Nat := v &&& WIKRT_REF_MASK_TAG
def wikrt_tag_addr (tag addr : Nat) : Nat := tag ||| addr

def WIKRT_OTAG_DEEPSUM : Nat := 43
def WIKRT_OTAG_ARRAY : Nat := 86
def LOBYTE (v : Nat) : Nat := v &&& 0xFF
def WIKRT_DEEPSUMR : Nat := 3
def WIKRT_DEEPSUML : Nat := 2

def wikrt_otag_deepsum (v : Nat) : Bool := WIKRT_OTAG_DEEPSUM == LOBYTE v
def wikrt_otag_array (v : Nat) : Bool := WIKRT_OTAG_ARRAY == LOBYTE v

/-- Two words per cell, eight bytes per word. -/
def WIKRT_CELLSIZE : Nat := 16

/-! ## Error codes (`wikilon-runtime.h`) -/

def WIKRT_OK : Nat := 0
def WIKRT_INVAL : Nat := 1
def WIKRT_IMPL : Nat := 2
def WIKRT_CXFULL : Nat := 16
def WIKRT_TYPE_ERROR : Nat := 256

/-! ## Context memory and the sum constructors of `wikrt.c` -/

/-- The context: its memory, a word per byte address, and the state of the
free list, whose type is left open (the allocator is a parameter). -/
structure wikrt_cx (FL : Type) where
  memory : Nat → Nat
  fl : FL

/-- The word `pv[i]` for `pv = wikrt_pval(cx, a)`. -/
def rd {FL : Type} (cx : wikrt_cx FL) (a i : Nat) : Nat :=
  cx.memory (wikrt_vaddr a + 8 * i)

/-- The assignment `pv[i] = w` for `pv = wikrt_pval(cx, a)`. -/
def wr {FL : Type} (cx : wikrt_cx FL) (a i w : Nat) : wikrt_cx FL :=
  { cx with memory := fun x => if x = wikrt_vaddr a + 8 * i then w else cx.memory x }

/-- The allocator calls of `wikrt.c`, whose bodies are not part of `wikrt.c`:
`wikrt_alloc(cx, fl, &dst, sz)` hands out an address (`some dst`) or fails
(`none`), and in both cases returns the context as the search of the free
list left it; `wikrt_free(cx, fl, addr, sz)` returns a block. -/
structure wikrt_allocator (FL : Type) where
  wikrt_alloc : wikrt_cx FL → Nat → Option Nat × wikrt_cx FL
  wikrt_free : wikrt_cx FL → Nat → Nat → wikrt_cx FL

/-- The function `wikrt_alloc_sum_fl` of `wikrt.c`. The out-parameter `*c` is
passed in with its previous content `c` and returned; the result is
`(error code, context, *c)`. -/
def wikrt_alloc_sum_fl {FL : Type} (A : wikrt_allocator FL) (cx : wikrt_cx FL)
    (c : Nat) (inRight : Bool) (v : Nat) : Nat × wikrt_cx FL × Nat :=
  let vtag := wikrt_vtag v
  let vaddr := wikrt_vaddr v
  if WIKRT_P = vtag then
    let newtag := if inRight then WIKRT_PR else WIKRT_PL
    (WIKRT_OK, cx, wikrt_tag_addr newtag vaddr)
  else if WIKRT_O = vtag ∧ wikrt_otag_deepsum (rd cx vaddr 0) = true
      ∧ rd cx vaddr 0 < 1 <<< 30 then
    let sumtag := (rd cx vaddr 0 >>> 6) ||| (if inRight then WIKRT_DEEPSUMR else WIKRT_DEEPSUML)
    let otag := (sumtag <<< 8) ||| WIKRT_OTAG_DEEPSUM
    (WIKRT_OK, wr cx vaddr 0 otag, c)
  else
    match A.wikrt_alloc cx WIKRT_CELLSIZE with
    | (none, cx1) => (WIKRT_CXFULL, cx1, c)
    | (some dst, cx1) =>
      let sumtag := if inRight then WIKRT_DEEPSUMR else WIKRT_DEEPSUML
      let otag := (sumtag <<< 8) ||| WIKRT_OTAG_DEEPSUM
      let cx2 := wr cx1 dst 0 otag
      let cx3 := wr cx2 dst 1 v
      (WIKRT_OK, cx3, wikrt_tag_addr WIKRT_O dst)

/-- The function `wikrt_split_sum_fl` of `wikrt.c`. The out-parameters
`*inRight` and `*v` are passed in with their previous contents and returned;
the result is `(error code, context, *inRight, *v)`. -/
def wikrt_split_sum_fl {FL : Type} (A : wikrt_allocator FL) (cx : wikrt_cx FL)
    (c : Nat) (inRight : Bool) (v : Nat) : Nat × wikrt_cx FL × Bool × Nat :=
  let tag := wikrt_vtag c
  let addr := wikrt_vaddr c
  if WIKRT_PL = tag then
    (WIKRT_OK, cx, false, wikrt_tag_addr WIKRT_P addr)
  else if WIKRT_PR = tag then
    (WIKRT_OK, cx, true, wikrt_tag_addr WIKRT_P addr)
  else if WIKRT_O = tag then
    let otag := rd cx addr 0
    if wikrt_otag_deepsum otag then
      let s0 := otag >>> 8
      let inRight1 := (3 == (3 &&& s0))
      let sf := s0 >>> 2
      if 0 = sf then
        (WIKRT_OK, A.wikrt_free cx addr WIKRT_CELLSIZE, inRight1, rd cx addr 1)
      else
        (WIKRT_OK, wr cx addr 0 ((sf <<< 8) ||| WIKRT_OTAG_DEEPSUM), inRight1, c)
    else if wikrt_otag_array otag then
      (WIKRT_IMPL, cx, inRight, v)
    else (WIKRT_TYPE_ERROR, cx, inRight, v)
  else (WIKRT_TYPE_ERROR, cx, inRight, v)

/-- An allocator over a free list without state that never hands out memory. -/
def alloc_none : wikrt_allocator Unit :=
  { wikrt_alloc := fun cx _ => (none, cx), wikrt_free := fun cx _ _ => cx }

/-- A context holding one deep-sum cell at address 16: the header carries one
`in left` tag, the value word is unit. -/
def cx_deepsum : wikrt_cx Unit :=
  { memory := fun a => if a = 16 then (WIKRT_DEEPSUML <<< 8) ||| WIKRT_OTAG_DEEPSUM
                       else if a = 24 then WIKRT_UNIT else 0,
    fl := () }

/-! ## Classification of value words (`wikrt.h`) -/

/-- The macro `wikrt_copy_shallow(V)`: the bit `4 & V`, nonzero for the four
small constants. -/
def wikrt_copy_shallow (v : Nat) : Nat := 4 &&& v
def wikrt_copy_deep (v : Nat) : Bool := wikrt_copy_shallow v == 0

def wikrt_p (v : Nat) : Bool := WIKRT_P == wikrt_vtag v
def wikrt_pl (v : Nat) : Bool := WIKRT_PL == wikrt_vtag v
def wikrt_pr (v : Nat) : Bool := WIKRT_PR == wikrt_vtag v
def wikrt_o (v : Nat) : Bool := WIKRT_O == wikrt_vtag v

/-! ## Small integers (`wikrt.h`) -/

def WIKRT_SMALLINT_MAX : Int := 999999999999999999
def WIKRT_SMALLINT_MIN : Int := - WIKRT_SMALLINT_MAX

/-- The cast `(wikrt_val) i` of a signed 64-bit integer to a word. -/
def wikrt_val_of_int (i : Int) : Nat := (i % 2 ^ 64).toNat

/-- The cast `(wikrt_int) v` of a word to a signed 64-bit integer (two's
complement). -/
def wikrt_int_of_val (v : Nat) : Int :=
  if v % 2 ^ 64 < 2 ^ 63 then ((v % 2 ^ 64 : Nat) : Int) else ((v % 2 ^ 64 : Nat) : Int) - 2 ^ 64

/-- The macro `WIKRT_I2V`: `WIKRT_I | (((wikrt_val) I) << 3)` on a 64-bit
word. -/
def wikrt_i2v (i : Int) : Nat := WIKRT_I ||| ((wikrt_val_of_int i <<< 3) % 2 ^ 64)

/-- The macro `WIKRT_V2I`: `((wikrt_int) V) >> 3`, an arithmetic shift. -/
def wikrt_v2i (v : Nat) : Int := wikrt_int_of_val v >>> (3 : Nat)

def wikrt_smallint (v : Nat) : Bool := WIKRT_I == wikrt_vtag v

def WIKRT_IZERO : Nat := wikrt_i2v 0

/-! ## Integers (`wikrt.c`) -/

def WIKRT_BUFFSZ : Nat := 32

/-- Modelled from the spec: the test `wikrt_i` that `wikrt.c` calls and the
headers do not define. An integer that fits the tagged word is the small
integer of `wikrt.h`, so this is its test `wikrt_smallint`. -/
def wikrt_i (v : Nat) : Bool := wikrt_smallint v

/-- Modelled from the spec: the constant `WIKRT_BIGINT_DIGIT`, which `wikrt.c`
uses and the headers do not define. A boxed integer is a little-endian
sequence of base-10⁹ digits. -/
def WIKRT_BIGINT_DIGIT : Int := 1000000000

/-- The type byte of a boxed integer: the value `78` (`N`) that `wikrt.h`
keeps in a comment. -/
def WIKRT_OTAG_BIGINT : Nat := 78

/-- The conversion of an integer to `int32_t`: the value reduced modulo
`2 ^ 32` into the two's complement range. -/
def wikrt_int32_of (n : Int) : Int := (n + 2 ^ 31) % 2 ^ 32 - 2 ^ 31

/-- The conversion of an integer to `uint32_t`. -/
def wikrt_uint32_of (n : Int) : Nat := (n % 2 ^ 32).toNat

/-- The digit `d[ix]` for `d = (uint32_t*) (pv + 1)` and
`pv = wikrt_pval(cx, a)`. The memory keeps a 32-bit digit under its own byte
address. -/
def rd32 {FL : Type} (cx : wikrt_cx FL) (a ix : Nat) : Nat :=
  cx.memory (wikrt_vaddr a + 8 + 4 * ix)

/-- The assignment `d[ix] = w` for `d = (uint32_t*) (pv + 1)`. -/
def wr32 {FL : Type} (cx : wikrt_cx FL) (a ix w : Nat) : wikrt_cx FL :=
  { cx with memory := fun x => if x = wikrt_vaddr a + 8 + 4 * ix then w else cx.memory x }

/-- The loop of `wikrt_alloc_bigint` that copies the digits `digit[0 .. n-1]`,
in the order of the index. -/
def wikrt_alloc_bigint_loop {FL : Type} (cx : wikrt_cx FL) (dst : Nat) (digit : Nat → Nat) :
    Nat → wikrt_cx FL
  | 0 => cx
  | n + 1 => wr32 (wikrt_alloc_bigint_loop cx dst digit n) dst n (digit n)

/-- The header word that `wikrt_alloc_bigint` writes:
`(((n << 1) | sign) << 8) | WIKRT_OTAG_BIGINT` on 64-bit words. -/
def wikrt_bigint_otag (sign : Bool) (n : Nat) : Nat :=
  ((((n <<< 1) % 2 ^ 64 ||| (if sign then 1 else 0)) <<< 8) % 2 ^ 64) ||| WIKRT_OTAG_BIGINT

/-- The function `wikrt_alloc_bigint` of `wikrt.c`. The array `digit` is a
function of the index; the limit `WIKRT_BIGINT_MAX_DIGITS`, which the headers
do not define, is the parameter `maxd`. The result is
`(error code, context, *v)`. -/
def wikrt_alloc_bigint {FL : Type} (A : wikrt_allocator FL) (maxd : Nat) (cx : wikrt_cx FL)
    (v : Nat) (sign : Bool) (digit : Nat → Nat) (n : Nat) : Nat × wikrt_cx FL × Nat :=
  if n < 2 ∨ 0 = digit (n - 1) then (WIKRT_INVAL, cx, v)
  else if n > maxd then (WIKRT_IMPL, cx, v)
  else
    let szBytes := (8 + n * 4) % 2 ^ 64
    match A.wikrt_alloc cx szBytes with
    | (none, cx1) => (WIKRT_CXFULL, cx1, v)
    | (some dst, cx1) =>
      let cx2 := wr cx1 dst 0 (wikrt_bigint_otag sign n)
      (WIKRT_OK, wikrt_alloc_bigint_loop cx2 dst digit n, wikrt_tag_addr WIKRT_O dst)

/-- The digits `d[0]`, `d[1]`, `d[2]` of a local array. -/
def wikrt_digits3 (d0 d1 d2 : Nat) (ix : Nat) : Nat :=
  if ix = 0 then d0 else if ix = 1 then d1 else d2

/-- The function `wikrt_alloc_i32_fl` of `wikrt.c`, for an `int32_t` `n`. The
negation `n = -n` overflows at `INT32_MIN`, which is undefined behaviour
(`none`). -/
def wikrt_alloc_i32_fl {FL : Type} (A : wikrt_allocator FL) (maxd : Nat) (cx : wikrt_cx FL)
    (v : Nat) (n : Int) : Option (Nat × wikrt_cx FL × Nat) :=
  if WIKRT_SMALLINT_MIN ≤ n ∧ n ≤ WIKRT_SMALLINT_MAX then
    some (WIKRT_OK, cx, wikrt_i2v n)
  else
    let sign := decide (n < 0)
    if sign = true ∧ n = -(2 ^ 31) then none
    else
      let n1 := if sign then -n else n
      let d0 := wikrt_uint32_of (n1 % WIKRT_BIGINT_DIGIT)
      let d1 := wikrt_uint32_of (n1 / WIKRT_BIGINT_DIGIT)
      some (wikrt_alloc_bigint A maxd cx v sign (wikrt_digits3 d0 d1 0) 2)

/-- The function `wikrt_peek_i32` of `wikrt.c`; the result is
`(error code, *i32)`. The assignment converts the 64-bit integer to
`int32_t`. -/
def wikrt_peek_i32 {FL : Type} (_cx : wikrt_cx FL) (v : Nat) (i32 : Int) : Nat × Int :=
  if wikrt_i v then (WIKRT_OK, wikrt_int32_of (wikrt_v2i v))
  else (WIKRT_IMPL, i32)

/-- The function `wikrt_alloc_i64_fl` of `wikrt.c`, for an `int64_t` `n`. The
negation `n = -n` overflows at `INT64_MIN`, which is undefined behaviour
(`none`). -/
def wikrt_alloc_i64_fl {FL : Type} (A : wikrt_allocator FL) (maxd : Nat) (cx : wikrt_cx FL)
    (v : Nat) (n : Int) : Option (Nat × wikrt_cx FL × Nat) :=
  if WIKRT_SMALLINT_MIN ≤ n ∧ n ≤ WIKRT_SMALLINT_MAX then
    some (WIKRT_OK, cx, wikrt_i2v (wikrt_int32_of n))
  else
    let sign := decide (n < 0)
    if sign = true ∧ n = -(2 ^ 63) then none
    else
      let n1 := if sign then -n else n
      let d0 := wikrt_uint32_of (n1 % WIKRT_BIGINT_DIGIT)
      let n2 := n1 / WIKRT_BIGINT_DIGIT
      let d1 := wikrt_uint32_of (n2 % WIKRT_BIGINT_DIGIT)
      let d2 := wikrt_uint32_of (n2 / WIKRT_BIGINT_DIGIT)
      let nDigits := if 0 = d2 then 3 else 2
      some (wikrt_alloc_bigint A maxd cx v sign (wikrt_digits3 d0 d1 d2) nDigits)

/-- The function `wikrt_peek_i64` of `wikrt.c`; the result is
`(error code, *i64)`. -/
def wikrt_peek_i64 {FL : Type} (_cx : wikrt_cx FL) (v : Nat) (i64 : Int) : Nat × Int :=
  if wikrt_i v then (WIKRT_OK, wikrt_v2i v)
  else (WIKRT_IMPL, i64)

/-- The sign of a boxed integer: bit 8 of the header word that
`wikrt_alloc_bigint` composes. -/
def wikrt_bigint_sign (otag : Nat) : Bool := (otag >>> 8) &&& 1 == 1

/-- The digit count of a boxed integer: the bits from bit 9 up of the header
word that `wikrt_alloc_bigint` composes. -/
def wikrt_bigint_size (otag : Nat) : Nat := otag >>> 9

/-- Modelled from the spec: the number that the little-endian base-10⁹ digits
`d[0 .. k-1]` of the boxed integer at `a` stand for. -/
def wikrt_bigint_value {FL : Type} (cx : wikrt_cx FL) (a : Nat) : Nat → Nat
  | 0 => 0
  | k + 1 => wikrt_bigint_value cx a k + rd32 cx a k * 1000000000 ^ k

/-! ## Products (`wikrt.c`) -/

/-- The function `wikrt_alloc_prod_fl` of `wikrt.c`; the result is
`(error code, context, *p)`. -/
def wikrt_alloc_prod_fl {FL : Type} (A : wikrt_allocator FL) (cx : wikrt_cx FL)
    (p fst snd : Nat) : Nat × wikrt_cx FL × Nat :=
  match A.wikrt_alloc cx WIKRT_CELLSIZE with
  | (none, cx1) => (WIKRT_CXFULL, cx1, p)
  | (some dst, cx1) =>
    (WIKRT_OK, wr (wr cx1 dst 0 fst) dst 1 snd, wikrt_tag_addr WIKRT_P dst)

/-- The function `wikrt_split_prod_fl` of `wikrt.c`; the result is
`(error code, context, *fst, *snd)`. -/
def wikrt_split_prod_fl {FL : Type} (A : wikrt_allocator FL) (cx : wikrt_cx FL)
    (p fst snd : Nat) : Nat × wikrt_cx FL × Nat × Nat :=
  let ptag := wikrt_vtag p
  let paddr := wikrt_vaddr p
  if WIKRT_P = ptag ∧ 0 ≠ paddr then
    (WIKRT_OK, A.wikrt_free cx paddr WIKRT_CELLSIZE, rd cx paddr 0, rd cx paddr 1)
  else (WIKRT_TYPE_ERROR, cx, fst, snd)

/-- An allocator for the examples: the free-list state is the next free
address, which every allocation hands out and moves up. -/
def alloc_bump : wikrt_allocator Nat :=
  { wikrt_alloc := fun cx sz => (some cx.fl, { cx with fl := cx.fl + sz }),
    wikrt_free := fun cx _ _ => cx }

/-- An empty context for the examples, free from address 64 on. -/
def cx_empty : wikrt_cx Nat := { memory := fun _ => 0, fl := 64 }

/-- A limit on the digits of a boxed integer, for the examples. -/
def max_digits : Nat := 2 ^ 23 - 1

/-- A context for the examples with one pair cell at address 16 that holds
the words 5 and 7. -/
def cx_pair : wikrt_cx Unit :=
  { memory := fun a => if a = 16 then 5 else if a = 24 then 7 else 0, fl := () }

/-! ## Tokens and texts (`wikrt.c`) -/

/-- Modelled from the spec: `isControlChar` of `utf8.h`, a header that is not
among the sources. The control characters are C0, DEL and C1. -/
def isControlChar (c : Nat) : Bool :=
  decide (c ≤ 0x1F) || (decide (0x7F ≤ c) && decide (c ≤ 0x9F))

/-- Modelled from the spec: `isReplacementChar` of `utf8.h`, a header that is
not among the sources. The replacement character is U+FFFD. -/
def isReplacementChar (c : Nat) : Bool := c == 0xFFFD

/-- Modelled from the spec: the surrogate codepoints, U+D800 to U+DFFF. -/
def isSurrogateCodepoint (c : Nat) : Bool := decide (0xD800 ≤ c) && decide (c ≤ 0xDFFF)

/-- Modelled from the spec: a continuation byte of UTF-8, `10xxxxxx`. -/
def utf8_cont (b : Nat) : Bool := decide (0x80 ≤ b) && decide (b < 0xC0)

/-- Modelled from the spec: `utf8_step` of `utf8.h`, a header that is not among
the sources. It reads one codepoint of valid UTF-8 from the front of the bytes
`s` and returns it with the bytes that follow. It fails (`none`) where the
bytes are not valid UTF-8: at the end of the input, on a continuation byte or
a byte `0xF8` and above in the first place, on a missing continuation byte, on
an encoding longer than the codepoint needs, on a surrogate and on a codepoint
above U+10FFFF. -/
def utf8_step (s : List Nat) : Option (Nat × List Nat) :=
  match s with
  | [] => none
  | b0 :: s1 =>
    if b0 < 0x80 then some (b0, s1)
    else if b0 < 0xC0 then none
    else if b0 < 0xE0 then
      match s1 with
      | b1 :: s2 =>
        if utf8_cont b1 = true ∧ 0x80 ≤ (b0 - 0xC0) * 64 + (b1 - 0x80) then
          some ((b0 - 0xC0) * 64 + (b1 - 0x80), s2)
        else none
      | _ => none
    else if b0 < 0xF0 then
      match s1 with
      | b1 :: b2 :: s3 =>
        if utf8_cont b1 = true ∧ utf8_cont b2 = true
            ∧ 0x800 ≤ (b0 - 0xE0) * 4096 + (b1 - 0x80) * 64 + (b2 - 0x80)
            ∧ isSurrogateCodepoint ((b0 - 0xE0) * 4096 + (b1 - 0x80) * 64 + (b2 - 0x80)) = false
        then some ((b0 - 0xE0) * 4096 + (b1 - 0x80) * 64 + (b2 - 0x80), s3)
        else none
      | _ => none
    else if b0 < 0xF8 then
      match s1 with
      | b1 :: b2 :: b3 :: s4 =>
        if utf8_cont b1 = true ∧ utf8_cont b2 = true ∧ utf8_cont b3 = true
            ∧ 0x10000 ≤ (b0 - 0xF0) * 262144 + (b1 - 0x80) * 4096 + (b2 - 0x80) * 64 + (b3 - 0x80)
            ∧ (b0 - 0xF0) * 262144 + (b1 - 0x80) * 4096 + (b2 - 0x80) * 64 + (b3 - 0x80) ≤ 0x10FFFF
        then some ((b0 - 0xF0) * 262144 + (b1 - 0x80) * 4096 + (b2 - 0x80) * 64 + (b3 - 0x80), s4)
        else none
      | _ => none
    else none

/-- The function `wikrt_token_char` of `wikrt.h`. -/
def wikrt_token_char (c : Nat) : Bool :=
  let bInvalidChar := (123 == c) || (125 == c) || isControlChar c || isReplacementChar c
  !bInvalidChar

/-- The function `wikrt_text_char` of `wikrt.h`. -/
def wikrt_text_char (c : Nat) : Bool :=
  let bInvalidChar := (isControlChar c && (c != 10)) || isReplacementChar c
  !bInvalidChar

/-- The loop of `wikrt_valid_token` over the bytes that remain, `len` being
their number. Every pass reads at least one byte, so a fuel of `len` passes is
never used up. -/
def wikrt_valid_token_loop : Nat → List Nat → Bool
  | _, [] => true
  | 0, _ :: _ => false
  | fuel + 1, b :: s =>
    match utf8_step (b :: s) with
    | none => false
    | some (cp, rest) => if wikrt_token_char cp then wikrt_valid_token_loop fuel rest else false

/-- The function `wikrt_valid_token` of `wikrt.c`, on the bytes of the C string
`s` before its terminator. -/
def wikrt_valid_token (s : List Nat) : Bool :=
  let len := s.length
  let bValidSize := decide (0 < len) && decide (len < 64)
  if !bValidSize then false else wikrt_valid_token_loop len s

/-- Modelled from the spec: the UTF-8 encoding of a codepoint, one to four
bytes. -/
def utf8_encode (c : Nat) : List Nat :=
  if c < 0x80 then [c]
  else if c < 0x800 then [0xC0 + c / 64, 0x80 + c % 64]
  else if c < 0x10000 then [0xE0 + c / 4096, 0x80 + c / 64 % 64, 0x80 + c % 64]
  else [0xF0 + c / 262144, 0x80 + c / 4096 % 64, 0x80 + c / 64 % 64, 0x80 + c % 64]

/-- Modelled from the spec: the codepoints that valid UTF-8 encodes, up to
U+10FFFF without the surrogates. -/
def utf8_scalar (c : Nat) : Bool := decide (c ≤ 0x10FFFF) && !isSurrogateCodepoint c

/-- Modelled from the spec: the byte string `s` is valid UTF-8 and `cps` are
its codepoints. -/
def utf8_valid (s cps : List Nat) : Prop :=
  (∀ c ∈ cps, utf8_scalar c = true) ∧ s = (cps.map utf8_encode).flatten

/-- The state of the loop of `wikrt_alloc_text_fl`: the context, the local
`hd`, and the pointer `tl`, which is the address of `hd` (`none`) or of the
second word of the cell at an address. -/
structure wikrt_text_state (FL : Type) where
  cx : wikrt_cx FL
  hd : Nat
  tl : Option Nat

/-- The assignment `(*tl) = w` of `wikrt_alloc_text_fl`. -/
def wikrt_tl_assign {FL : Type} (st : wikrt_text_state FL) (w : Nat) : wikrt_text_state FL :=
  match st.tl with
  | none => { st with hd := w }
  | some dst => { st with cx := wr st.cx dst 1 w }

/-- The loop of `wikrt_alloc_text_fl` over the bytes that remain; the result is
the value of `r` (`WIKRT_OK` when the loop has ended through its condition) and
the state. Every pass reads at least one byte, so a fuel of `len` passes is
never used up. -/
def wikrt_alloc_text_loop {FL : Type} (A : wikrt_allocator FL) :
    Nat → wikrt_text_state FL → List Nat → Nat × wikrt_text_state FL
  | _, st, [] => (WIKRT_OK, st)
  | 0, st, _ :: _ => (WIKRT_OK, st)
  | fuel + 1, st, b :: s =>
    match utf8_step (b :: s) with
    | none => (WIKRT_OK, st)
    | some (cp, rest) =>
      if !wikrt_text_char cp then (WIKRT_INVAL, st)
      else
        match A.wikrt_alloc st.cx WIKRT_CELLSIZE with
        | (none, cx1) => (WIKRT_CXFULL, { st with cx := cx1 })
        | (some dst, cx1) =>
          let st1 := wikrt_tl_assign { st with cx := cx1 } (wikrt_tag_addr WIKRT_PL dst)
          let st2 := { st1 with cx := wr st1.cx dst 0 (wikrt_i2v cp), tl := some dst }
          wikrt_alloc_text_loop A fuel st2 rest

/-- The function `wikrt_alloc_text_fl` of `wikrt.c`, on the bytes of the C
string `s` before its terminator. The function `wikrt_drop_fl`, which the
sources only declare, is the parameter `drop`; `hd` is the content of the
local `hd` before its first assignment. The result is
`(error code, context, *txt)`. -/
def wikrt_alloc_text_fl {FL : Type} (A : wikrt_allocator FL)
    (drop : wikrt_cx FL → Nat → Bool → wikrt_cx FL) (cx : wikrt_cx FL) (hd : Nat)
    (s : List Nat) : Nat × wikrt_cx FL × Nat :=
  let r := wikrt_alloc_text_loop A s.length { cx := cx, hd := hd, tl := none } s
  let st := wikrt_tl_assign r.2 WIKRT_UNIT_INR
  if r.1 = WIKRT_OK then (WIKRT_OK, st.cx, st.hd)
  else (r.1, drop st.cx st.hd true, WIKRT_UNIT_INR)

/-- A `wikrt_drop_fl` for the examples that leaves the context as it is. -/
def drop_none {FL : Type} (cx : wikrt_cx FL) (_v : Nat) (_bDropRel : Bool) : wikrt_cx FL := cx

/-! ## Opcodes (`wikilon-runtime.h`, `wikrt.c`) -/

/-! The values of `enum wikrt_opcode`. -/

def ABC_PROD_ASSOCL : Nat := 108
def ABC_PROD_ASSOCR : Nat := 114
def ABC_PROD_W_SWAP : Nat := 119
def ABC_PROD_Z_SWAP : Nat := 122
def ABC_PROD_INTRO1 : Nat := 118
def ABC_PROD_ELIM1 : Nat := 99
def ABC_SUM_ASSOCL : Nat := 76
def ABC_SUM_ASSOCR : Nat := 82
def ABC_SUM_W_SWAP : Nat := 87
def ABC_SUM_Z_SWAP : Nat := 90
def ABC_SUM_INTRO0 : Nat := 86
def ABC_SUM_ELIM0 : Nat := 67
def ABC_COPY : Nat := 94
def ABC_DROP : Nat := 37
def ABC_SP : Nat := 32
def ABC_LF : Nat := 10
def ABC_APPLY : Nat := 36
def ABC_COMPOSE : Nat := 111
def ABC_QUOTE : Nat := 39
def ABC_REL : Nat := 107
def ABC_AFF : Nat := 102
def ABC_NUM : Nat := 35
def ABC_D1 : Nat := 49
def ABC_D2 : Nat := 50
def ABC_D3 : Nat := 51
def ABC_D4 : Nat := 52
def ABC_D5 : Nat := 53
def ABC_D6 : Nat := 54
def ABC_D7 : Nat := 55
def ABC_D8 : Nat := 56
def ABC_D9 : Nat := 57
def ABC_D0 : Nat := 48
def ABC_ADD : Nat := 43
def ABC_MUL : Nat := 42
def ABC_NEG : Nat := 45
def ABC_DIV : Nat := 81
def ABC_GT : Nat := 71
def ABC_CONDAP : Nat := 63
def ABC_DISTRIB : Nat := 68
def ABC_FACTOR : Nat := 70
def ABC_MERGE : Nat := 77
def ABC_ASSERT : Nat := 75

/-- Modelled from the spec: `ABC_INEW`, a case label of `wikrt.c` that
`wikilon-runtime.h` does not define, is the opcode of the character returned
for it, which the header names `ABC_NUM`. -/
def ABC_INEW : Nat := ABC_NUM
/-- Modelled from the spec: `ABC_ID1`, a case label of `wikrt.c` that
`wikilon-runtime.h` does not define, is the opcode of the character returned
for it, which the header names `ABC_D1`. -/
def ABC_ID1 : Nat := ABC_D1
/-- Modelled from the spec: `ABC_ID2`, a case label of `wikrt.c` that
`wikilon-runtime.h` does not define, is the opcode of the character returned
for it, which the header names `ABC_D2`. -/
def ABC_ID2 : Nat := ABC_D2
/-- Modelled from the spec: `ABC_ID3`, a case label of `wikrt.c` that
`wikilon-runtime.h` does not define, is the opcode of the character returned
for it, which the header names `ABC_D3`. -/
def ABC_ID3 : Nat := ABC_D3
/-- Modelled from the spec: `ABC_ID4`, a case label of `wikrt.c` that
`wikilon-runtime.h` does not define, is the opcode of the character returned
for it, which the header names `ABC_D4`. -/
def ABC_ID4 : Nat := ABC_D4
/-- Modelled from the spec: `ABC_ID5`, a case label of `wikrt.c` that
`wikilon-runtime.h` does not define, is the opcode of the character returned
for it, which the header names `ABC_D5`. -/
def ABC_ID5 : Nat := ABC_D5
/-- Modelled from the spec: `ABC_ID6`, a case label of `wikrt.c` that
`wikilon-runtime.h` does not define, is the opcode of the character returned
for it, which the header names `ABC_D6`. -/
def ABC_ID6 : Nat := ABC_D6
/-- Modelled from the spec: `ABC_ID7`, a case label of `wikrt.c` that
`wikilon-runtime.h` does not define, is the opcode of the character returned
for it, which the header names `ABC_D7`. -/
def ABC_ID7 : Nat := ABC_D7
/-- Modelled from the spec: `ABC_ID8`, a case label of `wikrt.c` that
`wikilon-runtime.h` does not define, is the opcode of the character returned
for it, which the header names `ABC_D8`. -/
def ABC_ID8 : Nat := ABC_D8
/-- Modelled from the spec: `ABC_ID9`, a case label of `wikrt.c` that
`wikilon-runtime.h` does not define, is the opcode of the character returned
for it, which the header names `ABC_D9`. -/
def ABC_ID9 : Nat := ABC_D9
/-- Modelled from the spec: `ABC_ID0`, a case label of `wikrt.c` that
`wikilon-runtime.h` does not define, is the opcode of the character returned
for it, which the header names `ABC_D0`. -/
def ABC_ID0 : Nat := ABC_D0
/-- Modelled from the spec: `ABC_IADD`, a case label of `wikrt.c` that
`wikilon-runtime.h` does not define, is the opcode of the character returned
for it, which the header names `ABC_ADD`. -/
def ABC_IADD : Nat := ABC_ADD
/-- Modelled from the spec: `ABC_IMUL`, a case label of `wikrt.c` that
`wikilon-runtime.h` does not define, is the opcode of the character returned
for it, which the header names `ABC_MUL`. -/
def ABC_IMUL : Nat := ABC_MUL
/-- Modelled from the spec: `ABC_INEG`, a case label of `wikrt.c` that
`wikilon-runtime.h` does not define, is the opcode of the character returned
for it, which the header names `ABC_NEG`. -/
def ABC_INEG : Nat := ABC_NEG
/-- Modelled from the spec: `ABC_IDIV`, a case label of `wikrt.c` that
`wikilon-runtime.h` does not define, is the opcode of the character returned
for it, which the header names `ABC_DIV`. -/
def ABC_IDIV : Nat := ABC_DIV
/-- Modelled from the spec: `ABC_IGT`, a case label of `wikrt.c` that
`wikilon-runtime.h` does not define, is the opcode of the character returned
for it, which the header names `ABC_GT`. -/
def ABC_IGT : Nat := ABC_GT

/-- The string that `wikrt_abcd_operators` returns, as its bytes:
`lrwzvcLRWZVC%^`, space, line feed, `$o`, apostrophe, `kf#1234567890+*-QG?DFMK`. -/
def wikrt_abcd_operators : List Nat :=
  [108, 114, 119, 122, 118, 99, 76, 82, 87, 90, 86, 67, 37, 94, 32, 10, 36, 111, 39, 107, 102,
    35, 49, 50, 51, 52, 53, 54, 55, 56, 57, 48, 43, 42, 45, 81, 71, 63, 68, 70, 77, 75]

/-- The function `wikrt_abcd_expansion` of `wikrt.c`: the bytes of the string
returned, `none` for `NULL`. -/
def wikrt_abcd_expansion (opcode : Nat) : Option (List Nat) :=
  if opcode = ABC_PROD_ASSOCL then some [108]
  else if opcode = ABC_PROD_ASSOCR then some [114]
  else if opcode = ABC_PROD_W_SWAP then some [119]
  else if opcode = ABC_PROD_Z_SWAP then some [122]
  else if opcode = ABC_PROD_INTRO1 then some [118]
  else if opcode = ABC_PROD_ELIM1 then some [99]
  else if opcode = ABC_SUM_ASSOCL then some [76]
  else if opcode = ABC_SUM_ASSOCR then some [82]
  else if opcode = ABC_SUM_W_SWAP then some [87]
  else if opcode = ABC_SUM_Z_SWAP then some [90]
  else if opcode = ABC_SUM_INTRO0 then some [86]
  else if opcode = ABC_SUM_ELIM0 then some [67]
  else if opcode = ABC_COPY then some [94]
  else if opcode = ABC_DROP then some [37]
  else if opcode = ABC_SP then some [32]
  else if opcode = ABC_LF then some [10]
  else if opcode = ABC_APPLY then some [36]
  else if opcode = ABC_COMPOSE then some [111]
  else if opcode = ABC_QUOTE then some [39]
  else if opcode = ABC_REL then some [107]
  else if opcode = ABC_AFF then some [102]
  else if opcode = ABC_INEW then some [35]
  else if opcode = ABC_ID1 then some [49]
  else if opcode = ABC_ID2 then some [50]
  else if opcode = ABC_ID3 then some [51]
  else if opcode = ABC_ID4 then some [52]
  else if opcode = ABC_ID5 then some [53]
  else if opcode = ABC_ID6 then some [54]
  else if opcode = ABC_ID7 then some [55]
  else if opcode = ABC_ID8 then some [56]
  else if opcode = ABC_ID9 then some [57]
  else if opcode = ABC_ID0 then some [48]
  else if opcode = ABC_IADD then some [43]
  else if opcode = ABC_IMUL then some [42]
  else if opcode = ABC_INEG then some [45]
  else if opcode = ABC_IDIV then some [81]
  else if opcode = ABC_IGT then some [71]
  else if opcode = ABC_CONDAP then some [63]
  else if opcode = ABC_DISTRIB then some [68]
  else if opcode = ABC_FACTOR then some [70]
  else if opcode = ABC_MERGE then some [77]
  else if opcode = ABC_ASSERT then some [75]
  else none

/-! ## Binaries (`wikrt.c`) -/

/-- The function `wikrt_alloc_binary_fl` of `wikrt.c`; the result is
`(error code, context, *v)`. -/
def wikrt_alloc_binary_fl {FL : Type} (cx : wikrt_cx FL) (v : Nat) (_buff : List Nat)
    (_nElems : Nat) : Nat × wikrt_cx FL × Nat :=
  (WIKRT_IMPL, cx, v)

/-- The function `wikrt_alloc_binary` of `wikrt.c`. -/
def wikrt_alloc_binary {FL : Type} (cx : wikrt_cx FL) (v : Nat) (buff : List Nat)
    (elems : Nat) : Nat × wikrt_cx FL × Nat :=
  wikrt_alloc_binary_fl cx v buff elems

/-- The function `wikrt_read_fl` of `wikrt.c`; the result is
`(error code, context, *bytesRead, buffer, *remainder)`. -/
def wikrt_read_fl {FL : Type} (cx : wikrt_cx FL) (_binary _buffSize : Nat) (bytesRead : Nat)
    (buffer : List Nat) (remainder : Nat) : Nat × wikrt_cx FL × Nat × List Nat × Nat :=
  (WIKRT_IMPL, cx, bytesRead, buffer, remainder)

/-- The function `wikrt_read` of `wikrt.c`. -/
def wikrt_read {FL : Type} (cx : wikrt_cx FL) (binary buffSize : Nat) (bytesRead : Nat)
    (buffer : List Nat) (remainder : Nat) : Nat × wikrt_cx FL × Nat × List Nat × Nat :=
  wikrt_read_fl cx binary buffSize bytesRead buffer remainder

/-! ## Environments and their contexts (`wikrt.c`) -/

def WIKRT_NOMEM : Nat := 8
def WIKRT_CX_SIZE_MIN : Nat := 4
def WIKRT_CX_SIZE_MAX : Nat := 4092

/-- The fields of `struct wikrt_cx` that `wikrt.c` uses: the environment, the
links of the context list, the size, and the address of the mapped memory.
Pointers are addresses, `NULL` is 0. -/
structure wikrt_cx_rec where
  env : Nat
  next : Nat
  prev : Nat
  sizeMB : Nat
  memory : Nat
  deriving DecidableEq, Repr

/-- The environment at the address `addr` with the head `cxhd` of its context
list, the context structures `cxs` by their addresses, and the contents
`regions` of the mapped memories by their addresses; `M` is the type of the
contents of a context memory. -/
structure wikrt_env (M : Type) where
  addr : Nat
  cxhd : Nat
  cxs : Nat → wikrt_cx_rec
  regions : Nat → M

/-- The assignment to the structure at the address `p`. -/
def wikrt_cxs_set (cxs : Nat → wikrt_cx_rec) (p : Nat) (r : wikrt_cx_rec) : Nat → wikrt_cx_rec :=
  fun x => if x = p then r else cxs x

/-- The function `wikrt_cx_create` of `wikrt.c`. The pointers that `calloc` and
`mmap` return are the parameters `cx` and `pMem`; `wikrt_cx_resetmem` on the
contents of a context memory is the parameter `resetmem`, `none` where it does
not return. The result is `(error code, environment, *ppCX)`. -/
def wikrt_cx_create {M : Type} (resetmem : Nat → M → Option M) (cx pMem : Nat)
    (e : wikrt_env M) (ppCX : Nat) (sizeMB : Nat) : Option (Nat × wikrt_env M × Nat) :=
  let bSizeValid := decide (WIKRT_CX_SIZE_MIN ≤ sizeMB) && decide (sizeMB ≤ WIKRT_CX_SIZE_MAX)
  if !bSizeValid then some (WIKRT_INVAL, e, ppCX)
  else if 0 = cx then some (WIKRT_NOMEM, e, ppCX)
  else if 0 = pMem then some (WIKRT_NOMEM, e, ppCX)
  else
    match resetmem sizeMB (e.regions pMem) with
    | none => none
    | some m =>
      let hd := e.cxhd
      let cxs1 := wikrt_cxs_set e.cxs cx
        { env := e.addr, next := hd, prev := 0, sizeMB := sizeMB, memory := pMem }
      let cxs2 := if 0 ≠ hd then wikrt_cxs_set cxs1 hd { cxs1 hd with prev := cx } else cxs1
      some (WIKRT_OK,
        { e with cxhd := cx, cxs := cxs2,
                 regions := fun x => if x = pMem then m else e.regions x },
        cx)

/-- The function `wikrt_cx_destroy` of `wikrt.c` for the context at the address
`cx`, with `e` the environment that `cx->env` points to; `none` is `abort()`
from a failed assertion. Whether `munmap` succeeds is the parameter
`context_unmapped`. -/
def wikrt_cx_destroy {M : Type} (context_unmapped : Bool) (e : wikrt_env M) (cx : Nat) :
    Option (wikrt_env M) :=
  let cxs1 :=
    if 0 ≠ (e.cxs cx).next then
      wikrt_cxs_set e.cxs (e.cxs cx).next { e.cxs (e.cxs cx).next with prev := (e.cxs cx).prev }
    else e.cxs
  if 0 ≠ (cxs1 cx).prev then
    let cxs2 := wikrt_cxs_set cxs1 (cxs1 cx).prev
      { cxs1 (cxs1 cx).prev with next := (cxs1 cx).next }
    if context_unmapped then some { e with cxs := cxs2 } else none
  else if e.cxhd = cx then
    if context_unmapped then some { e with cxhd := (cxs1 cx).next, cxs := cxs1 } else none
  else none

/-- The function `wikrt_env_destroy` of `wikrt.c`: it returns when its
assertion `NULL == e->cxhd` holds, `none` is `abort()`. -/
def wikrt_env_destroy {M : Type} (e : wikrt_env M) : Option Unit :=
  if 0 = e.cxhd then some () else none

/-- The contexts `l`, in their order, are the list that starts at `hd`, with
`prev` before its first element: the `next` links lead through `l` to `NULL`
and every `prev` link leads back. -/
def wikrt_cx_list (cxs : Nat → wikrt_cx_rec) : Nat → Nat → List Nat → Prop
  | _, hd, [] => hd = 0
  | prev, hd, c :: l =>
    hd = c ∧ c ≠ 0 ∧ (cxs c).prev = prev ∧ wikrt_cx_list cxs c (cxs c).next l

/-- The context list of the environment is well formed and holds the contexts
`l`, each once. -/
def wikrt_env_wf {M : Type} (e : wikrt_env M) (l : List Nat) : Prop :=
  wikrt_cx_list e.cxs 0 e.cxhd l ∧ l.Nodup

/-- The calls `wikrt_cx_destroy` for the contexts `l`, one after the other. -/
def wikrt_cx_destroy_all {M : Type} (e : wikrt_env M) : List Nat → Option (wikrt_env M)
  | [] => some e
  | c :: l =>
    match wikrt_cx_destroy true e c with
    | none => none
    | some e1 => wikrt_cx_destroy_all e1 l

/-- An environment without contexts, for the examples. -/
def env_empty : wikrt_env Unit :=
  { addr := 4096, cxhd := 0,
    cxs := fun _ => { env := 0, next := 0, prev := 0, sizeMB := 0, memory := 0 },
    regions := fun _ => () }

/-- A `wikrt_cx_resetmem` for the examples, on memories without content. -/
def resetmem_unit (_sizeMB : Nat) (_m : Unit) : Option Unit := some ()

/-- An environment with the contexts 200 and 100, in the order of its list,
for the examples. -/
def env_two : wikrt_env Unit :=
  { addr := 4096, cxhd := 200,
    cxs := fun x =>
      if x = 200 then { env := 4096, next := 100, prev := 0, sizeMB := 4, memory := 8192 }
      else if x = 100 then { env := 4096, next := 0, prev := 200, sizeMB := 4, memory := 16384 }
      else { env := 0, next := 0, prev := 0, sizeMB := 0, memory := 0 },
    regions := fun _ => () }

/-! ## The free list (`wikrt_mem.c`) -/

/-- The constants of the free lists that `wikrt_mem.c` uses and the headers
among the sources do not define: the number `WIKRT_FLCT` of size classes, the
largest quick-fit size `WIKRT_QFSIZE`, the size `WIKRT_FFMAX` from which on the
last first-fit class is used, and the macro `WIKRT_QFCLASS` from a quick-fit
size to its class. -/
structure wikrt_fl_consts where
  WIKRT_FLCT : Nat
  WIKRT_QFSIZE : Nat
  WIKRT_FFMAX : Nat
  WIKRT_QFCLASS : Nat → Int

/-- The free list `wikrt_fl`, by the fields that `wikrt_mem.c` uses: the heads
of the lists of the size classes (the array `size_class`, by its index), the
bytes free, the number of fragments, and that number after the last
coalescing. -/
structure wikrt_fl where
  size_class : Int → Nat
  free_bytes : Nat
  frag_count : Nat
  frag_count_df : Nat

/-- The free list `(wikrt_fl){0}`. -/
def wikrt_fl_zero : wikrt_fl :=
  { size_class := fun _ => 0, free_bytes := 0, frag_count := 0, frag_count_df := 0 }

/-- The assignment `fl->size_class[sc] = v`. -/
def wikrt_fl_set (fl : wikrt_fl) (sc : Int) (v : Nat) : wikrt_fl :=
  { fl with size_class := fun x => if x = sc then v else fl.size_class x }

/-- The loop of `wikrt_size_class_ff`, with `szt` and `sc` as they stand before
the test; `none` when the loop is still running after `fuel` tests. -/
def wikrt_size_class_ff_loop (sz : Nat) : Nat → Nat → Int → Option Int
  | 0, _, _ => none
  | fuel + 1, szt, sc =>
    if szt ≥ sz then wikrt_size_class_ff_loop sz fuel (szt >>> 1) (sc - 1) else some sc

/-- The function `wikrt_size_class_ff` of `wikrt_mem.c`. -/
def wikrt_size_class_ff (K : wikrt_fl_consts) (fuel : Nat) (sz : Nat) : Option Int :=
  wikrt_size_class_ff_loop sz fuel K.WIKRT_FFMAX ((K.WIKRT_FLCT : Int) - 1)

/-- The function `wikrt_size_class` of `wikrt_mem.c`. -/
def wikrt_size_class (K : wikrt_fl_consts) (fuel : Nat) (sz : Nat) : Option Int :=
  if sz ≤ K.WIKRT_QFSIZE then some (K.WIKRT_QFCLASS sz) else wikrt_size_class_ff K fuel sz

/-- The function `wikrt_free_b` of `wikrt_mem.c`, on the free list of the
context; `none` when the size class is not found within `fuel` steps. -/
def wikrt_free_b (K : wikrt_fl_consts) (fuel : Nat) (cx : wikrt_cx wikrt_fl) (v szb : Nat) :
    Option (wikrt_cx wikrt_fl) :=
  match wikrt_size_class K fuel szb with
  | none => none
  | some sc =>
    let cx1 := wr cx v 0 szb
    let cx2 := wr cx1 v 1 (cx1.fl.size_class sc)
    some { cx2 with
      fl := { wikrt_fl_set cx2.fl sc v with
        free_bytes := (cx2.fl.free_bytes + szb) % 2 ^ 64,
        frag_count := (cx2.fl.frag_count + 1) % 2 ^ 64 } }

/-- The word `*tl` for a pointer `tl` into a list: `tl` is the address of a
variable that holds `var` (`none`) or of the second word of the node at an
address. -/
def wikrt_tl_get {FL : Type} (cx : wikrt_cx FL) (var : Nat) (tl : Option Nat) : Nat :=
  match tl with
  | none => var
  | some a => rd cx a 1

/-- The pointer `tl` after `n` steps `tl = wikrt_pval(cx, (*tl)) + 1`. -/
def wikrt_fl_split_walk {FL : Type} (cx : wikrt_cx FL) (var : Nat) : Nat → Option Nat → Option Nat
  | 0, tl => tl
  | n + 1, tl => wikrt_fl_split_walk cx var n (some (wikrt_tl_get cx var tl))

/-- The function `wikrt_fl_split` of `wikrt_mem.c`; the result is
`(context, *a, *b)`. Its loop takes `sza` steps. -/
def wikrt_fl_split {FL : Type} (cx : wikrt_cx FL) (hd : Nat) (sza : Nat) :
    wikrt_cx FL × Nat × Nat :=
  let tl := wikrt_fl_split_walk cx hd sza none
  let b := wikrt_tl_get cx hd tl
  match tl with
  | none => (cx, 0, b)
  | some t => (wr cx t 1 0, hd, b)

/-- The state of the merge loop of `wikrt_fl_mergesort`: the context, the
variable `*hd`, the pointer `tl` and the lists `a` and `b` that remain. -/
structure wikrt_merge_state (FL : Type) where
  cx : wikrt_cx FL
  hd : Nat
  tl : Option Nat
  a : Nat
  b : Nat

/-- The assignment `(*tl) = w` in the merge loop. -/
def wikrt_merge_assign {FL : Type} (st : wikrt_merge_state FL) (w : Nat) : wikrt_merge_state FL :=
  match st.tl with
  | none => { st with hd := w }
  | some t => { st with cx := wr st.cx t 1 w }

/-- The merge loop of `wikrt_fl_mergesort`; `none` when the loop is still
running after `fuel` passes. -/
def wikrt_fl_merge_loop {FL : Type} : Nat → wikrt_merge_state FL → Option (wikrt_merge_state FL)
  | fuel, st =>
    if st.a ≠ 0 ∧ st.b ≠ 0 then
      match fuel with
      | 0 => none
      | fuel + 1 =>
        if st.a < st.b then
          let st1 := wikrt_merge_assign st st.a
          wikrt_fl_merge_loop fuel { st1 with tl := some st.a, a := rd st1.cx st.a 1 }
        else
          let st1 := wikrt_merge_assign st st.b
          wikrt_fl_merge_loop fuel { st1 with tl := some st.b, b := rd st1.cx st.b 1 }
    else some st

/-- The function `wikrt_fl_mergesort` of `wikrt_mem.c`; the result is
`(context, *hd)`, `none` when the recursion is deeper than `fuel` or a merge
loop is still running after `fuel` passes. -/
def wikrt_fl_mergesort {FL : Type} : Nat → wikrt_cx FL → Nat → Nat → Option (wikrt_cx FL × Nat)
  | fuel, cx, hd, count =>
    if count < 2 then some (cx, hd)
    else
      match fuel with
      | 0 => none
      | fuel + 1 =>
        let sza := count / 2
        let szb := count - sza
        let s := wikrt_fl_split cx hd sza
        match wikrt_fl_mergesort fuel s.1 s.2.1 sza with
        | none => none
        | some (cx1, a) =>
          match wikrt_fl_mergesort fuel cx1 s.2.2 szb with
          | none => none
          | some (cx2, b) =>
            match wikrt_fl_merge_loop (fuel + 1)
                { cx := cx2, hd := hd, tl := none, a := a, b := b } with
            | none => none
            | some st =>
              let st1 := wikrt_merge_assign st (if st.a ≠ 0 then st.a else st.b)
              some (st1.cx, st1.hd)

/-- The walk `while(0 != (*tl)) { tl = wikrt_pval(cx, (*tl)) + 1; }` of
`wikrt_fl_flatten` to the end of a list; `none` when the loop is still running
after `fuel` passes. -/
def wikrt_fl_walk_end {FL : Type} (cx : wikrt_cx FL) (var : Nat) :
    Nat → Option Nat → Option (Option Nat)
  | fuel, tl =>
    if 0 ≠ wikrt_tl_get cx var tl then
      match fuel with
      | 0 => none
      | fuel + 1 => wikrt_fl_walk_end cx var fuel (some (wikrt_tl_get cx var tl))
    else some tl

/-- The loop of `wikrt_fl_flatten` over the size classes, with `n` classes
still to come: the class of the pass is `WIKRT_FLCT - n`. The result is
`(context, r)`. -/
def wikrt_fl_flatten_loop (K : wikrt_fl_consts) (fuel : Nat) :
    Nat → wikrt_cx wikrt_fl → Nat → Option (wikrt_cx wikrt_fl × Nat)
  | 0, cx, r => some (cx, r)
  | n + 1, cx, r =>
    let sc : Int := ((K.WIKRT_FLCT - (n + 1) : Nat) : Int)
    match wikrt_fl_walk_end cx (cx.fl.size_class sc) fuel none with
    | none => none
    | some tl =>
      let cx1 : wikrt_cx wikrt_fl :=
        match tl with
        | none => { cx with fl := wikrt_fl_set cx.fl sc r }
        | some t => wr cx t 1 r
      wikrt_fl_flatten_loop K fuel n cx1 (cx1.fl.size_class sc)

/-- The function `wikrt_fl_flatten` of `wikrt_mem.c`. -/
def wikrt_fl_flatten (K : wikrt_fl_consts) (fuel : Nat) (cx : wikrt_cx wikrt_fl) :
    Option (wikrt_cx wikrt_fl × Nat) :=
  wikrt_fl_flatten_loop K fuel (K.WIKRT_FLCT - 1) cx (cx.fl.size_class 0)

/-- The inner loop of `wikrt_coalesce`, which adds the nodes that follow the
fragment at `lst` without a gap; the result is `(szb, nxt)`. -/
def wikrt_coalesce_run {FL : Type} (cx : wikrt_cx FL) (lst : Nat) :
    Nat → Nat → Nat → Option (Nat × Nat)
  | fuel, szb, nxt =>
    if (lst + szb) % 2 ^ 64 = nxt then
      match fuel with
      | 0 => none
      | fuel + 1 =>
        wikrt_coalesce_run cx lst fuel ((szb + rd cx nxt 0) % 2 ^ 64) (rd cx nxt 1)
    else some (szb, nxt)

/-- The end of a pass of the outer loop of `wikrt_coalesce`: the fragment at
`lst`, of the size `szb`, gets its size and the end mark written, is put after
the end of the list of its class `sc`, and is counted. The pointer `fltl[sc]`
is the address of `fl->size_class[sc]` (`none`) or of the second word of a
node. -/
def wikrt_coalesce_addend (cx : wikrt_cx wikrt_fl) (fltl : Int → Option Nat) (lst szb : Nat)
    (sc : Int) : wikrt_cx wikrt_fl :=
  let cx1 := wr cx lst 0 szb
  let cx2 := wr cx1 lst 1 0
  let cx3 : wikrt_cx wikrt_fl :=
    match fltl sc with
    | none => { cx2 with fl := wikrt_fl_set cx2.fl sc lst }
    | some t => wr cx2 t 1 lst
  { cx3 with
    fl := { cx3.fl with
      free_bytes := (cx3.fl.free_bytes + szb) % 2 ^ 64,
      frag_count := (cx3.fl.frag_count + 1) % 2 ^ 64 } }

/-- The outer loop of `wikrt_coalesce`. The array `fltl` of pointers to the
ends of the lists is a function of the class. The loops inside a pass run on
the fuel `F`. -/
def wikrt_coalesce_loop (K : wikrt_fl_consts) (F : Nat) :
    Nat → wikrt_cx wikrt_fl → (Int → Option Nat) → Nat →
      Option (wikrt_cx wikrt_fl × (Int → Option Nat))
  | fuel, cx, fltl, lst =>
    if 0 ≠ lst then
      match fuel with
      | 0 => none
      | fuel + 1 =>
        match wikrt_coalesce_run cx lst F (rd cx lst 0) (rd cx lst 1) with
        | none => none
        | some (szb, nxt) =>
          match wikrt_size_class K F szb with
          | none => none
          | some sc =>
            wikrt_coalesce_loop K F fuel (wikrt_coalesce_addend cx fltl lst szb sc)
              (fun x => if x = sc then some lst else fltl x) nxt
    else some (cx, fltl)

/-- The outcome of a call that may not return: a result, `abort()` from a
failed assertion, or a loop still running when the fuel is used up. -/
inductive wikrt_outcome (α : Type) where
  | ret (a : α)
  | aborted
  | nofuel

/-- The function `wikrt_coalesce` of `wikrt_mem.c`. -/
def wikrt_coalesce (K : wikrt_fl_consts) (fuel : Nat) (cx : wikrt_cx wikrt_fl) :
    wikrt_outcome (wikrt_cx wikrt_fl) :=
  let fc0 := cx.fl.frag_count
  let fb0 := cx.fl.free_bytes
  match wikrt_fl_flatten K fuel cx with
  | none => .nofuel
  | some (cx1, lst) =>
    match wikrt_fl_mergesort fuel cx1 lst fc0 with
    | none => .nofuel
    | some (cx2, lst2) =>
      let cx3 : wikrt_cx wikrt_fl := { cx2 with fl := wikrt_fl_zero }
      match wikrt_coalesce_loop K fuel fuel cx3 (fun _ => none) lst2 with
      | none => .nofuel
      | some (cx4, _) =>
        let cx5 : wikrt_cx wikrt_fl :=
          { cx4 with fl := { cx4.fl with frag_count_df := cx4.fl.frag_count } }
        if fc0 ≥ cx5.fl.frag_count ∧ fb0 = cx5.fl.free_bytes then .ret cx5 else .aborted

/-! ## Reset of a context (`wikrt.c`) -/

/-- The root header `wikrt_cx_hdr` at the start of the context memory, whose
declaration is not among the sources: the free list `flmain` and the other
words of the header, by their index. -/
structure wikrt_cx_hdr where
  flmain : wikrt_fl
  roots : Nat → Nat

/-- The header `(wikrt_cx_hdr){ 0 }`. -/
def wikrt_cx_hdr_zero : wikrt_cx_hdr := { flmain := wikrt_fl_zero, roots := fun _ => 0 }

def cx_size_bytes (sizeMB : Nat) : Nat := sizeMB * (1024 * 1024)

/-- The macro `WIKRT_CELLBUFF` of `wikrt.h`: a size rounded up to whole cells,
`(sz + 15) & ~15` on a 64-bit word. -/
def wikrt_cellbuff (n : Nat) : Nat := ((n + (WIKRT_CELLSIZE - 1)) % 2 ^ 64) &&& (2 ^ 64 - WIKRT_CELLSIZE)

/-- Modelled from the spec: `wikrt_free`, which `wikrt.c` calls and the sources
do not define: the release of a block, which is `wikrt_free_b` of
`wikrt_mem.c` on the size rounded up to whole cells. -/
def wikrt_free (K : wikrt_fl_consts) (fuel : Nat) (cx : wikrt_cx wikrt_fl) (addr sz : Nat) :
    Option (wikrt_cx wikrt_fl) :=
  wikrt_free_b K fuel cx addr (wikrt_cellbuff sz)

/-- The difference of two 64-bit words, which wraps around below zero. -/
def wikrt_size_sub (a b : Nat) : Nat := if b ≤ a then a - b else a + 2 ^ 64 - b

/-- The function `wikrt_cx_resetmem` of `wikrt.c` for a context of `sizeMB`
megabytes. The end `hdrEnd` of the header, `WIKRT_PAGEBUFF(sizeof(wikrt_cx_hdr))`,
is a parameter: neither the macro nor the type is among the sources. -/
def wikrt_cx_resetmem (K : wikrt_fl_consts) (fuel : Nat) (hdrEnd : Nat) (sizeMB : Nat)
    (cx : wikrt_cx wikrt_cx_hdr) : Option (wikrt_cx wikrt_cx_hdr) :=
  let szRem := wikrt_size_sub (cx_size_bytes sizeMB) hdrEnd
  match wikrt_free K fuel { memory := cx.memory, fl := wikrt_cx_hdr_zero.flmain } hdrEnd szRem with
  | none => none
  | some c => some { memory := c.memory, fl := { wikrt_cx_hdr_zero with flmain := c.fl } }

/-- The function `wikrt_cx_reset` of `wikrt.c`, between the lock and the unlock
of the environment. -/
def wikrt_cx_reset (K : wikrt_fl_consts) (fuel : Nat) (hdrEnd : Nat) (sizeMB : Nat)
    (cx : wikrt_cx wikrt_cx_hdr) : Option (wikrt_cx wikrt_cx_hdr) :=
  wikrt_cx_resetmem K fuel hdrEnd sizeMB cx

/-- Constants of the free lists for the examples: sixteen quick-fit classes of
one cell each and ten first-fit classes. -/
def fl_consts : wikrt_fl_consts :=
  { WIKRT_FLCT := 26, WIKRT_QFSIZE := 256, WIKRT_FFMAX := 131072,
    WIKRT_QFCLASS := fun sz => ((sz - 1) / 16 : Nat) }

/-! ## Predicates on free lists -/

/-- The list that starts at `hd` holds the nodes `l`, in their order, and ends
with 0: every node is an address other than 0 whose second word is the
address of the next node. -/
def wikrt_fl_list {FL : Type} (cx : wikrt_cx FL) : Nat → List Nat → Prop
  | hd, [] => hd = 0
  | hd, a :: l => hd = a ∧ a ≠ 0 ∧ wikrt_fl_list cx (rd cx a 1) l

/-- The addresses `l` are pairwise distinct 64-bit words on cell boundaries. -/
def wikrt_fl_nodes (l : List Nat) : Prop :=
  l.Nodup ∧ ∀ a ∈ l, a % 16 = 0 ∧ a < 2 ^ 64

/-- The context `cx2` differs from `cx` at most in the second words of the
nodes `l`. -/
def wikrt_fl_frame {FL : Type} (l : List Nat) (cx cx2 : wikrt_cx FL) : Prop :=
  cx2.fl = cx.fl ∧ ∀ x, (∀ a ∈ l, x ≠ a + 8) → cx2.memory x = cx.memory x

/-- The lists of the size classes below `n`, one after the other, the last
class first: the order in which `wikrt_fl_flatten` joins them. -/
def wikrt_fl_flat (L : Nat → List Nat) : Nat → List Nat
  | 0 => []
  | n + 1 => L n ++ wikrt_fl_flat L n

/-- The free list of the context is well formed and holds the fragments `L sc`
on the list of the size class `sc`: every fragment is cell-aligned, its first
word is its size, which is not zero, and it ends inside the address space; no
two fragments overlap; `frag_count` is their number and `free_bytes` the sum of
their sizes, both 64-bit words. -/
def wikrt_fl_wf (K : wikrt_fl_consts) (cx : wikrt_cx wikrt_fl) (L : Nat → List Nat) : Prop :=
  (∀ sc, sc < K.WIKRT_FLCT → wikrt_fl_list cx (cx.fl.size_class (sc : Int)) (L sc)) ∧
  (∀ a ∈ wikrt_fl_flat L K.WIKRT_FLCT, a % 16 = 0 ∧ 0 < rd cx a 0 ∧ a + rd cx a 0 < 2 ^ 64) ∧
  (wikrt_fl_flat L K.WIKRT_FLCT).Pairwise
    (fun a b => a + rd cx a 0 ≤ b ∨ b + rd cx b 0 ≤ a) ∧
  cx.fl.frag_count = (wikrt_fl_flat L K.WIKRT_FLCT).length ∧
  cx.fl.free_bytes = ((wikrt_fl_flat L K.WIKRT_FLCT).map (fun a => rd cx a 0)).sum ∧
  cx.fl.frag_count < 2 ^ 64 ∧ cx.fl.free_bytes < 2 ^ 64

/-- The byte at the address `x` lies in one of the fragments `F`. -/
def wikrt_fl_covers {FL : Type} (cx : wikrt_cx FL) (F : List Nat) (x : Nat) : Prop :=
  ∃ a ∈ F, a ≤ x ∧ x < a + rd cx a 0

/-- What `wikrt_mem.c` needs of the constants that the sources do not define:
there is a size class, `WIKRT_FFMAX` is a 64-bit word, and the class of every
size is an index of the array `size_class`. -/
def wikrt_fl_consts_ok (K : wikrt_fl_consts) : Prop :=
  0 < K.WIKRT_FLCT ∧ K.WIKRT_FFMAX < 2 ^ 64 ∧
  ∀ (fuel sz : Nat) (sc : Int), 0 < sz → wikrt_size_class K fuel sz = some sc →
    0 ≤ sc ∧ sc < (K.WIKRT_FLCT : Int)

/-- The state of the outer loop of `wikrt_coalesce` before a pass: the list at
`lst` holds the fragments `rest` still to come, in the order of their
addresses and without overlap; the list of every class `sc` holds the
fragments `Lout sc` put there so far, in the order of their addresses, each of
the class of its size, and `fltl[sc]` points to its end; `out` are all the
fragments put on the lists, the last one first, each followed by a gap; the
counters count them; `N` and `B` bound the number and are the bytes of the
fragments, and `C` are the bytes they cover. -/
def wikrt_coalesce_inv (K : wikrt_fl_consts) (F N B : Nat) (C : Nat → Prop)
    (cx : wikrt_cx wikrt_fl) (fltl : Int → Option Nat) (lst : Nat) (rest out : List Nat)
    (Lout : Nat → List Nat) : Prop :=
  wikrt_fl_list cx lst rest ∧
  (∀ a ∈ rest, a % 16 = 0 ∧ 0 < rd cx a 0 ∧ a + rd cx a 0 < 2 ^ 64) ∧
  rest.Pairwise (fun a b => a + rd cx a 0 ≤ b) ∧
  (∀ sc, sc < K.WIKRT_FLCT →
    wikrt_fl_list cx (cx.fl.size_class (sc : Int)) (Lout sc) ∧
    fltl (sc : Int) = (Lout sc).getLast? ∧ (Lout sc).Pairwise (fun a b => a < b) ∧
    ∀ a ∈ Lout sc, wikrt_size_class K F (rd cx a 0) = some (sc : Int)) ∧
  (wikrt_fl_flat Lout K.WIKRT_FLCT).Perm out ∧
  (∀ a ∈ out, a % 16 = 0 ∧ 0 < rd cx a 0 ∧ a + rd cx a 0 < 2 ^ 64 ∧
    ∀ b ∈ rest, a + rd cx a 0 < b) ∧
  out.Pairwise (fun a b => b + rd cx b 0 < a) ∧
  cx.fl.frag_count = out.length ∧
  cx.fl.free_bytes = (out.map (fun a => rd cx a 0)).sum ∧
  out.length + rest.length ≤ N ∧
  (out.map (fun a => rd cx a 0)).sum + (rest.map (fun a => rd cx a 0)).sum = B ∧
  (∀ x, wikrt_fl_covers cx (out ++ rest) x ↔ C x)

/-- A context for the examples with four free fragments: three of one cell at
16, 32 and 48, which follow one another without a gap and are on the list of
the class 0 in the order 48, 16, 32, and one of two cells at 96 on the list of
the class 1. -/
def cx_frags : wikrt_cx wikrt_fl :=
  { memory := fun x =>
      if x = 16 then 16 else if x = 24 then 32
      else if x = 32 then 16 else if x = 40 then 0
      else if x = 48 then 16 else if x = 56 then 16
      else if x = 96 then 32 else 0,
    fl := { size_class := fun sc => if sc = 0 then 48 else if sc = 1 then 96 else 0,
            free_bytes := 80, frag_count := 4, frag_count_df := 0 } }

/-- The fragments on the lists of `cx_frags`. -/
def frags_lists (sc : Nat) : List Nat :=
  if sc = 0 then [48, 16, 32] else if sc = 1 then [96] else []

/-! ## The shape of a text value (`wikrt_alloc_text_fl` of `wikrt.c`) -/

/-- The word `v` of the context is the list of the codepoints `cps`: every
codepoint has one cell, in the left of a sum, whose first word is the codepoint
as a small integer and whose second word is the rest of the list, and the list
ends with unit in the right. -/
def wikrt_text_list {FL : Type} (cx : wikrt_cx FL) : Nat → List Nat → Prop
  | v, [] => v = WIKRT_UNIT_INR
  | v, c :: cps =>
    wikrt_vtag v = WIKRT_PL ∧ rd cx v 0 = wikrt_i2v c ∧ wikrt_text_list cx (rd cx v 1) cps

/-- The cells at the addresses `U` are word-aligned, inside the address space
and do not overlap. -/
def wikrt_cells (U : List Nat) : Prop :=
  (∀ a ∈ U, a % 8 = 0 ∧ a + 16 ≤ 2 ^ 64) ∧
  ∀ a ∈ U, ∀ b ∈ U, a = b ∨ a + 16 ≤ b ∨ b + 16 ≤ a

/-- What a caller that holds the cells `U` expects of `wikrt_alloc`, whose
body is not in `wikrt.c`, stated with a predicate `good` on the context and
the cells handed out: a cell allocation that succeeds returns a word-aligned
cell inside the address space which overlaps no cell of `U`, it leaves the
words of the cells of `U` as they are, and `good` holds again with the new
cell; writing a word of a cell of `U` keeps `good`. -/
def wikrt_alloc_cells {FL : Type} (A : wikrt_allocator FL)
    (good : wikrt_cx FL → List Nat → Prop) : Prop :=
  (∀ (cx cx1 : wikrt_cx FL) (U : List Nat) (dst : Nat), good cx U →
    A.wikrt_alloc cx WIKRT_CELLSIZE = (some dst, cx1) →
    (dst % 8 = 0 ∧ dst + 16 ≤ 2 ^ 64) ∧ (∀ a ∈ U, dst + 16 ≤ a ∨ a + 16 ≤ dst) ∧
    (∀ a ∈ U, cx1.memory a = cx.memory a ∧ cx1.memory (a + 8) = cx.memory (a + 8)) ∧
    good cx1 (dst :: U)) ∧
  (∀ (cx : wikrt_cx FL) (U : List Nat) (a i w : Nat), good cx U → a ∈ U → i < 2 →
    good (wr cx a i w) U)

/-- An allocator for the examples: the free-list state is the next free
address, which an allocation hands out and moves up while the block ends at
or below the address 4096. -/
def alloc_upto : wikrt_allocator Nat :=
  { wikrt_alloc := fun cx sz =>
      if cx.fl + sz ≤ 4096 then (some cx.fl, { cx with fl := cx.fl + sz }) else (none, cx),
    wikrt_free := fun cx _ _ => cx }

/-- The cells handed out by `alloc_upto` lie below the next free address,
which is cell-aligned. -/
def alloc_upto_good (cx : wikrt_cx Nat) (U : List Nat) : Prop :=
  cx.fl % 16 = 0 ∧ ∀ a ∈ U, a + 16 ≤ cx.fl

/-! ## Allocation from the free lists (`wikrt_mem.c`) -/

/-- The assignment `(*p) = w` through a pointer `p` into the list of the size
class `sc`: `p` is the address of `fl->size_class[sc]` (`none`) or of the
second word of a node. -/
def wikrt_fl_assign (cx : wikrt_cx wikrt_fl) (sc : Int) (p : Option Nat) (w : Nat) :
    wikrt_cx wikrt_fl :=
  match p with
  | none => { cx with fl := wikrt_fl_set cx.fl sc w }
  | some t => wr cx t 1 w

/-- The branch `sza >= szb` of the inner loop of `wikrt_alloc_ff`, the
first-fit success at the fragment `a` that the pointer `p` leads to: the
fragment is counted out and taken off the list, and what it has above `szb`
bytes is freed. The result is `none` when the size class of the rest is not
found within `F` steps. -/
def wikrt_alloc_ff_take (K : wikrt_fl_consts) (F : Nat) (cx : wikrt_cx wikrt_fl) (sc : Int)
    (p : Option Nat) (a szb : Nat) : Option (wikrt_cx wikrt_fl) :=
  let sza := rd cx a 0
  let cx1 : wikrt_cx wikrt_fl :=
    { cx with fl := { cx.fl with
        free_bytes := wikrt_size_sub cx.fl.free_bytes sza,
        frag_count := wikrt_size_sub cx.fl.frag_count 1 } }
  let cx2 := wikrt_fl_assign cx1 sc p (rd cx1 a 1)
  if sza > szb then wikrt_free_b K F cx2 ((a + szb) % 2 ^ 64) (wikrt_size_sub sza szb)
  else some cx2

/-- The inner loop of `wikrt_alloc_ff` over the list of the class `sc`, from
the pointer `p` on: `some (some (a, cx))` for a first fit at `a`, `some none`
when the list has come to its end, `none` when the loop is still running after
`fuel` passes. -/
def wikrt_alloc_ff_list (K : wikrt_fl_consts) (F : Nat) (cx : wikrt_cx wikrt_fl) (sc : Int)
    (szb : Nat) : Nat → Option Nat → Option (Option (Nat × wikrt_cx wikrt_fl))
  | fuel, p =>
    if 0 ≠ wikrt_tl_get cx (cx.fl.size_class sc) p then
      match fuel with
      | 0 => none
      | fuel + 1 =>
        let a := wikrt_tl_get cx (cx.fl.size_class sc) p
        if rd cx a 0 ≥ szb then
          match wikrt_alloc_ff_take K F cx sc p a szb with
          | none => none
          | some cx1 => some (some (a, cx1))
        else wikrt_alloc_ff_list K F cx sc szb fuel (some a)
    else some none

/-- The `do { } while(sc < WIKRT_FLCT)` loop of `wikrt_alloc_ff` from the class
`sc` on. The result is `(*v, context)` with `some a` for `true` and the
address handed out, `none` for `false`. -/
def wikrt_alloc_ff_classes (K : wikrt_fl_consts) (F : Nat) (cx : wikrt_cx wikrt_fl)
    (szb : Nat) : Nat → Int → Option (Option Nat × wikrt_cx wikrt_fl)
  | 0, _ => none
  | fuel + 1, sc =>
    match wikrt_alloc_ff_list K F cx sc szb F none with
    | none => none
    | some (some (a, cx1)) => some (some a, cx1)
    | some none =>
      if sc + 1 < (K.WIKRT_FLCT : Int) then wikrt_alloc_ff_classes K F cx szb fuel (sc + 1)
      else some (none, cx)

/-- The function `wikrt_alloc_ff` of `wikrt_mem.c`, on the free list of the
context; every loop runs on the fuel `F`. -/
def wikrt_alloc_ff (K : wikrt_fl_consts) (F : Nat) (cx : wikrt_cx wikrt_fl) (szb : Nat) :
    Option (Option Nat × wikrt_cx wikrt_fl) :=
  match wikrt_size_class K F szb with
  | none => none
  | some sc => wikrt_alloc_ff_classes K F cx szb F sc

/-- The function `wikrt_coalesce_maybe` of `wikrt_mem.c`; the result is the
returned flag and the context. -/
def wikrt_coalesce_maybe (K : wikrt_fl_consts) (F : Nat) (cx : wikrt_cx wikrt_fl) (sz : Nat) :
    wikrt_outcome (Bool × wikrt_cx wikrt_fl) :=
  let fc0 := cx.fl.frag_count
  if cx.fl.free_bytes < (2 * sz) % 2 ^ 64 ∨ fc0 = cx.fl.frag_count_df then .ret (false, cx)
  else
    match wikrt_coalesce K F cx with
    | .ret cx1 => .ret (decide (fc0 ≠ cx1.fl.frag_count), cx1)
    | .aborted => .aborted
    | .nofuel => .nofuel

/-- The function `wikrt_alloc_b` of `wikrt_mem.c`; the result is
`(*v, context)` with `some a` for `true` and the address handed out, `none`
for `false`. The recursion is at most `fuel` calls deep, the loops run on the
fuel `F`. -/
def wikrt_alloc_b (K : wikrt_fl_consts) (F : Nat) :
    Nat → wikrt_cx wikrt_fl → Nat → wikrt_outcome (Option Nat × wikrt_cx wikrt_fl)
  | 0, _, _ => .nofuel
  | fuel + 1, cx, szb =>
    if szb ≤ K.WIKRT_QFSIZE then
      let sc := K.WIKRT_QFCLASS szb
      let r := cx.fl.size_class sc
      if 0 ≠ r then
        .ret (some r,
          { cx with fl := { wikrt_fl_set cx.fl sc (rd cx r 1) with
              frag_count := wikrt_size_sub cx.fl.frag_count 1,
              free_bytes := wikrt_size_sub cx.fl.free_bytes szb } })
      else
        match wikrt_alloc_b K F fuel cx ((szb <<< 1) % 2 ^ 64) with
        | .ret (some v, cx1) =>
          match wikrt_free_b K F cx1 ((v + szb) % 2 ^ 64) szb with
          | none => .nofuel
          | some cx2 => .ret (some v, cx2)
        | .ret (none, cx1) =>
          match wikrt_alloc_ff K F cx1 szb with
          | none => .nofuel
          | some r => .ret r
        | .aborted => .aborted
        | .nofuel => .nofuel
    else
      match wikrt_alloc_ff K F cx szb with
      | none => .nofuel
      | some (some a, cx1) => .ret (some a, cx1)
      | some (none, cx1) =>
        match wikrt_coalesce_maybe K F cx1 szb with
        | .ret (true, cx2) => wikrt_alloc_b K F fuel cx2 szb
        | .ret (false, cx2) => .ret (none, cx2)
        | .aborted => .aborted
        | .nofuel => .nofuel

/-- The function `wikrt_try_grow_inplace` of `wikrt_mem.c`; `size` is the field
`cx->size`. -/
def wikrt_try_grow_inplace (size : Nat) (cx : wikrt_cx wikrt_fl) (tgt growsz : Nat) : Bool :=
  if tgt ≥ size then false
  else
    let tgtsz := rd cx tgt 0
    decide (tgtsz ≥ growsz) && decide (tgtsz = wikrt_cellbuff tgtsz)

/-- The search `while((0 != *l) && (tgt != *l)) { l = 1 + wikrt_pval(cx, *l); }`
of `wikrt_grow_b` for the fragment `tgt` in a list; `none` when the loop is
still running after `fuel` passes. -/
def wikrt_grow_search (cx : wikrt_cx wikrt_fl) (var tgt : Nat) :
    Nat → Option Nat → Option (Option Nat)
  | fuel, l =>
    if 0 ≠ wikrt_tl_get cx var l ∧ tgt ≠ wikrt_tl_get cx var l then
      match fuel with
      | 0 => none
      | fuel + 1 => wikrt_grow_search cx var tgt fuel (some (wikrt_tl_get cx var l))
    else some l

/-- The call `memcpy(wikrt_pval(cx, dst), wikrt_pval(cx, src), n)` on blocks
that do not overlap. -/
def wikrt_memcpy {FL : Type} (cx : wikrt_cx FL) (dst src n : Nat) : wikrt_cx FL :=
  { cx with memory := fun x =>
      if wikrt_vaddr dst ≤ x ∧ x < wikrt_vaddr dst + n then
        cx.memory (wikrt_vaddr src + (x - wikrt_vaddr dst))
      else cx.memory x }

/-- The end of `wikrt_grow_b`, "allocate and shallow copy"; the result is the
returned flag, the context and `*addr`. -/
def wikrt_grow_b_copy (K : wikrt_fl_consts) (F fuel : Nat) (cx : wikrt_cx wikrt_fl)
    (addr sz0 szf : Nat) : wikrt_outcome (Bool × wikrt_cx wikrt_fl × Nat) :=
  let src := addr
  match wikrt_alloc_b K F fuel cx szf with
  | .ret (none, cx1) => .ret (false, cx1, addr)
  | .ret (some dst, cx1) =>
    match wikrt_free_b K F (wikrt_memcpy cx1 dst src sz0) src sz0 with
    | none => .nofuel
    | some cx3 => .ret (true, cx3, addr)
  | .aborted => .aborted
  | .nofuel => .nofuel

/-- The function `wikrt_grow_b` of `wikrt_mem.c`. The in-out parameter `*addr`
is passed in as `addr` and returned; the result is the returned flag, the
context and `*addr`; `size` is the field `cx->size`. -/
def wikrt_grow_b (K : wikrt_fl_consts) (F fuel : Nat) (size : Nat) (cx : wikrt_cx wikrt_fl)
    (addr sz0 szf : Nat) : wikrt_outcome (Bool × wikrt_cx wikrt_fl × Nat) :=
  let tgt := (addr + sz0) % 2 ^ 64
  let growsz := wikrt_size_sub szf sz0
  if wikrt_try_grow_inplace size cx tgt growsz then
    let tgtsz := rd cx tgt 0
    match wikrt_size_class K F tgtsz with
    | none => .nofuel
    | some sc =>
      match wikrt_grow_search cx (cx.fl.size_class sc) tgt F none with
      | none => .nofuel
      | some l =>
        if tgt = wikrt_tl_get cx (cx.fl.size_class sc) l then
          let cx1 := wikrt_fl_assign cx sc l (rd cx tgt 1)
          let cx2 : wikrt_cx wikrt_fl :=
            { cx1 with fl := { cx1.fl with
                frag_count := wikrt_size_sub cx1.fl.frag_count 1,
                free_bytes := wikrt_size_sub cx1.fl.free_bytes tgtsz } }
          if tgtsz > growsz then
            match wikrt_free_b K F cx2 ((tgt + growsz) % 2 ^ 64) (wikrt_size_sub tgtsz growsz) with
            | none => .nofuel
            | some cx3 => .ret (true, cx3, addr)
          else .ret (true, cx2, addr)
        else wikrt_grow_b_copy K F fuel cx addr sz0 szf
  else wikrt_grow_b_copy K F fuel cx addr sz0 szf

/-! ## The accounting invariant of the free lists -/

/-- The accounting invariant of the free list of a context with the fragments
`L sc` on the list of the class `sc`: the free list is well formed
(`wikrt_fl_wf`: `free_bytes` is the sum of the sizes, `frag_count` the number of
the fragments, no two fragments overlap), every fragment is on the list of the
size class of its size, and every size is a whole number of cells. -/
def wikrt_fl_inv (K : wikrt_fl_consts) (F : Nat) (cx : wikrt_cx wikrt_fl)
    (L : Nat → List Nat) : Prop :=
  wikrt_fl_wf K cx L ∧
  (∀ sc, sc < K.WIKRT_FLCT → ∀ a ∈ L sc, wikrt_size_class K F (rd cx a 0) = some (sc : Int)) ∧
  (∀ a ∈ wikrt_fl_flat L K.WIKRT_FLCT, rd cx a 0 % 16 = 0)

/-- What `wikrt_alloc_b` needs of the macro `WIKRT_QFCLASS`, which the sources
do not define: a quick-fit size doubles without overflow, and a quick-fit class
holds the fragments of one size only, as far as sizes of whole cells go. -/
def wikrt_fl_consts_exact (K : wikrt_fl_consts) (F : Nat) : Prop :=
  K.WIKRT_QFSIZE < 2 ^ 63 ∧
  ∀ s1 s2 : Nat, 0 < s1 → s1 % 16 = 0 → s1 ≤ K.WIKRT_QFSIZE → 0 < s2 → s2 % 16 = 0 →
    wikrt_size_class K F s2 = some (K.WIKRT_QFCLASS s1) → s2 = s1

/-- The size classes do not decrease with the size. -/
def wikrt_fl_consts_mono (K : wikrt_fl_consts) (F : Nat) : Prop :=
  ∀ (s1 s2 : Nat) (c1 c2 : Int), 0 < s1 → s1 ≤ s2 →
    wikrt_size_class K F s1 = some c1 → wikrt_size_class K F s2 = some c2 → c1 ≤ c2

/-- A context for the examples with four free fragments of sixteen cells (256
bytes) at 1024, 1280, 4096 and 8192, on the list of the class 15 in that
order; the first two follow one another without a gap. -/
def cx_adjacent : wikrt_cx wikrt_fl :=
  { memory := fun x =>
      if x = 1024 then 256 else if x = 1032 then 1280
      else if x = 1280 then 256 else if x = 1288 then 4096
      else if x = 4096 then 256 else if x = 4104 then 8192
      else if x = 8192 then 256 else 0,
    fl := { size_class := fun sc => if sc = 15 then 1024 else 0,
            free_bytes := 1024, frag_count := 4, frag_count_df := 0 } }

/-- The fragments on the lists of `cx_adjacent`. -/
def adjacent_lists (sc : Nat) : List Nat :=
  if sc = 15 then [1024, 1280, 4096, 8192] else []

/-- A context for the examples with a block of one cell in use at 1024, which
holds the words 77 and 78 and is followed by a cell in use, and one free
fragment of two cells at 2048. -/
def cx_grow : wikrt_cx wikrt_fl :=
  { memory := fun x =>
      if x = 1024 then 77 else if x = 1032 then 78
      else if x = 2048 then 32 else 0,
    fl := { size_class := fun sc => if sc = 1 then 2048 else 0,
            free_bytes := 32, frag_count := 1, frag_count_df := 0 } }

/-- The fragments on the lists of `cx_grow`. -/
def grow_lists (sc : Nat) : List Nat :=
  if sc = 1 then [2048] else []

/-- What an allocation of `szb` bytes has to leave behind: `cx` and `L` are the
context and its free lists before the call, `r` and `cx1` the address handed
out (`none` for a failure) and the context after it. The free list satisfies
the accounting invariant again. After a failure the free bytes are the same
bytes as before and the fragments are not more. After a success the block
`[a, a + szb)` starts on a cell boundary, every byte of it was free before,
the bytes free afterwards are those free before without the block, and
`free_bytes` is down by `szb`. -/
def wikrt_alloc_post (K : wikrt_fl_consts) (F : Nat) (cx : wikrt_cx wikrt_fl)
    (L : Nat → List Nat) (szb : Nat) (r : Option Nat) (cx1 : wikrt_cx wikrt_fl) : Prop :=
  ∃ L1 : Nat → List Nat, wikrt_fl_inv K F cx1 L1 ∧
    (r = none →
      cx1.fl.free_bytes = cx.fl.free_bytes ∧ cx1.fl.frag_count ≤ cx.fl.frag_count ∧
      ∀ x, wikrt_fl_covers cx1 (wikrt_fl_flat L1 K.WIKRT_FLCT) x ↔
        wikrt_fl_covers cx (wikrt_fl_flat L K.WIKRT_FLCT) x) ∧
    (∀ a, r = some a →
      a % 16 = 0 ∧ a ≠ 0 ∧ a + szb < 2 ^ 64 ∧
      cx1.fl.free_bytes + szb = cx.fl.free_bytes ∧
      (∀ x, a ≤ x → x < a + szb → wikrt_fl_covers cx (wikrt_fl_flat L K.WIKRT_FLCT) x) ∧
      (∀ x, wikrt_fl_covers cx1 (wikrt_fl_flat L1 K.WIKRT_FLCT) x ↔
        (wikrt_fl_covers cx (wikrt_fl_flat L K.WIKRT_FLCT) x ∧ ¬ (a ≤ x ∧ x < a + szb))))

/-- The address that a call of `wikrt_alloc_b` handed out, if it returned
one. -/
def wikrt_alloc_addr (r : wikrt_outcome (Option Nat × wikrt_cx wikrt_fl)) : Option Nat :=
  match r with
  | .ret (a, _) => a
  | _ => none

/-- The first wrap of the example for deep sums: unit is put in the left with
`wikrt_alloc_sum_fl`, which takes a new cell at 64; the out-parameter held unit
before. -/
def sum_wrap1 : Nat × wikrt_cx Nat × Nat :=
  wikrt_alloc_sum_fl alloc_bump cx_empty WIKRT_UNIT false WIKRT_UNIT

/-- The second wrap of the example: the result of the first wrap is put in the
right, with a fresh out-parameter that holds unit before the call. -/
def sum_wrap2 : Nat × wikrt_cx Nat × Nat :=
  wikrt_alloc_sum_fl alloc_bump sum_wrap1.2.1 WIKRT_UNIT true sum_wrap1.2.2

/-- Modelled from the spec: `wikrt_alloc`, which `wikrt.c` calls and the
sources do not define: the allocation of a block, which is `wikrt_alloc_b` of
`wikrt_mem.c` on the size rounded up to whole cells. -/
def wikrt_alloc (K : wikrt_fl_consts) (F fuel : Nat) (cx : wikrt_cx wikrt_fl) (sz : Nat) :
    wikrt_outcome (Option Nat × wikrt_cx wikrt_fl) :=
  wikrt_alloc_b K F fuel cx (wikrt_cellbuff sz)

/-- The allocator of `wikrt_mem.c` with the example constants, as the
allocator that the constructors of `wikrt.c` take. A call that is still running
when the fuel is used up has no result here and counts as a failure; the
theorems use the allocator where the calls return. -/
def alloc_fl : wikrt_allocator wikrt_fl :=
  { wikrt_alloc := fun cx sz =>
      match wikrt_alloc fl_consts 100 258 cx sz with
      | .ret r => r
      | _ => (none, cx),
    wikrt_free := fun cx addr sz =>
      match wikrt_free fl_consts 100 cx addr sz with
      | some cx1 => cx1
      | none => cx }

/-- A context for the examples without free memory: the pair cell at 16 holds
the words 5 and 7, and the free lists are empty. -/
def cx_full : wikrt_cx wikrt_fl :=
  { memory := fun a => if a = 16 then 5 else if a = 24 then 7 else 0, fl := wikrt_fl_zero }

/-- The free lists of `cx_full` hold no fragment. -/
def full_lists (_sc : Nat) : List Nat := []

end Word

namespace Eval

/-! ## Values of the evaluator

A value word and the cell it owns. The constructor is the tag in the low three
bits of the word (`WIKRT_O` .. `WIKRT_UR` of `wikrt.h`), the fields are the words
of the cell: a tagged object has its header word `otag`, its value word and,
for objects longer than a cell (a sealer token), the bytes that follow. -/

inductive wikrt_val where
  | O (otag : Nat) (v : wikrt_val) (data : List Nat)
  | P (fst snd : wikrt_val)
  | PL (fst snd : wikrt_val)
  | PR (fst snd : wikrt_val)
  | I (n : Int)
  | U
  | UL
  | UR
  deriving DecidableEq, Repr, Inhabited

open wikrt_val

def WIKRT_UNIT : wikrt_val := U
def WIKRT_UNIT_INL : wikrt_val := UL
def WIKRT_UNIT_INR : wikrt_val := UR

def wikrt_p : wikrt_val → Bool
  | P _ _ => true
  | _ => false

def wikrt_pl : wikrt_val → Bool
  | PL _ _ => true
  | _ => false

def wikrt_pr : wikrt_val → Bool
  | PR _ _ => true
  | _ => false

def wikrt_o : wikrt_val → Bool
  | O _ _ _ => true
  | _ => false

def wikrt_smallint : wikrt_val → Bool
  | I _ => true
  | _ => false

def wikrt_i2v (i : Int) : wikrt_val := I i

/-! ### Object headers (`wikrt.h`) -/

def WIKRT_OTAG_DEEPSUM : Nat := 43
def WIKRT_OTAG_BLOCK : Nat := 91
def WIKRT_OTAG_OPVAL : Nat := 39
def WIKRT_OTAG_SEAL : Nat := 123
def WIKRT_OTAG_SEAL_SM : Nat := 58
def WIKRT_OTAG_ARRAY : Nat := 86
def WIKRT_OTAG_BINARY : Nat := 56
def WIKRT_OTAG_TEXT : Nat := 34
def WIKRT_OTAG_TRASH : Nat := 95
def WIKRT_OTAG_PEND : Nat := 126
def LOBYTE (v : Nat) : Nat := v &&& 0xFF

def WIKRT_DEEPSUMR : Nat := 3
def WIKRT_DEEPSUML : Nat := 2

def WIKRT_BLOCK_RELEVANT : Nat := 1 <<< 8
def WIKRT_BLOCK_AFFINE : Nat := 1 <<< 9
def WIKRT_BLOCK_PARALLEL : Nat := 1 <<< 10
/-- Modelled from the spec: the lazy-hint flag of a block header
(`WIKRT_BLOCK_LAZY`), which `wikrt_eval.c` tests but `wikrt.h` does not
define; it takes the header bit after the three flags `wikrt.h` defines. -/
def WIKRT_BLOCK_LAZY : Nat := 1 <<< 11
def WIKRT_OPVAL_LAZYKF : Nat := 1 <<< 8

def wikrt_otag_deepsum (v : Nat) : Bool := WIKRT_OTAG_DEEPSUM == LOBYTE v
def wikrt_otag_block (v : Nat) : Bool := WIKRT_OTAG_BLOCK == LOBYTE v
def wikrt_otag_seal (v : Nat) : Bool := WIKRT_OTAG_SEAL == LOBYTE v
def wikrt_otag_seal_sm (v : Nat) : Bool := WIKRT_OTAG_SEAL_SM == LOBYTE v
def wikrt_otag_array (v : Nat) : Bool := WIKRT_OTAG_ARRAY == LOBYTE v
def wikrt_otag_trash (v : Nat) : Bool := WIKRT_OTAG_TRASH == LOBYTE v
/-- Modelled from the spec: `wikrt_otag_opval`, used by `wikrt_eval.c` and not
defined in `wikrt.h`; the low byte test of its siblings, on `WIKRT_OTAG_OPVAL`. -/
def wikrt_otag_opval (v : Nat) : Bool := WIKRT_OTAG_OPVAL == LOBYTE v
/-- Modelled from the spec: `wikrt_otag_pend`, used by `wikrt_eval.c` and not
defined in `wikrt.h`; the low byte test of its siblings, on `WIKRT_OTAG_PEND`. -/
def wikrt_otag_pend (v : Nat) : Bool := WIKRT_OTAG_PEND == LOBYTE v

def wikrt_blockval : wikrt_val → Bool
  | O otag _ _ => wikrt_otag_block otag
  | _ => false

/-! ### Substructure (`wikrt.h`) -/

def WIKRT_SS_NORM : Nat := 0
def WIKRT_SS_REL : Nat := 1 <<< 0
def WIKRT_SS_AFF : Nat := 1 <<< 1
def WIKRT_SS_PEND : Nat := 1 <<< 2

def wikrt_ss_copyable (ss : Nat) : Bool := 0 == (ss &&& (WIKRT_SS_AFF ||| WIKRT_SS_PEND))
def wikrt_ss_droppable (ss : Nat) : Bool := 0 == (ss &&& (WIKRT_SS_REL ||| WIKRT_SS_PEND))

def wikrt_capture_block_ss (otag : Nat) (ss : Nat) : Nat :=
  let ss1 := if WIKRT_BLOCK_RELEVANT &&& otag ≠ 0 then ss ||| WIKRT_SS_REL else ss
  if WIKRT_BLOCK_AFFINE &&& otag ≠ 0 then ss1 ||| WIKRT_SS_AFF else ss1

def wikrt_opval_hides_ss (otag : Nat) : Bool := 0 == (WIKRT_OPVAL_LAZYKF &&& otag)

/-! ### Opcodes (`wikrt_intern_op` of `wikrt.h`) -/

def OP_INVAL : Nat := 0
def OP_SP : Nat := 1
def OP_LF : Nat := 2
def OP_PROD_ASSOCL : Nat := 3
def OP_PROD_ASSOCR : Nat := 4
def OP_PROD_W_SWAP : Nat := 5
def OP_PROD_Z_SWAP : Nat := 6
def OP_PROD_INTRO1 : Nat := 7
def OP_PROD_ELIM1 : Nat := 8
def OP_SUM_ASSOCL : Nat := 9
def OP_SUM_ASSOCR : Nat := 10
def OP_SUM_W_SWAP : Nat := 11
def OP_SUM_Z_SWAP : Nat := 12
def OP_SUM_INTRO0 : Nat := 13
def OP_SUM_ELIM0 : Nat := 14
def OP_COPY : Nat := 15
def OP_DROP : Nat := 16
def OP_APPLY : Nat := 17
def OP_COMPOSE : Nat := 18
def OP_QUOTE : Nat := 19
def OP_REL : Nat := 20
def OP_AFF : Nat := 21
def OP_NUM : Nat := 22
def OP_D1 : Nat := 23
def OP_D2 : Nat := 24
def OP_D3 : Nat := 25
def OP_D4 : Nat := 26
def OP_D5 : Nat := 27
def OP_D6 : Nat := 28
def OP_D7 : Nat := 29
def OP_D8 : Nat := 30
def OP_D9 : Nat := 31
def OP_D0 : Nat := 32
def OP_ADD : Nat := 33
def OP_MUL : Nat := 34
def OP_NEG : Nat := 35
def OP_DIV : Nat := 36
def OP_GT : Nat := 37
def OP_CONDAP : Nat := 38
def OP_DISTRIB : Nat := 39
def OP_FACTOR : Nat := 40
def OP_MERGE : Nat := 41
def OP_ASSERT : Nat := 42
def ACCEL_TAILCALL : Nat := 43
def ACCEL_INLINE : Nat := 44
def ACCEL_PROD_SWAP : Nat := 45
def ACCEL_INTRO_UNIT_LEFT : Nat := 46
def ACCEL_SUM_SWAP : Nat := 47
def ACCEL_INTRO_VOID_LEFT : Nat := 48
def ACCEL_wrzw : Nat := 49
def ACCEL_wzlw : Nat := 50
/-- Modelled from the spec: the ten annotation accelerators that the handler
table of `wikrt_eval.c` names and the enumeration in `wikrt.h` does not list
yet; they are numbered after `ACCEL_wzlw` in the order of the table, which
gives the eighteen accelerators that `wikrt_eval.c` asserts. -/
def ACCEL_ANNO_TRACE : Nat := 51
def ACCEL_ANNO_TRASH : Nat := 52
def ACCEL_ANNO_LOAD : Nat := 53
def ACCEL_ANNO_STOW : Nat := 54
def ACCEL_ANNO_LAZY : Nat := 55
def ACCEL_ANNO_FORK : Nat := 56
def ACCEL_ANNO_JOIN : Nat := 57
def ACCEL_ANNO_ASYNCH : Nat := 58
def ACCEL_ANNO_TEXT : Nat := 59
def ACCEL_ANNO_BINARY : Nat := 60
def OP_COUNT : Nat := 61
def WIKRT_ACCEL_START : Nat := ACCEL_TAILCALL
def WIKRT_ACCEL_COUNT : Nat := OP_COUNT - WIKRT_ACCEL_START

/-! ### The context (`struct wikrt_cx` of `wikrt.h`) -/

def WIKRT_OK : Nat := 0
def WIKRT_INVAL : Nat := 1
def WIKRT_IMPL : Nat := 2
def WIKRT_CXFULL : Nat := 16
/-- Modelled from the spec: the type-error code `WIKRT_ETYPE` that
`wikrt_eval.c` latches; `wikilon-runtime.h` has it under the older name
`WIKRT_TYPE_ERROR`. -/
def WIKRT_ETYPE : Nat := 256

def WIKRT_CELLSIZE : Nat := 16

/-- The error latch, the four root registers and the allocation state of
`struct wikrt_cx`. -/
structure wikrt_cx where
  ecode : Nat
  val : wikrt_val
  pc : wikrt_val
  cc : wikrt_val
  txn : wikrt_val
  alloc : Nat
  size : Nat
  compaction_count : Nat
  deriving DecidableEq, Repr

/-- The initial program counter. `wikrt_eval.c` asserts statically that
`WIKRT_REG_PC_INIT == WIKRT_UNIT` (it removes the register's initial value with
`wikrt_elim_unit`), so the evaluator is embedded with that value; the copy of
`wikrt.h` at hand still lists `WIKRT_UNIT_INR`. -/
def WIKRT_REG_PC_INIT : wikrt_val := WIKRT_UNIT
def WIKRT_REG_CC_INIT : wikrt_val := WIKRT_UNIT_INR
def WIKRT_REG_TXN_INIT : wikrt_val := WIKRT_UNIT_INR
def WIKRT_REG_VAL_INIT : wikrt_val := WIKRT_UNIT

def wikrt_has_error (cx : wikrt_cx) : Bool := WIKRT_OK != cx.ecode

/-- Modelled from the spec: `wikrt_set_error`, whose body is not in the
sources. The error field is a latch, `WIKRT_OK` or the earliest error. -/
def wikrt_set_error (cx : wikrt_cx) (e : Nat) : wikrt_cx :=
  if cx.ecode = WIKRT_OK then { cx with ecode := e } else cx

/-- The code that the sources do not contain and that is not modelled here:
the compacting collector behind `wikrt_mem_reserve`, the handlers of the
operator table that are only named in `wikrt_eval.c` (indexed by opcode), and
the sealer and stowage calls of `wikrt_run_eval_token`. A handler may end in
undefined behaviour (`none`). `wikrt_unwrap_seal` also gives the content of its
token buffer after the call. -/
structure wikrt_ext where
  wikrt_mem_gc_then_reserve : wikrt_cx → Nat → Bool × wikrt_cx
  prim : Nat → wikrt_cx → Option wikrt_cx
  wikrt_intro_id_block : wikrt_cx → wikrt_cx
  wikrt_unwrap_seal : wikrt_cx → List Nat × wikrt_cx
  wikrt_wrap_seal : wikrt_cx → List Nat → wikrt_cx
  wikrt_intro_sv : wikrt_cx → List Nat → wikrt_cx

/-! ### Memory (`wikrt.h`) -/

def wikrt_mem_available (cx : wikrt_cx) (sz : Nat) : Bool := sz < cx.alloc

def wikrt_mem_reserve (X : wikrt_ext) (cx : wikrt_cx) (sz : Nat) : Bool × wikrt_cx :=
  if wikrt_mem_available cx sz then (true, cx) else X.wikrt_mem_gc_then_reserve cx sz

/-- The difference `a - b` of two 64-bit words, which wraps around below
zero. -/
def wikrt_word_sub (a b : Nat) : Nat :=
  if b ≤ a then a - b else a + 2 ^ 64 - b

/-- The bump of `wikrt_alloc_r`: `cx->alloc -= sz` on a 64-bit word. The
address it returns names the new cell, which the tree of values makes
implicit. -/
def wikrt_alloc_r (cx : wikrt_cx) (sz : Nat) : wikrt_cx :=
  { cx with alloc := wikrt_word_sub cx.alloc sz }

def wikrt_mem_in_use (cx : wikrt_cx) : Nat := wikrt_word_sub cx.size cx.alloc

/-- The function `wikrt_intro_r`: a new pair cell `(v * cx->val)`. -/
def wikrt_intro_r (cx : wikrt_cx) (v : wikrt_val) : wikrt_cx :=
  { wikrt_alloc_r cx WIKRT_CELLSIZE with val := P v cx.val }

/-- The two words of the pair cell that a word addresses through
`wikrt_pval`; a tagged object starts with a header, an immediate has no cell. -/
def wikrt_pval : wikrt_val → Option (wikrt_val × wikrt_val)
  | P a b => some (a, b)
  | PL a b => some (a, b)
  | PR a b => some (a, b)
  | _ => none

/-- The word after the assignment `wikrt_pval(cx, v)[0] = x`. -/
def wikrt_pval_set0 (v x : wikrt_val) : wikrt_val :=
  match v with
  | P _ b => P x b
  | PL _ b => PL x b
  | PR _ b => PR x b
  | w => w

/-- The function `wikrt_wrap_otag_r`: `(v*e) → ((otag v) * e)` with a new
object cell. Without a pair cell behind `cx->val` the store goes through a
wild pointer (`none`). -/
def wikrt_wrap_otag_r (cx : wikrt_cx) (otag : Nat) : Option wikrt_cx :=
  match wikrt_pval cx.val with
  | some (v, _) =>
    some { wikrt_alloc_r cx WIKRT_CELLSIZE with val := wikrt_pval_set0 cx.val (O otag v []) }
  | none => none

def wikrt_wrap_otag (X : wikrt_ext) (cx : wikrt_cx) (otag : Nat) : Option (Bool × wikrt_cx) :=
  let r := wikrt_mem_reserve X cx WIKRT_CELLSIZE
  if r.1 = false then some (false, r.2)
  else (wikrt_wrap_otag_r r.2 otag).map (fun c => (true, c))

/-! ### Data plumbing whose bodies are not in the sources -/

/-- Modelled from the spec: the sum tag `WIKRT_INL` of `wikrt_wrap_sum`; the
header passes it as the boolean `inRight`. -/
def WIKRT_INL : Bool := false
/-- Modelled from the spec: the sum tag `WIKRT_INR`, `inRight = true`. -/
def WIKRT_INR : Bool := true

/-- Modelled from the spec: `wikrt_assocl`, `(a*(b*c))→((a*b)*c)`, ABC op `l`,
non-allocating and fail-safe: another shape latches a type error and leaves
the value. -/
def wikrt_assocl (cx : wikrt_cx) : wikrt_cx :=
  match cx.val with
  | P a (P b c) => { cx with val := P (P a b) c }
  | _ => wikrt_set_error cx WIKRT_ETYPE

/-- Modelled from the spec: `wikrt_assocr`, `((a*b)*c)→(a*(b*c))`, ABC op `r`,
non-allocating and fail-safe. -/
def wikrt_assocr (cx : wikrt_cx) : wikrt_cx :=
  match cx.val with
  | P (P a b) c => { cx with val := P a (P b c) }
  | _ => wikrt_set_error cx WIKRT_ETYPE

/-- Modelled from the spec: `wikrt_wswap`, `(a*(b*c))→(b*(a*c))`, ABC op `w`,
non-allocating and fail-safe. -/
def wikrt_wswap (cx : wikrt_cx) : wikrt_cx :=
  match cx.val with
  | P a (P b c) => { cx with val := P b (P a c) }
  | _ => wikrt_set_error cx WIKRT_ETYPE

/-- Modelled from the spec: `wikrt_zswap`, `(a*(b*(c*d)))→(a*(c*(b*d)))`, ABC
op `z`, non-allocating and fail-safe. -/
def wikrt_zswap (cx : wikrt_cx) : wikrt_cx :=
  match cx.val with
  | P a (P b (P c d)) => { cx with val := P a (P c (P b d)) }
  | _ => wikrt_set_error cx WIKRT_ETYPE

/-- Modelled from the spec: `wikrt_accel_swap`, the accelerator `vrwlc`,
`(a*b)→(b*a)`, non-allocating and fail-safe. -/
def wikrt_accel_swap (cx : wikrt_cx) : wikrt_cx :=
  match cx.val with
  | P a b => { cx with val := P b a }
  | _ => wikrt_set_error cx WIKRT_ETYPE

/-- Modelled from the spec: `wikrt_intro_unit`, `(a)→(1*a)`; it reserves the
cell it allocates and changes nothing when the reservation fails. -/
def wikrt_intro_unit (X : wikrt_ext) (cx : wikrt_cx) : wikrt_cx :=
  let r := wikrt_mem_reserve X cx WIKRT_CELLSIZE
  if r.1 = false then r.2 else wikrt_intro_r r.2 WIKRT_UNIT

/-- Modelled from the spec: `wikrt_intro_unit_r`, `(a)→(a*1)`, ABC op `v`. -/
def wikrt_intro_unit_r (X : wikrt_ext) (cx : wikrt_cx) : wikrt_cx :=
  let r := wikrt_mem_reserve X cx WIKRT_CELLSIZE
  if r.1 = false then r.2
  else { wikrt_alloc_r r.2 WIKRT_CELLSIZE with val := P r.2.val WIKRT_UNIT }

/-- Modelled from the spec: `wikrt_elim_unit`, `(1*a)→(a)`; another shape
latches a type error and leaves the value. -/
def wikrt_elim_unit (cx : wikrt_cx) : wikrt_cx :=
  match cx.val with
  | P U a => { cx with val := a }
  | _ => wikrt_set_error cx WIKRT_ETYPE

/-- Modelled from the spec: `wikrt_elim_unit_r`, `(a*1)→(a)`, ABC op `c`. -/
def wikrt_elim_unit_r (cx : wikrt_cx) : wikrt_cx :=
  match cx.val with
  | P a U => { cx with val := a }
  | _ => wikrt_set_error cx WIKRT_ETYPE

/-- Modelled from the spec: `wikrt_intro_i32`, `(e)→(Int*e)`, a small integer
in a new pair cell. -/
def wikrt_intro_i32 (X : wikrt_ext) (cx : wikrt_cx) (n : Int) : wikrt_cx :=
  let r := wikrt_mem_reserve X cx WIKRT_CELLSIZE
  if r.1 = false then r.2 else wikrt_intro_r r.2 (wikrt_i2v n)

/-- The header of a deep sum with the single tag `lr`. -/
def wikrt_deepsum_otag (lr : Bool) : Nat :=
  ((if lr then WIKRT_DEEPSUMR else WIKRT_DEEPSUML) <<< 8) ||| WIKRT_OTAG_DEEPSUM

/-- Modelled from the spec: the part of `wrap_sum` that needs no memory. A
product cell or unit is retagged; a deep-sum header with room (below
`1 << 30`, the test of `wikrt_alloc_sum_fl`) takes one more two-bit tag.
`none` when a deep-sum cell has to be allocated. -/
def wikrt_wrap_sum_inplace (lr : Bool) : wikrt_val → Option wikrt_val
  | P x y => some (if lr then PR x y else PL x y)
  | U => some (if lr then UR else UL)
  | O otag v d =>
    if wikrt_otag_deepsum otag ∧ otag < 1 <<< 30 then
      some (O ((((otag >>> 6) ||| (if lr then WIKRT_DEEPSUMR else WIKRT_DEEPSUML)) <<< 8)
        ||| WIKRT_OTAG_DEEPSUM) v d)
    else none
  | _ => none

/-- Modelled from the spec: `wikrt_wrap_sum`, `(a*e)→((a+0)*e)` or
`((0+a)*e)`: a pointer-tag rewrite when the inner value is a product cell,
else a deep-sum header, allocated (one reserved cell) when no header has
room. -/
def wikrt_wrap_sum (X : wikrt_ext) (cx : wikrt_cx) (lr : Bool) : wikrt_cx :=
  match cx.val with
  | P a e =>
    match wikrt_wrap_sum_inplace lr a with
    | some s => { cx with val := P s e }
    | none =>
      let r := wikrt_mem_reserve X cx WIKRT_CELLSIZE
      if r.1 = false then r.2
      else
        match r.2.val with
        | P a1 e1 =>
          { wikrt_alloc_r r.2 WIKRT_CELLSIZE with val := P (O (wikrt_deepsum_otag lr) a1 []) e1 }
        | _ => wikrt_set_error r.2 WIKRT_ETYPE
  | _ => wikrt_set_error cx WIKRT_ETYPE

/-- Modelled from the spec: the peel of one sum tag from a value, the inverse
of `wrap_sum` with the bit layout of `wikrt_split_sum_fl`: the tag and the
inner value, or the error code (splitting an array is not implemented). -/
def wikrt_unwrap_sum_rv : wikrt_val → Except Nat (Bool × wikrt_val)
  | PL x y => .ok (false, P x y)
  | PR x y => .ok (true, P x y)
  | UL => .ok (false, U)
  | UR => .ok (true, U)
  | O otag v d =>
    if wikrt_otag_deepsum otag then
      let s0 := otag >>> 8
      let sf := s0 >>> 2
      if 0 = sf then .ok (3 == (3 &&& s0), v)
      else .ok (3 == (3 &&& s0), O ((sf <<< 8) ||| WIKRT_OTAG_DEEPSUM) v d)
    else if wikrt_otag_array otag then .error WIKRT_IMPL
    else .error WIKRT_ETYPE
  | _ => .error WIKRT_ETYPE

/-- Modelled from the spec: `wikrt_unwrap_sum`, `((a+b)*e)→(a*e)` or `(b*e)`
with the tag written to `*inRight`; on an error the value is left and the tag
is not written (`none`). -/
def wikrt_unwrap_sum (cx : wikrt_cx) : Option Bool × wikrt_cx :=
  match cx.val with
  | P s e =>
    match wikrt_unwrap_sum_rv s with
    | .ok (lr, a) => (some lr, { cx with val := P a e })
    | .error err => (none, wikrt_set_error cx err)
  | _ => (none, wikrt_set_error cx WIKRT_ETYPE)

def WIKRT_LT : Int := -1
def WIKRT_EQ : Int := 0
def WIKRT_GT : Int := 1

/-- Modelled from the spec: `wikrt_int_cmp` on `(I(a)*(I(b)*e))`,
non-destructive; it compares `b` to `a` (allocate zero then four: zero is
less than four). Without two integers a type error is latched and `*ord` is
not written (`none`). -/
def wikrt_int_cmp (cx : wikrt_cx) : Option Int × wikrt_cx :=
  match cx.val with
  | P (I a) (P (I b) _) =>
    (some (if b > a then WIKRT_GT else if b < a then WIKRT_LT else WIKRT_EQ), cx)
  | _ => (none, wikrt_set_error cx WIKRT_ETYPE)

/-- Modelled from the spec: the substructure that a traversal of a value
observes. A block reports the affine and relevant flags of its header and
what its operations report, a quoted value is hidden unless its header says
that the block inherits from it, a pending value reports the pending bit. -/
def wikrt_val_ss : wikrt_val → Nat
  | O otag v _ =>
    if wikrt_otag_block otag then wikrt_capture_block_ss otag (wikrt_val_ss v)
    else if wikrt_otag_opval otag then
      (if wikrt_opval_hides_ss otag then WIKRT_SS_NORM else wikrt_val_ss v)
    else if wikrt_otag_pend otag then WIKRT_SS_PEND ||| wikrt_val_ss v
    else wikrt_val_ss v
  | P a b => wikrt_val_ss a ||| wikrt_val_ss b
  | PL a b => wikrt_val_ss a ||| wikrt_val_ss b
  | PR a b => wikrt_val_ss a ||| wikrt_val_ss b
  | _ => WIKRT_SS_NORM

/-- Modelled from the spec: `wikrt_drop`, `(a*e) → e`, ABC op `%`. The drop
of a relevant or pending value is not prevented, it is reported: the handler
of the evaluator latches a type error for it (`fails if relevant`). -/
def wikrt_drop (cx : wikrt_cx) : wikrt_cx :=
  match cx.val with
  | P a e =>
    if wikrt_ss_droppable (wikrt_val_ss a) then { cx with val := e }
    else wikrt_set_error { cx with val := e } WIKRT_ETYPE
  | _ => wikrt_set_error cx WIKRT_ETYPE

/-! ### The evaluator (`wikrt_eval.c`) -/

def WIKRT_EVAL_COMPACTION_STEPS : Nat := 4

def wikrt_eval_push_op (X : wikrt_ext) (cx : wikrt_cx) (op : Nat) : wikrt_cx :=
  let r := wikrt_mem_reserve X cx WIKRT_CELLSIZE
  if r.1 = false then r.2
  else { wikrt_alloc_r r.2 WIKRT_CELLSIZE with pc := PL (wikrt_i2v op) r.2.pc }

/-- The function `wikrt_eval_push_opval`: `(v*e) → e`, with `v` added to the
head of `pc` as an opval. The pair cell of `cx->val` becomes the list cell. -/
def wikrt_eval_push_opval (X : wikrt_ext) (cx : wikrt_cx) : Option wikrt_cx :=
  match wikrt_wrap_otag X cx WIKRT_OTAG_OPVAL with
  | none => none
  | some (_, cx1) =>
    match cx1.val with
    | P a b => some { cx1 with val := b, pc := PL a cx1.pc }
    | _ => some cx1

def _wikrt_nop (cx : wikrt_cx) : wikrt_cx := cx

def _wikrt_sum_intro0 (X : wikrt_ext) (cx : wikrt_cx) : wikrt_cx :=
  wikrt_wrap_sum X cx WIKRT_INL

/-- The handler `_wikrt_sum_elim0`. When `wikrt_unwrap_sum` fails the local
`lr` is indeterminate, and an error is latched already, so that either
outcome of the test leaves the same state. -/
def _wikrt_sum_elim0 (cx : wikrt_cx) : wikrt_cx :=
  let r := wikrt_unwrap_sum cx
  if r.1 ≠ some WIKRT_INL then wikrt_set_error r.2 WIKRT_ETYPE else r.2

def _wikrt_sum_merge (cx : wikrt_cx) : wikrt_cx :=
  (wikrt_unwrap_sum cx).2

def _wikrt_sum_assert (cx : wikrt_cx) : wikrt_cx :=
  let r := wikrt_unwrap_sum cx
  if r.1 ≠ some WIKRT_INR then wikrt_set_error r.2 WIKRT_ETYPE else r.2

def _wikrt_accel_intro_void_left (X : wikrt_ext) (cx : wikrt_cx) : wikrt_cx :=
  wikrt_wrap_sum X cx WIKRT_INR

/-- The function `wikrt_dK`; `wikrt_int_mul` and `wikrt_int_add` are the
handlers of `OP_MUL` and `OP_ADD`. -/
def wikrt_dK (X : wikrt_ext) (cx : wikrt_cx) (k : Int) : Option wikrt_cx :=
  (X.prim OP_MUL (wikrt_intro_i32 X cx 10)).bind
    (fun c => X.prim OP_ADD (wikrt_intro_i32 X c k))

def _wikrt_intro_num (X : wikrt_ext) (cx : wikrt_cx) : wikrt_cx := wikrt_intro_i32 X cx 0

/-- The handler `_wikrt_int_cmp_gt` of the operator `G`. When `wikrt_int_cmp`
fails the local `gt` is indeterminate; the embedding takes the `else` branch
there. -/
def _wikrt_int_cmp_gt (X : wikrt_ext) (cx : wikrt_cx) : wikrt_cx :=
  let r := wikrt_int_cmp cx
  if r.1 = some WIKRT_GT then
    wikrt_wrap_sum X (wikrt_assocl r.2) WIKRT_INR
  else
    wikrt_wrap_sum X (wikrt_assocl (wikrt_wswap r.2)) WIKRT_INL

def wikrt_block_is_flagged_lazy (otag : Nat) : Bool := 0 != (WIKRT_BLOCK_LAZY &&& otag)

/-- The handler `_wikrt_eval_step_inline`: `([a→b]*a) → b`. The object cell
of the block is reused as the cell of the call stack that holds the return
address; with an empty `pc` the callee's operations take that place. -/
def _wikrt_eval_step_inline (X : wikrt_ext) (cx : wikrt_cx) : wikrt_cx :=
  match cx.val, cx.cc with
  | P (O otag ops d) a, P cstk e =>
    if ¬ wikrt_otag_block otag then wikrt_set_error cx WIKRT_ETYPE
    else if 0 ≠ WIKRT_BLOCK_LAZY &&& otag then
      let cx1 := { cx with val := P (O (otag &&& (2 ^ 64 - 1 - WIKRT_BLOCK_LAZY)) ops d) a }
      let r := wikrt_mem_reserve X cx1 WIKRT_CELLSIZE
      if r.1 = false then r.2
      else { wikrt_alloc_r r.2 WIKRT_CELLSIZE with val := O WIKRT_OTAG_PEND r.2.val [] }
    else if WIKRT_UNIT_INR = cx.pc then
      { cx with cc := P (PL ops cstk) e, val := a, pc := WIKRT_UNIT_INR }
    else
      { cx with cc := P (PL cx.pc cstk) e, val := a, pc := ops }
  | _, _ => wikrt_set_error cx WIKRT_ETYPE

def _wikrt_eval_step_tailcall (X : wikrt_ext) (cx : wikrt_cx) : wikrt_cx :=
  _wikrt_eval_step_inline X (wikrt_elim_unit_r (wikrt_assocl cx))

def _wikrt_eval_step_apply (X : wikrt_ext) (cx : wikrt_cx) : Option wikrt_cx :=
  (wikrt_eval_push_opval X
    (wikrt_eval_push_op X (wikrt_accel_swap (wikrt_assocl cx)) ACCEL_PROD_SWAP)).map
    (_wikrt_eval_step_inline X)

/-- The handler `_wikrt_eval_step_condap`. When `wikrt_unwrap_sum` fails the
local `lr` is indeterminate; the embedding takes the `else` branch there. -/
def _wikrt_eval_step_condap (X : wikrt_ext) (cx : wikrt_cx) : Option wikrt_cx :=
  let r := wikrt_unwrap_sum (wikrt_wswap cx)
  if r.1 = some WIKRT_INR then
    some (wikrt_drop (wikrt_wswap (wikrt_wrap_sum X r.2 WIKRT_INR)))
  else
    _wikrt_eval_step_apply X (wikrt_wswap (wikrt_eval_push_op X r.2 OP_SUM_INTRO0))

def _wikrt_asynch (X : wikrt_ext) (cx : wikrt_cx) : Option wikrt_cx :=
  (X.prim ACCEL_ANNO_LAZY (X.wikrt_intro_id_block cx)).bind (_wikrt_eval_step_apply X)

def wikrt_open_pending (cx : wikrt_cx) : wikrt_cx :=
  match cx.val with
  | P (O otag v _) e =>
    if wikrt_otag_pend otag then { cx with val := P v e }
    else wikrt_set_error cx WIKRT_ETYPE
  | _ => wikrt_set_error cx WIKRT_ETYPE

def _wikrt_join (X : wikrt_ext) (cx : wikrt_cx) : Option wikrt_cx :=
  _wikrt_eval_step_apply X (wikrt_assocr (wikrt_open_pending cx))

/-- The table `wikrt_op_evalfn_table`. Handlers whose bodies the sources do
not have and that are not modelled above are those of `X.prim`. -/
def wikrt_op_evalfn_table (X : wikrt_ext) (op : Nat) (cx : wikrt_cx) : Option wikrt_cx :=
  match op with
  | 1 => some (_wikrt_nop cx)
  | 2 => some (_wikrt_nop cx)
  | 3 => some (wikrt_assocl cx)
  | 4 => some (wikrt_assocr cx)
  | 5 => some (wikrt_wswap cx)
  | 6 => some (wikrt_zswap cx)
  | 7 => some (wikrt_intro_unit_r X cx)
  | 8 => some (wikrt_elim_unit_r cx)
  | 13 => some (_wikrt_sum_intro0 X cx)
  | 14 => some (_wikrt_sum_elim0 cx)
  | 16 => some (wikrt_drop cx)
  | 17 => _wikrt_eval_step_apply X cx
  | 22 => some (_wikrt_intro_num X cx)
  | 23 => wikrt_dK X cx 1
  | 24 => wikrt_dK X cx 2
  | 25 => wikrt_dK X cx 3
  | 26 => wikrt_dK X cx 4
  | 27 => wikrt_dK X cx 5
  | 28 => wikrt_dK X cx 6
  | 29 => wikrt_dK X cx 7
  | 30 => wikrt_dK X cx 8
  | 31 => wikrt_dK X cx 9
  | 32 => wikrt_dK X cx 0
  | 37 => some (_wikrt_int_cmp_gt X cx)
  | 38 => _wikrt_eval_step_condap X cx
  | 41 => some (_wikrt_sum_merge cx)
  | 42 => some (_wikrt_sum_assert cx)
  | 43 => some (_wikrt_eval_step_tailcall X cx)
  | 44 => some (_wikrt_eval_step_inline X cx)
  | 45 => some (wikrt_accel_swap cx)
  | 46 => some (wikrt_intro_unit X cx)
  | 48 => some (_wikrt_accel_intro_void_left X cx)
  | 57 => _wikrt_join X cx
  | 58 => _wikrt_asynch X cx
  | n => X.prim n cx

/-- The construction of an evaluation, `wikrt_apply`:
`((a→b)*(a*e)) → ((pending b) * e)`. -/
def wikrt_apply (X : wikrt_ext) (cx : wikrt_cx) : Option wikrt_cx :=
  let okType : Bool :=
    match cx.val with
    | P b _ => wikrt_blockval b
    | _ => false
  if okType = false then some (wikrt_set_error cx WIKRT_ETYPE)
  else (wikrt_wrap_otag X (wikrt_assocl cx) WIKRT_OTAG_PEND).map (fun r => r.2)

def wikrt_require_fresh_eval (cx : wikrt_cx) : wikrt_cx :=
  let is_fresh_eval : Bool := (WIKRT_REG_CC_INIT == cx.cc) && (WIKRT_REG_PC_INIT == cx.pc)
  if is_fresh_eval = false then wikrt_set_error cx WIKRT_IMPL else cx

def wikrt_run_eval_anno (cx : wikrt_cx) (_strAnno : List Nat) : wikrt_cx := cx

/-- The function `wikrt_run_eval_token`; a token is the list of its bytes,
the first byte of the empty token is the terminating NUL. -/
def wikrt_run_eval_token (X : wikrt_ext) (cx : wikrt_cx) (token : List Nat) : wikrt_cx :=
  if token.headD 0 = 38 then wikrt_run_eval_anno cx token
  else if token.headD 0 = 46 then
    let r := X.wikrt_unwrap_seal cx
    let match_seal : Bool := (r.1.headD 0 == 58) && (r.1.tail == token.tail)
    if match_seal = false then wikrt_set_error r.2 WIKRT_ETYPE else r.2
  else if token.headD 0 = 58 then X.wikrt_wrap_seal cx token
  else if token.headD 0 = 39 then X.wikrt_intro_sv cx token
  else wikrt_set_error cx WIKRT_IMPL

/-- The function `wikrt_run_eval_object`, for the extended operators. The
assertion on entry and the `abort()` of the last branch end the run (`none`). -/
def wikrt_run_eval_object (X : wikrt_ext) (cx : wikrt_cx) : Option wikrt_cx :=
  match cx.val with
  | P (O otag v d) b =>
    if wikrt_otag_opval otag then some { cx with val := P v b }
    else if wikrt_otag_seal_sm otag then
      match b with
      | P b0 b1 =>
        some (wikrt_elim_unit (wikrt_wswap { cx with val := P (O otag b0 d) (P v b1) }))
      | _ => some (wikrt_set_error cx WIKRT_ETYPE)
    else if wikrt_otag_seal otag then
      let r := X.wikrt_unwrap_seal cx
      some (wikrt_run_eval_token X (wikrt_elim_unit r.2) r.1)
    else none
  | _ => none

/-- The conversion of an integer to the type `wikrt_op` of `wikrt.h`, an
enumeration without negative members and so a 32-bit word: the value modulo
`2 ^ 32`. -/
def wikrt_op_of_int (i : Int) : Int := i % 2 ^ 32

/-- The function `wikrt_run_eval_operator`. Its parameter has the type
`wikrt_op`, so the opcode `(wikrt_op) wikrt_v2i(op)` of the call in
`wikrt_run_eval_step` arrives converted to the enumeration; the assertion on
entry ends the run (`none`). -/
def wikrt_run_eval_operator (X : wikrt_ext) (cx : wikrt_cx) (op : Int) : Option wikrt_cx :=
  if (OP_INVAL : Int) < wikrt_op_of_int op ∧ wikrt_op_of_int op < (OP_COUNT : Int) then
    wikrt_op_evalfn_table X (wikrt_op_of_int op).toNat cx
  else none

/-- What one pass through the body of the loop of `wikrt_run_eval_step`
does: it calls `wikrt_run_eval_operator` on an opcode, or
`wikrt_run_eval_object`, or pops the call stack and continues, or returns, or
ends in `abort()`. -/
inductive wikrt_iter where
  | operator (op : Int) (r : Option wikrt_cx)
  | object (r : Option wikrt_cx)
  | pop (cx : wikrt_cx)
  | ret (cx : wikrt_cx)
  | crash
  deriving DecidableEq, Repr

/-- The body of the `do { } while(true)` loop of `wikrt_run_eval_step`. -/
def wikrt_run_eval_iter (X : wikrt_ext) (tick_stop : Nat) (cx : wikrt_cx) : wikrt_iter :=
  match cx.pc with
  | PL op rest =>
    match op with
    | I n => .operator n (wikrt_run_eval_operator X { cx with pc := rest } n)
    | _ => .object (wikrt_run_eval_object X { cx with pc := rest, val := P op cx.val })
  | UR =>
    let eval_abort : Bool := decide (cx.compaction_count > tick_stop) || wikrt_has_error cx
    if eval_abort then .ret cx
    else
      match wikrt_pval cx.cc with
      | some (PL frame stack, _) =>
        .pop { cx with pc := frame, cc := wikrt_pval_set0 cx.cc stack }
      | some (UR, _) => .ret cx
      | _ => .crash
  | _ => .crash

/-- The result of a run: a state, or `abort()` and undefined behaviour, or
the step budget of the embedding used up. -/
inductive wikrt_res (α : Type) where
  | ok (a : α)
  | crash
  | nofuel
  deriving DecidableEq, Repr

def wikrt_run_eval_loop (X : wikrt_ext) (tick_stop : Nat) : Nat → wikrt_cx → wikrt_res wikrt_cx
  | 0, _ => .nofuel
  | fuel + 1, cx =>
    match wikrt_run_eval_iter X tick_stop cx with
    | .operator _ (some cx1) => wikrt_run_eval_loop X tick_stop fuel cx1
    | .object (some cx1) => wikrt_run_eval_loop X tick_stop fuel cx1
    | .pop cx1 => wikrt_run_eval_loop X tick_stop fuel cx1
    | .ret cx1 => .ok cx1
    | _ => .crash

/-- The function `wikrt_run_eval_step`; `fuel` bounds the passes through the
loop. -/
def wikrt_run_eval_step (X : wikrt_ext) (fuel : Nat) (cx : wikrt_cx) (tick_steps : Nat) :
    wikrt_res wikrt_cx :=
  wikrt_run_eval_loop X ((cx.compaction_count + tick_steps) % 2 ^ 64) fuel cx

/-- The function `wikrt_open_block_ops`: `(block * e) → (ops * e)`, returning
the header. -/
def wikrt_open_block_ops (cx : wikrt_cx) : Nat × wikrt_cx :=
  match cx.val with
  | P (O otag v _) e =>
    if wikrt_otag_block otag then (otag, { cx with val := P v e })
    else (0, wikrt_set_error cx WIKRT_ETYPE)
  | _ => (0, wikrt_set_error cx WIKRT_ETYPE)

/-- The state of `wikrt_step_eval` when it enters the loop: `e` and an empty
call stack are tucked into `cx->cc`, the operations of the block are in
`cx->pc`. A store through `wikrt_pval` of a word without a pair cell is
undefined (`none`). -/
def wikrt_step_eval_init (cx : wikrt_cx) : Option wikrt_cx :=
  match wikrt_pval cx.val with
  | none => none
  | some (x, _) =>
    let cx1 := { cx with cc := x, val := wikrt_pval_set0 cx.val WIKRT_UNIT_INR }
    let cx2 := { cx1 with val := cx1.cc, cc := cx1.val }
    let cx3 := (wikrt_open_block_ops cx2).2
    match wikrt_pval cx3.val with
    | none => none
    | some (y, _) =>
      let cx4 := { cx3 with pc := y, val := wikrt_pval_set0 cx3.val cx3.pc }
      some (wikrt_elim_unit cx4)

/-- The end of `wikrt_step_eval`, after the loop. -/
def wikrt_step_eval_exit (cx : wikrt_cx) : Option (Bool × wikrt_cx) :=
  if WIKRT_UNIT_INR = cx.pc then
    match wikrt_pval cx.cc with
    | none => none
    | some (stack, _) =>
      if WIKRT_UNIT_INR = stack then
        let cx1 := { cx with val := stack, cc := wikrt_pval_set0 cx.cc cx.val }
        let cx2 := { cx1 with val := cx1.cc, cc := cx1.val }
        some (false, { cx2 with pc := WIKRT_REG_PC_INIT, cc := WIKRT_REG_CC_INIT })
      else
        let cx1 := wikrt_set_error cx WIKRT_IMPL
        some (! wikrt_has_error cx1, cx1)
  else
    let cx1 := wikrt_set_error cx WIKRT_IMPL
    some (! wikrt_has_error cx1, cx1)

/-- The function `wikrt_step_eval`; `fuel` bounds the passes through the
interpreter loop. -/
def wikrt_step_eval (X : wikrt_ext) (fuel : Nat) (cx : wikrt_cx) : wikrt_res (Bool × wikrt_cx) :=
  let cx0 := wikrt_open_pending (wikrt_require_fresh_eval cx)
  if wikrt_has_error cx0 then .ok (false, cx0)
  else
    match wikrt_step_eval_init cx0 with
    | none => .crash
    | some cx1 =>
      match wikrt_run_eval_step X fuel cx1 WIKRT_EVAL_COMPACTION_STEPS with
      | .ok cx2 =>
        match wikrt_step_eval_exit cx2 with
        | some r => .ok r
        | none => .crash
      | .crash => .crash
      | .nofuel => .nofuel

/-! ### Predicates used by the theorems -/

/-- The collaborators that are not modelled leave the continuation register
`cx->cc` alone: they work on the primary value, as the primitives do. -/
def wikrt_ext_keeps_cc (X : wikrt_ext) : Prop :=
  (∀ cx sz, (X.wikrt_mem_gc_then_reserve cx sz).2.cc = cx.cc) ∧
  (∀ op cx cx1, X.prim op cx = some cx1 → cx1.cc = cx.cc) ∧
  (∀ cx, (X.wikrt_intro_id_block cx).cc = cx.cc) ∧
  (∀ cx, (X.wikrt_unwrap_seal cx).2.cc = cx.cc) ∧
  (∀ cx tok, (X.wikrt_wrap_seal cx tok).cc = cx.cc) ∧
  (∀ cx tok, (X.wikrt_intro_sv cx tok).cc = cx.cc)

/-- The register `cx->cc` is a pair `(call stack * e)`: the environment `e` is
hidden there. -/
def wikrt_hidden (e : wikrt_val) (cx : wikrt_cx) : Prop := ∃ stk, cx.cc = P stk e

/-- The property `Q` holds of the state with which the loop goes on after a
pass, and a pass that returns hands back the state it started from. -/
def wikrt_iter_keeps (Q : wikrt_cx → Prop) (cx : wikrt_cx) : wikrt_iter → Prop
  | .operator _ (some cx1) => Q cx1
  | .object (some cx1) => Q cx1
  | .pop cx1 => Q cx1
  | .ret cx1 => cx1 = cx
  | _ => True

/-- A deep-sum header holds at least one tag (`sums of depth one to twelve`);
the predicate is about the outermost object of a value. -/
def wikrt_deepsum_nonempty : wikrt_val → Prop
  | O otag _ _ => wikrt_otag_deepsum otag = true → otag >>> 8 ≠ 0
  | _ => True

/-- The state after `n` more passes through the loop of `wikrt_run_eval_step`,
`none` when the loop returns or aborts before. -/
def wikrt_run_eval_passes (X : wikrt_ext) (tick_stop : Nat) : Nat → wikrt_cx → Option wikrt_cx
  | 0, cx => some cx
  | n + 1, cx =>
    match wikrt_run_eval_iter X tick_stop cx with
    | .operator _ (some cx1) => wikrt_run_eval_passes X tick_stop n cx1
    | .object (some cx1) => wikrt_run_eval_passes X tick_stop n cx1
    | .pop cx1 => wikrt_run_eval_passes X tick_stop n cx1
    | _ => none

/-! ### Concrete contexts and collaborators for the examples -/

/-- Collaborators of a context that is full: the collector frees nothing and
reports the context full, the handlers that are not modelled do nothing. -/
def ext0 : wikrt_ext :=
  { wikrt_mem_gc_then_reserve := fun cx _ => (false, wikrt_set_error cx WIKRT_CXFULL),
    prim := fun _ cx => some cx,
    wikrt_intro_id_block := fun cx => cx,
    wikrt_unwrap_seal := fun cx => ([], cx),
    wikrt_wrap_seal := fun cx _ => cx,
    wikrt_intro_sv := fun cx _ => cx }

/-- Collaborators of a context that is nearly full: every compaction succeeds
and leaves room for one cell. -/
def ext_gc : wikrt_ext :=
  { ext0 with
    wikrt_mem_gc_then_reserve := fun cx _ =>
      (true, { cx with compaction_count := cx.compaction_count + 1, alloc := 17 }) }

/-- A fresh context (no error, registers at their initial values) that holds
the value `v` and has 1024 bytes left. -/
def cx0 (v : wikrt_val) : wikrt_cx :=
  { ecode := WIKRT_OK, val := v, pc := WIKRT_REG_PC_INIT, cc := WIKRT_REG_CC_INIT,
    txn := WIKRT_REG_TXN_INIT, alloc := 1024, size := 4096, compaction_count := 0 }

/-- A block without flags over the operations `ops`. -/
def blk (ops : wikrt_val) : wikrt_val := O WIKRT_OTAG_BLOCK ops []
/-- The operations list of the single opcode `a`. -/
def ops1 (a : Nat) : wikrt_val := PL (I a) WIKRT_UNIT_INR
/-- The pending value around `v`. -/
def pend (v : wikrt_val) : wikrt_val := O WIKRT_OTAG_PEND v []

/-- A fresh context with `((pending ([inline] * 5)) * 1)`: the block applies
the integer `5` as if it were a block. -/
def cx_c2 : wikrt_cx := cx0 (P (pend (P (blk (ops1 ACCEL_INLINE)) (I 5))) U)

/-- The value `([$] * (([$] * (([] * (1 * unit)) * unit)) * unit))`: two
nested applications of blocks that apply again, around an empty block. -/
def nest3 : wikrt_val :=
  P (blk (ops1 OP_APPLY)) (P (P (blk (ops1 OP_APPLY)) (P (P (blk UR) (P (I 1) U)) U)) U)

/-- A fresh context without free memory whose pending evaluation applies
three blocks in a row, hidden environment `7`. -/
def cx_c3 : wikrt_cx :=
  { cx0 (P (pend (P (blk (ops1 OP_APPLY)) nest3)) (I 7)) with alloc := 0 }

/-- The frame that `$` pushes for the environment `unit` and an empty `pc`. -/
def frame_unit : wikrt_val :=
  PL (O WIKRT_OTAG_OPVAL U []) (PL (I ACCEL_PROD_SWAP) UR)

/-- A fresh context with `((pending ([inline SP] * ([inline] * 5))) * 7)`:
the inner block is inlined with work left for the caller, then fails. -/
def cx_c4 : wikrt_cx :=
  cx0 (P (pend (P (blk (PL (I ACCEL_INLINE) (ops1 OP_SP)))
    (P (blk (ops1 ACCEL_INLINE)) (I 5)))) (I 7))

/-- A context inside the interpreter loop with a type error latched, the swap
accelerator still in `pc` and the value `(1 * 2)`. -/
def cx_c5 : wikrt_cx :=
  { cx0 (P (I 1) (I 2)) with
    ecode := WIKRT_ETYPE, pc := ops1 ACCEL_PROD_SWAP, cc := P WIKRT_UNIT_INR U }

/-- A fresh context with the value `(block * unit)`, which lacks the
`(a * e)` pair behind the block. -/
def cx_c10 : wikrt_cx := cx0 (P (blk (ops1 OP_SP)) U)

/-- A fresh context with `((pending ([SP] * 5)) * 1)`: the block does
nothing. -/
def cx_w2 : wikrt_cx := cx0 (P (pend (P (blk (ops1 OP_SP)) (I 5))) U)

/-- A context inside the interpreter loop, with an empty `pc` and an empty
call stack that hides the environment `7`. -/
def cx_loop : wikrt_cx :=
  { cx0 U with pc := WIKRT_UNIT_INR, cc := P WIKRT_UNIT_INR (I 7) }

/-! ### Addresses of bump allocations (`wikrt.h`) -/

/-- The address that `wikrt_alloc_r` returns: `cx->alloc + (wikrt_addr) cx->mem`
after the bump, on a 64-bit word, for the context memory at the address
`mem`. -/
def wikrt_alloc_r_addr (mem : Nat) (cx : wikrt_cx) (sz : Nat) : Nat :=
  ((wikrt_alloc_r cx sz).alloc + mem) % 2 ^ 64

/-- The calls `wikrt_alloc_r(cx, sz)` for the sizes `szs`, one after the other:
the address returned and the size of every call, in the order of the calls,
and the context after the last one. -/
def wikrt_alloc_r_seq (mem : Nat) (cx : wikrt_cx) : List Nat → List (Nat × Nat) × wikrt_cx
  | [] => ([], cx)
  | sz :: szs =>
    ((wikrt_alloc_r_addr mem cx sz, sz) :: (wikrt_alloc_r_seq mem (wikrt_alloc_r cx sz) szs).1,
      (wikrt_alloc_r_seq mem (wikrt_alloc_r cx sz) szs).2)

/-! ### The transaction register (`wikrt.h`) -/

/-- The function `wikrt_cx_has_txn` of `wikrt.h`. -/
def wikrt_cx_has_txn (cx : wikrt_cx) : Bool := WIKRT_REG_TXN_INIT == cx.txn

end Eval

namespace WikrtPrivate

/-! ## Small constants of `wikrt_private.h`

The words are those of a 64-bit system: `wikrt_v` is `uintptr_t`, `wikrt_n` is
`wikrt_v` and `wikrt_i` is `intptr_t`. -/

def WIKRT_V_MAX : Nat := 2 ^ 64 - 1

def WIKRT_SMALL : Nat := 0
def WIKRT_OBJ : Nat := 1
def WIKRT_COMP : Nat := 2
def WIKRT_CONS : Nat := 3
def WIKRT_VAL : Nat := 4

def WIKRT_REF_MASK_TYPE : Nat := 3

def WIKRT_SMALL_INT_OP : Nat := 8
def WIKRT_SMALL_INT_VAL : Nat := WIKRT_SMALL_INT_OP ||| WIKRT_VAL
def WIKRT_SMALL_NAT_OP : Nat := 16
def WIKRT_SMALL_NAT_VAL : Nat := WIKRT_SMALL_NAT_OP ||| WIKRT_VAL

def WIKRT_SMALLNAT_MAX : Nat := WIKRT_V_MAX >>> 5
def WIKRT_SMALLINT_MAX : Nat := WIKRT_SMALLNAT_MAX
/-- The macro `WIKRT_SMALLINT_MIN`, `(- WIKRT_SMALLINT_MAX)`: the negation of
an unsigned word, which is the word of the negative number. -/
def WIKRT_SMALLINT_MIN : Nat := (2 ^ 64 - WIKRT_SMALLINT_MAX) % 2 ^ 64

/-- The cast `(wikrt_v) i` of a signed integer to a word. -/
def wikrt_v_of_i (i : Int) : Nat := (i % 2 ^ 64).toNat

/-- The cast `(wikrt_i) v` of a word to a signed integer (two's complement). -/
def wikrt_i_of_v (v : Nat) : Int :=
  if v % 2 ^ 64 < 2 ^ 63 then ((v % 2 ^ 64 : Nat) : Int) else ((v % 2 ^ 64 : Nat) : Int) - 2 ^ 64

def wikrt_vtag (v : Nat) : Nat := WIKRT_REF_MASK_TYPE &&& v
def wikrt_action (v : Nat) : Bool := (WIKRT_VAL &&& v) == 0
def wikrt_value (v : Nat) : Bool := !wikrt_action v

def wikrt_val_in_ref (v : Nat) : Bool := wikrt_vtag v == 0
def wikrt_is_ptr (v : Nat) : Bool := !wikrt_val_in_ref v

def wikrt_is_small_nat_op (v : Nat) : Bool := WIKRT_SMALL_NAT_OP == (v &&& 0x1F)
def wikrt_is_small_nat_val (v : Nat) : Bool := WIKRT_SMALL_NAT_VAL == (v &&& 0x1F)
def wikrt_is_small_int_op (v : Nat) : Bool := WIKRT_SMALL_INT_OP == (v &&& 0x0F)
def wikrt_is_small_int_val (v : Nat) : Bool := WIKRT_SMALL_INT_VAL == (v &&& 0x0F)

def wikrt_from_small_nat (v : Nat) : Nat := v >>> 5
def wikrt_to_small_nat_val (n : Nat) : Nat := ((n <<< 5) % 2 ^ 64) ||| WIKRT_SMALL_NAT_VAL

/-- The function `wikrt_from_small_int`: `((wikrt_i) v) >> 4`, an arithmetic
shift. -/
def wikrt_from_small_int (v : Nat) : Int := wikrt_i_of_v v >>> (4 : Nat)

/-- The function `wikrt_to_small_int_val`: `((wikrt_v)(i << 4)) | WIKRT_SMALL_INT_VAL`;
the shift of the signed word is that of its two's complement bits. -/
def wikrt_to_small_int_val (i : Int) : Nat := wikrt_v_of_i (i * 2 ^ 4) ||| WIKRT_SMALL_INT_VAL

end WikrtPrivate

/-! ## Theorems on the sum constructors -/

/-- In the branch of `wikrt_alloc_sum_fl` that extends an existing deep-sum
header in place, the out-parameter `*c` is never written: it comes back with
whatever it held before, for every previous content. -/
theorem wikrt_alloc_sum_fl_inplace_keeps_c {FL : Type} (A : Word.wikrt_allocator FL)
    (cx : Word.wikrt_cx FL) (c v : Nat) (inRight : Bool)
    (hO : Word.wikrt_vtag v = Word.WIKRT_O)
    (hds : Word.wikrt_otag_deepsum (Word.rd cx (Word.wikrt_vaddr v) 0) = true)
    (hroom : Word.rd cx (Word.wikrt_vaddr v) 0 < 1 <<< 30) :
    (Word.wikrt_alloc_sum_fl A cx c inRight v).1 = Word.WIKRT_OK ∧
    (Word.wikrt_alloc_sum_fl A cx c inRight v).2.2 = c := by
  have hP : ¬ Word.WIKRT_P = Word.wikrt_vtag v := by rw [hO]; decide
  have hO2 : Word.WIKRT_O = Word.wikrt_vtag v := hO.symm
  have hroom2 : Word.rd cx (Word.wikrt_vaddr v) 0 < 1073741824 := hroom
  simp [Word.wikrt_alloc_sum_fl, hP, hO2, hds, hroom2]

/-- C1 (sum round trip), at a deep sum that has room in its header: `v` is the
tagged-object word 16 of a deep-sum cell with one tag, `*c` holds unit before
the call. `wikrt_alloc_sum_fl` returns `WIKRT_OK` and rewrites the header in
place, but leaves `*c` at unit, and `wikrt_split_sum_fl` on that `c` returns
`WIKRT_TYPE_ERROR` instead of `inRight = true` and `v`. -/
theorem wikrt_sum_round_trip_fails_inplace :
    (Word.wikrt_alloc_sum_fl Word.alloc_none Word.cx_deepsum Word.WIKRT_UNIT true 16).1
      = Word.WIKRT_OK ∧
    (Word.wikrt_alloc_sum_fl Word.alloc_none Word.cx_deepsum Word.WIKRT_UNIT true 16).2.2
      = Word.WIKRT_UNIT ∧
    Word.rd (Word.wikrt_alloc_sum_fl Word.alloc_none Word.cx_deepsum Word.WIKRT_UNIT true 16).2.1
      16 0 = ((((Word.WIKRT_DEEPSUML <<< 2) ||| Word.WIKRT_DEEPSUMR) <<< 8)
        ||| Word.WIKRT_OTAG_DEEPSUM) ∧
    (Word.wikrt_split_sum_fl Word.alloc_none
      (Word.wikrt_alloc_sum_fl Word.alloc_none Word.cx_deepsum Word.WIKRT_UNIT true 16).2.1
      (Word.wikrt_alloc_sum_fl Word.alloc_none Word.cx_deepsum Word.WIKRT_UNIT true 16).2.2
      false 0).1 = Word.WIKRT_TYPE_ERROR := by
  decide

/-! ## Theorems on the evaluator -/

namespace Eval
open wikrt_val

/-! ### The continuation register is left alone -/

@[simp] theorem cc_set_error (cx : wikrt_cx) (e : Nat) : (wikrt_set_error cx e).cc = cx.cc := by
  unfold wikrt_set_error; split <;> rfl

@[simp] theorem cc_assocl (cx : wikrt_cx) : (wikrt_assocl cx).cc = cx.cc := by
  unfold wikrt_assocl; split <;> simp

@[simp] theorem cc_assocr (cx : wikrt_cx) : (wikrt_assocr cx).cc = cx.cc := by
  unfold wikrt_assocr; split <;> simp

@[simp] theorem cc_wswap (cx : wikrt_cx) : (wikrt_wswap cx).cc = cx.cc := by
  unfold wikrt_wswap; split <;> simp

@[simp] theorem cc_zswap (cx : wikrt_cx) : (wikrt_zswap cx).cc = cx.cc := by
  unfold wikrt_zswap; split <;> simp

@[simp] theorem cc_accel_swap (cx : wikrt_cx) : (wikrt_accel_swap cx).cc = cx.cc := by
  unfold wikrt_accel_swap; split <;> simp

@[simp] theorem cc_elim_unit (cx : wikrt_cx) : (wikrt_elim_unit cx).cc = cx.cc := by
  unfold wikrt_elim_unit; split <;> simp

@[simp] theorem cc_elim_unit_r (cx : wikrt_cx) : (wikrt_elim_unit_r cx).cc = cx.cc := by
  unfold wikrt_elim_unit_r; split <;> simp

@[simp] theorem cc_drop (cx : wikrt_cx) : (wikrt_drop cx).cc = cx.cc := by
  unfold wikrt_drop; split
  · split <;> simp
  · simp

@[simp] theorem cc_open_pending (cx : wikrt_cx) : (wikrt_open_pending cx).cc = cx.cc := by
  unfold wikrt_open_pending; split
  · split <;> simp
  · simp

@[simp] theorem cc_unwrap_sum (cx : wikrt_cx) : (wikrt_unwrap_sum cx).2.cc = cx.cc := by
  unfold wikrt_unwrap_sum; split
  · split <;> simp
  · simp

@[simp] theorem cc_int_cmp (cx : wikrt_cx) : (wikrt_int_cmp cx).2.cc = cx.cc := by
  unfold wikrt_int_cmp; split <;> simp

theorem cc_alloc_r (cx : wikrt_cx) (sz : Nat) : (wikrt_alloc_r cx sz).cc = cx.cc := rfl

theorem cc_intro_r (cx : wikrt_cx) (v : wikrt_val) : (wikrt_intro_r cx v).cc = cx.cc := rfl

theorem cc_mem_reserve {X : wikrt_ext} (hX : wikrt_ext_keeps_cc X) (cx : wikrt_cx) (sz : Nat) :
    (wikrt_mem_reserve X cx sz).2.cc = cx.cc := by
  unfold wikrt_mem_reserve; split
  · rfl
  · exact hX.1 cx sz

theorem cc_intro_unit {X : wikrt_ext} (hX : wikrt_ext_keeps_cc X) (cx : wikrt_cx) :
    (wikrt_intro_unit X cx).cc = cx.cc := by
  unfold wikrt_intro_unit; simp only []; split
  · exact cc_mem_reserve hX cx _
  · rw [cc_intro_r]; exact cc_mem_reserve hX cx _

theorem cc_intro_unit_r {X : wikrt_ext} (hX : wikrt_ext_keeps_cc X) (cx : wikrt_cx) :
    (wikrt_intro_unit_r X cx).cc = cx.cc := by
  unfold wikrt_intro_unit_r; simp only []; split
  · exact cc_mem_reserve hX cx _
  · exact cc_mem_reserve hX cx _

theorem cc_intro_i32 {X : wikrt_ext} (hX : wikrt_ext_keeps_cc X) (cx : wikrt_cx) (n : Int) :
    (wikrt_intro_i32 X cx n).cc = cx.cc := by
  unfold wikrt_intro_i32; simp only []; split
  · exact cc_mem_reserve hX cx _
  · rw [cc_intro_r]; exact cc_mem_reserve hX cx _

theorem cc_wrap_sum {X : wikrt_ext} (hX : wikrt_ext_keeps_cc X) (cx : wikrt_cx) (lr : Bool) :
    (wikrt_wrap_sum X cx lr).cc = cx.cc := by
  unfold wikrt_wrap_sum; split
  · split
    · rfl
    · simp only []; split
      · exact cc_mem_reserve hX cx _
      · split
        · exact cc_mem_reserve hX cx _
        · rw [cc_set_error]; exact cc_mem_reserve hX cx _
  · simp

theorem cc_push_op {X : wikrt_ext} (hX : wikrt_ext_keeps_cc X) (cx : wikrt_cx) (op : Nat) :
    (wikrt_eval_push_op X cx op).cc = cx.cc := by
  unfold wikrt_eval_push_op; simp only []; split
  · exact cc_mem_reserve hX cx _
  · exact cc_mem_reserve hX cx _

theorem cc_wrap_otag {X : wikrt_ext} (hX : wikrt_ext_keeps_cc X) (cx : wikrt_cx) (otag : Nat)
    (r : Bool × wikrt_cx) (h : wikrt_wrap_otag X cx otag = some r) : r.2.cc = cx.cc := by
  unfold wikrt_wrap_otag at h
  simp only [] at h
  split at h
  · cases h; exact cc_mem_reserve hX cx _
  · unfold wikrt_wrap_otag_r at h
    split at h
    · simp only [Option.map] at h; cases h; exact cc_mem_reserve hX cx _
    · simp only [Option.map] at h; cases h

theorem cc_push_opval {X : wikrt_ext} (hX : wikrt_ext_keeps_cc X) (cx cx1 : wikrt_cx)
    (h : wikrt_eval_push_opval X cx = some cx1) : cx1.cc = cx.cc := by
  unfold wikrt_eval_push_opval at h
  split at h
  · cases h
  · rename_i b c hw
    have hc := cc_wrap_otag hX cx _ _ hw
    split at h
    · cases h; exact hc
    · cases h; exact hc

theorem hidden_of_cc {e : wikrt_val} {cx cx1 : wikrt_cx} (h : cx1.cc = cx.cc)
    (hh : wikrt_hidden e cx) : wikrt_hidden e cx1 := by
  obtain ⟨stk, hs⟩ := hh
  exact ⟨stk, by rw [h, hs]⟩

theorem hidden_inline {X : wikrt_ext} (hX : wikrt_ext_keeps_cc X) (e : wikrt_val)
    (cx : wikrt_cx) (hh : wikrt_hidden e cx) :
    wikrt_hidden e (_wikrt_eval_step_inline X cx) := by
  unfold _wikrt_eval_step_inline
  split
  · rename_i otag ops d a cstk e1 hv hc
    have he : e1 = e := by
      obtain ⟨stk, hs⟩ := hh
      rw [hc] at hs
      injection hs
    split
    · exact hidden_of_cc (cc_set_error _ _) hh
    · split
      · simp only []
        split
        · exact hidden_of_cc (by rw [cc_mem_reserve hX]) hh
        · exact hidden_of_cc (by show (wikrt_mem_reserve X _ _).2.cc = _; rw [cc_mem_reserve hX]) hh
      · split
        · exact ⟨_, by rw [he]⟩
        · exact ⟨_, by rw [he]⟩
  · exact hidden_of_cc (cc_set_error _ _) hh

theorem hidden_apply {X : wikrt_ext} (hX : wikrt_ext_keeps_cc X) (e : wikrt_val)
    (cx cx1 : wikrt_cx) (h : _wikrt_eval_step_apply X cx = some cx1) (hh : wikrt_hidden e cx) :
    wikrt_hidden e cx1 := by
  unfold _wikrt_eval_step_apply at h
  cases hp : wikrt_eval_push_opval X
      (wikrt_eval_push_op X (wikrt_accel_swap (wikrt_assocl cx)) ACCEL_PROD_SWAP) with
  | none => rw [hp] at h; cases h
  | some c =>
    rw [hp] at h
    simp only [Option.map] at h
    cases h
    apply hidden_inline hX
    apply hidden_of_cc _ hh
    rw [cc_push_opval hX _ _ hp, cc_push_op hX, cc_accel_swap, cc_assocl]

theorem hidden_condap {X : wikrt_ext} (hX : wikrt_ext_keeps_cc X) (e : wikrt_val)
    (cx cx1 : wikrt_cx) (h : _wikrt_eval_step_condap X cx = some cx1) (hh : wikrt_hidden e cx) :
    wikrt_hidden e cx1 := by
  unfold _wikrt_eval_step_condap at h
  simp only [] at h
  split at h
  · cases h
    apply hidden_of_cc _ hh
    rw [cc_drop, cc_wswap, cc_wrap_sum hX, cc_unwrap_sum, cc_wswap]
  · apply hidden_apply hX e _ _ h
    apply hidden_of_cc _ hh
    rw [cc_wswap, cc_push_op hX, cc_unwrap_sum, cc_wswap]

theorem hidden_dK {X : wikrt_ext} (hX : wikrt_ext_keeps_cc X) (e : wikrt_val) (k : Int)
    (cx cx1 : wikrt_cx) (h : wikrt_dK X cx k = some cx1) (hh : wikrt_hidden e cx) :
    wikrt_hidden e cx1 := by
  unfold wikrt_dK at h
  cases hm : X.prim OP_MUL (wikrt_intro_i32 X cx 10) with
  | none => rw [hm] at h; cases h
  | some c =>
    rw [hm] at h
    simp only [Option.bind] at h
    apply hidden_of_cc _ hh
    rw [hX.2.1 _ _ _ h, cc_intro_i32 hX, hX.2.1 _ _ _ hm, cc_intro_i32 hX]

theorem hidden_join {X : wikrt_ext} (hX : wikrt_ext_keeps_cc X) (e : wikrt_val)
    (cx cx1 : wikrt_cx) (h : _wikrt_join X cx = some cx1) (hh : wikrt_hidden e cx) :
    wikrt_hidden e cx1 := by
  unfold _wikrt_join at h
  apply hidden_apply hX e _ _ h
  apply hidden_of_cc _ hh
  rw [cc_assocr, cc_open_pending]

theorem hidden_asynch {X : wikrt_ext} (hX : wikrt_ext_keeps_cc X) (e : wikrt_val)
    (cx cx1 : wikrt_cx) (h : _wikrt_asynch X cx = some cx1) (hh : wikrt_hidden e cx) :
    wikrt_hidden e cx1 := by
  unfold _wikrt_asynch at h
  cases hm : X.prim ACCEL_ANNO_LAZY (X.wikrt_intro_id_block cx) with
  | none => rw [hm] at h; cases h
  | some c =>
    rw [hm] at h
    simp only [Option.bind] at h
    apply hidden_apply hX e _ _ h
    apply hidden_of_cc _ hh
    rw [hX.2.1 _ _ _ hm, hX.2.2.1]

theorem cc_cmp_gt {X : wikrt_ext} (hX : wikrt_ext_keeps_cc X) (cx : wikrt_cx) :
    (_wikrt_int_cmp_gt X cx).cc = cx.cc := by
  unfold _wikrt_int_cmp_gt
  simp only []
  split
  · rw [cc_wrap_sum hX, cc_assocl, cc_int_cmp]
  · rw [cc_wrap_sum hX, cc_assocl, cc_wswap, cc_int_cmp]

theorem cc_sum_elim0 (cx : wikrt_cx) : (_wikrt_sum_elim0 cx).cc = cx.cc := by
  unfold _wikrt_sum_elim0
  simp only []
  split
  · rw [cc_set_error, cc_unwrap_sum]
  · rw [cc_unwrap_sum]

theorem cc_sum_assert (cx : wikrt_cx) : (_wikrt_sum_assert cx).cc = cx.cc := by
  unfold _wikrt_sum_assert
  simp only []
  split
  · rw [cc_set_error, cc_unwrap_sum]
  · rw [cc_unwrap_sum]

theorem hidden_table {X : wikrt_ext} (hX : wikrt_ext_keeps_cc X) (e : wikrt_val) (op : Nat)
    (cx cx1 : wikrt_cx) (h : wikrt_op_evalfn_table X op cx = some cx1)
    (hh : wikrt_hidden e cx) : wikrt_hidden e cx1 := by
  unfold wikrt_op_evalfn_table at h
  split at h
  all_goals first
    | exact hidden_apply hX e _ _ h hh
    | exact hidden_condap hX e _ _ h hh
    | exact hidden_dK hX e _ _ _ h hh
    | exact hidden_join hX e _ _ h hh
    | exact hidden_asynch hX e _ _ h hh
    | exact hidden_of_cc (hX.2.1 _ _ _ h) hh
    | (cases h; exact hidden_inline hX e _ hh)
    | (cases h; exact hidden_inline hX e _ (hidden_of_cc (by rw [cc_elim_unit_r, cc_assocl]) hh))
    | (cases h; exact hh)
    | (cases h; apply hidden_of_cc _ hh
       first
        | exact cc_assocl _ | exact cc_assocr _ | exact cc_wswap _ | exact cc_zswap _
        | exact cc_intro_unit_r hX _ | exact cc_elim_unit_r _ | exact cc_wrap_sum hX _ _
        | exact cc_sum_elim0 _ | exact cc_drop _ | exact cc_intro_i32 hX _ _
        | exact cc_cmp_gt hX _ | exact cc_unwrap_sum _ | exact cc_sum_assert _
        | exact cc_accel_swap _ | exact cc_intro_unit hX _)

theorem cc_run_eval_token {X : wikrt_ext} (hX : wikrt_ext_keeps_cc X) (cx : wikrt_cx)
    (tok : List Nat) : (wikrt_run_eval_token X cx tok).cc = cx.cc := by
  unfold wikrt_run_eval_token
  split
  · rfl
  · split
    · simp only []
      split
      · rw [cc_set_error, hX.2.2.2.1]
      · rw [hX.2.2.2.1]
    · split
      · exact hX.2.2.2.2.1 _ _
      · split
        · exact hX.2.2.2.2.2 _ _
        · exact cc_set_error _ _

theorem cc_run_eval_object {X : wikrt_ext} (hX : wikrt_ext_keeps_cc X) (cx cx1 : wikrt_cx)
    (h : wikrt_run_eval_object X cx = some cx1) : cx1.cc = cx.cc := by
  unfold wikrt_run_eval_object at h
  split at h
  · split at h
    · cases h; rfl
    · split at h
      · split at h
        · cases h; rw [cc_elim_unit, cc_wswap]
        · cases h; exact cc_set_error _ _
      · split at h
        · simp only [] at h
          cases h
          rw [cc_run_eval_token hX, cc_elim_unit, hX.2.2.2.1]
        · cases h
  · cases h

theorem hidden_operator {X : wikrt_ext} (hX : wikrt_ext_keeps_cc X) (e : wikrt_val) (op : Int)
    (cx cx1 : wikrt_cx) (h : wikrt_run_eval_operator X cx op = some cx1)
    (hh : wikrt_hidden e cx) : wikrt_hidden e cx1 := by
  unfold wikrt_run_eval_operator at h
  split at h
  · exact hidden_table hX e _ _ _ h hh
  · cases h

theorem hidden_iter {X : wikrt_ext} (hX : wikrt_ext_keeps_cc X) (e : wikrt_val)
    (tick_stop : Nat) (cx : wikrt_cx) (hh : wikrt_hidden e cx) :
    wikrt_iter_keeps (wikrt_hidden e) cx (wikrt_run_eval_iter X tick_stop cx) := by
  unfold wikrt_run_eval_iter
  split
  · rename_i op rest hpc
    split
    · rename_i n
      cases hr : wikrt_run_eval_operator X { cx with pc := rest } n with
      | none => trivial
      | some c => exact hidden_operator hX e n _ _ hr hh
    · cases hr : wikrt_run_eval_object X { cx with pc := rest, val := P op cx.val } with
      | none => trivial
      | some c => exact hidden_of_cc (cc_run_eval_object hX _ _ hr) hh
  · simp only []
    split
    · rfl
    · obtain ⟨stk, hs⟩ := hh
      rw [hs]
      simp only [wikrt_pval, wikrt_pval_set0]
      split
      · rename_i frame stack x heq
        simp only [Option.some.injEq, Prod.mk.injEq] at heq
        exact ⟨stack, by rw [heq.2]⟩
      · rfl
      · trivial
  · trivial

theorem hidden_loop {X : wikrt_ext} (hX : wikrt_ext_keeps_cc X) (e : wikrt_val)
    (tick_stop : Nat) : ∀ (fuel : Nat) (cx cx1 : wikrt_cx),
    wikrt_run_eval_loop X tick_stop fuel cx = .ok cx1 → wikrt_hidden e cx →
    wikrt_hidden e cx1 := by
  intro fuel
  induction fuel with
  | zero => intro cx cx1 h; simp [wikrt_run_eval_loop] at h
  | succ n ih =>
    intro cx cx1 h hh
    have hi := hidden_iter hX e tick_stop cx hh
    unfold wikrt_run_eval_loop at h
    split at h
    · rename_i op c heq
      rw [heq] at hi
      exact ih _ _ h hi
    · rename_i c heq
      rw [heq] at hi
      exact ih _ _ h hi
    · rename_i c heq
      rw [heq] at hi
      exact ih _ _ h hi
    · rename_i c heq
      rw [heq] at hi
      have hi2 : c = cx := hi
      cases h
      rw [hi2]
      exact hh
    · cases h

theorem ext0_keeps_cc : wikrt_ext_keeps_cc ext0 := by
  refine ⟨?_, ?_, ?_, ?_, ?_, ?_⟩
  · intro cx sz; exact cc_set_error _ _
  · intro op cx cx1 h; cases h; rfl
  · intro cx; rfl
  · intro cx; rfl
  · intro cx tok; rfl
  · intro cx tok; rfl

/-! ### Steps with memory in reserve -/

theorem wikrt_alloc_r_cell (cx : wikrt_cx) (h : 16 ≤ cx.alloc) :
    wikrt_alloc_r cx WIKRT_CELLSIZE = { cx with alloc := cx.alloc - 16 } := by
  simp [wikrt_alloc_r, wikrt_word_sub, WIKRT_CELLSIZE, h]

theorem wikrt_mem_reserve_available (X : wikrt_ext) (cx : wikrt_cx) (sz : Nat)
    (h : sz < cx.alloc) : wikrt_mem_reserve X cx sz = (true, cx) := by
  simp [wikrt_mem_reserve, wikrt_mem_available, h]

theorem wikrt_eval_push_op_available (X : wikrt_ext) (cx : wikrt_cx) (op : Nat)
    (h : 16 < cx.alloc) :
    wikrt_eval_push_op X cx op
      = { cx with pc := PL (I op) cx.pc, alloc := cx.alloc - 16 } := by
  have hr := wikrt_mem_reserve_available X cx 16 h
  have ha := wikrt_alloc_r_cell cx (by omega)
  simp [WIKRT_CELLSIZE] at ha
  simp [wikrt_eval_push_op, WIKRT_CELLSIZE, hr, wikrt_i2v, ha]

theorem wikrt_wrap_otag_available (X : wikrt_ext) (cx : wikrt_cx) (otag : Nat) (a b : wikrt_val)
    (hv : cx.val = P a b) (h : 16 < cx.alloc) :
    wikrt_wrap_otag X cx otag
      = some (true, { cx with val := P (O otag a []) b, alloc := cx.alloc - 16 }) := by
  have hr := wikrt_mem_reserve_available X cx 16 h
  have ha := wikrt_alloc_r_cell cx (by omega)
  simp [WIKRT_CELLSIZE] at ha
  simp [wikrt_wrap_otag, wikrt_wrap_otag_r, WIKRT_CELLSIZE, hr, hv, wikrt_pval, wikrt_pval_set0, ha]

theorem wikrt_eval_push_opval_available (X : wikrt_ext) (cx : wikrt_cx) (a b : wikrt_val)
    (hv : cx.val = P a b) (h : 16 < cx.alloc) :
    wikrt_eval_push_opval X cx
      = some { cx with val := b, pc := PL (O WIKRT_OTAG_OPVAL a []) cx.pc,
                       alloc := cx.alloc - 16 } := by
  simp [wikrt_eval_push_opval, wikrt_wrap_otag_available X cx _ a b hv h]

theorem inline_nonlazy (X : wikrt_ext) (cx : wikrt_cx) (otag : Nat) (ops a cstk e : wikrt_val)
    (d : List Nat) (hblk : wikrt_otag_block otag = true) (hlazy : WIKRT_BLOCK_LAZY &&& otag = 0) :
    _wikrt_eval_step_inline X { cx with val := P (O otag ops d) a, cc := P cstk e }
      = if WIKRT_UNIT_INR = cx.pc then
          { cx with val := a, pc := WIKRT_UNIT_INR, cc := P (PL ops cstk) e }
        else { cx with val := a, pc := ops, cc := P (PL cx.pc cstk) e } := by
  simp [_wikrt_eval_step_inline, hblk, hlazy]

theorem apply_step (X : wikrt_ext) (cx : wikrt_cx) (otag : Nat) (ops a e cstk e0 : wikrt_val)
    (d : List Nat) (hblk : wikrt_otag_block otag = true) (hlazy : WIKRT_BLOCK_LAZY &&& otag = 0)
    (hmem : wikrt_mem_available cx (2 * WIKRT_CELLSIZE) = true) :
    _wikrt_eval_step_apply X { cx with val := P (O otag ops d) (P a e), cc := P cstk e0 }
      = some { cx with
          val := a, pc := ops,
          cc := P (PL (PL (O WIKRT_OTAG_OPVAL e []) (PL (I ACCEL_PROD_SWAP) cx.pc)) cstk) e0,
          alloc := cx.alloc - 2 * WIKRT_CELLSIZE } := by
  simp only [wikrt_mem_available, WIKRT_CELLSIZE, decide_eq_true_eq] at hmem
  have e1 := wikrt_eval_push_op_available X
    { cx with val := P e (P (O otag ops d) a), cc := P cstk e0 } ACCEL_PROD_SWAP
    (by show 16 < cx.alloc; omega)
  have e2 := wikrt_eval_push_opval_available X
    { cx with val := P e (P (O otag ops d) a), cc := P cstk e0,
              pc := PL (I ACCEL_PROD_SWAP) cx.pc, alloc := cx.alloc - 16 }
    e (P (O otag ops d) a) rfl (by show 16 < cx.alloc - 16; omega)
  have e3 := inline_nonlazy X
    { cx with pc := PL (O WIKRT_OTAG_OPVAL e []) (PL (I ACCEL_PROD_SWAP) cx.pc),
              alloc := cx.alloc - 16 - 16 } otag ops a cstk e0 d hblk hlazy
  simp only [_wikrt_eval_step_apply, wikrt_assocl, wikrt_accel_swap]
  simp only [] at e1 e2 e3
  rw [e1, e2]
  simp only [Option.map]
  rw [e3]
  simp [WIKRT_UNIT_INR, WIKRT_CELLSIZE]
  omega

/-! ### Deep-sum headers -/

theorem nat_and_255 (x : Nat) : x &&& 255 = x % 256 :=
  Nat.and_pow_two_sub_one_eq_mod x 8

theorem nat_3_and (x : Nat) : 3 &&& x = x % 4 := by
  rw [Nat.and_comm]; exact Nat.and_pow_two_sub_one_eq_mod x 2

theorem nat_shl8_or (a b : Nat) (hb : b < 256) : (a <<< 8) ||| b = 256 * a + b := by
  have h := Nat.mul_add_lt_is_or (i := 8) (b := b) hb a
  rw [Nat.shiftLeft_eq, Nat.mul_comm]
  exact h.symm

theorem nat_mul4_or (a b : Nat) (hb : b < 4) : (4 * a) ||| b = 4 * a + b := by
  have h := Nat.mul_add_lt_is_or (i := 2) (b := b) hb a
  exact h.symm

theorem nat_shr (x : Nat) : x >>> 6 = x / 64 ∧ x >>> 8 = x / 256 ∧ x >>> 2 = x / 4 := by
  refine ⟨?_, ?_, ?_⟩ <;> rw [Nat.shiftRight_eq_div_pow]

theorem deepsum_push_otag (otag t : Nat) (hlo : otag % 256 = 43) (ht : t < 4) :
    (((otag >>> 6) ||| t) <<< 8) ||| 43 = 256 * (4 * (otag / 256) + t) + 43 := by
  have h6 : otag >>> 6 = 4 * (otag / 256) := by rw [(nat_shr otag).1]; omega
  rw [h6, nat_mul4_or _ _ ht, nat_shl8_or _ _ (by omega)]

theorem deepsum_tag_lt (lr : Bool) : (if lr then WIKRT_DEEPSUMR else WIKRT_DEEPSUML) < 4 := by
  cases lr <;> decide

theorem deepsum_tag_test (lr : Bool) (q : Nat) :
    ((4 * q + (if lr then WIKRT_DEEPSUMR else WIKRT_DEEPSUML)) % 4 == 3) = lr := by
  cases lr
  · simp [WIKRT_DEEPSUML]; omega
  · simp [WIKRT_DEEPSUMR]; omega

theorem otag_deepsum_iff (otag : Nat) : wikrt_otag_deepsum otag = true ↔ otag % 256 = 43 := by
  simp only [wikrt_otag_deepsum, LOBYTE, WIKRT_OTAG_DEEPSUM, beq_iff_eq]
  rw [show (0xFF : Nat) = 255 from rfl, nat_and_255]
  omega

theorem unwrap_deepsum_cell (lr : Bool) (x : wikrt_val) :
    wikrt_unwrap_sum_rv (O (wikrt_deepsum_otag lr) x []) = .ok (lr, x) := by
  cases lr <;> rfl

theorem unwrap_wrap_inplace (lr : Bool) (x s : wikrt_val) (hwf : wikrt_deepsum_nonempty x)
    (h : wikrt_wrap_sum_inplace lr x = some s) : wikrt_unwrap_sum_rv s = .ok (lr, x) := by
  cases x with
  | P a b => cases lr <;> (simp [wikrt_wrap_sum_inplace] at h; subst h; rfl)
  | U => cases lr <;> (simp [wikrt_wrap_sum_inplace] at h; subst h; rfl)
  | O otag v d =>
    simp only [wikrt_wrap_sum_inplace] at h
    split at h
    · rename_i hc
      cases h
      have hlo : otag % 256 = 43 := (otag_deepsum_iff otag).1 hc.1
      have hne : otag / 256 ≠ 0 := by
        have := hwf hc.1
        rwa [(nat_shr otag).2.1] at this
      have hN := deepsum_push_otag otag _ hlo (deepsum_tag_lt lr)
      simp only [WIKRT_OTAG_DEEPSUM] at hN ⊢
      rw [hN]
      have hds : wikrt_otag_deepsum
          (256 * (4 * (otag / 256) + if lr = true then WIKRT_DEEPSUMR else WIKRT_DEEPSUML) + 43)
            = true := by
        rw [otag_deepsum_iff]; omega
      have hs0 : (256 * (4 * (otag / 256) + if lr = true then WIKRT_DEEPSUMR else WIKRT_DEEPSUML)
          + 43) >>> 8 = 4 * (otag / 256) + if lr = true then WIKRT_DEEPSUMR else WIKRT_DEEPSUML := by
        rw [(nat_shr _).2.1]; omega
      have hlt := deepsum_tag_lt lr
      have hsf : (4 * (otag / 256) + if lr = true then WIKRT_DEEPSUMR else WIKRT_DEEPSUML) >>> 2
          = otag / 256 := by
        rw [(nat_shr _).2.2]; omega
      have hback : ((otag / 256) <<< 8) ||| 43 = otag := by
        rw [nat_shl8_or _ _ (by omega)]; omega
      have htest := deepsum_tag_test lr (otag / 256)
      simp only [wikrt_unwrap_sum_rv, hds, hs0, hsf, if_true, WIKRT_OTAG_DEEPSUM, hback, nat_3_and]
      rw [if_neg (fun h => hne h.symm)]
      congr 2
      rw [Bool.beq_comm]
      exact htest
    · cases h
  | _ => simp [wikrt_wrap_sum_inplace] at h

theorem wrap_sum_spec (X : wikrt_ext) (cx : wikrt_cx) (lr : Bool) (x e : wikrt_val)
    (hwf : wikrt_deepsum_nonempty x) (hmem : wikrt_mem_available cx WIKRT_CELLSIZE = true) :
    ∃ s al, wikrt_unwrap_sum_rv s = .ok (lr, x) ∧
      wikrt_wrap_sum X { cx with val := P x e } lr = { cx with val := P s e, alloc := al } := by
  unfold wikrt_wrap_sum
  simp only []
  cases hi : wikrt_wrap_sum_inplace lr x with
  | some s => exact ⟨s, cx.alloc, unwrap_wrap_inplace lr x s hwf hi, rfl⟩
  | none =>
    simp only [wikrt_mem_available, decide_eq_true_eq] at hmem
    have hr := wikrt_mem_reserve_available X { cx with val := P x e } WIKRT_CELLSIZE hmem
    simp only [hr]
    exact ⟨_, _, unwrap_deepsum_cell lr x, rfl⟩

/-! ### Passes through the loop -/

theorem passes_succ (X : wikrt_ext) (tick_stop n : Nat) (cx : wikrt_cx) :
    wikrt_run_eval_passes X tick_stop (n + 1) cx
      = match wikrt_run_eval_iter X tick_stop cx with
        | .operator _ (some cx1) => wikrt_run_eval_passes X tick_stop n cx1
        | .object (some cx1) => wikrt_run_eval_passes X tick_stop n cx1
        | .pop cx1 => wikrt_run_eval_passes X tick_stop n cx1
        | _ => none := rfl

theorem iter_pop (X : wikrt_ext) (tick_stop : Nat) (cx : wikrt_cx) (f stk e0 : wikrt_val)
    (hok : cx.ecode = WIKRT_OK) (hq : cx.compaction_count ≤ tick_stop)
    (hpc : cx.pc = WIKRT_UNIT_INR) (hcc : cx.cc = P (PL f stk) e0) :
    wikrt_run_eval_iter X tick_stop cx = .pop { cx with pc := f, cc := P stk e0 } := by
  simp [wikrt_run_eval_iter, hpc, WIKRT_UNIT_INR, wikrt_has_error, hok, Nat.not_lt.mpr hq, hcc,
    wikrt_pval, wikrt_pval_set0]

theorem iter_operator (X : wikrt_ext) (tick_stop : Nat) (cx : wikrt_cx) (n : Int)
    (rest : wikrt_val) (hpc : cx.pc = PL (I n) rest) :
    wikrt_run_eval_iter X tick_stop cx
      = .operator n (wikrt_run_eval_operator X { cx with pc := rest } n) := by
  simp [wikrt_run_eval_iter, hpc]

theorem iter_opval (X : wikrt_ext) (tick_stop : Nat) (cx : wikrt_cx) (v rest : wikrt_val)
    (hpc : cx.pc = PL (O WIKRT_OTAG_OPVAL v []) rest) :
    wikrt_run_eval_iter X tick_stop cx
      = .object (some { cx with pc := rest, val := P v cx.val }) := by
  have ho : wikrt_otag_opval WIKRT_OTAG_OPVAL = true := by decide
  simp [wikrt_run_eval_iter, hpc, wikrt_run_eval_object, ho]

theorem operator_swap (X : wikrt_ext) (cx : wikrt_cx) (a b : wikrt_val) (hv : cx.val = P a b) :
    wikrt_run_eval_operator X cx ACCEL_PROD_SWAP = some { cx with val := P b a } := by
  simp [wikrt_run_eval_operator, wikrt_op_of_int, ACCEL_PROD_SWAP, OP_INVAL, OP_COUNT, wikrt_op_evalfn_table,
    wikrt_accel_swap, hv]

theorem passes_apply_frame (X : wikrt_ext) (tick_stop : Nat) (cxb : wikrt_cx)
    (e rest stk e0 : wikrt_val) (hok : cxb.ecode = WIKRT_OK)
    (hq : cxb.compaction_count ≤ tick_stop) :
    wikrt_run_eval_passes X tick_stop 3
        { cxb with pc := WIKRT_UNIT_INR,
                   cc := P (PL (PL (O WIKRT_OTAG_OPVAL e []) (PL (I ACCEL_PROD_SWAP) rest)) stk) e0 }
      = some { cxb with val := P cxb.val e, pc := rest, cc := P stk e0 } := by
  have h1 := iter_pop X tick_stop
    { cxb with pc := WIKRT_UNIT_INR,
               cc := P (PL (PL (O WIKRT_OTAG_OPVAL e []) (PL (I ACCEL_PROD_SWAP) rest)) stk) e0 }
    (PL (O WIKRT_OTAG_OPVAL e []) (PL (I ACCEL_PROD_SWAP) rest)) stk e0 hok hq rfl rfl
  have h2 := iter_opval X tick_stop
    { cxb with pc := PL (O WIKRT_OTAG_OPVAL e []) (PL (I ACCEL_PROD_SWAP) rest), cc := P stk e0 }
    e (PL (I ACCEL_PROD_SWAP) rest) rfl
  have h3 := iter_operator X tick_stop
    { cxb with pc := PL (I ACCEL_PROD_SWAP) rest, cc := P stk e0, val := P e cxb.val }
    ACCEL_PROD_SWAP rest rfl
  have h4 := operator_swap X { cxb with pc := rest, cc := P stk e0, val := P e cxb.val }
    e cxb.val rfl
  simp only [] at h1 h2 h3 h4
  rw [h4] at h3
  rw [passes_succ, h1]
  simp only []
  rw [passes_succ, h2]
  simp only []
  rw [passes_succ, h3]
  rfl

theorem operator_apply (X : wikrt_ext) (cx : wikrt_cx) :
    wikrt_run_eval_operator X cx OP_APPLY = _wikrt_eval_step_apply X cx := by
  simp [wikrt_run_eval_operator, wikrt_op_of_int, OP_APPLY, OP_INVAL, OP_COUNT, wikrt_op_evalfn_table]

theorem operator_condap (X : wikrt_ext) (cx : wikrt_cx) :
    wikrt_run_eval_operator X cx OP_CONDAP = _wikrt_eval_step_condap X cx := by
  simp [wikrt_run_eval_operator, wikrt_op_of_int, OP_CONDAP, OP_INVAL, OP_COUNT, wikrt_op_evalfn_table]

theorem condap_right (X : wikrt_ext) (cx : wikrt_cx) (bk s x e : wikrt_val)
    (hs : wikrt_unwrap_sum_rv s = .ok (true, x)) (hwf : wikrt_deepsum_nonempty x)
    (hmem : wikrt_mem_available cx WIKRT_CELLSIZE = true) :
    ∃ s1 al, wikrt_unwrap_sum_rv s1 = .ok (true, x) ∧
      _wikrt_eval_step_condap X { cx with val := P bk (P s e) }
        = some (if wikrt_ss_droppable (wikrt_val_ss bk) = true
            then { cx with val := P s1 e, alloc := al }
            else wikrt_set_error { cx with val := P s1 e, alloc := al } WIKRT_ETYPE) := by
  obtain ⟨s1, al, h1, h2⟩ := wrap_sum_spec X { cx with val := P x (P bk e) } true x (P bk e) hwf hmem
  refine ⟨s1, al, h1, ?_⟩
  simp only [] at h2
  simp only [_wikrt_eval_step_condap, wikrt_wswap, wikrt_unwrap_sum, hs, WIKRT_INR, if_true, h2,
    wikrt_drop]

theorem condap_left (X : wikrt_ext) (cx : wikrt_cx) (bk s a e : wikrt_val)
    (hs : wikrt_unwrap_sum_rv s = .ok (false, a))
    (hmem : wikrt_mem_available cx WIKRT_CELLSIZE = true) :
    _wikrt_eval_step_condap X { cx with val := P bk (P s e) }
      = _wikrt_eval_step_apply X
          { cx with val := P bk (P a e), pc := PL (I OP_SUM_INTRO0) cx.pc,
                    alloc := cx.alloc - WIKRT_CELLSIZE } := by
  simp only [wikrt_mem_available, decide_eq_true_eq, WIKRT_CELLSIZE] at hmem
  have e1 := wikrt_eval_push_op_available X { cx with val := P a (P bk e) } OP_SUM_INTRO0 hmem
  simp only [] at e1
  simp [_wikrt_eval_step_condap, wikrt_wswap, wikrt_unwrap_sum, hs, WIKRT_INR, e1, WIKRT_CELLSIZE]

theorem passes_sum_intro0 (X : wikrt_ext) (tick_stop : Nat) (cxb : wikrt_cx)
    (c e rest : wikrt_val) (hwf : wikrt_deepsum_nonempty c)
    (hmem : wikrt_mem_available cxb WIKRT_CELLSIZE = true) :
    ∃ c1 al, wikrt_unwrap_sum_rv c1 = .ok (false, c) ∧
      wikrt_run_eval_passes X tick_stop 1
          { cxb with val := P c e, pc := PL (I OP_SUM_INTRO0) rest }
        = some { cxb with val := P c1 e, pc := rest, alloc := al } := by
  obtain ⟨s1, al, h1, h2⟩ := wrap_sum_spec X { cxb with pc := rest } false c e hwf hmem
  refine ⟨s1, al, h1, ?_⟩
  simp only [] at h2
  have hi := iter_operator X tick_stop
    { cxb with val := P c e, pc := PL (I OP_SUM_INTRO0) rest } OP_SUM_INTRO0 rest rfl
  simp only [] at hi
  rw [passes_succ, hi]
  have ho : wikrt_run_eval_operator X { cxb with val := P c e, pc := rest } OP_SUM_INTRO0
      = some (wikrt_wrap_sum X { cxb with val := P c e, pc := rest } false) := by
    simp [wikrt_run_eval_operator, wikrt_op_of_int, OP_SUM_INTRO0, OP_INVAL, OP_COUNT, wikrt_op_evalfn_table,
      _wikrt_sum_intro0, WIKRT_INL]
  rw [ho, h2]
  rfl

theorem passes_add (X : wikrt_ext) (tick_stop : Nat) (m : Nat) :
    ∀ (n : Nat) (cx cx1 : wikrt_cx), wikrt_run_eval_passes X tick_stop n cx = some cx1 →
      wikrt_run_eval_passes X tick_stop (n + m) cx = wikrt_run_eval_passes X tick_stop m cx1 := by
  intro n
  induction n with
  | zero =>
    intro cx cx1 h
    simp only [wikrt_run_eval_passes, Option.some.injEq] at h
    subst h
    simp
  | succ k ih =>
    intro cx cx1 h
    rw [Nat.add_right_comm, passes_succ]
    rw [passes_succ] at h
    split at h
    · exact ih _ _ h
    · exact ih _ _ h
    · exact ih _ _ h
    · cases h

/-! ### The claims -/

/-- Whatever the context and the collaborators, `wikrt_step_eval` does not
return true: after the loop it either finishes or latches `WIKRT_IMPL`. -/
theorem wikrt_step_eval_never_true (X : wikrt_ext) (fuel : Nat) (cx : wikrt_cx)
    (r : Bool × wikrt_cx) (h : wikrt_step_eval X fuel cx = .ok r) : r.1 = false := by
  have himpl : ∀ c : wikrt_cx, (! wikrt_has_error (wikrt_set_error c WIKRT_IMPL)) = false := by
    intro c
    unfold wikrt_set_error wikrt_has_error
    split
    · rfl
    · rename_i hne
      simp only [Bool.not_eq_false', bne_iff_ne, ne_eq]
      exact fun h => hne h.symm
  unfold wikrt_step_eval at h
  simp only [] at h
  split at h
  · cases h; rfl
  · split at h
    · cases h
    · split at h
      · split at h
        · rename_i r1 hexit
          cases h
          unfold wikrt_step_eval_exit at hexit
          split at hexit
          · split at hexit
            · cases hexit
            · split at hexit
              · cases hexit; rfl
              · cases hexit; exact himpl _
          · cases hexit; exact himpl _
        · cases h
      · cases h
      · cases h

/-- C2, counterexample: a fresh context with `((pending ([inline] * 5)) * 1)`.
The only operation latches a type error, the loop ends with `pc` and the call
stack empty, and `wikrt_step_eval` returns false with the value `(5 * 1)` and
the registers restored, but with the type error latched. -/
theorem wikrt_step_eval_done_with_error :
    wikrt_run_eval_step ext0 10
        { cx0 (I 5) with pc := ops1 ACCEL_INLINE, cc := P WIKRT_UNIT_INR U }
        WIKRT_EVAL_COMPACTION_STEPS
      = .ok { cx0 (I 5) with ecode := WIKRT_ETYPE, pc := WIKRT_UNIT_INR,
                             cc := P WIKRT_UNIT_INR U } ∧
    wikrt_step_eval ext0 10 cx_c2
      = .ok (false, { cx0 (P (I 5) U) with ecode := WIKRT_ETYPE }) ∧
    wikrt_has_error { cx0 (P (I 5) U) with ecode := WIKRT_ETYPE } = true := by
  decide

/-- C2, as amended: on a fresh context without an error whose value is
`((pending (block * a)) * e)`, if the interpreter loop (run from the state
with `a` in `cx->val`, the block's operations in `cx->pc` and `e` below an
empty call stack in `cx->cc`) ends in `cx2` with `pc` and the call stack empty,
then `wikrt_step_eval` returns false, `cx->val` is `(r * e)` for the value `r`
that the loop left, `pc` and `cc` hold their initial values, and everything
else, the error latch included, is as the loop left it. -/
theorem wikrt_step_eval_completed (X : wikrt_ext) (hX : wikrt_ext_keeps_cc X) (fuel : Nat)
    (cx cx2 : wikrt_cx) (ptag otag : Nat) (ops a e : wikrt_val) (d dp : List Nat)
    (hok : cx.ecode = WIKRT_OK) (hpc : cx.pc = WIKRT_REG_PC_INIT)
    (hcc : cx.cc = WIKRT_REG_CC_INIT)
    (hval : cx.val = P (O ptag (P (O otag ops d) a) dp) e)
    (hpend : wikrt_otag_pend ptag = true) (hblk : wikrt_otag_block otag = true)
    (hloop : wikrt_run_eval_step X fuel
        { cx with val := a, pc := ops, cc := P WIKRT_UNIT_INR e } WIKRT_EVAL_COMPACTION_STEPS
      = .ok cx2)
    (hpc2 : cx2.pc = WIKRT_UNIT_INR)
    (hstk : ∃ h, wikrt_pval cx2.cc = some (WIKRT_UNIT_INR, h)) :
    wikrt_step_eval X fuel cx
      = .ok (false, { cx2 with val := P cx2.val e, pc := WIKRT_REG_PC_INIT,
                               cc := WIKRT_REG_CC_INIT }) := by
  have hh : wikrt_hidden e cx2 :=
    hidden_loop hX e _ fuel _ _ hloop ⟨WIKRT_UNIT_INR, rfl⟩
  obtain ⟨stk, hs⟩ := hh
  obtain ⟨h0, hp⟩ := hstk
  rw [hs] at hp
  simp only [wikrt_pval, Option.some.injEq, Prod.mk.injEq] at hp
  have hs2 : cx2.cc = P WIKRT_UNIT_INR e := by rw [hs, hp.1]
  have hfresh : wikrt_require_fresh_eval cx = cx := by
    simp [wikrt_require_fresh_eval, hpc, hcc]
  have hopen : wikrt_open_pending cx = { cx with val := P (P (O otag ops d) a) e } := by
    simp [wikrt_open_pending, hval, hpend]
  have hinit : wikrt_step_eval_init { cx with val := P (P (O otag ops d) a) e }
      = some { cx with val := a, pc := ops, cc := P WIKRT_UNIT_INR e } := by
    simp [wikrt_step_eval_init, wikrt_pval, wikrt_pval_set0, wikrt_open_block_ops, hblk,
      wikrt_elim_unit, hpc, WIKRT_REG_PC_INIT, WIKRT_UNIT]
  have hexit : wikrt_step_eval_exit cx2
      = some (false, { cx2 with val := P cx2.val e, pc := WIKRT_REG_PC_INIT,
                                cc := WIKRT_REG_CC_INIT }) := by
    simp [wikrt_step_eval_exit, hpc2, hs2, wikrt_pval, wikrt_pval_set0]
  unfold wikrt_step_eval
  simp only [hfresh, hopen]
  have herr : wikrt_has_error { cx with val := P (P (O otag ops d) a) e } = false := by
    simp [wikrt_has_error, hok]
  rw [herr]
  simp only [hinit, hloop, hexit]
  simp

/-- C2, witness: `((pending ([SP] * 5)) * 1)` in a fresh context steps to
`(5 * 1)` without an error. -/
theorem wikrt_step_eval_completed_witness :
    wikrt_step_eval ext0 10 cx_w2 = .ok (false, cx0 (P (I 5) U)) :=
  wikrt_step_eval_completed ext0 ext0_keeps_cc 10 cx_w2
    { cx0 (I 5) with pc := WIKRT_UNIT_INR, cc := P WIKRT_UNIT_INR U }
    WIKRT_OTAG_PEND WIKRT_OTAG_BLOCK (ops1 OP_SP) (I 5) U [] []
    rfl rfl rfl rfl (by decide) (by decide) (by decide) rfl ⟨U, rfl⟩

/-- C3, at a failing input: a context without free memory evaluates three
nested applications, every reservation compacts, and after six compactions
(quota four) the loop stops with an empty `pc`, no error and three frames on
the call stack. `wikrt_step_eval` then latches `WIKRT_IMPL` and returns false:
the value `1` is not wrapped as a pending value again, `pc` and `cc` are not
restored. -/
theorem wikrt_step_eval_quota_not_resumable :
    wikrt_run_eval_step ext_gc 40
        { cx_c3 with val := nest3, pc := ops1 OP_APPLY, cc := P WIKRT_UNIT_INR (I 7) }
        WIKRT_EVAL_COMPACTION_STEPS
      = .ok { cx_c3 with val := I 1, pc := WIKRT_UNIT_INR,
                         cc := P (PL frame_unit (PL frame_unit (PL frame_unit UR))) (I 7),
                         alloc := 1, compaction_count := 6 } ∧
    wikrt_step_eval ext_gc 40 cx_c3
      = .ok (false,
          { cx_c3 with
            ecode := WIKRT_IMPL, val := I 1, pc := WIKRT_UNIT_INR,
            cc := P (PL frame_unit (PL frame_unit (PL frame_unit UR))) (I 7),
            alloc := 1, compaction_count := 6 }) := by
  decide

/-- C4, at two failing inputs. First
`((pending ([inline SP] * ([inline] * 5))) * 7)` in a fresh context: the inner
block's operation latches a type error while a frame is on the call stack, and
`wikrt_step_eval` returns false with the error latched, `cx->val` at `5`, the
environment `7` left in `cx->cc` and an empty `pc`. Second a pending value in
a context whose `pc` is not fresh: `WIKRT_IMPL` is latched and the pending
value is left opened, `((block * 5) * 1)`. -/
theorem wikrt_step_eval_failure_loses_pending :
    wikrt_step_eval ext0 10 cx_c4
      = .ok (false,
          { cx_c4 with
            ecode := WIKRT_ETYPE, val := I 5, pc := WIKRT_UNIT_INR,
            cc := P (PL (ops1 OP_SP) UR) (I 7) }) ∧
    wikrt_step_eval ext0 10 { cx_w2 with pc := WIKRT_UNIT_INR }
      = .ok (false,
          { cx_w2 with
            ecode := WIKRT_IMPL, val := P (P (blk (ops1 OP_SP)) (I 5)) U,
            pc := WIKRT_UNIT_INR }) := by
  decide

/-- C5, counterexample: with a type error latched and the swap accelerator
still in `pc`, the loop calls `wikrt_run_eval_operator` on it, and the run ends
with the value swapped to `(2 * 1)`. -/
theorem wikrt_run_eval_dispatches_with_error :
    wikrt_has_error cx_c5 = true ∧
    wikrt_run_eval_iter ext0 4 cx_c5
      = .operator ACCEL_PROD_SWAP
          (some { cx_c5 with val := P (I 2) (I 1), pc := WIKRT_UNIT_INR }) ∧
    wikrt_run_eval_step ext0 10 cx_c5 WIKRT_EVAL_COMPACTION_STEPS
      = .ok { cx_c5 with val := P (I 2) (I 1), pc := WIKRT_UNIT_INR } := by
  decide

/-- C5, as amended: once an error is latched the loop stops where the
operations list in `cx->pc` ends, and not before. In every loop state with an
error latched: when `pc` is empty the pass returns the state as it is, without
a call of `wikrt_run_eval_operator` or `wikrt_run_eval_object` and without
popping the call stack, whatever the call stack holds; when `pc` holds an
opcode the pass calls `wikrt_run_eval_operator` on it, which calls the handler
of `wikrt_op_evalfn_table` for an opcode of the table, and when `pc` holds any
other operation the pass calls `wikrt_run_eval_object`; in both cases the loop
goes on with the state the call left. -/
theorem wikrt_run_eval_error_returns_at_empty_pc (X : wikrt_ext) (tick_stop : Nat)
    (cx : wikrt_cx) (herr : wikrt_has_error cx = true) :
    (cx.pc = WIKRT_UNIT_INR →
      wikrt_run_eval_iter X tick_stop cx = .ret cx ∧
      ∀ fuel, wikrt_run_eval_loop X tick_stop (fuel + 1) cx = .ok cx) ∧
    (∀ (n : Int) (rest : wikrt_val), cx.pc = PL (I n) rest →
      wikrt_run_eval_iter X tick_stop cx
        = .operator n (wikrt_run_eval_operator X { cx with pc := rest } n) ∧
      ((OP_INVAL : Int) < wikrt_op_of_int n ∧ wikrt_op_of_int n < (OP_COUNT : Int) →
        wikrt_run_eval_operator X { cx with pc := rest } n
          = wikrt_op_evalfn_table X (wikrt_op_of_int n).toNat { cx with pc := rest }) ∧
      ∀ (fuel : Nat) (cx1 : wikrt_cx),
        wikrt_run_eval_operator X { cx with pc := rest } n = some cx1 →
        wikrt_run_eval_loop X tick_stop (fuel + 1) cx
          = wikrt_run_eval_loop X tick_stop fuel cx1) ∧
    (∀ (op rest : wikrt_val), cx.pc = PL op rest → wikrt_smallint op = false →
      wikrt_run_eval_iter X tick_stop cx
        = .object (wikrt_run_eval_object X { cx with pc := rest, val := P op cx.val }) ∧
      ∀ (fuel : Nat) (cx1 : wikrt_cx),
        wikrt_run_eval_object X { cx with pc := rest, val := P op cx.val } = some cx1 →
        wikrt_run_eval_loop X tick_stop (fuel + 1) cx
          = wikrt_run_eval_loop X tick_stop fuel cx1) := by
  refine ⟨?_, ?_, ?_⟩
  · intro hpc
    have h1 : wikrt_run_eval_iter X tick_stop cx = .ret cx := by
      simp [wikrt_run_eval_iter, hpc, WIKRT_UNIT_INR, herr]
    refine ⟨h1, ?_⟩
    intro fuel
    simp [wikrt_run_eval_loop, h1]
  · intro n rest hpc
    have h1 : wikrt_run_eval_iter X tick_stop cx
        = .operator n (wikrt_run_eval_operator X { cx with pc := rest } n) := by
      simp [wikrt_run_eval_iter, hpc]
    refine ⟨h1, ?_, ?_⟩
    · intro hr
      unfold wikrt_run_eval_operator
      rw [if_pos hr]
    · intro fuel cx1 hop
      conv => lhs; unfold wikrt_run_eval_loop
      rw [h1, hop]
  · intro op rest hpc hsm
    have h1 : wikrt_run_eval_iter X tick_stop cx
        = .object (wikrt_run_eval_object X { cx with pc := rest, val := P op cx.val }) := by
      cases op with
      | I n => simp [wikrt_smallint] at hsm
      | _ => simp [wikrt_run_eval_iter, hpc]
    refine ⟨h1, ?_⟩
    intro fuel cx1 hob
    conv => lhs; unfold wikrt_run_eval_loop
    rw [h1, hob]

/-- C5, witness: a type error latched, an empty `pc` and a frame left on the
call stack; and the context `cx_c5`, with a type error latched and the swap
accelerator in `pc`, which is dispatched. -/
theorem wikrt_run_eval_error_returns_at_empty_pc_witness :
    wikrt_has_error { cx_c5 with pc := WIKRT_UNIT_INR, cc := P (PL (ops1 OP_SP) UR) U } = true ∧
    wikrt_run_eval_iter ext0 4 { cx_c5 with pc := WIKRT_UNIT_INR, cc := P (PL (ops1 OP_SP) UR) U }
      = .ret { cx_c5 with pc := WIKRT_UNIT_INR, cc := P (PL (ops1 OP_SP) UR) U } ∧
    wikrt_has_error cx_c5 = true ∧
    wikrt_run_eval_iter ext0 4 cx_c5
      = .operator ACCEL_PROD_SWAP
          (wikrt_run_eval_operator ext0 { cx_c5 with pc := WIKRT_UNIT_INR } ACCEL_PROD_SWAP) :=
  ⟨by decide,
   ((wikrt_run_eval_error_returns_at_empty_pc ext0 4
      { cx_c5 with pc := WIKRT_UNIT_INR, cc := P (PL (ops1 OP_SP) UR) U } (by decide)).1 rfl).1,
   by decide,
   ((wikrt_run_eval_error_returns_at_empty_pc ext0 4 cx_c5 (by decide)).2.1
      ACCEL_PROD_SWAP WIKRT_UNIT_INR rfl).1⟩

/-- C6: in an evaluation (`cx->cc` holds `(call stack * e0)`) with two cells
of memory available, the operator `$` on `([a→b] * (a * e))` with a block that
is not lazy leaves `a` in `cx->val`, the block's operations in `cx->pc`, and one
more frame on the call stack: `e` quoted as an opval, the swap accelerator, the
previous `pc`. When the callee has ended (empty `pc`, no error, quota not used
up) with `b` in `cx->val`, three passes of the loop through that frame leave
`(b * e)`, the previous `pc` and the previous call stack. -/
theorem wikrt_eval_step_apply_frame (X : wikrt_ext) (cx : wikrt_cx) (otag : Nat)
    (ops a e cstk e0 : wikrt_val) (d : List Nat)
    (hblk : wikrt_otag_block otag = true) (hlazy : WIKRT_BLOCK_LAZY &&& otag = 0)
    (hmem : wikrt_mem_available cx (2 * WIKRT_CELLSIZE) = true) :
    wikrt_run_eval_operator X { cx with val := P (O otag ops d) (P a e), cc := P cstk e0 } OP_APPLY
      = some { cx with
          val := a, pc := ops,
          cc := P (PL (PL (O WIKRT_OTAG_OPVAL e []) (PL (I ACCEL_PROD_SWAP) cx.pc)) cstk) e0,
          alloc := cx.alloc - 2 * WIKRT_CELLSIZE } ∧
    ∀ (cxb : wikrt_cx) (tick_stop : Nat), cxb.ecode = WIKRT_OK →
      cxb.compaction_count ≤ tick_stop →
      wikrt_run_eval_passes X tick_stop 3
          { cxb with
            pc := WIKRT_UNIT_INR,
            cc := P (PL (PL (O WIKRT_OTAG_OPVAL e []) (PL (I ACCEL_PROD_SWAP) cx.pc)) cstk) e0 }
        = some { cxb with val := P cxb.val e, pc := cx.pc, cc := P cstk e0 } := by
  refine ⟨?_, ?_⟩
  · rw [operator_apply]
    exact apply_step X cx otag ops a e cstk e0 d hblk hlazy hmem
  · intro cxb tick_stop hok hq
    exact passes_apply_frame X tick_stop cxb e cx.pc cstk e0 hok hq

/-- C6, witness: `$` on `([SP] * (5 * 7))` in a loop state with an empty call
stack. -/
theorem wikrt_eval_step_apply_frame_witness :
    wikrt_run_eval_operator ext0
        { cx_loop with val := P (blk (ops1 OP_SP)) (P (I 5) (I 7)), cc := P UR U } OP_APPLY
      = some { cx_loop with
          val := I 5, pc := ops1 OP_SP,
          cc := P (PL (PL (O WIKRT_OTAG_OPVAL (I 7) []) (PL (I ACCEL_PROD_SWAP) UR)) UR) U,
          alloc := 992 } :=
  (wikrt_eval_step_apply_frame ext0 cx_loop WIKRT_OTAG_BLOCK (ops1 OP_SP) (I 5) (I 7) UR U []
    (by decide) (by decide) (by decide)).1

/-- C7: the inline step on a block that is not lazy, dispatched as
`ACCEL_INLINE` on `([a→b] * a)` or as `ACCEL_TAILCALL` on
`([a→b] * (a * 1))`. With an empty `pc` the step leaves the callee's operations
on top of the call stack and `pc` empty, and the next pass of the loop (no
error, quota not used up) pops them: `pc` is the callee's operations list and
the call stack is the one before the step. With another `pc` the step pushes
one frame that holds that `pc`, and `pc` becomes the callee's operations
list. -/
theorem wikrt_eval_step_inline_tail_call (X : wikrt_ext) (cx : wikrt_cx) (otag tick_stop : Nat)
    (ops a cstk e : wikrt_val) (d : List Nat)
    (hblk : wikrt_otag_block otag = true) (hlazy : WIKRT_BLOCK_LAZY &&& otag = 0) :
    (cx.pc = WIKRT_UNIT_INR → cx.ecode = WIKRT_OK → cx.compaction_count ≤ tick_stop →
      (wikrt_run_eval_operator X { cx with val := P (O otag ops d) a, cc := P cstk e } ACCEL_INLINE
          = some { cx with val := a, pc := WIKRT_UNIT_INR, cc := P (PL ops cstk) e } ∧
       wikrt_run_eval_operator X { cx with val := P (O otag ops d) (P a U), cc := P cstk e }
            ACCEL_TAILCALL
          = some { cx with val := a, pc := WIKRT_UNIT_INR, cc := P (PL ops cstk) e } ∧
       wikrt_run_eval_iter X tick_stop
            { cx with val := a, pc := WIKRT_UNIT_INR, cc := P (PL ops cstk) e }
          = .pop { cx with val := a, pc := ops, cc := P cstk e })) ∧
    (cx.pc ≠ WIKRT_UNIT_INR →
      (wikrt_run_eval_operator X { cx with val := P (O otag ops d) a, cc := P cstk e } ACCEL_INLINE
          = some { cx with val := a, pc := ops, cc := P (PL cx.pc cstk) e } ∧
       wikrt_run_eval_operator X { cx with val := P (O otag ops d) (P a U), cc := P cstk e }
            ACCEL_TAILCALL
          = some { cx with val := a, pc := ops, cc := P (PL cx.pc cstk) e })) := by
  have hi := inline_nonlazy X cx otag ops a cstk e d hblk hlazy
  constructor
  · intro hpc hok hq
    rw [if_pos hpc.symm] at hi
    refine ⟨?_, ?_, ?_⟩
    · simp [wikrt_run_eval_operator, wikrt_op_of_int, ACCEL_INLINE, OP_INVAL, OP_COUNT, wikrt_op_evalfn_table, hi]
    · simp [wikrt_run_eval_operator, wikrt_op_of_int, ACCEL_TAILCALL, OP_INVAL, OP_COUNT, wikrt_op_evalfn_table,
        _wikrt_eval_step_tailcall, wikrt_assocl, wikrt_elim_unit_r, hi]
    · simp [wikrt_run_eval_iter, WIKRT_UNIT_INR, wikrt_has_error, hok, wikrt_pval, wikrt_pval_set0,
        Nat.not_lt.mpr hq]
  · intro hpc
    rw [if_neg (fun h => hpc h.symm)] at hi
    refine ⟨?_, ?_⟩
    · simp [wikrt_run_eval_operator, wikrt_op_of_int, ACCEL_INLINE, OP_INVAL, OP_COUNT, wikrt_op_evalfn_table, hi]
    · simp [wikrt_run_eval_operator, wikrt_op_of_int, ACCEL_TAILCALL, OP_INVAL, OP_COUNT, wikrt_op_evalfn_table,
        _wikrt_eval_step_tailcall, wikrt_assocl, wikrt_elim_unit_r, hi]

/-- C7, witness: a tail call of `[SP]` on `5` below a call stack that holds
one frame. -/
theorem wikrt_eval_step_inline_tail_call_witness :
    wikrt_run_eval_operator ext0
        { cx_loop with val := P (blk (ops1 OP_SP)) (P (I 5) U), cc := P (PL (ops1 OP_LF) UR) U }
        ACCEL_TAILCALL
      = some { cx_loop with
          val := I 5, pc := WIKRT_UNIT_INR,
          cc := P (PL (ops1 OP_SP) (PL (ops1 OP_LF) UR)) U } ∧
    wikrt_run_eval_iter ext0 4
        { cx_loop with
          val := I 5, pc := WIKRT_UNIT_INR,
          cc := P (PL (ops1 OP_SP) (PL (ops1 OP_LF) UR)) U }
      = .pop { cx_loop with val := I 5, pc := ops1 OP_SP, cc := P (PL (ops1 OP_LF) UR) U } :=
  ⟨((wikrt_eval_step_inline_tail_call ext0 cx_loop WIKRT_OTAG_BLOCK 4 (ops1 OP_SP) (I 5)
      (PL (ops1 OP_LF) UR) U [] (by decide) (by decide)).1 rfl rfl (by decide)).2.1,
   ((wikrt_eval_step_inline_tail_call ext0 cx_loop WIKRT_OTAG_BLOCK 4 (ops1 OP_SP) (I 5)
      (PL (ops1 OP_LF) UR) U [] (by decide) (by decide)).1 rfl rfl (by decide)).2.2⟩

/-- C8: the operator `?` on `(block * (s * e))`, with a cell of memory
available and a branch value `x` that is not a deep-sum header without tags.
When `s` is in the right with branch value `x`, the block is dropped and
`cx->val` is `(s1 * e)` for a sum `s1` in the right with the same branch value;
`pc` and the call stack are unchanged, and a type error is latched when the
block is not droppable. When `s` is in the left with branch value `x`, the step
is the operator `$` on `(block * (x * e))` with `OP_SUM_INTRO0` pushed onto
`pc`: in an evaluation, for a block that is not lazy and three cells of
memory, `x` is left in `cx->val`, the block's operations in `pc`, and the frame
pushed holds `e` as an opval, the swap accelerator, `OP_SUM_INTRO0` and the
previous `pc`; and when the callee has ended with `c` in `cx->val`, four
passes of the loop through that frame leave `(c1 * e)` for a sum `c1` in the
left with branch value `c`. -/
theorem wikrt_eval_step_condap_branches (X : wikrt_ext) (cx : wikrt_cx) (bk s x e : wikrt_val)
    (hmem : wikrt_mem_available cx WIKRT_CELLSIZE = true) :
    (wikrt_unwrap_sum_rv s = .ok (true, x) → wikrt_deepsum_nonempty x →
      ∃ s1 al, wikrt_unwrap_sum_rv s1 = .ok (true, x) ∧
        wikrt_run_eval_operator X { cx with val := P bk (P s e) } OP_CONDAP
          = some (if wikrt_ss_droppable (wikrt_val_ss bk) = true
              then { cx with val := P s1 e, alloc := al }
              else wikrt_set_error { cx with val := P s1 e, alloc := al } WIKRT_ETYPE)) ∧
    (wikrt_unwrap_sum_rv s = .ok (false, x) →
      wikrt_run_eval_operator X { cx with val := P bk (P s e) } OP_CONDAP
        = wikrt_run_eval_operator X
            { cx with val := P bk (P x e), pc := PL (I OP_SUM_INTRO0) cx.pc,
                      alloc := cx.alloc - WIKRT_CELLSIZE } OP_APPLY ∧
      (∀ (otag : Nat) (ops cstk e0 : wikrt_val) (d : List Nat), bk = O otag ops d →
        wikrt_otag_block otag = true → WIKRT_BLOCK_LAZY &&& otag = 0 → cx.cc = P cstk e0 →
        wikrt_mem_available cx (3 * WIKRT_CELLSIZE) = true →
        wikrt_run_eval_operator X { cx with val := P bk (P s e) } OP_CONDAP
          = some { cx with
              val := x, pc := ops,
              cc := P (PL (PL (O WIKRT_OTAG_OPVAL e [])
                (PL (I ACCEL_PROD_SWAP) (PL (I OP_SUM_INTRO0) cx.pc))) cstk) e0,
              alloc := cx.alloc - 3 * WIKRT_CELLSIZE }) ∧
      ∀ (cxb : wikrt_cx) (tick_stop : Nat) (c stk e0 : wikrt_val), cxb.ecode = WIKRT_OK →
        cxb.compaction_count ≤ tick_stop → wikrt_deepsum_nonempty c →
        wikrt_mem_available cxb WIKRT_CELLSIZE = true →
        ∃ c1 al, wikrt_unwrap_sum_rv c1 = .ok (false, c) ∧
          wikrt_run_eval_passes X tick_stop 4
              { cxb with
                val := c, pc := WIKRT_UNIT_INR,
                cc := P (PL (PL (O WIKRT_OTAG_OPVAL e [])
                  (PL (I ACCEL_PROD_SWAP) (PL (I OP_SUM_INTRO0) cx.pc))) stk) e0 }
            = some { cxb with val := P c1 e, pc := cx.pc, cc := P stk e0, alloc := al }) := by
  constructor
  · intro hs hwf
    rw [operator_condap]
    exact condap_right X cx bk s x e hs hwf hmem
  · intro hs
    refine ⟨?_, ?_, ?_⟩
    · rw [operator_condap, operator_apply]
      exact condap_left X cx bk s x e hs hmem
    · intro otag ops cstk e0 d hbk hblk hlazy hcc hm3
      rw [operator_condap, condap_left X cx bk s x e hs hmem, hbk]
      simp only [wikrt_mem_available, decide_eq_true_eq, WIKRT_CELLSIZE] at hm3
      have ha := apply_step X
        { cx with pc := PL (I OP_SUM_INTRO0) cx.pc, alloc := cx.alloc - WIKRT_CELLSIZE }
        otag ops x e cstk e0 d hblk hlazy
        (by simp only [wikrt_mem_available, decide_eq_true_eq, WIKRT_CELLSIZE]; omega)
      simp only [] at ha
      rw [← hcc] at ha
      rw [ha]
      congr 2
    · intro cxb tick_stop c stk e0 hok hq hwf hm
      have h3 := passes_apply_frame X tick_stop { cxb with val := c } e
        (PL (I OP_SUM_INTRO0) cx.pc) stk e0 hok hq
      obtain ⟨c1, al, hc1, h1⟩ := passes_sum_intro0 X tick_stop { cxb with cc := P stk e0 }
        c e cx.pc hwf hm
      refine ⟨c1, al, hc1, ?_⟩
      have h4 := passes_add X tick_stop 1 3 _ _ h3
      simp only [] at h1 h4
      rw [h4, h1]

/-- C8, witness: `?` on `([SP] * (s * 7))` for the unit in the right and for
the unit in the left. -/
theorem wikrt_eval_step_condap_branches_witness :
    (∃ s1 al, wikrt_unwrap_sum_rv s1 = .ok (true, U) ∧
      wikrt_run_eval_operator ext0 { cx_loop with val := P (blk (ops1 OP_SP)) (P UR (I 7)) }
          OP_CONDAP
        = some (if wikrt_ss_droppable (wikrt_val_ss (blk (ops1 OP_SP))) = true
            then { cx_loop with val := P s1 (I 7), alloc := al }
            else wikrt_set_error { cx_loop with val := P s1 (I 7), alloc := al } WIKRT_ETYPE)) ∧
    wikrt_run_eval_operator ext0 { cx_loop with val := P (blk (ops1 OP_SP)) (P UL (I 7)) }
        OP_CONDAP
      = wikrt_run_eval_operator ext0
          { cx_loop with val := P (blk (ops1 OP_SP)) (P U (I 7)),
                         pc := PL (I OP_SUM_INTRO0) cx_loop.pc,
                         alloc := cx_loop.alloc - WIKRT_CELLSIZE } OP_APPLY :=
  ⟨(wikrt_eval_step_condap_branches ext0 cx_loop (blk (ops1 OP_SP)) UR U (I 7) (by decide)).1
      rfl trivial,
   ((wikrt_eval_step_condap_branches ext0 cx_loop (blk (ops1 OP_SP)) UL U (I 7) (by decide)).2
      rfl).1⟩

/-- C9: the operator `G` on `(I(A) * (I(B) * e))` leaves `(s * e)` where `s`
is the pair `(I(A) * I(B))` in the right when `B > A` and the pair
`(I(B) * I(A))` in the left otherwise; nothing else in the context changes. -/
theorem wikrt_int_cmp_gt_sum (X : wikrt_ext) (cx : wikrt_cx) (A B : Int) (e : wikrt_val) :
    wikrt_run_eval_operator X { cx with val := P (I A) (P (I B) e) } OP_GT
      = some { cx with val := P (if B > A then PR (I A) (I B) else PL (I B) (I A)) e } := by
  by_cases h : B > A
  · simp [wikrt_run_eval_operator, wikrt_op_of_int, OP_GT, OP_INVAL, OP_COUNT, wikrt_op_evalfn_table,
      _wikrt_int_cmp_gt, wikrt_int_cmp, h, WIKRT_GT, wikrt_assocl, wikrt_wrap_sum,
      wikrt_wrap_sum_inplace, WIKRT_INR]
  · simp [wikrt_run_eval_operator, wikrt_op_of_int, OP_GT, OP_INVAL, OP_COUNT, wikrt_op_evalfn_table,
      _wikrt_int_cmp_gt, wikrt_int_cmp, h, WIKRT_GT, WIKRT_LT, WIKRT_EQ, wikrt_assocl,
      wikrt_wswap, wikrt_wrap_sum, wikrt_wrap_sum_inplace, WIKRT_INL]
    split <;> simp_all

/-- A value that is no pair, or whose first component is no block, fails the
shape test of `wikrt_apply`: a type error is latched and nothing else
changes. -/
theorem wikrt_apply_shape_test_fails (X : wikrt_ext) (cx : wikrt_cx)
    (h : ∀ b r, cx.val = P b r → wikrt_blockval b = false) :
    wikrt_apply X cx = some (wikrt_set_error cx WIKRT_ETYPE) := by
  unfold wikrt_apply
  simp only []
  split
  · rfl
  · rename_i hne
    exfalso
    apply hne
    split
    · rename_i b r hv
      exact h b r hv
    · rfl

/-- With a cell of memory available `wikrt_apply` turns `(block * (a * e))`
into `((pending (block * a)) * e)`, which `wikrt_open_pending` opens to
`((block * a) * e)`. -/
theorem wikrt_apply_then_open (X : wikrt_ext) (cx : wikrt_cx) (otag : Nat)
    (ops a e : wikrt_val) (d : List Nat) (hblk : wikrt_otag_block otag = true)
    (hmem : wikrt_mem_available cx WIKRT_CELLSIZE = true) :
    wikrt_apply X { cx with val := P (O otag ops d) (P a e) }
      = some { cx with val := P (O WIKRT_OTAG_PEND (P (O otag ops d) a) []) e,
                       alloc := cx.alloc - WIKRT_CELLSIZE } ∧
    wikrt_open_pending { cx with val := P (O WIKRT_OTAG_PEND (P (O otag ops d) a) []) e,
                                 alloc := cx.alloc - WIKRT_CELLSIZE }
      = { cx with val := P (P (O otag ops d) a) e, alloc := cx.alloc - WIKRT_CELLSIZE } := by
  simp only [wikrt_mem_available, decide_eq_true_eq, WIKRT_CELLSIZE] at hmem
  have hw := wikrt_wrap_otag_available X { cx with val := P (P (O otag ops d) a) e }
    WIKRT_OTAG_PEND (P (O otag ops d) a) e rfl hmem
  have hp : wikrt_otag_pend WIKRT_OTAG_PEND = true := by decide
  constructor
  · simp only [] at hw
    simp [wikrt_apply, wikrt_blockval, hblk, wikrt_assocl, hw, WIKRT_CELLSIZE]
  · simp [wikrt_open_pending, hp]

/-- C10, at a failing input: on `(block * unit)` the shape test of
`wikrt_apply` passes, `wikrt_assocl` latches a type error, and the block is
wrapped as a pending value all the same: `cx->val` becomes
`((pending block) * unit)`. -/
theorem wikrt_apply_wraps_after_type_error :
    wikrt_apply ext0 cx_c10
      = some { cx_c10 with
                 ecode := WIKRT_ETYPE, val := P (pend (blk (ops1 OP_SP))) U, alloc := 1008 } := by
  decide

end Eval

/-! ## Theorems on value words, integers and constructors -/

namespace Word

theorem vtag_mod (v : Nat) : wikrt_vtag v = v % 8 := by
  unfold wikrt_vtag WIKRT_REF_MASK_TAG
  exact Nat.and_pow_two_sub_one_eq_mod v 3

theorem copy_shallow_mod (v : Nat) : wikrt_copy_shallow v = 4 &&& (v % 8) := by
  unfold wikrt_copy_shallow
  have h : v % 8 = v &&& 7 := (Nat.and_pow_two_sub_one_eq_mod v 3).symm
  rw [h, ← Nat.and_assoc, Nat.and_comm 4 v, Nat.and_assoc]
  rfl

theorem tag_addr_vtag_vaddr (v : Nat) (hv : v < 2 ^ 64) :
    wikrt_tag_addr (wikrt_vtag v) (wikrt_vaddr v) = v := by
  unfold wikrt_tag_addr wikrt_vtag wikrt_vaddr
  rw [← Nat.and_or_distrib_left]
  have h : (WIKRT_REF_MASK_TAG ||| WIKRT_REF_MASK_ADDR) = 2 ^ 64 - 1 := by decide
  rw [h, Nat.and_pow_two_sub_one_eq_mod]
  exact Nat.mod_eq_of_lt hv

/-- C11: a 64-bit value word falls in exactly one of the five classes. -/
theorem wikrt_tag_classification (v : Nat) (hv : v < 2 ^ 64) :
    [wikrt_o v, wikrt_p v, wikrt_pl v, wikrt_pr v, decide (wikrt_copy_shallow v ≠ 0)].count true
      = 1 ∧
    (wikrt_copy_shallow v ≠ 0 ↔
      wikrt_vtag v = WIKRT_I ∨ wikrt_vtag v = WIKRT_U ∨ wikrt_vtag v = WIKRT_UL
        ∨ wikrt_vtag v = WIKRT_UR) ∧
    (wikrt_copy_deep v = true ↔
      wikrt_vtag v = WIKRT_O ∨ wikrt_vtag v = WIKRT_P ∨ wikrt_vtag v = WIKRT_PL
        ∨ wikrt_vtag v = WIKRT_PR) ∧
    wikrt_tag_addr (wikrt_vtag v) (wikrt_vaddr v) = v := by
  refine ⟨?_, ?_, ?_, tag_addr_vtag_vaddr v hv⟩
  · unfold wikrt_o wikrt_p wikrt_pl wikrt_pr
    rw [copy_shallow_mod, vtag_mod]
    have h : v % 8 < 8 := Nat.mod_lt _ (by decide)
    generalize v % 8 = r at h
    interval_cases r <;> decide
  · rw [copy_shallow_mod, vtag_mod]
    have h : v % 8 < 8 := Nat.mod_lt _ (by decide)
    generalize v % 8 = r at h
    interval_cases r <;> decide
  · unfold wikrt_copy_deep
    rw [copy_shallow_mod, vtag_mod]
    have h : v % 8 < 8 := Nat.mod_lt _ (by decide)
    generalize v % 8 = r at h
    interval_cases r <;> decide

theorem nat_or_4 (x : Nat) (h : x % 8 = 0) : 4 ||| x = x + 4 := by
  have h1 : x = 2 ^ 3 * (x / 8) := by norm_num; omega
  have h2 := Nat.mul_add_lt_is_or (show 4 < 2 ^ 3 by decide) (x / 8)
  rw [Nat.lor_comm, h1]
  exact h2.symm

theorem i2v_nonneg (i : Int) (h0 : 0 ≤ i) (h1 : i ≤ WIKRT_SMALLINT_MAX) :
    wikrt_i2v i = (8 * i + 4).toNat := by
  unfold WIKRT_SMALLINT_MAX at h1
  unfold wikrt_i2v wikrt_val_of_int WIKRT_I
  rw [Nat.shiftLeft_eq, nat_or_4 _ (by omega)]
  omega

theorem i2v_neg (i : Int) (h0 : i < 0) (h1 : WIKRT_SMALLINT_MIN ≤ i) :
    wikrt_i2v i = (2 ^ 64 + 8 * i + 4).toNat := by
  unfold WIKRT_SMALLINT_MIN WIKRT_SMALLINT_MAX at h1
  unfold wikrt_i2v wikrt_val_of_int WIKRT_I
  rw [Nat.shiftLeft_eq, nat_or_4 _ (by omega)]
  omega

theorem v2i_i2v (i : Int) (h0 : WIKRT_SMALLINT_MIN ≤ i) (h1 : i ≤ WIKRT_SMALLINT_MAX) :
    wikrt_smallint (wikrt_i2v i) = true ∧ wikrt_v2i (wikrt_i2v i) = i := by
  have hmin := h0
  have hmax := h1
  unfold WIKRT_SMALLINT_MIN WIKRT_SMALLINT_MAX at hmin
  unfold WIKRT_SMALLINT_MAX at hmax
  unfold wikrt_smallint wikrt_v2i wikrt_int_of_val
  rw [vtag_mod, Int.shiftRight_eq_div_pow]
  rcases lt_or_le i 0 with hneg | hpos
  · rw [i2v_neg i hneg h0]
    constructor
    · simp only [WIKRT_I, beq_iff_eq]; omega
    · split <;> omega
  · rw [i2v_nonneg i hpos h1]
    constructor
    · simp only [WIKRT_I, beq_iff_eq]; omega
    · split <;> omega

theorem smallint_i2v (i : Int) : wikrt_smallint (wikrt_i2v i) = true := by
  unfold wikrt_smallint wikrt_i2v WIKRT_I
  rw [vtag_mod, Nat.shiftLeft_eq, nat_or_4 _ (by omega)]
  simp only [beq_iff_eq]
  omega

theorem rd_wr_same {FL : Type} (cx : wikrt_cx FL) (a i w : Nat) : rd (wr cx a i w) a i = w := by
  simp [rd, wr]

theorem rd_wr32 {FL : Type} (cx : wikrt_cx FL) (a ix w : Nat) :
    rd (wr32 cx a ix w) a 0 = rd cx a 0 := by
  have h : ¬ wikrt_vaddr a + 8 * 0 = wikrt_vaddr a + 8 + 4 * ix := by omega
  simp only [rd, wr32, if_neg h]

theorem rd_loop {FL : Type} (cx : wikrt_cx FL) (dst : Nat) (digit : Nat → Nat) (n : Nat) :
    rd (wikrt_alloc_bigint_loop cx dst digit n) dst 0 = rd cx dst 0 := by
  induction n with
  | zero => rfl
  | succ k ih => rw [wikrt_alloc_bigint_loop, rd_wr32, ih]

theorem rd32_loop {FL : Type} (cx : wikrt_cx FL) (dst : Nat) (digit : Nat → Nat) (n ix : Nat)
    (h : ix < n) : rd32 (wikrt_alloc_bigint_loop cx dst digit n) dst ix = digit ix := by
  induction n with
  | zero => omega
  | succ k ih =>
    rw [wikrt_alloc_bigint_loop]
    by_cases hk : ix = k
    · subst hk
      simp [rd32, wr32]
    · have hne : ¬ wikrt_vaddr dst + 8 + 4 * ix = wikrt_vaddr dst + 8 + 4 * k := by omega
      have := ih (by omega)
      simp only [rd32, wr32, if_neg hne] at this ⊢
      exact this

theorem vaddr_tag_O (dst : Nat) : wikrt_vaddr (wikrt_tag_addr WIKRT_O dst) = wikrt_vaddr dst := by
  simp [wikrt_tag_addr, WIKRT_O]

theorem rd_tag_O {FL : Type} (cx : wikrt_cx FL) (dst i : Nat) :
    rd cx (wikrt_tag_addr WIKRT_O dst) i = rd cx dst i := by
  simp only [rd, vaddr_tag_O]

theorem rd32_tag_O {FL : Type} (cx : wikrt_cx FL) (dst i : Nat) :
    rd32 cx (wikrt_tag_addr WIKRT_O dst) i = rd32 cx dst i := by
  simp only [rd32, vaddr_tag_O]

theorem bigint_otag_eq (sign : Bool) (n : Nat) (hn : n < 2 ^ 55) :
    wikrt_bigint_otag sign n = (2 * n + (if sign then 1 else 0)) * 256 + 78 := by
  unfold wikrt_bigint_otag WIKRT_OTAG_BIGINT
  have hs : (if sign then 1 else 0) < 2 ^ 1 := by cases sign <;> decide
  have h1 : (n <<< 1) % 2 ^ 64 = 2 ^ 1 * n := by rw [Nat.shiftLeft_eq]; omega
  have h2 := Nat.mul_add_lt_is_or hs n
  rw [h1, ← h2, Nat.shiftLeft_eq]
  have h3 : ((2 ^ 1 * n + if sign = true then 1 else 0) * 2 ^ 8) % 2 ^ 64
      = 2 ^ 8 * (2 * n + if sign = true then 1 else 0) := by
    cases sign <;> simp <;> omega
  rw [h3, ← Nat.mul_add_lt_is_or (show 78 < 2 ^ 8 by decide)]
  omega

theorem bigint_otag_fields (sign : Bool) (n : Nat) (hn : n < 2 ^ 55) :
    wikrt_bigint_size (wikrt_bigint_otag sign n) = n ∧
    wikrt_bigint_sign (wikrt_bigint_otag sign n) = sign ∧
    LOBYTE (wikrt_bigint_otag sign n) = WIKRT_OTAG_BIGINT := by
  rw [bigint_otag_eq sign n hn]
  unfold wikrt_bigint_size wikrt_bigint_sign LOBYTE WIKRT_OTAG_BIGINT
  have hb : ∀ x : Nat, x &&& 0xFF = x % 256 := fun x => Nat.and_pow_two_sub_one_eq_mod x 8
  have h1 : ∀ x : Nat, x &&& 1 = x % 2 := fun x => Nat.and_pow_two_sub_one_eq_mod x 1
  rw [hb, h1, Nat.shiftRight_eq_div_pow, Nat.shiftRight_eq_div_pow]
  refine ⟨?_, ?_, ?_⟩
  · cases sign <;> simp <;> omega
  · cases sign <;> simp <;> omega
  · omega

/-- C11, witness: the word 13 (tag `WIKRT_U`, address 8). -/
theorem wikrt_tag_classification_witness :
    (13 : Nat) < 2 ^ 64 ∧
    [wikrt_o 13, wikrt_p 13, wikrt_pl 13, wikrt_pr 13,
      decide (wikrt_copy_shallow 13 ≠ 0)].count true = 1 ∧
    wikrt_tag_addr (wikrt_vtag 13) (wikrt_vaddr 13) = 13 :=
  ⟨by decide, (wikrt_tag_classification 13 (by decide)).1,
    (wikrt_tag_classification 13 (by decide)).2.2.2⟩

/-- C12: for integers `i`, `j` of the small range, `WIKRT_SMALLINT_MIN ≤ i ≤
WIKRT_SMALLINT_MAX` (at most eighteen decimal digits), the word
`wikrt_i2v(i)` passes `wikrt_smallint` and `wikrt_v2i` gives `i` back; so
`wikrt_i2v` is injective on the range, and `WIKRT_IZERO` decodes to 0. -/
theorem wikrt_smallint_round_trip (i j : Int)
    (hi0 : WIKRT_SMALLINT_MIN ≤ i) (hi1 : i ≤ WIKRT_SMALLINT_MAX)
    (hj0 : WIKRT_SMALLINT_MIN ≤ j) (hj1 : j ≤ WIKRT_SMALLINT_MAX) :
    wikrt_smallint (wikrt_i2v i) = true ∧
    wikrt_v2i (wikrt_i2v i) = i ∧
    (wikrt_i2v i = wikrt_i2v j → i = j) ∧
    wikrt_v2i WIKRT_IZERO = 0 ∧
    WIKRT_SMALLINT_MAX = 10 ^ 18 - 1 := by
  refine ⟨(v2i_i2v i hi0 hi1).1, (v2i_i2v i hi0 hi1).2, ?_, ?_, by decide⟩
  · intro h
    have h1 := (v2i_i2v i hi0 hi1).2
    rw [h, (v2i_i2v j hj0 hj1).2] at h1
    exact h1.symm
  · exact (v2i_i2v 0 (by decide) (by decide)).2

/-- C12, witness: the integers `-5` and `999999999999999999`. -/
theorem wikrt_smallint_round_trip_witness :
    wikrt_smallint (wikrt_i2v (-5)) = true ∧
    wikrt_v2i (wikrt_i2v (-5)) = -5 ∧
    (wikrt_i2v (-5) = wikrt_i2v 999999999999999999 → (-5 : Int) = 999999999999999999) ∧
    wikrt_v2i WIKRT_IZERO = 0 ∧
    WIKRT_SMALLINT_MAX = 10 ^ 18 - 1 :=
  wikrt_smallint_round_trip (-5) 999999999999999999 (by decide) (by decide) (by decide)
    (by decide)

/-- C13 (64-bit integer round trip), at `n = 2 ^ 32` and at
`n = 10 ^ 18 + 10 ^ 9`. For `n = 2 ^ 32`, a small integer, `wikrt_alloc_i64_fl`
converts `n` to `int32_t` before it encodes it: it returns `WIKRT_OK` with the
word of the integer 0, and `wikrt_peek_i64` on that word returns `WIKRT_OK`
and 0, not `n`. For `n = 10 ^ 18 + 10 ^ 9` and an allocator with free memory it
returns `WIKRT_OK` with a boxed integer, on which `wikrt_peek_i64` returns
`WIKRT_IMPL`. -/
theorem wikrt_i64_round_trip_fails {FL : Type} (A : wikrt_allocator FL) (maxd : Nat)
    (cx : wikrt_cx FL) (v : Nat) (i64 : Int) :
    wikrt_alloc_i64_fl A maxd cx v 4294967296 = some (WIKRT_OK, cx, wikrt_i2v 0) ∧
    wikrt_peek_i64 cx (wikrt_i2v 0) i64 = (WIKRT_OK, 0) ∧
    (wikrt_alloc_i64_fl alloc_bump max_digits cx_empty 0 1000000001000000000).map
        (fun r => (r.1, r.2.2, wikrt_peek_i64 r.2.1 r.2.2 i64))
      = some (WIKRT_OK, 64, WIKRT_IMPL, i64) := by
  refine ⟨?_, rfl, rfl⟩
  have h : (WIKRT_SMALLINT_MIN ≤ (4294967296 : Int) ∧ (4294967296 : Int) ≤ WIKRT_SMALLINT_MAX) := by
    decide
  unfold wikrt_alloc_i64_fl
  rw [if_pos h]
  rfl

/-- C14 (range reporting of `wikrt_peek_i32`): the function never returns
`WIKRT_BUFFSZ`. On the small integer `2 ^ 31`, above the `int32_t` range, it
returns `WIKRT_OK` and stores `INT32_MIN`; on `-(2 ^ 31) - 1`, below the range,
it returns `WIKRT_OK` and stores `INT32_MAX`. -/
theorem wikrt_peek_i32_reports_no_range {FL : Type} (cx : wikrt_cx FL) (v : Nat) (i32 : Int) :
    (wikrt_peek_i32 cx v i32).1 ≠ WIKRT_BUFFSZ ∧
    wikrt_peek_i32 cx (wikrt_i2v 2147483648) i32 = (WIKRT_OK, -2147483648) ∧
    wikrt_peek_i32 cx (wikrt_i2v (-2147483649)) i32 = (WIKRT_OK, 2147483647) := by
  refine ⟨?_, rfl, rfl⟩
  unfold wikrt_peek_i32
  split
  · show WIKRT_OK ≠ WIKRT_BUFFSZ
    decide
  · show WIKRT_IMPL ≠ WIKRT_BUFFSZ
    decide

/-- C15 (boxed value of a large integer), at `n = 10 ^ 18 + 10 ^ 9` and at
`n = 10 ^ 18`, with an allocator that has free memory. The digits of
`10 ^ 18 + 10 ^ 9` are 0, 1, 1; `wikrt_alloc_i64_fl` takes two digits when the
third is not zero: it returns `WIKRT_OK` with a boxed integer of two digits, 0
and 1, whose value is `10 ^ 9`. The digits of `10 ^ 18` are 0, 0, 1: with two
digits taken the most significant one is zero and the result is
`WIKRT_INVAL`. -/
theorem wikrt_alloc_i64_fl_drops_top_digit :
    (wikrt_alloc_i64_fl alloc_bump max_digits cx_empty 0 1000000001000000000).map
        (fun r => (r.1, r.2.2, wikrt_bigint_sign (rd r.2.1 r.2.2 0),
          wikrt_bigint_size (rd r.2.1 r.2.2 0), rd32 r.2.1 r.2.2 0, rd32 r.2.1 r.2.2 1,
          wikrt_bigint_value r.2.1 r.2.2 (wikrt_bigint_size (rd r.2.1 r.2.2 0))))
      = some (WIKRT_OK, 64, false, 2, 0, 1, 1000000000) ∧
    (wikrt_alloc_i64_fl alloc_bump max_digits cx_empty 0 1000000000000000000).map
        (fun r => (r.1, r.2.2))
      = some (WIKRT_INVAL, 0) := by
  constructor
  · rfl
  · rfl

/-- C16: a boxed integer that `wikrt_alloc_bigint` creates (result `WIKRT_OK`,
for a digit limit that fits the header) has at least two digits, its header
records their number, the digits stored are those given and the most
significant one is not zero; for fewer than two digits or a most significant
digit of zero the result is `WIKRT_INVAL` with the context and `*v` as they
were. For `m` in the small range `wikrt_alloc_i32_fl` and `wikrt_alloc_i64_fl`
return `WIKRT_OK` with a small-integer word and the context as it was. -/
theorem wikrt_integers_canonical {FL : Type} (A : wikrt_allocator FL) (maxd : Nat)
    (cx : wikrt_cx FL) (v : Nat) (sign : Bool) (digit : Nat → Nat) (n : Nat) (m : Int)
    (hmaxd : maxd < 2 ^ 55) :
    ((wikrt_alloc_bigint A maxd cx v sign digit n).1 = WIKRT_OK →
      2 ≤ n ∧
      LOBYTE (rd (wikrt_alloc_bigint A maxd cx v sign digit n).2.1
        (wikrt_alloc_bigint A maxd cx v sign digit n).2.2 0) = WIKRT_OTAG_BIGINT ∧
      wikrt_bigint_size (rd (wikrt_alloc_bigint A maxd cx v sign digit n).2.1
        (wikrt_alloc_bigint A maxd cx v sign digit n).2.2 0) = n ∧
      (∀ ix, ix < n → rd32 (wikrt_alloc_bigint A maxd cx v sign digit n).2.1
        (wikrt_alloc_bigint A maxd cx v sign digit n).2.2 ix = digit ix) ∧
      rd32 (wikrt_alloc_bigint A maxd cx v sign digit n).2.1
        (wikrt_alloc_bigint A maxd cx v sign digit n).2.2 (n - 1) ≠ 0) ∧
    (n < 2 ∨ digit (n - 1) = 0 →
      wikrt_alloc_bigint A maxd cx v sign digit n = (WIKRT_INVAL, cx, v)) ∧
    (WIKRT_SMALLINT_MIN ≤ m → m ≤ WIKRT_SMALLINT_MAX →
      (∃ w, wikrt_alloc_i32_fl A maxd cx v m = some (WIKRT_OK, cx, w) ∧
        wikrt_smallint w = true) ∧
      (∃ w, wikrt_alloc_i64_fl A maxd cx v m = some (WIKRT_OK, cx, w) ∧
        wikrt_smallint w = true)) := by
  refine ⟨?_, ?_, ?_⟩
  · intro hok
    unfold wikrt_alloc_bigint at hok ⊢
    by_cases h1 : n < 2 ∨ 0 = digit (n - 1)
    · rw [if_pos h1] at hok
      exact absurd hok (show ¬ WIKRT_INVAL = WIKRT_OK by decide)
    · rw [if_neg h1] at hok ⊢
      by_cases h2 : n > maxd
      · rw [if_pos h2] at hok
        exact absurd hok (show ¬ WIKRT_IMPL = WIKRT_OK by decide)
      · rw [if_neg h2] at hok ⊢
        have hn : n < 2 ^ 55 := by omega
        dsimp only at hok ⊢
        rcases hA : A.wikrt_alloc cx ((8 + n * 4) % 2 ^ 64) with ⟨o, cx1⟩
        rw [hA] at hok
        cases o with
        | none => exact absurd hok (show ¬ WIKRT_CXFULL = WIKRT_OK by decide)
        | some dst =>
          simp only [rd_tag_O, rd32_tag_O, rd_loop, rd_wr_same]
          refine ⟨by omega, (bigint_otag_fields sign n hn).2.2,
            (bigint_otag_fields sign n hn).1, fun ix hix => rd32_loop _ dst digit n ix hix, ?_⟩
          rw [rd32_loop _ dst digit n (n - 1) (by omega)]
          intro h0
          exact h1 (Or.inr h0.symm)
  · intro h
    unfold wikrt_alloc_bigint
    have h1 : n < 2 ∨ 0 = digit (n - 1) := h.imp id Eq.symm
    rw [if_pos h1]
  · intro h0 h1
    refine ⟨⟨wikrt_i2v m, ?_, smallint_i2v m⟩, ⟨wikrt_i2v (wikrt_int32_of m), ?_, smallint_i2v _⟩⟩
    · unfold wikrt_alloc_i32_fl
      rw [if_pos ⟨h0, h1⟩]
    · unfold wikrt_alloc_i64_fl
      rw [if_pos ⟨h0, h1⟩]

/-- C16, witness: the two digits 0 and 1 with free memory, the single digit 1,
and the integer 12. -/
theorem wikrt_integers_canonical_witness :
    ((wikrt_alloc_bigint alloc_bump max_digits cx_empty 0 false (wikrt_digits3 0 1 0) 2).1
        = WIKRT_OK ∧
      rd32 (wikrt_alloc_bigint alloc_bump max_digits cx_empty 0 false (wikrt_digits3 0 1 0) 2).2.1
        (wikrt_alloc_bigint alloc_bump max_digits cx_empty 0 false (wikrt_digits3 0 1 0) 2).2.2
        (2 - 1) ≠ 0) ∧
    (wikrt_alloc_bigint alloc_bump max_digits cx_empty 0 false (wikrt_digits3 1 0 0) 1).1
      = WIKRT_INVAL ∧
    (∃ w, wikrt_alloc_i64_fl alloc_bump max_digits cx_empty 0 12 = some (WIKRT_OK, cx_empty, w)
      ∧ wikrt_smallint w = true) :=
  ⟨⟨by decide,
      ((wikrt_integers_canonical alloc_bump max_digits cx_empty 0 false (wikrt_digits3 0 1 0) 2 12
        (by decide)).1 (by decide)).2.2.2.2⟩,
    by decide,
    ((wikrt_integers_canonical alloc_bump max_digits cx_empty 0 false (wikrt_digits3 0 1 0) 2 12
      (by decide)).2.2 (by decide) (by decide)).2⟩

/-! ### UTF-8 -/

theorem utf8_cont_iff (b : Nat) : utf8_cont b = true ↔ 0x80 ≤ b ∧ b < 0xC0 := by
  simp [utf8_cont]

theorem utf8_scalar_iff (c : Nat) :
    utf8_scalar c = true ↔ c ≤ 0x10FFFF ∧ ¬ (0xD800 ≤ c ∧ c ≤ 0xDFFF) := by
  simp [utf8_scalar, isSurrogateCodepoint]
  intro _
  constructor <;> intro h <;> omega

theorem surrogate_false_iff (c : Nat) :
    isSurrogateCodepoint c = false ↔ ¬ (0xD800 ≤ c ∧ c ≤ 0xDFFF) := by
  simp [isSurrogateCodepoint]

theorem utf8_encode_ne_nil (c : Nat) : utf8_encode c ≠ [] := by
  unfold utf8_encode
  split
  · simp
  · split
    · simp
    · split <;> simp

theorem utf8_step_sound (s : List Nat) (c : Nat) (rest : List Nat)
    (h : utf8_step s = some (c, rest)) :
    utf8_scalar c = true ∧ s = utf8_encode c ++ rest := by
  rw [utf8_scalar_iff]
  unfold utf8_step at h
  split at h
  · exact absurd h (by simp)
  · rename_i b0 s1
    split at h
    · rename_i h0
      simp only [Option.some.injEq, Prod.mk.injEq] at h
      obtain ⟨rfl, rfl⟩ := h
      refine ⟨by omega, ?_⟩
      simp [utf8_encode, h0]
    · split at h
      · exact absurd h (by simp)
      · split at h
        · split at h
          · rename_i b1 s2
            split at h
            · rename_i hc
              simp only [Option.some.injEq, Prod.mk.injEq] at h
              obtain ⟨rfl, rfl⟩ := h
              rw [utf8_cont_iff] at hc
              refine ⟨by omega, ?_⟩
              unfold utf8_encode
              rw [if_neg (by omega), if_pos (by omega)]
              simp only [List.cons_append, List.nil_append, List.cons.injEq, and_true]
              omega
            · exact absurd h (by simp)
          · exact absurd h (by simp)
        · split at h
          · split at h
            · rename_i b1 b2 s3
              split at h
              · rename_i hc
                simp only [Option.some.injEq, Prod.mk.injEq] at h
                obtain ⟨rfl, rfl⟩ := h
                rw [utf8_cont_iff, utf8_cont_iff, surrogate_false_iff] at hc
                refine ⟨by omega, ?_⟩
                unfold utf8_encode
                rw [if_neg (by omega), if_neg (by omega), if_pos (by omega)]
                simp only [List.cons_append, List.nil_append, List.cons.injEq, and_true]
                omega
              · exact absurd h (by simp)
            · exact absurd h (by simp)
          · split at h
            · split at h
              · rename_i b1 b2 b3 s4
                split at h
                · rename_i hc
                  simp only [Option.some.injEq, Prod.mk.injEq] at h
                  obtain ⟨rfl, rfl⟩ := h
                  rw [utf8_cont_iff, utf8_cont_iff, utf8_cont_iff] at hc
                  refine ⟨by omega, ?_⟩
                  unfold utf8_encode
                  rw [if_neg (by omega), if_neg (by omega), if_neg (by omega)]
                  simp only [List.cons_append, List.nil_append, List.cons.injEq, and_true]
                  omega
                · exact absurd h (by simp)
              · exact absurd h (by simp)
            · exact absurd h (by simp)

theorem utf8_step_encode (c : Nat) (rest : List Nat) (h : utf8_scalar c = true) :
    utf8_step (utf8_encode c ++ rest) = some (c, rest) := by
  rw [utf8_scalar_iff] at h
  unfold utf8_encode
  split
  · rename_i h0
    simp [utf8_step, h0]
  · split
    · have hc : utf8_cont (0x80 + c % 64) = true := by rw [utf8_cont_iff]; omega
      have hcp : (0xC0 + c / 64 - 0xC0) * 64 + (0x80 + c % 64 - 0x80) = c := by omega
      simp only [List.cons_append, List.nil_append, utf8_step]
      rw [if_neg (by omega), if_neg (by omega), if_pos (by omega), hcp, if_pos ⟨hc, by omega⟩]
    · split
      · have hc1 : utf8_cont (0x80 + c / 64 % 64) = true := by rw [utf8_cont_iff]; omega
        have hc2 : utf8_cont (0x80 + c % 64) = true := by rw [utf8_cont_iff]; omega
        have hcp : (0xE0 + c / 4096 - 0xE0) * 4096 + (0x80 + c / 64 % 64 - 0x80) * 64
            + (0x80 + c % 64 - 0x80) = c := by omega
        simp only [List.cons_append, List.nil_append, utf8_step]
        rw [if_neg (by omega), if_neg (by omega), if_neg (by omega), if_pos (by omega), hcp,
          if_pos ⟨hc1, hc2, by omega, by rw [surrogate_false_iff]; omega⟩]
      · have hc1 : utf8_cont (0x80 + c / 4096 % 64) = true := by rw [utf8_cont_iff]; omega
        have hc2 : utf8_cont (0x80 + c / 64 % 64) = true := by rw [utf8_cont_iff]; omega
        have hc3 : utf8_cont (0x80 + c % 64) = true := by rw [utf8_cont_iff]; omega
        have hcp : (0xF0 + c / 262144 - 0xF0) * 262144 + (0x80 + c / 4096 % 64 - 0x80) * 4096
            + (0x80 + c / 64 % 64 - 0x80) * 64 + (0x80 + c % 64 - 0x80) = c := by omega
        simp only [List.cons_append, List.nil_append, utf8_step]
        rw [if_neg (by omega), if_neg (by omega), if_neg (by omega), if_neg (by omega),
          if_pos (by omega), hcp, if_pos ⟨hc1, hc2, hc3, by omega, by omega⟩]

theorem token_char_iff (c : Nat) :
    wikrt_token_char c = true ↔
      isControlChar c = false ∧ c ≠ 0xFFFD ∧ c ≠ 123 ∧ c ≠ 125 := by
  unfold wikrt_token_char isReplacementChar
  simp only [Bool.not_eq_true', Bool.or_eq_false_iff, beq_eq_false_iff_ne, ne_eq]
  constructor
  · rintro ⟨⟨⟨h1, h2⟩, h3⟩, h4⟩
    exact ⟨h3, h4, fun h => h1 h.symm, fun h => h2 h.symm⟩
  · rintro ⟨h3, h4, h1, h2⟩
    exact ⟨⟨⟨fun h => h1 h.symm, fun h => h2 h.symm⟩, h3⟩, h4⟩

theorem utf8_encode_length_pos (c : Nat) : 0 < (utf8_encode c).length :=
  List.length_pos.mpr (utf8_encode_ne_nil c)

theorem valid_token_loop_iff (fuel : Nat) :
    ∀ s : List Nat, s.length ≤ fuel →
      (wikrt_valid_token_loop fuel s = true ↔
        ∃ cps, utf8_valid s cps ∧ ∀ c ∈ cps, wikrt_token_char c = true) := by
  induction fuel with
  | zero =>
    intro s hs
    have : s = [] := List.length_eq_zero.mp (by omega)
    subst this
    simp only [wikrt_valid_token_loop, true_iff]
    exact ⟨[], ⟨by simp, by simp⟩, by simp⟩
  | succ fuel ih =>
    intro s hs
    cases s with
    | nil =>
      simp only [wikrt_valid_token_loop, true_iff]
      exact ⟨[], ⟨by simp, by simp⟩, by simp⟩
    | cons b t =>
      rw [wikrt_valid_token_loop]
      constructor
      · intro h
        cases hstep : utf8_step (b :: t) with
        | none => rw [hstep] at h; exact absurd h (by simp)
        | some r =>
          obtain ⟨cp, rest⟩ := r
          rw [hstep] at h
          simp only at h
          by_cases htc : wikrt_token_char cp = true
          · rw [if_pos htc] at h
            obtain ⟨hsc, hs2⟩ := utf8_step_sound _ _ _ hstep
            have hlen : rest.length ≤ fuel := by
              have h1 := congrArg List.length hs2
              have h2 := utf8_encode_length_pos cp
              simp only [List.length_cons, List.length_append] at h1 hs
              omega
            obtain ⟨cps, ⟨hv1, hv2⟩, hv3⟩ := (ih rest hlen).mp h
            refine ⟨cp :: cps, ⟨?_, ?_⟩, ?_⟩
            · intro c hc
              rcases List.mem_cons.mp hc with rfl | hc
              · exact hsc
              · exact hv1 c hc
            · rw [hs2, hv2]
              simp
            · intro c hc
              rcases List.mem_cons.mp hc with rfl | hc
              · exact htc
              · exact hv3 c hc
          · rw [if_neg htc] at h
            exact absurd h (by simp)
      · rintro ⟨cps, ⟨hv1, hv2⟩, hv3⟩
        cases cps with
        | nil => simp at hv2
        | cons c cps =>
          have hv2b : b :: t = utf8_encode c ++ (cps.map utf8_encode).flatten := by
            rw [hv2]; simp
          have hstep := utf8_step_encode c (cps.map utf8_encode).flatten
            (hv1 c (List.mem_cons_self _ _))
          rw [hv2b, hstep]
          simp only
          rw [if_pos (hv3 c (List.mem_cons_self _ _))]
          have hlen : ((cps.map utf8_encode).flatten).length ≤ fuel := by
            have h1 := congrArg List.length hv2b
            have h2 := utf8_encode_length_pos c
            simp only [List.length_cons, List.length_append] at h1 hs
            omega
          refine (ih _ hlen).mpr ⟨cps, ⟨?_, rfl⟩, ?_⟩
          · intro x hx
            exact hv1 x (List.mem_cons_of_mem _ hx)
          · intro x hx
            exact hv3 x (List.mem_cons_of_mem _ hx)

/-- C17: `wikrt_valid_token(s)` is true exactly when `s` has 1 to 63 bytes and
is the UTF-8 encoding of codepoints none of which is a control character (C0,
DEL, C1), a surrogate, the replacement character U+FFFD, `{` or `}`; the empty
token and every token of 64 bytes and more are rejected. -/
theorem wikrt_valid_token_iff (s : List Nat) :
    (wikrt_valid_token s = true ↔
      1 ≤ s.length ∧ s.length ≤ 63 ∧
      ∃ cps, utf8_valid s cps ∧
        ∀ c ∈ cps, isControlChar c = false ∧ isSurrogateCodepoint c = false
          ∧ c ≠ 0xFFFD ∧ c ≠ 123 ∧ c ≠ 125) ∧
    wikrt_valid_token [] = false ∧
    (64 ≤ s.length → wikrt_valid_token s = false) := by
  have hsz : ∀ t : List Nat, ¬ (1 ≤ t.length ∧ t.length ≤ 63) → wikrt_valid_token t = false := by
    intro t ht
    unfold wikrt_valid_token
    have : (decide (0 < t.length) && decide (t.length < 64)) = false := by
      simp only [Bool.and_eq_false_iff, decide_eq_false_iff_not]
      omega
    simp only [this, Bool.not_false, if_true]
  refine ⟨?_, hsz [] (by simp), fun h => hsz s (by omega)⟩
  by_cases hlen : 1 ≤ s.length ∧ s.length ≤ 63
  · have hv : wikrt_valid_token s = wikrt_valid_token_loop s.length s := by
      unfold wikrt_valid_token
      have : (decide (0 < s.length) && decide (s.length < 64)) = true := by
        simp only [Bool.and_eq_true, decide_eq_true_eq]
        omega
      simp only [this, Bool.not_true, Bool.false_eq_true, if_false]
    rw [hv, valid_token_loop_iff s.length s (le_refl _)]
    constructor
    · rintro ⟨cps, hv1, hv2⟩
      refine ⟨hlen.1, hlen.2, cps, hv1, fun c hc => ?_⟩
      have h1 := (token_char_iff c).mp (hv2 c hc)
      have h2 := (utf8_scalar_iff c).mp (hv1.1 c hc)
      exact ⟨h1.1, (surrogate_false_iff c).mpr h2.2, h1.2⟩
    · rintro ⟨_, _, cps, hv1, hv2⟩
      refine ⟨cps, hv1, fun c hc => ?_⟩
      have h := hv2 c hc
      exact (token_char_iff c).mpr ⟨h.1, h.2.2⟩
  · rw [hsz s hlen]
    constructor
    · intro h
      exact absurd h (by simp)
    · rintro ⟨h1, h2, _⟩
      exact absurd ⟨h1, h2⟩ hlen

/-- C17, witness: the token `:map` is valid and is the encoding of its four
codepoints; a token of 64 bytes is rejected. -/
theorem wikrt_valid_token_iff_witness :
    wikrt_valid_token [58, 109, 97, 112] = true ∧
    (∃ cps, utf8_valid [58, 109, 97, 112] cps ∧
      ∀ c ∈ cps, isControlChar c = false ∧ isSurrogateCodepoint c = false
        ∧ c ≠ 0xFFFD ∧ c ≠ 123 ∧ c ≠ 125) ∧
    wikrt_valid_token (List.replicate 64 97) = false :=
  ⟨by decide, ((wikrt_valid_token_iff [58, 109, 97, 112]).1.mp (by decide)).2.2,
    (wikrt_valid_token_iff (List.replicate 64 97)).2.2 (by decide)⟩

/-- C18 (text validation), on byte strings that are not valid UTF-8. The loop of
`wikrt_alloc_text_fl` ends when `utf8_step` fails and the function goes on to
return `WIKRT_OK`: for the single byte `0xFF` with the empty text, for the
encoded surrogate `ED A0 80` with the empty text, and for `a` followed by
`0xFF` with the text of the one character `a` (a cell at address 64 holding
the codepoint and the terminator). A control character is refused with
`WIKRT_INVAL`. -/
theorem wikrt_alloc_text_fl_accepts_invalid_utf8 :
    utf8_step [0xFF] = none ∧
    (wikrt_alloc_text_fl alloc_bump drop_none cx_empty 0 [0xFF]).1 = WIKRT_OK ∧
    (wikrt_alloc_text_fl alloc_bump drop_none cx_empty 0 [0xFF]).2.2 = WIKRT_UNIT_INR ∧
    (wikrt_alloc_text_fl alloc_bump drop_none cx_empty 0 [0xED, 0xA0, 0x80]).1 = WIKRT_OK ∧
    (wikrt_alloc_text_fl alloc_bump drop_none cx_empty 0 [0x61, 0xFF]).1 = WIKRT_OK ∧
    (wikrt_alloc_text_fl alloc_bump drop_none cx_empty 0 [0x61, 0xFF]).2.2
      = wikrt_tag_addr WIKRT_PL 64 ∧
    rd (wikrt_alloc_text_fl alloc_bump drop_none cx_empty 0 [0x61, 0xFF]).2.1 64 0
      = wikrt_i2v 0x61 ∧
    rd (wikrt_alloc_text_fl alloc_bump drop_none cx_empty 0 [0x61, 0xFF]).2.1 64 1
      = WIKRT_UNIT_INR ∧
    (wikrt_alloc_text_fl alloc_bump drop_none cx_empty 0 [0x61, 0x07]).1 = WIKRT_INVAL := by
  decide

/-! ### Further facts on the integer constructors and the text loop -/

theorem int32_of_bounds (n : Int) :
    -(2 ^ 31) ≤ wikrt_int32_of n ∧ wikrt_int32_of n < 2 ^ 31 := by
  unfold wikrt_int32_of
  omega

theorem int32_of_id (n : Int) (h0 : -(2 ^ 31) ≤ n) (h1 : n < 2 ^ 31) : wikrt_int32_of n = n := by
  unfold wikrt_int32_of
  omega

/-- In the small range `wikrt_alloc_i64_fl` followed by `wikrt_peek_i64` gives
the integer converted to `int32_t`: the integer itself exactly when it lies in
the `int32_t` range. -/
theorem alloc_i64_fl_small {FL : Type} (A : wikrt_allocator FL) (maxd : Nat)
    (cx : wikrt_cx FL) (v : Nat) (n i64 : Int)
    (h0 : WIKRT_SMALLINT_MIN ≤ n) (h1 : n ≤ WIKRT_SMALLINT_MAX) :
    wikrt_alloc_i64_fl A maxd cx v n = some (WIKRT_OK, cx, wikrt_i2v (wikrt_int32_of n)) ∧
    wikrt_peek_i64 cx (wikrt_i2v (wikrt_int32_of n)) i64 = (WIKRT_OK, wikrt_int32_of n) ∧
    (wikrt_int32_of n = n ↔ -(2 ^ 31) ≤ n ∧ n < 2 ^ 31) := by
  have hb := int32_of_bounds n
  refine ⟨?_, ?_, ?_⟩
  · unfold wikrt_alloc_i64_fl
    rw [if_pos ⟨h0, h1⟩]
  · have hr := v2i_i2v (wikrt_int32_of n)
      (by unfold WIKRT_SMALLINT_MIN WIKRT_SMALLINT_MAX; omega)
      (by unfold WIKRT_SMALLINT_MAX; omega)
    unfold wikrt_peek_i64 wikrt_i
    rw [hr.1, hr.2]
    rfl
  · constructor
    · intro h
      rw [← h]
      exact hb
    · intro h
      exact int32_of_id n h.1 h.2

/-- Outside the small range `wikrt_alloc_i64_fl` always passes two digits on:
the third digit of such an integer is never zero. -/
theorem alloc_i64_fl_large {FL : Type} (A : wikrt_allocator FL) (maxd : Nat)
    (cx : wikrt_cx FL) (v : Nat) (n : Int)
    (hn : n < WIKRT_SMALLINT_MIN ∨ WIKRT_SMALLINT_MAX < n)
    (h0 : -(2 ^ 63) < n) (h1 : n < 2 ^ 63) :
    wikrt_alloc_i64_fl A maxd cx v n
      = some (wikrt_alloc_bigint A maxd cx v (decide (n < 0))
          (wikrt_digits3 (wikrt_uint32_of (|n| % WIKRT_BIGINT_DIGIT))
            (wikrt_uint32_of (|n| / WIKRT_BIGINT_DIGIT % WIKRT_BIGINT_DIGIT))
            (wikrt_uint32_of (|n| / WIKRT_BIGINT_DIGIT / WIKRT_BIGINT_DIGIT))) 2) := by
  have hsmall : ¬ (WIKRT_SMALLINT_MIN ≤ n ∧ n ≤ WIKRT_SMALLINT_MAX) := by
    intro h
    rcases hn with hn | hn <;> omega
  have hmin : ¬ (decide (n < 0) = true ∧ n = -(2 ^ 63)) := by
    intro h
    omega
  have habs : (if decide (n < 0) = true then -n else n) = |n| := by
    by_cases hneg : n < 0
    · simp only [hneg, decide_True, if_true]
      exact (abs_of_neg hneg).symm
    · simp only [hneg, decide_False, Bool.false_eq_true, if_false]
      exact (abs_of_nonneg (by omega)).symm
  have habs2 : 1000000000000000000 ≤ |n| := by
    unfold WIKRT_SMALLINT_MIN WIKRT_SMALLINT_MAX at hn
    rcases hn with hn | hn
    · rw [abs_of_neg (by omega)]; omega
    · rw [abs_of_nonneg (by omega)]; omega
  have habs3 : |n| < 2 ^ 63 := by
    rcases abs_cases n with ⟨h, _⟩ | ⟨h, _⟩ <;> omega
  have hd2 : ¬ (0 = wikrt_uint32_of (|n| / WIKRT_BIGINT_DIGIT / WIKRT_BIGINT_DIGIT)) := by
    unfold wikrt_uint32_of WIKRT_BIGINT_DIGIT
    generalize |n| = m at habs2 habs3
    omega
  unfold wikrt_alloc_i64_fl
  rw [if_neg hsmall]
  simp only [habs]
  rw [if_neg hmin, if_neg hd2]

theorem alloc_text_loop_fuel {FL : Type} (A : wikrt_allocator FL) (f1 : Nat) :
    ∀ (f2 : Nat) (st : wikrt_text_state FL) (s : List Nat), s.length ≤ f1 → s.length ≤ f2 →
      wikrt_alloc_text_loop A f1 st s = wikrt_alloc_text_loop A f2 st s := by
  induction f1 with
  | zero =>
    intro f2 st s h1 _
    have : s = [] := List.length_eq_zero.mp (by omega)
    subst this
    cases f2 <;> rfl
  | succ f1 ih =>
    intro f2 st s h1 h2
    cases s with
    | nil => cases f2 <;> rfl
    | cons b t =>
      cases f2 with
      | zero => simp at h2
      | succ f2 =>
        rw [wikrt_alloc_text_loop, wikrt_alloc_text_loop]
        cases hstep : utf8_step (b :: t) with
        | none => rfl
        | some r =>
          obtain ⟨cp, rest⟩ := r
          have hlen : rest.length < (b :: t).length := by
            have h3 := congrArg List.length (utf8_step_sound _ _ _ hstep).2
            have h4 := utf8_encode_length_pos cp
            rw [List.length_append] at h3
            omega
          simp only [List.length_cons] at hlen h1 h2
          simp only
          split
          · rfl
          · rcases A.wikrt_alloc st.cx WIKRT_CELLSIZE with ⟨o, cx1⟩
            cases o with
            | none => rfl
            | some dst => exact ih f2 _ rest (by omega) (by omega)

end Word

/-! ## Theorems on bump allocation -/

namespace Eval
open wikrt_val

theorem alloc_r_seq_spec (mem : Nat) (szs : List Nat) :
    ∀ cx : wikrt_cx, szs.sum < cx.alloc → mem + cx.alloc < 2 ^ 64 →
      (wikrt_alloc_r_seq mem cx szs).2 = { cx with alloc := cx.alloc - szs.sum } ∧
      (wikrt_alloc_r_seq mem cx szs).1.map Prod.snd = szs ∧
      (∀ r ∈ (wikrt_alloc_r_seq mem cx szs).1,
        mem + (cx.alloc - szs.sum) ≤ r.1 ∧ r.1 + r.2 ≤ mem + cx.alloc) ∧
      (wikrt_alloc_r_seq mem cx szs).1.Pairwise (fun x y => y.1 + y.2 ≤ x.1) := by
  induction szs with
  | nil =>
    intro cx _ _
    simp [wikrt_alloc_r_seq]
  | cons sz rest ih =>
    intro cx hsum hmem
    rw [List.sum_cons] at hsum
    have hle : sz ≤ cx.alloc := by omega
    have hcx1 : wikrt_alloc_r cx sz = { cx with alloc := cx.alloc - sz } := by
      simp [wikrt_alloc_r, wikrt_word_sub, hle]
    have haddr : wikrt_alloc_r_addr mem cx sz = cx.alloc - sz + mem := by
      unfold wikrt_alloc_r_addr
      rw [hcx1]
      show (cx.alloc - sz + mem) % 2 ^ 64 = cx.alloc - sz + mem
      apply Nat.mod_eq_of_lt
      have : 0 < cx.alloc := by omega
      omega
    obtain ⟨h1, h2, h3, h4⟩ := ih { cx with alloc := cx.alloc - sz }
      (by show rest.sum < cx.alloc - sz; omega) (by show mem + (cx.alloc - sz) < 2 ^ 64; omega)
    simp only [wikrt_alloc_r_seq, hcx1, haddr, List.sum_cons]
    refine ⟨?_, ?_, ?_, ?_⟩
    · rw [h1]
      show ({ cx with alloc := cx.alloc - sz - rest.sum } : wikrt_cx) = _
      congr 1
      omega
    · rw [List.map_cons, h2]
    · intro r hr
      rcases List.mem_cons.mp hr with hr | hr
      · subst hr
        show mem + (cx.alloc - (sz + rest.sum)) ≤ cx.alloc - sz + mem
          ∧ cx.alloc - sz + mem + sz ≤ mem + cx.alloc
        omega
      · have := h3 r hr
        have h5 : mem + (cx.alloc - sz - rest.sum) ≤ r.1 := this.1
        have h6 : r.1 + r.2 ≤ mem + (cx.alloc - sz) := this.2
        omega
    · rw [List.pairwise_cons]
      refine ⟨?_, h4⟩
      intro r hr
      have h6 : r.1 + r.2 ≤ mem + (cx.alloc - sz) := (h3 r hr).2
      show r.1 + r.2 ≤ cx.alloc - sz + mem
      omega

/-- C20: with `wikrt_mem_available(cx, N)`, in a context whose `alloc` is within
its `size` and whose memory `[mem, mem + size)` ends below the top of the 64-bit
address space, the calls `wikrt_alloc_r` for sizes that sum to at most `N` lower
`cx->alloc` by the sum without underflow and leave it positive; every range
returned lies inside `[mem, mem + alloc_before)` and above `mem`, every later
range lies below every earlier one (so the ranges are pairwise disjoint, and a
range that is not empty starts lower than the ranges before it), and
`wikrt_mem_in_use` has grown by the sum of the sizes. -/
theorem wikrt_alloc_r_reserved (mem N : Nat) (cx : wikrt_cx) (szs : List Nat)
    (hav : wikrt_mem_available cx N = true) (hsum : szs.sum ≤ N)
    (hsize : cx.alloc ≤ cx.size) (hmem : mem + cx.size < 2 ^ 64) :
    0 < (wikrt_alloc_r_seq mem cx szs).2.alloc ∧
    (wikrt_alloc_r_seq mem cx szs).2.alloc + szs.sum = cx.alloc ∧
    (wikrt_alloc_r_seq mem cx szs).1.map Prod.snd = szs ∧
    (∀ r ∈ (wikrt_alloc_r_seq mem cx szs).1,
      mem < r.1 ∧ r.1 + r.2 ≤ mem + cx.alloc) ∧
    (wikrt_alloc_r_seq mem cx szs).1.Pairwise
      (fun x y => y.1 + y.2 ≤ x.1 ∧ (0 < y.2 → y.1 < x.1) ∧
        ∀ a, ¬ (x.1 ≤ a ∧ a < x.1 + x.2 ∧ y.1 ≤ a ∧ a < y.1 + y.2)) ∧
    wikrt_mem_in_use (wikrt_alloc_r_seq mem cx szs).2 = wikrt_mem_in_use cx + szs.sum := by
  have hN : N < cx.alloc := by simpa [wikrt_mem_available] using hav
  obtain ⟨h1, h2, h3, h4⟩ := alloc_r_seq_spec mem szs cx (by omega) (by omega)
  refine ⟨?_, ?_, h2, ?_, ?_, ?_⟩
  · rw [h1]
    show 0 < cx.alloc - szs.sum
    omega
  · rw [h1]
    show cx.alloc - szs.sum + szs.sum = cx.alloc
    omega
  · intro r hr
    have := h3 r hr
    omega
  · refine h4.imp ?_
    intro x y hxy
    refine ⟨hxy, fun _ => by omega, fun a => by omega⟩
  · rw [h1]
    unfold wikrt_mem_in_use wikrt_word_sub
    show (if cx.alloc - szs.sum ≤ cx.size then cx.size - (cx.alloc - szs.sum)
      else cx.size + 2 ^ 64 - (cx.alloc - szs.sum))
      = (if cx.alloc ≤ cx.size then cx.size - cx.alloc else cx.size + 2 ^ 64 - cx.alloc) + szs.sum
    rw [if_pos (by omega), if_pos hsize]
    omega

/-- C20, witness: three allocations of 16, 32 and 16 bytes from a context with
1024 free bytes whose memory starts at address 65536. -/
theorem wikrt_alloc_r_reserved_witness :
    wikrt_mem_available (cx0 U) 64 = true ∧
    (wikrt_alloc_r_seq 65536 (cx0 U) [16, 32, 16]).1
      = [(65536 + 1008, 16), (65536 + 976, 32), (65536 + 960, 16)] ∧
    0 < (wikrt_alloc_r_seq 65536 (cx0 U) [16, 32, 16]).2.alloc ∧
    wikrt_mem_in_use (wikrt_alloc_r_seq 65536 (cx0 U) [16, 32, 16]).2
      = wikrt_mem_in_use (cx0 U) + [16, 32, 16].sum :=
  ⟨by decide, by decide,
    (wikrt_alloc_r_reserved 65536 64 (cx0 U) [16, 32, 16] (by decide) (by decide) (by decide)
      (by decide)).1,
    (wikrt_alloc_r_reserved 65536 64 (cx0 U) [16, 32, 16] (by decide) (by decide) (by decide)
      (by decide)).2.2.2.2.2⟩

end Eval

namespace Word

/-- C24: the string of `wikrt_abcd_operators` has 42 pairwise distinct
characters, the opcodes `lrwzvc LRWZVC %^ $o'kf # 0123456789 +*-QG ? DFMK` with
SP and LF; `wikrt_abcd_expansion` of each of them is the string of that one
character, and of every other argument it is `NULL`. -/
theorem wikrt_abcd_operators_table (c : Nat) :
    wikrt_abcd_operators.length = 42 ∧ wikrt_abcd_operators.Nodup ∧
    wikrt_abcd_operators.Perm
      [108, 114, 119, 122, 118, 99, 76, 82, 87, 90, 86, 67, 37, 94, 36, 111, 39, 107, 102,
        35, 48, 49, 50, 51, 52, 53, 54, 55, 56, 57, 43, 42, 45, 81, 71, 63, 68, 70, 77, 75,
        32, 10] ∧
    (c ∈ wikrt_abcd_operators → wikrt_abcd_expansion c = some [c]) ∧
    (c ∉ wikrt_abcd_operators → wikrt_abcd_expansion c = none) := by
  refine ⟨by decide, by decide, by decide, ?_, ?_⟩
  · revert c
    decide
  · intro h
    simp only [wikrt_abcd_operators, List.mem_cons, List.mem_singleton, List.not_mem_nil,
      or_false, not_or] at h
    simp [wikrt_abcd_expansion, ABC_PROD_ASSOCL, ABC_PROD_ASSOCR, ABC_PROD_W_SWAP,
      ABC_PROD_Z_SWAP, ABC_PROD_INTRO1, ABC_PROD_ELIM1, ABC_SUM_ASSOCL, ABC_SUM_ASSOCR,
      ABC_SUM_W_SWAP, ABC_SUM_Z_SWAP, ABC_SUM_INTRO0, ABC_SUM_ELIM0, ABC_COPY, ABC_DROP, ABC_SP,
      ABC_LF, ABC_APPLY, ABC_COMPOSE, ABC_QUOTE, ABC_REL, ABC_AFF, ABC_INEW, ABC_NUM, ABC_ID1,
      ABC_ID2, ABC_ID3, ABC_ID4, ABC_ID5, ABC_ID6, ABC_ID7, ABC_ID8, ABC_ID9, ABC_ID0, ABC_D1,
      ABC_D2, ABC_D3, ABC_D4, ABC_D5, ABC_D6, ABC_D7, ABC_D8, ABC_D9, ABC_D0, ABC_IADD, ABC_ADD,
      ABC_IMUL, ABC_MUL, ABC_INEG, ABC_NEG, ABC_IDIV, ABC_DIV, ABC_IGT, ABC_GT, ABC_CONDAP,
      ABC_DISTRIB, ABC_FACTOR, ABC_MERGE, ABC_ASSERT, h]

/-- C26 (binary round trip): `wikrt_alloc_binary` and `wikrt_read` return
`WIKRT_IMPL` on every input and leave the context and their out-parameters as
they were; no binary is introduced and no byte is read, for the bytes 10, 20,
30 as for any others. -/
theorem wikrt_binary_not_implemented {FL : Type} (cx : wikrt_cx FL) (v : Nat) (bs : List Nat)
    (binary bytesRead remainder : Nat) (buffer : List Nat) :
    wikrt_alloc_binary cx v bs bs.length = (WIKRT_IMPL, cx, v) ∧
    wikrt_alloc_binary cx v [10, 20, 30] 3 = (WIKRT_IMPL, cx, v) ∧
    wikrt_read cx binary bs.length bytesRead buffer remainder
      = (WIKRT_IMPL, cx, bytesRead, buffer, remainder) ∧
    WIKRT_IMPL ≠ WIKRT_OK :=
  ⟨rfl, rfl, rfl, by decide⟩

theorem size_class_ff_loop_some (sz : Nat) (hsz : 1 ≤ sz) :
    ∀ (k fuel szt : Nat) (sc : Int), szt < 2 ^ k → k < fuel →
      ∃ r, wikrt_size_class_ff_loop sz fuel szt sc = some r := by
  intro k
  induction k with
  | zero =>
    intro fuel szt sc hszt hf
    cases fuel with
    | zero => omega
    | succ f =>
      have : ¬ szt ≥ sz := by simp at hszt; omega
      exact ⟨sc, by simp [wikrt_size_class_ff_loop, this]⟩
  | succ k ih =>
    intro fuel szt sc hszt hf
    cases fuel with
    | zero => omega
    | succ f =>
      by_cases h : szt ≥ sz
      · obtain ⟨r, hr⟩ := ih f (szt >>> 1) (sc - 1)
          (by rw [Nat.shiftRight_eq_div_pow]; rw [Nat.pow_succ] at hszt; omega) (by omega)
        exact ⟨r, by simp only [wikrt_size_class_ff_loop, if_pos h, hr]⟩
      · exact ⟨sc, by simp [wikrt_size_class_ff_loop, h]⟩

theorem size_class_some (K : wikrt_fl_consts) (fuel sz : Nat) (hsz : 1 ≤ sz)
    (hK : K.WIKRT_FFMAX < 2 ^ 64) (hf : 65 ≤ fuel) :
    ∃ r, wikrt_size_class K fuel sz = some r := by
  unfold wikrt_size_class
  split
  · exact ⟨_, rfl⟩
  · exact size_class_ff_loop_some sz hsz 64 fuel _ _ hK (by omega)

/-- C25: `wikrt_cx_reset` called twice leaves the root header, the free list and
the memory of the context as one call leaves them (and does not return where
one call does not); a call returns when the constant `WIKRT_FFMAX` is a 64-bit
word and the memory after the header is not empty. -/
theorem wikrt_cx_reset_idempotent (K : wikrt_fl_consts) (fuel hdrEnd sizeMB : Nat)
    (cx : wikrt_cx wikrt_cx_hdr) :
    (wikrt_cx_reset K fuel hdrEnd sizeMB cx).bind (wikrt_cx_reset K fuel hdrEnd sizeMB)
      = wikrt_cx_reset K fuel hdrEnd sizeMB cx ∧
    (K.WIKRT_FFMAX < 2 ^ 64 → 65 ≤ fuel →
      1 ≤ wikrt_cellbuff (wikrt_size_sub (cx_size_bytes sizeMB) hdrEnd) →
      ∃ cx1, wikrt_cx_reset K fuel hdrEnd sizeMB cx = some cx1) := by
  constructor
  · cases h : wikrt_size_class K fuel
        (wikrt_cellbuff (wikrt_size_sub (cx_size_bytes sizeMB) hdrEnd)) with
    | none => simp only [wikrt_cx_reset, wikrt_cx_resetmem, wikrt_free, wikrt_free_b, h,
        Option.none_bind]
    | some sc =>
      simp only [wikrt_cx_reset, wikrt_cx_resetmem, wikrt_free, wikrt_free_b, h,
        Option.some_bind, Option.some.injEq]
      have hm : ∀ (m : Nat → Nat) (a w1 w2 : Nat),
          (wr (wr (wr (wr ({ memory := m, fl := wikrt_cx_hdr_zero.flmain } : wikrt_cx wikrt_fl)
            a 0 w1) a 1 w2) a 0 w1) a 1 w2).memory
          = (wr (wr ({ memory := m, fl := wikrt_cx_hdr_zero.flmain } : wikrt_cx wikrt_fl)
            a 0 w1) a 1 w2).memory := by
        intro m a w1 w2
        funext x
        simp only [wr]
        split
        · rfl
        · split <;> rfl
      congr 1
      exact hm cx.memory hdrEnd _ _
  · intro hK hf hsz
    obtain ⟨sc, hsc⟩ := size_class_some K fuel _ hsz hK hf
    unfold wikrt_cx_reset wikrt_cx_resetmem wikrt_free wikrt_free_b
    simp only [hsc]
    exact ⟨_, rfl⟩

theorem cx_list_congr (cxs cxs2 : Nat → wikrt_cx_rec) (l : List Nat) :
    ∀ prev hd, (∀ c ∈ l, cxs2 c = cxs c) → wikrt_cx_list cxs prev hd l →
      wikrt_cx_list cxs2 prev hd l := by
  induction l with
  | nil => intro prev hd _ h; exact h
  | cons c l ih =>
    intro prev hd hc h
    obtain ⟨h1, h2, h3, h4⟩ := h
    have hcc := hc c (List.mem_cons_self _ _)
    refine ⟨h1, h2, by rw [hcc]; exact h3, ?_⟩
    rw [hcc]
    exact ih c _ (fun x hx => hc x (List.mem_cons_of_mem _ hx)) h4

theorem cx_list_ne_zero (cxs : Nat → wikrt_cx_rec) (l : List Nat) :
    ∀ prev hd, wikrt_cx_list cxs prev hd l → ∀ c ∈ l, c ≠ 0 := by
  induction l with
  | nil => intro _ _ _ c hc; simp at hc
  | cons a l ih =>
    intro prev hd h c hc
    obtain ⟨_, h2, _, h4⟩ := h
    rcases List.mem_cons.mp hc with rfl | hc
    · exact h2
    · exact ih _ _ h4 c hc

/-- The list with another `prev` before its first element, once the `prev` link
of that element is changed to it. -/
theorem cx_list_set_prev (cxs : Nat → wikrt_cx_rec) (l : List Nat) (prev p hd : Nat)
    (hnd : l.Nodup) (h : wikrt_cx_list cxs prev hd l) (hhd : hd ≠ 0) :
    wikrt_cx_list (wikrt_cxs_set cxs hd { cxs hd with prev := p }) p hd l := by
  cases l with
  | nil => exact absurd h hhd
  | cons c l =>
    obtain ⟨h1, h2, h3, h4⟩ := h
    subst h1
    have hc : (wikrt_cxs_set cxs hd { cxs hd with prev := p }) hd = { cxs hd with prev := p } := by
      simp [wikrt_cxs_set]
    refine ⟨rfl, h2, by rw [hc], ?_⟩
    rw [hc]
    refine cx_list_congr cxs _ l hd _ ?_ h4
    intro x hx
    have : x ≠ hd := fun hxe => (List.nodup_cons.mp hnd).1 (hxe ▸ hx)
    simp [wikrt_cxs_set, this]

theorem cx_create_list {M : Type} (resetmem : Nat → M → Option M) (cx pMem : Nat)
    (e e1 : wikrt_env M) (ppCX p sizeMB : Nat) (l : List Nat)
    (hwf : wikrt_env_wf e l) (hfresh : cx ∉ l)
    (h : wikrt_cx_create resetmem cx pMem e ppCX sizeMB = some (WIKRT_OK, e1, p)) :
    p = cx ∧ wikrt_env_wf e1 (cx :: l) := by
  unfold wikrt_cx_create at h
  simp only at h
  split at h
  · simp [WIKRT_INVAL, WIKRT_OK] at h
  · split at h
    · simp [WIKRT_NOMEM, WIKRT_OK] at h
    · rename_i hcx
      split at h
      · simp [WIKRT_NOMEM, WIKRT_OK] at h
      · split at h
        · exact absurd h (by simp)
        · rename_i m hm
          simp only [Option.some.injEq, Prod.mk.injEq, true_and] at h
          obtain ⟨he, hp⟩ := h
          subst he
          refine ⟨hp.symm, ?_, List.nodup_cons.mpr ⟨hfresh, hwf.2⟩⟩
          have hcx0 : cx ≠ 0 := fun h0 => hcx h0.symm
          show wikrt_cx_list _ 0 cx (cx :: l)
          by_cases hhd : 0 ≠ e.cxhd
          · simp only [if_pos hhd]
            have hne : cx ≠ e.cxhd := by
              intro heq
              cases l with
              | nil => exact hhd hwf.1.symm
              | cons a l => exact hfresh (by rw [heq, hwf.1.1]; exact List.mem_cons_self _ _)
            have hrec : wikrt_cxs_set (wikrt_cxs_set e.cxs cx
                  { env := e.addr, next := e.cxhd, prev := 0, sizeMB := sizeMB, memory := pMem })
                e.cxhd
                { wikrt_cxs_set e.cxs cx
                    { env := e.addr, next := e.cxhd, prev := 0, sizeMB := sizeMB, memory := pMem }
                    e.cxhd with prev := cx } cx
                = { env := e.addr, next := e.cxhd, prev := 0, sizeMB := sizeMB, memory := pMem } := by
              simp [wikrt_cxs_set, hne]
            refine ⟨rfl, hcx0, by rw [hrec], ?_⟩
            rw [hrec]
            show wikrt_cx_list _ cx e.cxhd l
            have h1 : wikrt_cx_list (wikrt_cxs_set e.cxs cx
                { env := e.addr, next := e.cxhd, prev := 0, sizeMB := sizeMB, memory := pMem })
                0 e.cxhd l := by
              refine cx_list_congr e.cxs _ l 0 _ ?_ hwf.1
              intro x hx
              have : x ≠ cx := fun hxe => hfresh (hxe ▸ hx)
              simp [wikrt_cxs_set, this]
            exact cx_list_set_prev _ l 0 cx e.cxhd hwf.2 h1 (fun h0 => hhd h0.symm)
          · simp only [if_neg hhd]
            have hhd0 : e.cxhd = 0 := by
              by_contra hx
              exact hhd (fun h0 => hx h0.symm)
            have hl : l = [] := by
              cases l with
              | nil => rfl
              | cons a l => exact absurd (hwf.1.1 ▸ hhd0) hwf.1.2.1
            subst hl
            have hrec : wikrt_cxs_set e.cxs cx
                { env := e.addr, next := e.cxhd, prev := 0, sizeMB := sizeMB, memory := pMem } cx
                = { env := e.addr, next := e.cxhd, prev := 0, sizeMB := sizeMB, memory := pMem } := by
              simp [wikrt_cxs_set]
            refine ⟨rfl, hcx0, by rw [hrec], ?_⟩
            rw [hrec]
            exact hhd0

theorem cx_list_head (cxs : Nat → wikrt_cx_rec) (prev hd : Nat) (l : List Nat)
    (h : wikrt_cx_list cxs prev hd l) : hd = l.headD 0 := by
  cases l with
  | nil => exact h
  | cons c l => exact h.1

theorem cx_list_next_mem (cxs : Nat → wikrt_cx_rec) (c : Nat) (l2 : List Nat) :
    ∀ (l : List Nat) (p h : Nat), wikrt_cx_list cxs p h (l ++ c :: l2) →
      (cxs c).next = 0 ∨ (cxs c).next ∈ l2 := by
  intro l
  induction l with
  | nil =>
    intro p h hl
    have := cx_list_head cxs c _ l2 hl.2.2.2
    cases l2 with
    | nil => exact Or.inl this
    | cons d l2 => exact Or.inr (by rw [this]; exact List.mem_cons_self _ _)
  | cons x l ihl =>
    intro p h hl
    exact ihl x _ hl.2.2.2

theorem cx_list_prev_mem (cxs : Nat → wikrt_cx_rec) (c : Nat) (l2 : List Nat) :
    ∀ (l : List Nat) (x p h : Nat), wikrt_cx_list cxs p h ((x :: l) ++ c :: l2) →
      (cxs c).prev ∈ x :: l := by
  intro l
  induction l with
  | nil =>
    intro x p h hl
    have : (cxs c).prev = x := hl.2.2.2.2.2.1
    rw [this]
    exact List.mem_cons_self _ _
  | cons y l ihl =>
    intro x p h hl
    exact List.mem_cons_of_mem _ (ihl y x _ hl.2.2.2)

theorem cx_list_prev_nil (cxs : Nat → wikrt_cx_rec) (c prev hd : Nat) (l2 : List Nat)
    (h : wikrt_cx_list cxs prev hd (c :: l2)) : hd = c ∧ (cxs c).prev = prev :=
  ⟨h.1, h.2.2.1⟩

/-- The list without its element `c`: the lists `l1` before and `l2` after it
are linked to each other in `cxs2`, which has the `prev` link of the successor
and the `next` link of the predecessor of `c` redirected and is `cxs` at every
other context. -/
theorem cx_list_remove (cxs cxs2 : Nat → wikrt_cx_rec) (c : Nat) (l2 : List Nat) :
    ∀ (l1 : List Nat) (prev hd : Nat),
      wikrt_cx_list cxs prev hd (l1 ++ c :: l2) → (l1 ++ c :: l2).Nodup →
      prev ∉ l1 ++ c :: l2 →
      (∀ x ∈ l1 ++ l2, x ≠ (cxs c).next → x ≠ (cxs c).prev → cxs2 x = cxs x) →
      ((cxs c).next ≠ 0 →
        cxs2 (cxs c).next = { cxs (cxs c).next with prev := (cxs c).prev }) →
      (l1 ≠ [] → cxs2 (cxs c).prev = { cxs (cxs c).prev with next := (cxs c).next }) →
      wikrt_cx_list cxs2 prev (if l1 = [] then (cxs c).next else hd) (l1 ++ l2) := by
  intro l1
  induction l1 with
  | nil =>
    intro prev hd h hnd hprev hframe hnx _
    obtain ⟨_, _, h3, h4⟩ := h
    simp only [List.nil_append, if_true] at hframe ⊢
    cases l2 with
    | nil => exact h4
    | cons d l2 =>
      obtain ⟨g1, g2, _, g4⟩ := h4
      have hd2 := hnx (g1 ▸ g2)
      rw [g1] at hd2
      refine ⟨g1, g2, by rw [hd2, h3], ?_⟩
      have hnext : (cxs2 d).next = (cxs d).next := by rw [hd2]
      rw [hnext]
      refine cx_list_congr cxs cxs2 l2 d _ ?_ g4
      intro x hx
      have hnd2 : (c :: d :: l2).Nodup := hnd
      have hxd : x ≠ d := fun hxe => by
        have := (List.nodup_cons.mp (List.nodup_cons.mp hnd2).2).1
        exact this (hxe ▸ hx)
      have hxp : x ≠ prev := fun hxe =>
        hprev (hxe ▸ List.mem_cons_of_mem _ (List.mem_cons_of_mem _ hx))
      exact hframe x (List.mem_cons_of_mem _ hx) (by rw [g1]; exact hxd) (by rw [h3]; exact hxp)
  | cons a l1 ih =>
    intro prev hd h hnd hprev hframe hnx hpv
    obtain ⟨h1, h2, h3, h4⟩ := h
    have hnd1 : (l1 ++ c :: l2).Nodup := (List.nodup_cons.mp hnd).2
    have ha : a ∉ l1 ++ c :: l2 := (List.nodup_cons.mp hnd).1
    simp only [List.cons_append, if_neg (List.cons_ne_nil a l1)]
    have hrest := ih a (cxs a).next h4 hnd1 ha
      (fun x hx => hframe x (List.mem_cons_of_mem _ hx)) hnx
    cases l1 with
    | nil =>
      simp only [List.nil_append, if_true] at hrest h4 ⊢
      have hcp : (cxs c).prev = a := h4.2.2.1
      have hrec := hpv (List.cons_ne_nil _ _)
      rw [hcp] at hrec
      refine ⟨h1, h2, by rw [hrec]; exact h3, ?_⟩
      have hn : (cxs2 a).next = (cxs c).next := by rw [hrec]
      rw [hn]
      exact hrest (fun h => absurd rfl h)
    | cons b l1 =>
      have hrest2 := hrest (fun _ => hpv (List.cons_ne_nil _ _))
      simp only [if_neg (List.cons_ne_nil b l1)] at hrest2
      have hnx_mem := cx_list_next_mem cxs c l2 (b :: l1) a _ h4
      have hpv_mem := cx_list_prev_mem cxs c l2 l1 b a _ h4
      have hane0 : a ≠ 0 := h2
      have h_a_nx : a ≠ (cxs c).next := by
        intro heq
        rcases hnx_mem with h0 | hm
        · exact hane0 (heq.trans h0)
        · exact ha (List.mem_append_right _ (List.mem_cons_of_mem _ (heq ▸ hm)))
      have h_a_pv : a ≠ (cxs c).prev := by
        intro heq
        exact ha (List.mem_append_left _ (heq ▸ hpv_mem))
      have hrec : cxs2 a = cxs a :=
        hframe a (List.mem_cons_self _ _) h_a_nx h_a_pv
      refine ⟨h1, h2, by rw [hrec]; exact h3, ?_⟩
      rw [hrec]
      exact hrest2

theorem cx_destroy_list {M : Type} (e : wikrt_env M) (l : List Nat) (c : Nat)
    (hwf : wikrt_env_wf e l) (hc : c ∈ l) :
    ∃ e1, wikrt_cx_destroy true e c = some e1 ∧ wikrt_env_wf e1 (l.erase c) ∧
      e1.regions = e.regions ∧ e1.addr = e.addr := by
  obtain ⟨l1, l2, hl⟩ := List.append_of_mem hc
  subst hl
  obtain ⟨hlist, hnd⟩ := hwf
  have hc1 : c ∉ l1 := by
    intro h
    have := (List.nodup_append.mp hnd).2.2
    exact this h (List.mem_cons_self _ _)
  have hc2 : c ∉ l2 := (List.nodup_cons.mp (List.nodup_append.mp hnd).2.1).1
  have herase : (l1 ++ c :: l2).erase c = l1 ++ l2 := by
    rw [List.erase_append_right _ hc1, List.erase_cons_head]
  have hne0 := cx_list_ne_zero e.cxs _ 0 _ hlist
  have hc0 : c ≠ 0 := hne0 c hc
  have hnxm := cx_list_next_mem e.cxs c l2 l1 0 _ hlist
  have hcnx : c ≠ (e.cxs c).next := by
    intro heq
    rcases hnxm with h0 | hm
    · exact hc0 (heq.trans h0)
    · exact hc2 (heq ▸ hm)
  have hnd12 : (l1 ++ l2).Nodup := by
    have := List.nodup_append.mp hnd
    refine List.nodup_append.mpr ⟨this.1, (List.nodup_cons.mp this.2.1).2, ?_⟩
    intro a ha1 hb2
    exact this.2.2 ha1 (List.mem_cons_of_mem _ hb2)
  have h0 : (0 : Nat) ∉ l1 ++ c :: l2 := fun h => hne0 0 h rfl
  -- the first assignment leaves the structure of `c` alone
  have hcxs1c : (if 0 ≠ (e.cxs c).next then
      wikrt_cxs_set e.cxs (e.cxs c).next
        { e.cxs (e.cxs c).next with prev := (e.cxs c).prev }
      else e.cxs) c = e.cxs c := by
    split
    · simp [wikrt_cxs_set, hcnx]
    · rfl
  unfold wikrt_cx_destroy
  simp only [hcxs1c, if_true]
  cases l1 with
  | nil =>
    have hp := cx_list_prev_nil e.cxs c 0 _ l2 hlist
    have hpv : ¬ (0 ≠ (e.cxs c).prev) := by rw [hp.2]; exact fun h => h rfl
    rw [if_neg hpv, if_pos hp.1]
    refine ⟨_, rfl, ⟨?_, ?_⟩, rfl, rfl⟩
    · rw [herase]
      have := cx_list_remove e.cxs
        (if 0 ≠ (e.cxs c).next then
          wikrt_cxs_set e.cxs (e.cxs c).next
            { e.cxs (e.cxs c).next with prev := (e.cxs c).prev }
          else e.cxs) c l2 [] 0 e.cxhd hlist hnd h0
        (by
          intro x _ hx1 _
          split
          · simp [wikrt_cxs_set, hx1]
          · rfl)
        (by
          intro hn
          rw [if_pos (fun h => hn h.symm)]
          simp [wikrt_cxs_set])
        (fun h => absurd rfl h)
      simpa using this
    · rw [herase]
      exact hnd12
  | cons a l1 =>
    have hpvm := cx_list_prev_mem e.cxs c l2 l1 a 0 _ hlist
    have hpv0 : (e.cxs c).prev ≠ 0 := hne0 _ (List.mem_append_left _ hpvm)
    have hpvnx : (e.cxs c).prev ≠ (e.cxs c).next := by
      intro heq
      rcases hnxm with h0' | hm
      · exact hpv0 (heq.trans h0')
      · exact (List.nodup_append.mp hnd).2.2 hpvm
          (List.mem_cons_of_mem _ (by rw [heq]; exact hm))
    rw [if_pos (fun h => hpv0 h.symm)]
    refine ⟨_, rfl, ⟨?_, ?_⟩, rfl, rfl⟩
    · rw [herase]
      have := cx_list_remove e.cxs
        (wikrt_cxs_set
          (if 0 ≠ (e.cxs c).next then
            wikrt_cxs_set e.cxs (e.cxs c).next
              { e.cxs (e.cxs c).next with prev := (e.cxs c).prev }
            else e.cxs) (e.cxs c).prev
          { (if 0 ≠ (e.cxs c).next then
              wikrt_cxs_set e.cxs (e.cxs c).next
                { e.cxs (e.cxs c).next with prev := (e.cxs c).prev }
              else e.cxs) (e.cxs c).prev with next := (e.cxs c).next })
        c l2 (a :: l1) 0 e.cxhd hlist hnd h0
        (by
          intro x _ hx1 hx2
          split
          · simp [wikrt_cxs_set, hx1, hx2]
          · simp [wikrt_cxs_set, hx2])
        (by
          intro hn
          rw [if_pos (fun h => hn h.symm)]
          simp [wikrt_cxs_set, hpvnx.symm])
        (by
          intro _
          split
          · simp [wikrt_cxs_set, hpvnx]
          · simp [wikrt_cxs_set])
      simpa using this
    · rw [herase]
      exact hnd12

theorem cx_destroy_all_list {M : Type} (order : List Nat) :
    ∀ (e : wikrt_env M) (l : List Nat), wikrt_env_wf e l → order.Perm l →
      ∃ e1, wikrt_cx_destroy_all e order = some e1 ∧ wikrt_env_wf e1 [] := by
  induction order with
  | nil =>
    intro e l hwf hp
    have : l = [] := List.perm_nil.mp hp.symm
    subst this
    exact ⟨e, rfl, hwf⟩
  | cons c order ih =>
    intro e l hwf hp
    have hc : c ∈ l := hp.mem_iff.mp (List.mem_cons_self _ _)
    obtain ⟨e1, h1, hwf1, _, _⟩ := cx_destroy_list e l c hwf hc
    have hp1 : order.Perm (l.erase c) := by
      have := List.Perm.erase c hp
      rwa [List.erase_cons_head] at this
    obtain ⟨e2, h2, hwf2⟩ := ih e1 (l.erase c) hwf1 hp1
    refine ⟨e2, ?_, hwf2⟩
    simp only [wikrt_cx_destroy_all, h1]
    exact h2

theorem env_destroy_iff {M : Type} (e : wikrt_env M) (l : List Nat) (hwf : wikrt_env_wf e l) :
    wikrt_env_destroy e = some () ↔ l = [] := by
  have hhd := cx_list_head e.cxs 0 e.cxhd l hwf.1
  unfold wikrt_env_destroy
  constructor
  · intro h
    cases l with
    | nil => rfl
    | cons c l =>
      have hc : c ≠ 0 := cx_list_ne_zero e.cxs _ 0 e.cxhd hwf.1 c (List.mem_cons_self _ _)
      have h0 : 0 = e.cxhd := by
        by_contra hne
        rw [if_neg hne] at h
        cases h
      rw [hhd] at h0
      exact absurd h0.symm hc
  · intro h
    subst h
    have : e.cxhd = 0 := hhd
    rw [if_pos this.symm]

theorem cx_create_ok {M : Type} (resetmem : Nat → M → Option M) (cx pMem : Nat)
    (e : wikrt_env M) (ppCX sizeMB : Nat)
    (h1 : WIKRT_CX_SIZE_MIN ≤ sizeMB) (h2 : sizeMB ≤ WIKRT_CX_SIZE_MAX)
    (hcx : cx ≠ 0) (hmem : pMem ≠ 0) (m : M) (hr : resetmem sizeMB (e.regions pMem) = some m) :
    ∃ e1, wikrt_cx_create resetmem cx pMem e ppCX sizeMB = some (WIKRT_OK, e1, cx) ∧
      e1.cxhd = cx := by
  unfold wikrt_cx_create
  simp only [h1, h2, decide_True, Bool.and_self, Bool.not_true, Bool.false_eq_true, if_false,
    Ne.symm hcx, Ne.symm hmem, hr]
  exact ⟨_, rfl, rfl⟩

/-- C23 (what the size check of the code does): `wikrt_cx_create` returns
`WIKRT_INVAL` for the size 3, with the environment and `*ppCX` as they were;
it returns `WIKRT_INVAL` exactly for the sizes below `WIKRT_CX_SIZE_MIN`, which
is 4, or above 4092. -/
theorem wikrt_cx_create_rejects_size_three {M : Type} (resetmem : Nat → M → Option M)
    (cx pMem : Nat) (e : wikrt_env M) (ppCX : Nat) :
    wikrt_cx_create resetmem cx pMem e ppCX 3 = some (WIKRT_INVAL, e, ppCX) ∧
    ∀ sizeMB : Nat,
      (∃ e1 p, wikrt_cx_create resetmem cx pMem e ppCX sizeMB = some (WIKRT_INVAL, e1, p))
        ↔ (sizeMB < 4 ∨ 4092 < sizeMB) := by
  refine ⟨rfl, ?_⟩
  intro sizeMB
  unfold wikrt_cx_create
  by_cases hs : sizeMB < 4 ∨ 4092 < sizeMB
  · have : (decide (WIKRT_CX_SIZE_MIN ≤ sizeMB) && decide (sizeMB ≤ WIKRT_CX_SIZE_MAX)) = false := by
      unfold WIKRT_CX_SIZE_MIN WIKRT_CX_SIZE_MAX
      rcases hs with h | h
      · simp only [Bool.and_eq_false_imp, decide_eq_true_eq, decide_eq_false_iff_not]; omega
      · simp only [Bool.and_eq_false_imp, decide_eq_true_eq, decide_eq_false_iff_not]; omega
    simp only [this, Bool.not_false, if_true, hs, iff_true]
    exact ⟨e, ppCX, rfl⟩
  · have : (decide (WIKRT_CX_SIZE_MIN ≤ sizeMB) && decide (sizeMB ≤ WIKRT_CX_SIZE_MAX)) = true := by
      unfold WIKRT_CX_SIZE_MIN WIKRT_CX_SIZE_MAX
      simp only [Bool.and_eq_true, decide_eq_true_eq]; omega
    simp only [this, Bool.not_true, Bool.false_eq_true, if_false, hs, iff_false]
    rintro ⟨e1, p, h⟩
    by_cases h1 : 0 = cx
    · rw [if_pos h1] at h
      have h3 : some WIKRT_NOMEM = some WIKRT_INVAL :=
        congrArg (fun r => r.map (fun t => t.1)) h
      exact absurd h3 (by decide)
    · rw [if_neg h1] at h
      by_cases h2 : 0 = pMem
      · rw [if_pos h2] at h
        have h3 : some WIKRT_NOMEM = some WIKRT_INVAL :=
          congrArg (fun r => r.map (fun t => t.1)) h
        exact absurd h3 (by decide)
      · rw [if_neg h2] at h
        cases hr : resetmem sizeMB (e.regions pMem) with
        | none => rw [hr] at h; cases h
        | some m =>
          rw [hr] at h
          have h3 : some WIKRT_OK = some WIKRT_INVAL :=
            congrArg (fun r => r.map (fun t => t.1)) h
          exact absurd h3 (by decide)

/-- C28: the context list of an environment stays a well-formed doubly-linked
list. For an environment whose list is well formed and holds the contexts `l`:
a `wikrt_cx_create` that returns `WIKRT_OK` with a new context puts it at the
head, before `l` (and such a call returns `WIKRT_OK` whenever the size is
valid, `calloc` and `mmap` succeed and `wikrt_cx_resetmem` returns);
`wikrt_cx_destroy` of a context of `l` returns and leaves the well-formed list
of the other contexts in their order; destroying all of `l`, in any order,
returns and leaves the head `NULL`; and the assertion of `wikrt_env_destroy`
holds exactly when `l` is empty. -/
theorem wikrt_cx_list_well_formed {M : Type} (resetmem : Nat → M → Option M)
    (e : wikrt_env M) (l : List Nat) (hwf : wikrt_env_wf e l) :
    (∀ (cx pMem ppCX sizeMB : Nat) (e1 : wikrt_env M) (p : Nat), cx ∉ l →
      wikrt_cx_create resetmem cx pMem e ppCX sizeMB = some (WIKRT_OK, e1, p) →
      p = cx ∧ e1.cxhd = cx ∧ wikrt_env_wf e1 (cx :: l)) ∧
    (∀ (cx pMem ppCX sizeMB : Nat) (m : M),
      WIKRT_CX_SIZE_MIN ≤ sizeMB → sizeMB ≤ WIKRT_CX_SIZE_MAX → cx ≠ 0 → pMem ≠ 0 →
      resetmem sizeMB (e.regions pMem) = some m →
      ∃ e1, wikrt_cx_create resetmem cx pMem e ppCX sizeMB = some (WIKRT_OK, e1, cx)) ∧
    (∀ c ∈ l, ∃ e1, wikrt_cx_destroy true e c = some e1 ∧ wikrt_env_wf e1 (l.erase c)) ∧
    (∀ order : List Nat, order.Perm l →
      ∃ e1, wikrt_cx_destroy_all e order = some e1 ∧ e1.cxhd = 0 ∧ wikrt_env_wf e1 []) ∧
    (wikrt_env_destroy e = some () ↔ l = []) := by
  refine ⟨?_, ?_, ?_, ?_, env_destroy_iff e l hwf⟩
  · intro cx pMem ppCX sizeMB e1 p hfresh h
    have h1 := cx_create_list resetmem cx pMem e e1 ppCX p sizeMB l hwf hfresh h
    exact ⟨h1.1, cx_list_head e1.cxs 0 e1.cxhd (cx :: l) h1.2.1, h1.2⟩
  · intro cx pMem ppCX sizeMB m h1 h2 hcx hmem hr
    obtain ⟨e1, he1, _⟩ := cx_create_ok resetmem cx pMem e ppCX sizeMB h1 h2 hcx hmem m hr
    exact ⟨e1, he1⟩
  · intro c hc
    obtain ⟨e1, h1, h2, _⟩ := cx_destroy_list e l c hwf hc
    exact ⟨e1, h1, h2⟩
  · intro order hp
    obtain ⟨e1, h1, h2⟩ := cx_destroy_all_list order e l hwf hp
    exact ⟨e1, h1, h2.1, h2⟩

theorem wikrt_cx_list_well_formed_witness :
    wikrt_env_wf env_two [200, 100] ∧
    (∃ e1, wikrt_cx_create resetmem_unit 300 24576 env_two 0 4 = some (WIKRT_OK, e1, 300)) ∧
    (∃ e1, wikrt_cx_destroy true env_two 100 = some e1 ∧
      wikrt_env_wf e1 ([200, 100].erase 100)) ∧
    (∃ e1, wikrt_cx_destroy_all env_two [100, 200] = some e1 ∧ e1.cxhd = 0 ∧
      wikrt_env_wf e1 []) ∧
    ¬ (wikrt_env_destroy env_two = some ()) :=
  have hwf : wikrt_env_wf env_two [200, 100] :=
    ⟨⟨rfl, by decide, rfl, rfl, by decide, rfl, rfl⟩, by decide⟩
  have h := wikrt_cx_list_well_formed resetmem_unit env_two [200, 100] hwf
  ⟨hwf, h.2.1 300 24576 0 4 () (by decide) (by decide) (by decide) (by decide) rfl,
    h.2.2.1 100 (by decide), h.2.2.2.1 [100, 200] (by decide),
    fun hd => absurd (h.2.2.2.2.mp hd) (by decide)⟩

/-! ### Lists of free fragments in the context memory -/

theorem vaddr_aligned (a : Nat) (h8 : a % 8 = 0) (h : a < 2 ^ 64) : wikrt_vaddr a = a := by
  have h1 := tag_addr_vtag_vaddr a h
  rw [vtag_mod, h8] at h1
  simpa [wikrt_tag_addr] using h1

theorem vaddr_node (a : Nat) (h : a % 16 = 0 ∧ a < 2 ^ 64) : wikrt_vaddr a = a :=
  vaddr_aligned a (by omega) h.2

theorem rd_node {FL : Type} (cx : wikrt_cx FL) (a i : Nat) (h : a % 16 = 0 ∧ a < 2 ^ 64) :
    rd cx a i = cx.memory (a + 8 * i) := by
  rw [rd, vaddr_node a h]

theorem wr_node_memory {FL : Type} (cx : wikrt_cx FL) (a i w : Nat)
    (h : a % 16 = 0 ∧ a < 2 ^ 64) :
    (wr cx a i w).memory = fun x => if x = a + 8 * i then w else cx.memory x := by
  rw [wr, vaddr_node a h]

theorem wr_fl {FL : Type} (cx : wikrt_cx FL) (a i w : Nat) : (wr cx a i w).fl = cx.fl := rfl

theorem fl_list_congr {FL : Type} (cx cx2 : wikrt_cx FL) (l : List Nat) :
    ∀ hd, (∀ a ∈ l, rd cx2 a 1 = rd cx a 1) → wikrt_fl_list cx hd l → wikrt_fl_list cx2 hd l := by
  induction l with
  | nil => intro hd _ h; exact h
  | cons a l ih =>
    intro hd hc h
    obtain ⟨h1, h2, h3⟩ := h
    refine ⟨h1, h2, ?_⟩
    rw [hc a (List.mem_cons_self _ _)]
    exact ih _ (fun x hx => hc x (List.mem_cons_of_mem _ hx)) h3

theorem fl_list_ne_zero {FL : Type} (cx : wikrt_cx FL) (l : List Nat) :
    ∀ hd, wikrt_fl_list cx hd l → ∀ a ∈ l, a ≠ 0 := by
  induction l with
  | nil => intro _ _ a ha; simp at ha
  | cons b l ih =>
    intro hd h a ha
    rcases List.mem_cons.mp ha with rfl | ha
    · exact h.2.1
    · exact ih _ h.2.2 a ha

theorem fl_list_head {FL : Type} (cx : wikrt_cx FL) (hd : Nat) (l : List Nat)
    (h : wikrt_fl_list cx hd l) : hd = l.headD 0 := by
  cases l with
  | nil => exact h
  | cons a l => exact h.1

theorem fl_list_zero {FL : Type} (cx : wikrt_cx FL) (hd : Nat) (l : List Nat)
    (h : wikrt_fl_list cx hd l) : hd = 0 ↔ l = [] := by
  cases l with
  | nil => exact ⟨fun _ => rfl, fun _ => h⟩
  | cons a l =>
    constructor
    · intro h0
      exact absurd (h.1 ▸ h0) h.2.1
    · intro h0
      simp at h0

/-- A list is the same list in a context that differs at the second words of
other nodes only. -/
theorem fl_list_frame {FL : Type} (cx cx2 : wikrt_cx FL) (l m : List Nat) (hd : Nat)
    (hl : ∀ a ∈ l, a % 16 = 0 ∧ a < 2 ^ 64) (hm : ∀ a ∈ m, a % 16 = 0 ∧ a < 2 ^ 64)
    (hdis : ∀ a ∈ l, a ∉ m) (hfr : wikrt_fl_frame m cx cx2)
    (h : wikrt_fl_list cx hd l) : wikrt_fl_list cx2 hd l := by
  refine fl_list_congr cx cx2 l hd ?_ h
  intro a ha
  rw [rd_node cx2 a 1 (hl a ha), rd_node cx a 1 (hl a ha)]
  apply hfr.2
  intro b hb
  have hab : a ≠ b := fun hab => hdis a ha (hab ▸ hb)
  have := hm b hb
  omega

theorem fl_frame_refl {FL : Type} (l : List Nat) (cx : wikrt_cx FL) : wikrt_fl_frame l cx cx :=
  ⟨rfl, fun _ _ => rfl⟩

theorem fl_frame_trans {FL : Type} (l : List Nat) (cx cx2 cx3 : wikrt_cx FL)
    (h1 : wikrt_fl_frame l cx cx2) (h2 : wikrt_fl_frame l cx2 cx3) : wikrt_fl_frame l cx cx3 :=
  ⟨h2.1.trans h1.1, fun x hx => (h2.2 x hx).trans (h1.2 x hx)⟩

theorem fl_frame_mono {FL : Type} (l m : List Nat) (cx cx2 : wikrt_cx FL)
    (hsub : ∀ a ∈ l, a ∈ m) (h : wikrt_fl_frame l cx cx2) : wikrt_fl_frame m cx cx2 :=
  ⟨h.1, fun x hx => h.2 x (fun a ha => hx a (hsub a ha))⟩

theorem fl_frame_wr {FL : Type} (l : List Nat) (cx : wikrt_cx FL) (t w : Nat)
    (ht : t % 16 = 0 ∧ t < 2 ^ 64) (hmem : t ∈ l) : wikrt_fl_frame l cx (wr cx t 1 w) := by
  refine ⟨rfl, fun x hx => ?_⟩
  rw [wr_node_memory cx t 1 w ht]
  have := hx t hmem
  simp only [Nat.mul_one]
  rw [if_neg this]

theorem rd_wr_next {FL : Type} (cx : wikrt_cx FL) (t w : Nat) : rd (wr cx t 1 w) t 1 = w := by
  simp [rd, wr]

theorem rd_frame_size {FL : Type} (l : List Nat) (cx cx2 : wikrt_cx FL) (a : Nat)
    (hl : ∀ b ∈ l, b % 16 = 0 ∧ b < 2 ^ 64) (ha : a % 16 = 0 ∧ a < 2 ^ 64)
    (hfr : wikrt_fl_frame l cx cx2) : rd cx2 a 0 = rd cx a 0 := by
  rw [rd_node cx2 a 0 ha, rd_node cx a 0 ha]
  apply hfr.2
  intro b hb
  have := hl b hb
  omega

/-! ### `wikrt_fl_split` -/

theorem split_walk_some {FL : Type} (cx : wikrt_cx FL) (var : Nat) (l2 : List Nat) :
    ∀ (l1 : List Nat) (a : Nat), wikrt_fl_list cx (rd cx a 1) (l1 ++ l2) →
      wikrt_fl_split_walk cx var l1.length (some a) = some ((a :: l1).getLast (by simp)) := by
  intro l1
  induction l1 with
  | nil => intro a _; rfl
  | cons b l1 ih =>
    intro a h
    have hb : rd cx a 1 = b := h.1
    simp only [List.length_cons, wikrt_fl_split_walk, wikrt_tl_get, hb]
    rw [ih b h.2.2]
    simp [List.getLast_cons]

/-- The list cut after its part `l1`: the second word of the last node of `l1`
set to 0 leaves `l1` as a list of its own, and the list `l2` starts at what that
word held. -/
theorem fl_list_cut {FL : Type} (cx : wikrt_cx FL) (l2 : List Nat) :
    ∀ (l1 : List Nat) (a hd : Nat), wikrt_fl_list cx hd (a :: l1 ++ l2) →
      wikrt_fl_nodes (a :: l1 ++ l2) →
      wikrt_fl_list (wr cx ((a :: l1).getLast (by simp)) 1 0) hd (a :: l1) ∧
      wikrt_fl_list (wr cx ((a :: l1).getLast (by simp)) 1 0)
        (rd cx ((a :: l1).getLast (by simp)) 1) l2 := by
  intro l1
  induction l1 with
  | nil =>
    intro a hd h hn
    simp only [List.getLast_singleton]
    obtain ⟨h1, h2, h3⟩ := h
    have ha := hn.2 a (List.mem_cons_self _ _)
    refine ⟨⟨h1, h2, ?_⟩, ?_⟩
    · rw [rd_wr_next]; rfl
    · refine fl_list_frame cx _ l2 [a] _ (fun x hx => hn.2 x (List.mem_cons_of_mem _ hx))
        (fun x hx => by simp at hx; rw [hx]; exact ha) ?_
        (fl_frame_wr [a] cx a 0 ha (List.mem_cons_self _ _)) h3
      intro x hx hxa
      simp at hxa
      have := (List.nodup_cons.mp hn.1).1
      exact this (hxa ▸ hx)
  | cons b l1 ih =>
    intro a hd h hn
    obtain ⟨h1, h2, h3⟩ := h
    have hn1 : wikrt_fl_nodes (b :: l1 ++ l2) :=
      ⟨(List.nodup_cons.mp hn.1).2, fun x hx => hn.2 x (List.mem_cons_of_mem _ hx)⟩
    have hlast : (a :: b :: l1).getLast (by simp) = (b :: l1).getLast (by simp) := by
      simp [List.getLast_cons]
    rw [hlast]
    obtain ⟨g1, g2⟩ := ih b (rd cx a 1) h3 hn1
    refine ⟨⟨h1, h2, ?_⟩, g2⟩
    have hlm : (b :: l1).getLast (by simp) ∈ b :: l1 := List.getLast_mem _
    have hne : a ≠ (b :: l1).getLast (by simp) := by
      intro heq
      have := (List.nodup_cons.mp hn.1).1
      exact this (List.mem_append_left _ (heq ▸ hlm))
    have ha := hn.2 a (List.mem_cons_self _ _)
    have ht := hn.2 _ (List.mem_cons_of_mem a (List.mem_append_left l2 hlm))
    have hrd : rd (wr cx ((b :: l1).getLast (by simp)) 1 0) a 1 = rd cx a 1 := by
      rw [rd_node _ a 1 ha, rd_node _ a 1 ha, wr_node_memory _ _ _ _ ht]
      have : ¬ a + 8 * 1 = (b :: l1).getLast (by simp) + 8 * 1 := by omega
      simp only [if_neg this]
    rw [hrd]
    exact g1

theorem fl_split_spec {FL : Type} (cx : wikrt_cx FL) (hd : Nat) (l1 l2 : List Nat)
    (h : wikrt_fl_list cx hd (l1 ++ l2)) (hn : wikrt_fl_nodes (l1 ++ l2)) :
    wikrt_fl_list (wikrt_fl_split cx hd l1.length).1 (wikrt_fl_split cx hd l1.length).2.1 l1 ∧
    wikrt_fl_list (wikrt_fl_split cx hd l1.length).1 (wikrt_fl_split cx hd l1.length).2.2 l2 ∧
    wikrt_fl_frame l1 cx (wikrt_fl_split cx hd l1.length).1 := by
  cases l1 with
  | nil =>
    simp only [List.length_nil, wikrt_fl_split, wikrt_fl_split_walk, wikrt_tl_get]
    exact ⟨rfl, h, fl_frame_refl _ _⟩
  | cons a l1 =>
    have ha : hd = a := h.1
    have hw : wikrt_fl_split_walk cx hd (a :: l1).length none
        = some ((a :: l1).getLast (by simp)) := by
      simp only [List.length_cons, wikrt_fl_split_walk, wikrt_tl_get]
      rw [ha]
      exact split_walk_some cx a l2 l1 a h.2.2
    obtain ⟨g1, g2⟩ := fl_list_cut cx l2 l1 a hd h hn
    have hlm : (a :: l1).getLast (by simp) ∈ a :: l1 := List.getLast_mem _
    simp only [wikrt_fl_split, hw, wikrt_tl_get]
    refine ⟨g1, g2, fl_frame_wr _ cx _ 0 (hn.2 _ (List.mem_append_left _ hlm)) hlm⟩

/-! ### The merge loop of `wikrt_fl_mergesort` -/

theorem merge_loop_done {FL : Type} (fuel : Nat) (st : wikrt_merge_state FL)
    (h : ¬ (st.a ≠ 0 ∧ st.b ≠ 0)) : wikrt_fl_merge_loop fuel st = some st := by
  cases fuel <;> simp only [wikrt_fl_merge_loop, if_neg h]

theorem merge_loop_lt {FL : Type} (fuel : Nat) (st : wikrt_merge_state FL)
    (h : st.a ≠ 0 ∧ st.b ≠ 0) (hlt : st.a < st.b) :
    wikrt_fl_merge_loop (fuel + 1) st
      = wikrt_fl_merge_loop fuel
          { wikrt_merge_assign st st.a with
            tl := some st.a, a := rd (wikrt_merge_assign st st.a).cx st.a 1 } := by
  rw [wikrt_fl_merge_loop]
  simp only [if_pos h, if_pos hlt]

theorem merge_loop_ge {FL : Type} (fuel : Nat) (st : wikrt_merge_state FL)
    (h : st.a ≠ 0 ∧ st.b ≠ 0) (hlt : ¬ st.a < st.b) :
    wikrt_fl_merge_loop (fuel + 1) st
      = wikrt_fl_merge_loop fuel
          { wikrt_merge_assign st st.b with
            tl := some st.b, b := rd (wikrt_merge_assign st st.b).cx st.b 1 } := by
  rw [wikrt_fl_merge_loop]
  simp only [if_pos h, if_neg hlt]

/-- The assignment `(*tl) = v` through a pointer that is not into the nodes
`m`: the word at `tl` is `v`, lists over `m` stay what they are, and the
context changes at the second word of the node of `tl` at most. -/
theorem merge_assign_spec {FL : Type} (st : wikrt_merge_state FL) (v : Nat) (m : List Nat)
    (hm : ∀ a ∈ m, a % 16 = 0 ∧ a < 2 ^ 64)
    (htl : ∀ t, st.tl = some t → t ∉ m ∧ (t % 16 = 0 ∧ t < 2 ^ 64)) :
    wikrt_tl_get (wikrt_merge_assign st v).cx (wikrt_merge_assign st v).hd st.tl = v ∧
    wikrt_fl_frame st.tl.toList st.cx (wikrt_merge_assign st v).cx ∧
    (st.tl ≠ none → (wikrt_merge_assign st v).hd = st.hd) ∧
    (wikrt_merge_assign st v).tl = st.tl ∧ (wikrt_merge_assign st v).a = st.a ∧
    (wikrt_merge_assign st v).b = st.b ∧
    (∀ a ∈ m, rd (wikrt_merge_assign st v).cx a 1 = rd st.cx a 1) := by
  unfold wikrt_merge_assign
  cases htlv : st.tl with
  | none =>
    exact ⟨rfl, fl_frame_refl _ _, fun h => absurd rfl h, rfl, rfl, rfl, fun _ _ => rfl⟩
  | some t =>
    obtain ⟨ht1, ht2⟩ := htl t htlv
    refine ⟨rd_wr_next _ _ _, fl_frame_wr _ _ _ _ ht2 (by simp), fun _ => rfl, rfl, rfl, rfl, ?_⟩
    intro a ha
    show rd (wr st.cx t 1 v) a 1 = rd st.cx a 1
    have haa := hm a ha
    rw [rd_node _ a 1 haa, rd_node _ a 1 haa, wr_node_memory _ _ _ _ ht2]
    have hne : a ≠ t := fun h => ht1 (h ▸ ha)
    have : ¬ a + 8 * 1 = t + 8 * 1 := by omega
    simp only [if_neg this]

theorem merge_loop_spec {FL : Type} (fuel : Nat) :
    ∀ (st : wikrt_merge_state FL) (la lb : List Nat),
      wikrt_fl_list st.cx st.a la → wikrt_fl_list st.cx st.b lb →
      la.Pairwise (· < ·) → lb.Pairwise (· < ·) → wikrt_fl_nodes (la ++ lb) →
      (∀ t, st.tl = some t → t ∉ la ++ lb ∧ (t % 16 = 0 ∧ t < 2 ^ 64)) →
      la.length + lb.length ≤ fuel →
      ∃ st1, wikrt_fl_merge_loop fuel st = some st1 ∧
        ∃ l : List Nat, l.Perm (la ++ lb) ∧ l.Pairwise (· < ·) ∧
          wikrt_fl_list (wikrt_merge_assign st1 (if st1.a ≠ 0 then st1.a else st1.b)).cx
            (wikrt_tl_get (wikrt_merge_assign st1 (if st1.a ≠ 0 then st1.a else st1.b)).cx
              (wikrt_merge_assign st1 (if st1.a ≠ 0 then st1.a else st1.b)).hd st.tl) l ∧
          wikrt_fl_frame (st.tl.toList ++ (la ++ lb)) st.cx
            (wikrt_merge_assign st1 (if st1.a ≠ 0 then st1.a else st1.b)).cx ∧
          (st.tl ≠ none →
            (wikrt_merge_assign st1 (if st1.a ≠ 0 then st1.a else st1.b)).hd = st.hd) := by
  induction fuel with
  | zero =>
    intro st la lb ha hb _ _ hn htl hf
    have hla : la = [] := List.length_eq_zero.mp (by omega)
    have hlb : lb = [] := List.length_eq_zero.mp (by omega)
    subst hla hlb
    have ha0 : st.a = 0 := ha
    have hb0 : st.b = 0 := hb
    refine ⟨st, merge_loop_done 0 st (by simp [ha0]), [], by simp, List.Pairwise.nil, ?_⟩
    have hs := merge_assign_spec st 0 [] (by simp) htl
    simp only [ha0, hb0, ne_eq, not_true_eq_false, if_false]
    refine ⟨?_, ?_, hs.2.2.1⟩
    · rw [hs.1]; rfl
    · simpa using hs.2.1
  | succ fuel ih =>
    intro st la lb ha hb hsa hsb hn htl hf
    cases la with
    | nil =>
      have ha0 : st.a = 0 := ha
      have hs := merge_assign_spec st st.b lb (fun a h => hn.2 a (by simpa using h))
        (fun t ht => by simpa using htl t ht)
      refine ⟨st, merge_loop_done _ st (by simp [ha0]), lb, by simp, hsb, ?_⟩
      simp only [ha0, ne_eq, not_true_eq_false, if_false, List.nil_append]
      refine ⟨?_, fl_frame_mono _ _ _ _ (fun a h => List.mem_append_left _ h) hs.2.1, hs.2.2.1⟩
      rw [hs.1]
      exact fl_list_congr st.cx _ lb st.b hs.2.2.2.2.2.2 hb
    | cons x la =>
      cases lb with
      | nil =>
        have hb0 : st.b = 0 := hb
        have hax : st.a = x := ha.1
        have hx0 : x ≠ 0 := ha.2.1
        have hs := merge_assign_spec st st.a (x :: la) (fun a h => hn.2 a (by simpa using h))
          (fun t ht => by simpa using htl t ht)
        refine ⟨st, merge_loop_done _ st (by simp [hb0]), x :: la, by simp, hsa, ?_⟩
        have hif : (if st.a ≠ 0 then st.a else st.b) = st.a := by
          rw [if_pos (by rw [hax]; exact hx0)]
        simp only [hif, List.append_nil]
        refine ⟨?_, fl_frame_mono _ _ _ _ (fun a h => List.mem_append_left _ h) hs.2.1, hs.2.2.1⟩
        rw [hs.1]
        exact fl_list_congr st.cx _ (x :: la) st.a hs.2.2.2.2.2.2 ha
      | cons y lb =>
        have hax : st.a = x := ha.1
        have hby : st.b = y := hb.1
        subst hax hby
        have hx0 : st.a ≠ 0 := ha.2.1
        have hy0 : st.b ≠ 0 := hb.2.1
        have hcond : st.a ≠ 0 ∧ st.b ≠ 0 := ⟨hx0, hy0⟩
        have hall : ∀ a ∈ st.a :: la ++ st.b :: lb, a % 16 = 0 ∧ a < 2 ^ 64 := hn.2
        have hs := fun v => merge_assign_spec st v (st.a :: la ++ st.b :: lb) hall htl
        by_cases hlt : st.a < st.b
        · -- the head of `a` is taken
          rw [merge_loop_lt fuel st hcond hlt]
          have hsv := hs st.a
          have hrdx : rd (wikrt_merge_assign st st.a).cx st.a 1 = rd st.cx st.a 1 :=
            hsv.2.2.2.2.2.2 st.a (by simp)
          have hnd : (st.a :: (la ++ st.b :: lb)).Nodup := hn.1
          have hn1 : wikrt_fl_nodes (la ++ st.b :: lb) :=
            ⟨(List.nodup_cons.mp hnd).2, fun a h => hall a (List.mem_cons_of_mem _ h)⟩
          obtain ⟨st1, hst1, l, hperm, hsorted, hlist, hframe, hhd⟩ :=
            ih { wikrt_merge_assign st st.a with
                 tl := some st.a, a := rd (wikrt_merge_assign st st.a).cx st.a 1 }
              la (st.b :: lb)
              (by
                show wikrt_fl_list (wikrt_merge_assign st st.a).cx
                  (rd (wikrt_merge_assign st st.a).cx st.a 1) la
                rw [hrdx]
                exact fl_list_congr st.cx _ la _
                  (fun a h => hsv.2.2.2.2.2.2 a (by simp [h])) ha.2.2)
              (by
                show wikrt_fl_list (wikrt_merge_assign st st.a).cx (wikrt_merge_assign st st.a).b
                  (st.b :: lb)
                rw [hsv.2.2.2.2.2.1]
                exact fl_list_congr st.cx _ (st.b :: lb) _
                  (fun a h => hsv.2.2.2.2.2.2 a (List.mem_append_right _ h)) hb)
              (List.Pairwise.of_cons hsa) hsb hn1
              (by
                intro t ht
                have ht2 : st.a = t := Option.some.inj ht
                rw [← ht2]
                exact ⟨(List.nodup_cons.mp hnd).1, hall st.a (by simp)⟩)
              (by simp only [List.length_cons] at hf ⊢; omega)
          have hfr2 : wikrt_fl_frame (st.a :: (la ++ st.b :: lb)) (wikrt_merge_assign st st.a).cx
              (wikrt_merge_assign st1 (if st1.a ≠ 0 then st1.a else st1.b)).cx := hframe
          refine ⟨st1, hst1, st.a :: l, ?_, ?_, ?_, ?_, ?_⟩
          · exact List.Perm.cons st.a hperm
          · refine List.pairwise_cons.mpr ⟨?_, hsorted⟩
            intro z hz
            have hz2 := hperm.mem_iff.mp hz
            rcases List.mem_append.mp hz2 with hz3 | hz3
            · exact List.rel_of_pairwise_cons hsa hz3
            · rcases List.mem_cons.mp hz3 with hz4 | hz4
              · rw [hz4]; exact hlt
              · exact lt_trans hlt (List.rel_of_pairwise_cons hsb hz4)
          · -- the word at the first `tl` still holds the node taken
            have hget : wikrt_tl_get
                (wikrt_merge_assign st1 (if st1.a ≠ 0 then st1.a else st1.b)).cx
                (wikrt_merge_assign st1 (if st1.a ≠ 0 then st1.a else st1.b)).hd st.tl
                  = st.a := by
              cases htlv : st.tl with
              | none =>
                have h1 := hsv.1
                rw [htlv] at h1
                show (wikrt_merge_assign st1 (if st1.a ≠ 0 then st1.a else st1.b)).hd = st.a
                rw [hhd (by simp)]
                exact h1
              | some t =>
                obtain ⟨ht1, ht2⟩ := htl t htlv
                have h1 := hsv.1
                rw [htlv] at h1
                show rd (wikrt_merge_assign st1 (if st1.a ≠ 0 then st1.a else st1.b)).cx t 1
                  = st.a
                have h2 : rd (wikrt_merge_assign st st.a).cx t 1 = st.a := h1
                rw [rd_node _ t 1 ht2] at h2 ⊢
                rw [hfr2.2, h2]
                intro a ha2
                have : a ≠ t := fun h => ht1 (h ▸ ha2)
                have := hall a ha2
                omega
            rw [hget]
            exact ⟨rfl, hx0, hlist⟩
          · -- the frame
            refine fl_frame_trans _ _ _ _
              (fl_frame_mono _ _ _ _ (fun a h => List.mem_append_left _ h) hsv.2.1)
              (fl_frame_mono _ _ _ _ (fun a h => List.mem_append_right _ h) hfr2)
          · intro hne
            rw [hhd (by simp)]
            exact hsv.2.2.1 hne
        · -- the head of `b` is taken
          rw [merge_loop_ge fuel st hcond hlt]
          have hsv := hs st.b
          have hrdy : rd (wikrt_merge_assign st st.b).cx st.b 1 = rd st.cx st.b 1 :=
            hsv.2.2.2.2.2.2 st.b (by simp)
          have hnd : (st.a :: la ++ st.b :: lb).Nodup := hn.1
          have hndp : (st.b :: (st.a :: la ++ lb)).Nodup :=
            (List.perm_middle.nodup_iff).mp hnd
          have hall2 : ∀ a ∈ st.a :: la ++ lb, a % 16 = 0 ∧ a < 2 ^ 64 := by
            intro a h
            apply hall
            rcases List.mem_append.mp h with h | h
            · exact List.mem_append_left _ h
            · exact List.mem_append_right _ (List.mem_cons_of_mem _ h)
          have hn1 : wikrt_fl_nodes (st.a :: la ++ lb) := ⟨(List.nodup_cons.mp hndp).2, hall2⟩
          obtain ⟨st1, hst1, l, hperm, hsorted, hlist, hframe, hhd⟩ :=
            ih { wikrt_merge_assign st st.b with
                 tl := some st.b, b := rd (wikrt_merge_assign st st.b).cx st.b 1 }
              (st.a :: la) lb
              (by
                show wikrt_fl_list (wikrt_merge_assign st st.b).cx (wikrt_merge_assign st st.b).a
                  (st.a :: la)
                rw [hsv.2.2.2.2.1]
                exact fl_list_congr st.cx _ (st.a :: la) _
                  (fun a h => hsv.2.2.2.2.2.2 a (List.mem_append_left _ h)) ha)
              (by
                show wikrt_fl_list (wikrt_merge_assign st st.b).cx
                  (rd (wikrt_merge_assign st st.b).cx st.b 1) lb
                rw [hrdy]
                exact fl_list_congr st.cx _ lb _
                  (fun a h => hsv.2.2.2.2.2.2 a
                    (List.mem_append_right _ (List.mem_cons_of_mem _ h))) hb.2.2)
              hsa (List.Pairwise.of_cons hsb) hn1
              (by
                intro t ht
                have ht2 : st.b = t := Option.some.inj ht
                rw [← ht2]
                exact ⟨(List.nodup_cons.mp hndp).1, hall st.b (by simp)⟩)
              (by simp only [List.length_cons] at hf ⊢; omega)
          have hyx : st.b < st.a := by
            have h2 : st.a ≠ st.b := by
              intro h
              have := (List.nodup_cons.mp hndp).1
              exact this (by rw [← h]; simp)
            omega
          have hfr2 : wikrt_fl_frame (st.b :: (st.a :: la ++ lb)) (wikrt_merge_assign st st.b).cx
              (wikrt_merge_assign st1 (if st1.a ≠ 0 then st1.a else st1.b)).cx := hframe
          have hsub : ∀ a ∈ st.b :: (st.a :: la ++ lb), a ∈ st.a :: la ++ st.b :: lb := by
            intro a h
            exact (List.perm_middle.mem_iff).mpr h
          refine ⟨st1, hst1, st.b :: l, ?_, ?_, ?_, ?_, ?_⟩
          · exact (List.Perm.cons st.b hperm).trans List.perm_middle.symm
          · refine List.pairwise_cons.mpr ⟨?_, hsorted⟩
            intro z hz
            have hz2 := hperm.mem_iff.mp hz
            rcases List.mem_append.mp hz2 with hz3 | hz3
            · rcases List.mem_cons.mp hz3 with hz4 | hz4
              · rw [hz4]; exact hyx
              · exact lt_trans hyx (List.rel_of_pairwise_cons hsa hz4)
            · exact List.rel_of_pairwise_cons hsb hz3
          · have hget : wikrt_tl_get
                (wikrt_merge_assign st1 (if st1.a ≠ 0 then st1.a else st1.b)).cx
                (wikrt_merge_assign st1 (if st1.a ≠ 0 then st1.a else st1.b)).hd st.tl
                  = st.b := by
              cases htlv : st.tl with
              | none =>
                have h1 := hsv.1
                rw [htlv] at h1
                show (wikrt_merge_assign st1 (if st1.a ≠ 0 then st1.a else st1.b)).hd = st.b
                rw [hhd (by simp)]
                exact h1
              | some t =>
                obtain ⟨ht1, ht2⟩ := htl t htlv
                have h1 := hsv.1
                rw [htlv] at h1
                show rd (wikrt_merge_assign st1 (if st1.a ≠ 0 then st1.a else st1.b)).cx t 1
                  = st.b
                have h2 : rd (wikrt_merge_assign st st.b).cx t 1 = st.b := h1
                rw [rd_node _ t 1 ht2] at h2 ⊢
                rw [hfr2.2, h2]
                intro a ha2
                have ha3 := hsub a ha2
                have : a ≠ t := fun h => ht1 (h ▸ ha3)
                have := hall a ha3
                omega
            rw [hget]
            exact ⟨rfl, hy0, hlist⟩
          · refine fl_frame_trans _ _ _ _
              (fl_frame_mono _ _ _ _ (fun a h => List.mem_append_left _ h) hsv.2.1)
              (fl_frame_mono _ _ _ _ (fun a h => List.mem_append_right _ (hsub a h)) hfr2)
          · intro hne
            rw [hhd (by simp)]
            exact hsv.2.2.1 hne

/-! ### `wikrt_fl_mergesort` sorts the list by address -/

theorem fl_mergesort_small {FL : Type} (fuel : Nat) (cx : wikrt_cx FL) (hd count : Nat)
    (h : count < 2) : wikrt_fl_mergesort fuel cx hd count = some (cx, hd) := by
  cases fuel <;> simp only [wikrt_fl_mergesort, if_pos h]

theorem fl_mergesort_succ {FL : Type} (fuel : Nat) (cx : wikrt_cx FL) (hd count : Nat)
    (h : ¬ count < 2) (cx1 cx2 : wikrt_cx FL) (a b : Nat) (st : wikrt_merge_state FL)
    (h1 : wikrt_fl_mergesort fuel (wikrt_fl_split cx hd (count / 2)).1
      (wikrt_fl_split cx hd (count / 2)).2.1 (count / 2) = some (cx1, a))
    (h2 : wikrt_fl_mergesort fuel cx1 (wikrt_fl_split cx hd (count / 2)).2.2
      (count - count / 2) = some (cx2, b))
    (h3 : wikrt_fl_merge_loop (fuel + 1) { cx := cx2, hd := hd, tl := none, a := a, b := b }
      = some st) :
    wikrt_fl_mergesort (fuel + 1) cx hd count
      = some ((wikrt_merge_assign st (if st.a ≠ 0 then st.a else st.b)).cx,
              (wikrt_merge_assign st (if st.a ≠ 0 then st.a else st.b)).hd) := by
  rw [wikrt_fl_mergesort]
  simp only [if_neg h, h1, h2, h3]

theorem fl_nodes_perm (l m : List Nat) (hp : l.Perm m) (h : wikrt_fl_nodes m) :
    wikrt_fl_nodes l :=
  ⟨hp.nodup_iff.mpr h.1, fun a ha => h.2 a (hp.mem_iff.mp ha)⟩

theorem fl_mergesort_spec {FL : Type} (fuel : Nat) :
    ∀ (cx : wikrt_cx FL) (hd : Nat) (l : List Nat),
      wikrt_fl_list cx hd l → wikrt_fl_nodes l → l.length ≤ fuel →
      ∃ cx1 hd1, wikrt_fl_mergesort fuel cx hd l.length = some (cx1, hd1) ∧
        ∃ l1 : List Nat, l1.Perm l ∧ l1.Pairwise (· < ·) ∧ wikrt_fl_list cx1 hd1 l1 ∧
          wikrt_fl_frame l cx cx1 := by
  have hsmall : ∀ (fuel : Nat) (cx : wikrt_cx FL) (hd : Nat) (l : List Nat),
      wikrt_fl_list cx hd l → l.length < 2 →
      ∃ cx1 hd1, wikrt_fl_mergesort fuel cx hd l.length = some (cx1, hd1) ∧
        ∃ l1 : List Nat, l1.Perm l ∧ l1.Pairwise (· < ·) ∧ wikrt_fl_list cx1 hd1 l1 ∧
          wikrt_fl_frame l cx cx1 := by
    intro fuel cx hd l hl hlen
    refine ⟨cx, hd, fl_mergesort_small fuel cx hd _ hlen, l, List.Perm.refl l, ?_, hl,
      fl_frame_refl _ _⟩
    match l, hlen with
    | [], _ => exact List.Pairwise.nil
    | [a], _ => exact List.pairwise_singleton _ a
  induction fuel with
  | zero =>
    intro cx hd l hl _ hf
    exact hsmall 0 cx hd l hl (by omega)
  | succ fuel ih =>
    intro cx hd l hl hn hf
    by_cases hlen : l.length < 2
    · exact hsmall (fuel + 1) cx hd l hl hlen
    · have hl1 : (l.take (l.length / 2)).length = l.length / 2 := by
        rw [List.length_take]; omega
      have hl2 : (l.drop (l.length / 2)).length = l.length - l.length / 2 := List.length_drop _ _
      have hcat : l.take (l.length / 2) ++ l.drop (l.length / 2) = l := List.take_append_drop _ l
      have hn12 : wikrt_fl_nodes (l.take (l.length / 2) ++ l.drop (l.length / 2)) := by
        rw [hcat]; exact hn
      have hsp := fl_split_spec cx hd (l.take (l.length / 2)) (l.drop (l.length / 2))
        (by rw [hcat]; exact hl) hn12
      rw [hl1] at hsp
      obtain ⟨hsa, hsb, hsf⟩ := hsp
      have hmem1 : ∀ a ∈ l.take (l.length / 2), a ∈ l := fun a h => List.mem_of_mem_take h
      have hmem2 : ∀ a ∈ l.drop (l.length / 2), a ∈ l := fun a h => List.mem_of_mem_drop h
      have hdis : ∀ a ∈ l.take (l.length / 2), a ∉ l.drop (l.length / 2) := by
        intro a h1 h2
        exact (List.nodup_append.mp hn12.1).2.2 h1 h2
      have hn1 : wikrt_fl_nodes (l.take (l.length / 2)) :=
        ⟨(List.nodup_append.mp hn12.1).1, fun a h => hn.2 a (hmem1 a h)⟩
      have hn2 : wikrt_fl_nodes (l.drop (l.length / 2)) :=
        ⟨(List.nodup_append.mp hn12.1).2.1, fun a h => hn.2 a (hmem2 a h)⟩
      -- the first half is sorted
      obtain ⟨cx1, a, hr1, la, hpa, hsorta, hla, hfa⟩ :=
        ih (wikrt_fl_split cx hd (l.length / 2)).1 (wikrt_fl_split cx hd (l.length / 2)).2.1
          (l.take (l.length / 2)) hsa hn1 (by omega)
      rw [hl1] at hr1
      -- the second half is sorted
      have hsb1 : wikrt_fl_list cx1 (wikrt_fl_split cx hd (l.length / 2)).2.2
          (l.drop (l.length / 2)) :=
        fl_list_frame _ cx1 _ (l.take (l.length / 2)) _ hn2.2 hn1.2
          (fun a h2 h1 => hdis a h1 h2) hfa hsb
      obtain ⟨cx2, b, hr2, lb, hpb, hsortb, hlb, hfb⟩ :=
        ih cx1 (wikrt_fl_split cx hd (l.length / 2)).2.2 (l.drop (l.length / 2)) hsb1 hn2
          (by omega)
      rw [hl2] at hr2
      have hla2 : wikrt_fl_list cx2 a la :=
        fl_list_frame cx1 cx2 la (l.drop (l.length / 2)) a
          (fun x h => hn1.2 x (hpa.mem_iff.mp h)) hn2.2
          (fun x h => hdis x (hpa.mem_iff.mp h)) hfb hla
      -- the halves are merged
      have hpab : (la ++ lb).Perm l := by
        have := List.Perm.append hpa hpb
        rw [hcat] at this
        exact this
      obtain ⟨st1, hr3, lm, hpm, hsortm, hlm, hfm, _⟩ :=
        merge_loop_spec (fuel + 1) { cx := cx2, hd := hd, tl := none, a := a, b := b } la lb
          hla2 hlb hsorta hsortb (fl_nodes_perm _ _ hpab hn)
          (fun t ht => by cases ht)
          (by
            have := hpab.length_eq
            rw [List.length_append] at this
            omega)
      refine ⟨_, _, fl_mergesort_succ fuel cx hd l.length hlen cx1 cx2 a b st1 hr1 hr2 hr3,
        lm, hpm.trans hpab, hsortm, hlm, ?_⟩
      refine fl_frame_trans _ _ _ _ (fl_frame_mono _ _ _ _ hmem1 hsf) ?_
      refine fl_frame_trans _ _ _ _ (fl_frame_mono _ _ _ _ hmem1 hfa) ?_
      refine fl_frame_trans _ _ _ _ (fl_frame_mono _ _ _ _ hmem2 hfb) ?_
      exact fl_frame_mono _ _ _ _ (fun x h => hpab.mem_iff.mp h) hfm

/-! ### `wikrt_fl_flatten` joins the lists of the size classes -/

theorem fl_flat_mem (L : Nat → List Nat) (a : Nat) :
    ∀ n, a ∈ wikrt_fl_flat L n ↔ ∃ sc, sc < n ∧ a ∈ L sc := by
  intro n
  induction n with
  | zero => simp [wikrt_fl_flat]
  | succ n ih =>
    simp only [wikrt_fl_flat, List.mem_append, ih]
    constructor
    · rintro (h | ⟨sc, h1, h2⟩)
      · exact ⟨n, by omega, h⟩
      · exact ⟨sc, by omega, h2⟩
    · rintro ⟨sc, h1, h2⟩
      by_cases hsc : sc = n
      · subst hsc; exact Or.inl h2
      · exact Or.inr ⟨sc, by omega, h2⟩

theorem fl_flat_suffix (L : Nat → List Nat) (k : Nat) :
    ∀ n, k ≤ n → wikrt_fl_flat L k <:+ wikrt_fl_flat L n := by
  intro n
  induction n with
  | zero =>
    intro h
    have : k = 0 := by omega
    subst this
    exact List.suffix_refl _
  | succ n ih =>
    intro h
    by_cases hk : k = n + 1
    · subst hk; exact List.suffix_refl _
    · exact (ih (by omega)).trans (List.suffix_append _ _)

theorem walk_end_spec {FL : Type} (cx : wikrt_cx FL) (var : Nat) :
    ∀ (l : List Nat) (fuel : Nat) (tl : Option Nat),
      wikrt_fl_list cx (wikrt_tl_get cx var tl) l → l.length ≤ fuel →
      wikrt_fl_walk_end cx var fuel tl = some (l.getLast?.or tl) := by
  intro l
  induction l with
  | nil =>
    intro fuel tl h _
    have h0 : wikrt_tl_get cx var tl = 0 := h
    cases fuel <;> simp [wikrt_fl_walk_end, h0]
  | cons a l ih =>
    intro fuel tl h hf
    have ha : wikrt_tl_get cx var tl = a := h.1
    have ha0 : a ≠ 0 := h.2.1
    obtain ⟨f, rfl⟩ : ∃ f, fuel = f + 1 := ⟨fuel - 1, by simp at hf; omega⟩
    rw [wikrt_fl_walk_end]
    simp only [ha, if_pos (Ne.symm ha0)]
    rw [ih f (some a) h.2.2 (by simp at hf; omega)]
    cases l with
    | nil => simp
    | cons b l =>
      rw [List.getLast?_cons_cons, List.getLast?_eq_getLast _ (List.cons_ne_nil b l)]
      simp

/-- The second word of the last node of a list set to the head of another
list appends that list. -/
theorem fl_list_link {FL : Type} (cx : wikrt_cx FL) (R : List Nat) (r t : Nat) :
    ∀ (l0 : List Nat) (hd : Nat), wikrt_fl_list cx hd (l0 ++ [t]) →
      wikrt_fl_nodes (l0 ++ [t]) → wikrt_fl_list cx r R →
      (∀ a ∈ R, a % 16 = 0 ∧ a < 2 ^ 64) → t ∉ R →
      wikrt_fl_list (wr cx t 1 r) hd (l0 ++ [t] ++ R) := by
  intro l0
  induction l0 with
  | nil =>
    intro hd h hn hR hRn htR
    have ht := hn.2 t (by simp)
    refine ⟨h.1, h.2.1, ?_⟩
    rw [rd_wr_next]
    exact fl_list_frame cx _ R [t] r hRn (fun x hx => by simp at hx; rw [hx]; exact ht)
      (fun x hx hxt => by simp at hxt; exact htR (hxt ▸ hx))
      (fl_frame_wr [t] cx t r ht (List.mem_cons_self _ _)) hR
  | cons a l0 ih =>
    intro hd h hn hR hRn htR
    have hn1 : wikrt_fl_nodes (l0 ++ [t]) :=
      ⟨(List.nodup_cons.mp hn.1).2, fun x hx => hn.2 x (List.mem_cons_of_mem _ hx)⟩
    have ha := hn.2 a (List.mem_cons_self _ _)
    have ht := hn.2 t (by simp)
    have hat : a ≠ t := by
      intro heq
      exact (List.nodup_cons.mp hn.1).1 (by rw [heq]; simp)
    refine ⟨h.1, h.2.1, ?_⟩
    have hrd : rd (wr cx t 1 r) a 1 = rd cx a 1 := by
      rw [rd_node _ a 1 ha, rd_node _ a 1 ha, wr_node_memory _ _ _ _ ht]
      have : ¬ a + 8 * 1 = t + 8 * 1 := by omega
      simp only [if_neg this]
    rw [hrd]
    exact ih (rd cx a 1) h.2.2 hn1 hR hRn htR

theorem fl_flat_disjoint (L : Nat → List Nat) (n k1 k2 : Nat) (a : Nat)
    (hnd : (wikrt_fl_flat L n).Nodup) (h12 : k1 < k2) (h2 : k2 < n)
    (ha1 : a ∈ L k1) : a ∉ L k2 := by
  intro ha2
  have hs := fl_flat_suffix L (k2 + 1) n (by omega)
  have hnd2 : (L k2 ++ wikrt_fl_flat L k2).Nodup := List.Nodup.sublist hs.sublist hnd
  have hmem : a ∈ wikrt_fl_flat L k2 := (fl_flat_mem L a k2).mpr ⟨k1, h12, ha1⟩
  exact (List.nodup_append.mp hnd2).2.2 ha2 hmem

theorem fl_flat_class_nodes (L : Nat → List Nat) (n k : Nat) (hk : k < n)
    (hn : wikrt_fl_nodes (wikrt_fl_flat L n)) :
    wikrt_fl_nodes (L k) ∧ wikrt_fl_nodes (wikrt_fl_flat L k) ∧
    (∀ a ∈ L k, a ∉ wikrt_fl_flat L k) := by
  have hs := fl_flat_suffix L (k + 1) n (by omega)
  have hnd2 : (L k ++ wikrt_fl_flat L k).Nodup := List.Nodup.sublist hs.sublist hn.1
  have h := List.nodup_append.mp hnd2
  refine ⟨⟨h.1, fun a ha => hn.2 a ((fl_flat_mem L a n).mpr ⟨k, hk, ha⟩)⟩,
    ⟨h.2.1, fun a ha => ?_⟩, fun a ha hb => h.2.2 ha hb⟩
  obtain ⟨sc, h1, h2⟩ := (fl_flat_mem L a k).mp ha
  exact hn.2 a ((fl_flat_mem L a n).mpr ⟨sc, by omega, h2⟩)

theorem flatten_loop_spec (K : wikrt_fl_consts) (fuel : Nat) (L : Nat → List Nat)
    (cx0 : wikrt_cx wikrt_fl)
    (hn : wikrt_fl_nodes (wikrt_fl_flat L K.WIKRT_FLCT))
    (hfuel : (wikrt_fl_flat L K.WIKRT_FLCT).length ≤ fuel) :
    ∀ (n : Nat) (cx : wikrt_cx wikrt_fl) (r : Nat), n < K.WIKRT_FLCT →
      wikrt_fl_list cx r (wikrt_fl_flat L (K.WIKRT_FLCT - n)) →
      (∀ k, K.WIKRT_FLCT - n ≤ k → k < K.WIKRT_FLCT →
        wikrt_fl_list cx (cx.fl.size_class (k : Int)) (L k)) →
      (∀ x, (∀ a ∈ wikrt_fl_flat L K.WIKRT_FLCT, x ≠ a + 8) → cx.memory x = cx0.memory x) →
      ∃ cx1 r1, wikrt_fl_flatten_loop K fuel n cx r = some (cx1, r1) ∧
        wikrt_fl_list cx1 r1 (wikrt_fl_flat L K.WIKRT_FLCT) ∧
        (∀ x, (∀ a ∈ wikrt_fl_flat L K.WIKRT_FLCT, x ≠ a + 8) →
          cx1.memory x = cx0.memory x) := by
  intro n
  induction n with
  | zero =>
    intro cx r _ hr _ hm
    exact ⟨cx, r, rfl, hr, hm⟩
  | succ n ih =>
    intro cx r hlt hr hL hm
    obtain ⟨k0, hk0⟩ : ∃ k0, K.WIKRT_FLCT - (n + 1) = k0 := ⟨_, rfl⟩
    have hk1 : K.WIKRT_FLCT - n = k0 + 1 := by omega
    have hk0lt : k0 < K.WIKRT_FLCT := by omega
    obtain ⟨hnk, hnf, hdis⟩ := fl_flat_class_nodes L K.WIKRT_FLCT k0 hk0lt hn
    have hlk := hL k0 (by omega) hk0lt
    have hlen : (L k0).length ≤ fuel := by
      have hs := (fl_flat_suffix L (k0 + 1) K.WIKRT_FLCT (by omega)).sublist.length_le
      simp only [wikrt_fl_flat, List.length_append] at hs
      omega
    have hw := walk_end_spec cx (cx.fl.size_class (k0 : Int)) (L k0) fuel none hlk hlen
    rw [hk0] at hr
    rw [wikrt_fl_flatten_loop]
    simp only [hk0, hw]
    cases hlast : (L k0).getLast? with
    | none =>
      have hnil : L k0 = [] := List.getLast?_eq_none_iff.mp hlast
      simp only [Option.or]
      refine ih _ _ (by omega) ?_ ?_ hm
      · rw [hk1]
        show wikrt_fl_list _ (if (k0 : Int) = (k0 : Int) then r else _) _
        rw [if_pos rfl]
        simp only [wikrt_fl_flat, hnil, List.nil_append]
        exact fl_list_congr cx _ _ r (fun _ _ => rfl) hr
      · intro k hk hk2
        show wikrt_fl_list _ (if (k : Int) = (k0 : Int) then r else cx.fl.size_class k) _
        have : ¬ (k : Int) = (k0 : Int) := by omega
        rw [if_neg this]
        exact fl_list_congr cx _ _ _ (fun _ _ => rfl) (hL k (by omega) hk2)
    | some t =>
      obtain ⟨l0, hl0⟩ := List.getLast?_eq_some_iff.mp hlast
      simp only [Option.or]
      have htk : t ∈ L k0 := by rw [hl0]; simp
      have ht := hnk.2 t htk
      rw [hl0] at hlk hnk
      have hlink := fl_list_link cx (wikrt_fl_flat L k0) r t l0 _ hlk hnk hr hnf.2 (hdis t htk)
      refine ih _ _ (by omega) ?_ ?_ ?_
      · rw [hk1]
        simp only [wikrt_fl_flat, hl0]
        exact hlink
      · intro k hk hk2
        have hkn := (fl_flat_class_nodes L K.WIKRT_FLCT k hk2 hn).1
        refine fl_list_frame cx _ (L k) [t] _ hkn.2
          (fun x hx => by simp at hx; rw [hx]; exact ht) ?_
          (fl_frame_wr [t] cx t r ht (List.mem_cons_self _ _)) (hL k (by omega) hk2)
        intro x hx hxt
        simp at hxt
        rw [hxt] at hx
        exact fl_flat_disjoint L K.WIKRT_FLCT k0 k t hn.1 (by omega) hk2 htk hx
      · intro x hx
        rw [wr_node_memory _ _ _ _ ht]
        have hne : x ≠ t + 8 := hx t ((fl_flat_mem L t _).mpr ⟨k0, hk0lt, htk⟩)
        have : ¬ x = t + 8 * 1 := by omega
        simp only [if_neg this]
        exact hm x hx

theorem flatten_spec (K : wikrt_fl_consts) (fuel : Nat) (L : Nat → List Nat)
    (cx : wikrt_cx wikrt_fl) (hK : 0 < K.WIKRT_FLCT)
    (hL : ∀ sc, sc < K.WIKRT_FLCT → wikrt_fl_list cx (cx.fl.size_class (sc : Int)) (L sc))
    (hn : wikrt_fl_nodes (wikrt_fl_flat L K.WIKRT_FLCT))
    (hfuel : (wikrt_fl_flat L K.WIKRT_FLCT).length ≤ fuel) :
    ∃ cx1 r1, wikrt_fl_flatten K fuel cx = some (cx1, r1) ∧
      wikrt_fl_list cx1 r1 (wikrt_fl_flat L K.WIKRT_FLCT) ∧
      (∀ x, (∀ a ∈ wikrt_fl_flat L K.WIKRT_FLCT, x ≠ a + 8) → cx1.memory x = cx.memory x) := by
  unfold wikrt_fl_flatten
  refine flatten_loop_spec K fuel L cx hn hfuel (K.WIKRT_FLCT - 1) cx _ (by omega) ?_ ?_
    (fun _ _ => rfl)
  · have h1 : K.WIKRT_FLCT - (K.WIKRT_FLCT - 1) = 1 := by omega
    rw [h1]
    simp only [wikrt_fl_flat, List.append_nil]
    exact hL 0 hK
  · intro k hk hk2
    exact hL k hk2

/-! ### The loops of `wikrt_coalesce` -/

theorem coalesce_run_stop {FL : Type} (cx : wikrt_cx FL) (lst F szb nxt : Nat)
    (h : ¬ (lst + szb) % 2 ^ 64 = nxt) :
    wikrt_coalesce_run cx lst F szb nxt = some (szb, nxt) := by
  cases F <;> simp only [wikrt_coalesce_run, if_neg h]

/-- The inner loop of `wikrt_coalesce` takes the fragments `run` that follow
without a gap and stops before the fragments `rest1`, which a gap precedes. -/
theorem coalesce_run_spec {FL : Type} (cx : wikrt_cx FL) (lst : Nat) :
    ∀ (rest0 : List Nat) (F szb nxt : Nat), wikrt_fl_list cx nxt rest0 →
      (∀ a ∈ rest0, a % 16 = 0 ∧ 0 < rd cx a 0 ∧ a + rd cx a 0 < 2 ^ 64) →
      rest0.Pairwise (fun a b => a + rd cx a 0 ≤ b) →
      (∀ b ∈ rest0, lst + szb ≤ b) → lst + szb < 2 ^ 64 → 0 < lst + szb →
      rest0.length ≤ F →
      ∃ (run rest1 : List Nat) (nxt1 : Nat), rest0 = run ++ rest1 ∧
        wikrt_coalesce_run cx lst F szb nxt
          = some (szb + (run.map (fun a => rd cx a 0)).sum, nxt1) ∧
        wikrt_fl_list cx nxt1 rest1 ∧
        (∀ b ∈ rest1, lst + (szb + (run.map (fun a => rd cx a 0)).sum) < b) ∧
        lst + (szb + (run.map (fun a => rd cx a 0)).sum) < 2 ^ 64 ∧
        (∀ x, (lst + szb ≤ x ∧ x < lst + (szb + (run.map (fun a => rd cx a 0)).sum))
          ↔ wikrt_fl_covers cx run x) := by
  intro rest0
  induction rest0 with
  | nil =>
    intro F szb nxt hl _ _ _ hlt hpos _
    have h0 : nxt = 0 := hl
    subst h0
    refine ⟨[], [], 0, rfl, ?_, rfl, fun b hb => absurd hb (List.not_mem_nil b), by simpa using hlt, ?_⟩
    · have hne : ¬ (lst + szb) % 2 ^ 64 = 0 := by rw [Nat.mod_eq_of_lt hlt]; omega
      simp only [List.map_nil, List.sum_nil, Nat.add_zero]
      exact coalesce_run_stop cx lst F szb 0 hne
    · intro x
      simp only [List.map_nil, List.sum_nil, Nat.add_zero, wikrt_fl_covers, List.not_mem_nil,
        false_and, exists_false, iff_false]
      omega
  | cons b rest ih =>
    intro F szb nxt hl hn hp hle hlt hpos hF
    have hb : nxt = b := hl.1
    subst hb
    have hbn := hn nxt (List.mem_cons_self _ _)
    have hp1 := List.pairwise_cons.mp hp
    by_cases hadj : lst + szb = nxt
    · -- the fragment follows without a gap
      obtain ⟨f, rfl⟩ : ∃ f, F = f + 1 := ⟨F - 1, by simp at hF; omega⟩
      have hsz : (szb + rd cx nxt 0) % 2 ^ 64 = szb + rd cx nxt 0 :=
        Nat.mod_eq_of_lt (by omega)
      obtain ⟨run, rest1, nxt1, hr1, hr2, hr3, hr4, hr5, hr6⟩ :=
        ih f (szb + rd cx nxt 0) (rd cx nxt 1) hl.2.2
          (fun a ha => hn a (List.mem_cons_of_mem _ ha)) hp1.2
          (fun c hc => by have := hp1.1 c hc; omega) (by omega) (by omega)
          (by simp at hF; omega)
      refine ⟨nxt :: run, rest1, nxt1, by rw [hr1]; rfl, ?_, hr3, ?_, ?_, ?_⟩
      · rw [wikrt_coalesce_run]
        have hc : (lst + szb) % 2 ^ 64 = nxt := by rw [Nat.mod_eq_of_lt hlt]; exact hadj
        simp only [if_pos hc, hsz, hr2, List.map_cons, List.sum_cons, Nat.add_assoc]
      · intro c hc
        have := hr4 c hc
        simp only [List.map_cons, List.sum_cons]
        omega
      · simp only [List.map_cons, List.sum_cons]
        omega
      · intro x
        have h6 := hr6 x
        simp only [List.map_cons, List.sum_cons]
        unfold wikrt_fl_covers at h6 ⊢
        constructor
        · intro hx
          by_cases hx2 : x < nxt + rd cx nxt 0
          · exact ⟨nxt, List.mem_cons_self _ _, by omega, hx2⟩
          · obtain ⟨a, ha, ha2⟩ := h6.mp (by omega)
            exact ⟨a, List.mem_cons_of_mem _ ha, ha2⟩
        · rintro ⟨a, ha, ha2⟩
          rcases List.mem_cons.mp ha with h | h
          · subst h
            have : 0 ≤ (run.map (fun a => rd cx a 0)).sum := Nat.zero_le _
            omega
          · have := h6.mpr ⟨a, h, ha2⟩
            omega
    · -- a gap: the loop ends
      have hgap : lst + szb < nxt := by
        have := hle nxt (List.mem_cons_self _ _)
        omega
      refine ⟨[], nxt :: rest, nxt, rfl, ?_, hl, ?_, by simpa using hlt, ?_⟩
      · have hc : ¬ (lst + szb) % 2 ^ 64 = nxt := by rw [Nat.mod_eq_of_lt hlt]; exact hadj
        simp only [List.map_nil, List.sum_nil, Nat.add_zero]
        exact coalesce_run_stop cx lst F szb nxt hc
      · intro c hc
        simp only [List.map_nil, List.sum_nil, Nat.add_zero]
        rcases List.mem_cons.mp hc with h | h
        · rw [h]; exact hgap
        · have := hp1.1 c h
          omega
      · intro x
        simp only [List.map_nil, List.sum_nil, Nat.add_zero, wikrt_fl_covers, List.not_mem_nil,
          false_and, exists_false, iff_false]
        omega

theorem addend_rd0 (cx : wikrt_cx wikrt_fl) (fltl : Int → Option Nat) (a szb : Nat) (sc : Int)
    (b : Nat) (ha : a % 16 = 0 ∧ a < 2 ^ 64)
    (ht : ∀ t, fltl sc = some t → t % 16 = 0 ∧ t < 2 ^ 64)
    (hb : b % 16 = 0 ∧ b < 2 ^ 64) :
    rd (wikrt_coalesce_addend cx fltl a szb sc) b 0 = if b = a then szb else rd cx b 0 := by
  unfold wikrt_coalesce_addend
  cases hf : fltl sc with
  | none =>
    show rd (wr (wr cx a 0 szb) a 1 0) b 0 = _
    rw [rd_node _ b 0 hb, rd_node _ b 0 hb, wr_node_memory _ _ _ _ ha, wr_node_memory _ _ _ _ ha]
    by_cases hba : b = a
    · have h1 : ¬ b + 8 * 0 = a + 8 * 1 := by omega
      have h2 : b + 8 * 0 = a + 8 * 0 := by omega
      simp only [if_neg h1, if_pos h2, if_pos hba]
    · have h1 : ¬ b + 8 * 0 = a + 8 * 1 := by omega
      have h2 : ¬ b + 8 * 0 = a + 8 * 0 := by omega
      simp only [if_neg h1, if_neg h2, if_neg hba]
  | some t =>
    have htt := ht t hf
    show rd (wr (wr (wr cx a 0 szb) a 1 0) t 1 a) b 0 = _
    rw [rd_node _ b 0 hb, rd_node _ b 0 hb, wr_node_memory _ _ _ _ htt,
      wr_node_memory _ _ _ _ ha, wr_node_memory _ _ _ _ ha]
    have h0 : ¬ b + 8 * 0 = t + 8 * 1 := by omega
    by_cases hba : b = a
    · have h1 : ¬ b + 8 * 0 = a + 8 * 1 := by omega
      have h2 : b + 8 * 0 = a + 8 * 0 := by omega
      simp only [if_neg h0, if_neg h1, if_pos h2, if_pos hba]
    · have h1 : ¬ b + 8 * 0 = a + 8 * 1 := by omega
      have h2 : ¬ b + 8 * 0 = a + 8 * 0 := by omega
      simp only [if_neg h0, if_neg h1, if_neg h2, if_neg hba]

theorem addend_rd1 (cx : wikrt_cx wikrt_fl) (fltl : Int → Option Nat) (a szb : Nat) (sc : Int)
    (b : Nat) (ha : a % 16 = 0 ∧ a < 2 ^ 64)
    (ht : ∀ t, fltl sc = some t → (t % 16 = 0 ∧ t < 2 ^ 64) ∧ t ≠ a)
    (hb : b % 16 = 0 ∧ b < 2 ^ 64) :
    rd (wikrt_coalesce_addend cx fltl a szb sc) b 1
      = if b = a then 0 else if fltl sc = some b then a else rd cx b 1 := by
  unfold wikrt_coalesce_addend
  cases hf : fltl sc with
  | none =>
    show rd (wr (wr cx a 0 szb) a 1 0) b 1 = _
    rw [rd_node _ b 1 hb, rd_node _ b 1 hb, wr_node_memory _ _ _ _ ha, wr_node_memory _ _ _ _ ha]
    by_cases hba : b = a
    · have h1 : b + 8 * 1 = a + 8 * 1 := by omega
      simp only [if_pos h1, if_pos hba]
    · have h1 : ¬ b + 8 * 1 = a + 8 * 1 := by omega
      have h2 : ¬ b + 8 * 1 = a + 8 * 0 := by omega
      simp only [if_neg h1, if_neg h2, if_neg hba, reduceCtorEq, if_false]
  | some t =>
    obtain ⟨htt, hta⟩ := ht t hf
    show rd (wr (wr (wr cx a 0 szb) a 1 0) t 1 a) b 1 = _
    rw [rd_node _ b 1 hb, rd_node _ b 1 hb, wr_node_memory _ _ _ _ htt,
      wr_node_memory _ _ _ _ ha, wr_node_memory _ _ _ _ ha]
    by_cases hba : b = a
    · have h0 : ¬ b + 8 * 1 = t + 8 * 1 := by omega
      have h1 : b + 8 * 1 = a + 8 * 1 := by omega
      simp only [if_neg h0, if_pos h1, if_pos hba]
    · by_cases hbt : b = t
      · have h0 : b + 8 * 1 = t + 8 * 1 := by omega
        have h3 : some t = some b := by rw [hbt]
        simp only [if_pos h0, if_neg hba, h3, if_true]
      · have h0 : ¬ b + 8 * 1 = t + 8 * 1 := by omega
        have h1 : ¬ b + 8 * 1 = a + 8 * 1 := by omega
        have h2 : ¬ b + 8 * 1 = a + 8 * 0 := by omega
        have h3 : ¬ some t = some b := fun h => hbt (Option.some.inj h).symm
        simp only [if_neg h0, if_neg h1, if_neg h2, if_neg hba, if_neg h3]

theorem addend_fl (cx : wikrt_cx wikrt_fl) (fltl : Int → Option Nat) (a szb : Nat) (sc : Int) :
    (wikrt_coalesce_addend cx fltl a szb sc).fl.free_bytes = (cx.fl.free_bytes + szb) % 2 ^ 64 ∧
    (wikrt_coalesce_addend cx fltl a szb sc).fl.frag_count = (cx.fl.frag_count + 1) % 2 ^ 64 ∧
    (∀ k : Int, (wikrt_coalesce_addend cx fltl a szb sc).fl.size_class k
      = if fltl sc = none ∧ k = sc then a else cx.fl.size_class k) := by
  unfold wikrt_coalesce_addend
  cases hf : fltl sc with
  | none =>
    refine ⟨rfl, rfl, fun k => ?_⟩
    show (if k = sc then a else cx.fl.size_class k) = _
    by_cases hk : k = sc
    · simp only [if_pos hk, hk, and_self, if_true]
    · simp only [if_neg hk, hk, and_false, if_false]
  | some t =>
    refine ⟨rfl, rfl, fun k => ?_⟩
    show cx.fl.size_class k = _
    simp only [reduceCtorEq, false_and, if_false]

/-- A fragment put at the end of the list of a class joins the fragments of
all the lists. -/
theorem fl_flat_snoc_perm (L : Nat → List Nat) (k a : Nat) :
    ∀ n, k < n →
      (wikrt_fl_flat (fun x => if x = k then L k ++ [a] else L x) n).Perm
        (a :: wikrt_fl_flat L n) := by
  have hsame : ∀ n, n ≤ k →
      wikrt_fl_flat (fun x => if x = k then L k ++ [a] else L x) n = wikrt_fl_flat L n := by
    intro n
    induction n with
    | zero => intro _; rfl
    | succ n ih =>
      intro h
      have : ¬ n = k := by omega
      simp only [wikrt_fl_flat, if_neg this, ih (by omega)]
  intro n
  induction n with
  | zero => intro h; omega
  | succ n ih =>
    intro h
    by_cases hnk : n = k
    · subst hnk
      simp only [wikrt_fl_flat, if_true, hsame n (Nat.le_refl _)]
      rw [List.append_assoc]
      exact List.perm_middle
    · simp only [wikrt_fl_flat, if_neg hnk]
      have h1 := ih (by omega)
      exact (List.Perm.append_left (L n) h1).trans List.perm_middle

theorem fl_covers_congr {FL : Type} (cx cx2 : wikrt_cx FL) (l : List Nat)
    (h : ∀ a ∈ l, rd cx2 a 0 = rd cx a 0) (x : Nat) :
    wikrt_fl_covers cx2 l x ↔ wikrt_fl_covers cx l x := by
  unfold wikrt_fl_covers
  constructor
  · rintro ⟨a, ha, h1⟩
    exact ⟨a, ha, by rw [← h a ha]; exact h1⟩
  · rintro ⟨a, ha, h1⟩
    exact ⟨a, ha, by rw [h a ha]; exact h1⟩

theorem fl_covers_append {FL : Type} (cx : wikrt_cx FL) (l1 l2 : List Nat) (x : Nat) :
    wikrt_fl_covers cx (l1 ++ l2) x ↔ (wikrt_fl_covers cx l1 x ∨ wikrt_fl_covers cx l2 x) := by
  unfold wikrt_fl_covers
  constructor
  · rintro ⟨a, ha, h1⟩
    rcases List.mem_append.mp ha with h | h
    · exact Or.inl ⟨a, h, h1⟩
    · exact Or.inr ⟨a, h, h1⟩
  · rintro (⟨a, ha, h1⟩ | ⟨a, ha, h1⟩)
    · exact ⟨a, List.mem_append_left _ ha, h1⟩
    · exact ⟨a, List.mem_append_right _ ha, h1⟩

theorem fl_covers_cons {FL : Type} (cx : wikrt_cx FL) (a : Nat) (l : List Nat) (x : Nat) :
    wikrt_fl_covers cx (a :: l) x ↔ ((a ≤ x ∧ x < a + rd cx a 0) ∨ wikrt_fl_covers cx l x) := by
  unfold wikrt_fl_covers
  constructor
  · rintro ⟨b, hb, h1⟩
    rcases List.mem_cons.mp hb with h | h
    · subst h; exact Or.inl h1
    · exact Or.inr ⟨b, h, h1⟩
  · rintro (h1 | ⟨b, hb, h1⟩)
    · exact ⟨a, List.mem_cons_self _ _, h1⟩
    · exact ⟨b, List.mem_cons_of_mem _ hb, h1⟩

theorem fl_covers_perm {FL : Type} (cx : wikrt_cx FL) (l1 l2 : List Nat) (hp : l1.Perm l2)
    (x : Nat) : wikrt_fl_covers cx l1 x ↔ wikrt_fl_covers cx l2 x := by
  unfold wikrt_fl_covers
  constructor
  · rintro ⟨a, ha, h1⟩; exact ⟨a, hp.mem_iff.mp ha, h1⟩
  · rintro ⟨a, ha, h1⟩; exact ⟨a, hp.mem_iff.mpr ha, h1⟩

theorem sum_map_congr (f g : Nat → Nat) (l : List Nat) (h : ∀ a ∈ l, f a = g a) :
    (l.map f).sum = (l.map g).sum := by
  rw [List.map_congr_left h]

theorem fl_list_snoc_congr {FL : Type} (cx cx2 : wikrt_cx FL) (a t : Nat) :
    ∀ (ys : List Nat) (hd : Nat), wikrt_fl_list cx hd (ys ++ [t]) →
      (∀ b ∈ ys, rd cx2 b 1 = rd cx b 1) → rd cx2 t 1 = a → a ≠ 0 → rd cx2 a 1 = 0 →
      wikrt_fl_list cx2 hd (ys ++ [t] ++ [a]) := by
  intro ys
  induction ys with
  | nil =>
    intro hd h _ ht ha0 ha1
    refine ⟨h.1, h.2.1, ?_⟩
    rw [ht]
    exact ⟨rfl, ha0, ha1⟩
  | cons b ys ih =>
    intro hd h hys ht ha0 ha1
    refine ⟨h.1, h.2.1, ?_⟩
    rw [hys b (List.mem_cons_self _ _)]
    exact ih _ h.2.2 (fun c hc => hys c (List.mem_cons_of_mem _ hc)) ht ha0 ha1

theorem coalesce_step (K : wikrt_fl_consts) (F N B : Nat) (C : Nat → Prop)
    (hK : wikrt_fl_consts_ok K) (hN : N < 2 ^ 64) (hB : B < 2 ^ 64) (hF65 : 65 ≤ F)
    (cx : wikrt_cx wikrt_fl) (fltl : Int → Option Nat) (a : Nat) (rest0 out : List Nat)
    (Lout : Nat → List Nat) (hrF : rest0.length ≤ F)
    (hinv : wikrt_coalesce_inv K F N B C cx fltl a (a :: rest0) out Lout) :
    ∃ (szb nxt1 : Nat) (sc : Int) (rest1 out1 : List Nat) (Lout1 : Nat → List Nat),
      wikrt_coalesce_run cx a F (rd cx a 0) (rd cx a 1) = some (szb, nxt1) ∧
      wikrt_size_class K F szb = some sc ∧
      rest1.length ≤ rest0.length ∧
      wikrt_coalesce_inv K F N B C (wikrt_coalesce_addend cx fltl a szb sc)
        (fun x => if x = sc then some a else fltl x) nxt1 rest1 out1 Lout1 := by
  obtain ⟨h1, h2, h3, h4, h5, h6, h7, h8, h9, h10, h11, h12⟩ := hinv
  have ha := h2 a (List.mem_cons_self _ _)
  have ha16 : a % 16 = 0 ∧ a < 2 ^ 64 := ⟨ha.1, by omega⟩
  have ha0 : a ≠ 0 := h1.2.1
  have h3c := List.pairwise_cons.mp h3
  obtain ⟨run, rest1, nxt1, hr1, hr2, hr3, hr4, hr5, hr6⟩ :=
    coalesce_run_spec cx a rest0 F (rd cx a 0) (rd cx a 1) h1.2.2
      (fun b hb => h2 b (List.mem_cons_of_mem _ hb)) h3c.2 h3c.1 ha.2.2 (by omega) hrF
  obtain ⟨szb, hszb⟩ : ∃ szb, szb = rd cx a 0 + (run.map (fun b => rd cx b 0)).sum := ⟨_, rfl⟩
  rw [← hszb] at hr2 hr4 hr5 hr6
  have hszb_pos : 0 < szb := by omega
  have hszb_ge : rd cx a 0 ≤ szb := by omega
  obtain ⟨sc, hsc⟩ := size_class_some K F szb hszb_pos hK.2.1 hF65
  obtain ⟨hsc0, hsc1⟩ := hK.2.2 F szb sc hszb_pos hsc
  obtain ⟨k, hk⟩ : ∃ k : Nat, (k : Int) = sc := ⟨sc.toNat, Int.toNat_of_nonneg hsc0⟩
  have hkF : k < K.WIKRT_FLCT := by omega
  -- the fragments on the lists
  have hout_lt : ∀ o ∈ out, o + rd cx o 0 < a := fun o ho =>
    (h6 o ho).2.2.2 a (List.mem_cons_self _ _)
  have hout16 : ∀ o ∈ out, o % 16 = 0 ∧ o < 2 ^ 64 := fun o ho =>
    ⟨(h6 o ho).1, by have := (h6 o ho).2.2.1; omega⟩
  have hLout_out : ∀ sc2, sc2 < K.WIKRT_FLCT → ∀ o ∈ Lout sc2, o ∈ out := fun sc2 h2 o ho =>
    h5.mem_iff.mp ((fl_flat_mem Lout o _).mpr ⟨sc2, h2, ho⟩)
  have hout_nodup : out.Nodup := by
    refine List.Pairwise.imp_of_mem ?_ h7
    intro x y hx hy hxy heq
    subst heq
    omega
  have hflat_nodup : (wikrt_fl_flat Lout K.WIKRT_FLCT).Nodup := h5.nodup_iff.mpr hout_nodup
  have hrest1_mem : ∀ b ∈ rest1, b ∈ rest0 := fun b hb => by rw [hr1]; exact List.mem_append_right _ hb
  have hrun_mem : ∀ b ∈ run, b ∈ rest0 := fun b hb => by rw [hr1]; exact List.mem_append_left _ hb
  have hrest0_gt : ∀ b ∈ rest0, a < b := fun b hb => by have := h3c.1 b hb; omega
  have hrest0_16 : ∀ b ∈ rest0, b % 16 = 0 ∧ b < 2 ^ 64 := fun b hb => by
    have := h2 b (List.mem_cons_of_mem _ hb)
    exact ⟨this.1, by omega⟩
  -- the end of the list of the class
  have htl : fltl sc = (Lout k).getLast? := by rw [← hk]; exact (h4 k hkF).2.1
  have htmem : ∀ t, fltl sc = some t → t ∈ Lout k := by
    intro t ht
    rw [htl] at ht
    obtain ⟨ys, hys⟩ := List.getLast?_eq_some_iff.mp ht
    rw [hys]; simp
  have ht16 : ∀ t, fltl sc = some t → (t % 16 = 0 ∧ t < 2 ^ 64) ∧ t ≠ a := by
    intro t ht
    have hto := hLout_out k hkF t (htmem t ht)
    have := hout_lt t hto
    exact ⟨hout16 t hto, by omega⟩
  -- the words of the new context
  have hR0 : ∀ b, b % 16 = 0 ∧ b < 2 ^ 64 →
      rd (wikrt_coalesce_addend cx fltl a szb sc) b 0 = if b = a then szb else rd cx b 0 :=
    fun b hb => addend_rd0 cx fltl a szb sc b ha16 (fun t ht => (ht16 t ht).1) hb
  have hR1 : ∀ b, b % 16 = 0 ∧ b < 2 ^ 64 →
      rd (wikrt_coalesce_addend cx fltl a szb sc) b 1
        = if b = a then 0 else if fltl sc = some b then a else rd cx b 1 :=
    fun b hb => addend_rd1 cx fltl a szb sc b ha16 ht16 hb
  obtain ⟨hfl1, hfl2, hfl3⟩ := addend_fl cx fltl a szb sc
  obtain ⟨cxA, hcxA⟩ : ∃ c, c = wikrt_coalesce_addend cx fltl a szb sc := ⟨_, rfl⟩
  rw [← hcxA] at hR0 hR1 hfl1 hfl2 hfl3
  have hsz_a : rd cxA a 0 = szb := by rw [hR0 a ha16, if_pos rfl]
  have hsz_out : ∀ o ∈ out, rd cxA o 0 = rd cx o 0 := by
    intro o ho
    have := hout_lt o ho
    rw [hR0 o (hout16 o ho), if_neg (by omega)]
  have hsz_rest : ∀ b ∈ rest0, rd cxA b 0 = rd cx b 0 := by
    intro b hb
    have := hrest0_gt b hb
    rw [hR0 b (hrest0_16 b hb), if_neg (by omega)]
  have hnx_rest : ∀ b ∈ rest0, rd cxA b 1 = rd cx b 1 := by
    intro b hb
    have hgt := hrest0_gt b hb
    have hne : ¬ fltl sc = some b := by
      intro h
      have := hout_lt b (hLout_out k hkF b (htmem b h))
      omega
    rw [hR1 b (hrest0_16 b hb), if_neg (by omega), if_neg hne]
  have hnx_out : ∀ o ∈ out, fltl sc ≠ some o → rd cxA o 1 = rd cx o 1 := by
    intro o ho hne
    have := hout_lt o ho
    rw [hR1 o (hout16 o ho), if_neg (by omega), if_neg hne]
  refine ⟨szb, nxt1, sc, rest1, a :: out, fun x => if x = k then Lout k ++ [a] else Lout x,
    hr2, hsc, by rw [hr1, List.length_append]; omega, ?_⟩
  rw [← hcxA]
  refine ⟨?_, ?_, ?_, ?_, ?_, ?_, ?_, ?_, ?_, ?_, ?_, ?_⟩
  · -- the list of the fragments to come
    exact fl_list_congr cx cxA rest1 nxt1 (fun b hb => hnx_rest b (hrest1_mem b hb)) hr3
  · intro b hb
    rw [hsz_rest b (hrest1_mem b hb)]
    exact h2 b (List.mem_cons_of_mem _ (hrest1_mem b hb))
  · have hsub : List.Sublist rest1 rest0 := by rw [hr1]; exact List.sublist_append_right _ _
    refine List.Pairwise.imp_of_mem ?_ (List.Pairwise.sublist hsub h3c.2)
    intro x y hx _ hxy
    rw [hsz_rest x (hrest1_mem x hx)]
    exact hxy
  · -- the lists of the classes
    intro sc2 hsc2
    obtain ⟨g1, g2, g3, g4⟩ := h4 sc2 hsc2
    by_cases hsk : sc2 = k
    · subst hsk
      simp only [if_true]
      have hcast : ((sc2 : Int) = sc) := hk
      refine ⟨?_, ?_, ?_, ?_⟩
      · rw [hfl3]
        cases hf : fltl sc with
        | none =>
          have hnil : Lout sc2 = [] := by
            rw [htl] at hf
            exact List.getLast?_eq_none_iff.mp hf
          rw [if_pos ⟨rfl, hcast⟩, hnil]
          refine ⟨rfl, ha0, ?_⟩
          rw [hR1 a ha16, if_pos rfl]
          rfl
        | some t =>
          rw [if_neg (by simp)]
          have hf2 := hf
          rw [htl] at hf2
          obtain ⟨ys, hys⟩ := List.getLast?_eq_some_iff.mp hf2
          have htk : t ∈ Lout sc2 := htmem t hf
          have hnd : (ys ++ [t]).Nodup := by
            rw [← hys]
            refine List.Pairwise.imp ?_ g3
            intro x y hxy
            exact Nat.ne_of_lt hxy
          have htys : t ∉ ys := by
            intro h
            have := (List.nodup_append.mp hnd).2.2 h (List.mem_singleton_self t)
            exact this
          rw [hys] at g1 ⊢
          refine fl_list_snoc_congr cx cxA a t ys _ g1 ?_ ?_ ha0 ?_
          · intro b hb
            have hbk : b ∈ Lout sc2 := by rw [hys]; exact List.mem_append_left _ hb
            refine hnx_out b (hLout_out sc2 hsc2 b hbk) ?_
            rw [hf]
            intro h
            exact htys ((Option.some.inj h) ▸ hb)
          · have := ht16 t hf
            rw [hR1 t this.1, if_neg this.2, hf, if_pos rfl]
          · rw [hR1 a ha16, if_pos rfl]
      · show (if (sc2 : Int) = sc then some a else fltl sc2) = _
        rw [if_pos hcast, List.getLast?_concat]
      · refine List.pairwise_append.mpr ⟨g3, List.pairwise_singleton _ _, ?_⟩
        intro o ho b hb
        have hb2 : b = a := List.mem_singleton.mp hb
        have := hout_lt o (hLout_out sc2 hsc2 o ho)
        omega
      · intro b hb
        rcases List.mem_append.mp hb with h | h
        · rw [hsz_out b (hLout_out sc2 hsc2 b h)]
          exact g4 b h
        · have hb2 : b = a := List.mem_singleton.mp h
          rw [hb2, hsz_a, hcast]
          exact hsc
    · simp only [if_neg hsk]
      have hcast : ¬ ((sc2 : Int) = sc) := by rw [← hk]; omega
      refine ⟨?_, ?_, g3, ?_⟩
      · rw [hfl3, if_neg (fun h => hcast h.2)]
        refine fl_list_congr cx cxA (Lout sc2) _ ?_ g1
        intro b hb
        refine hnx_out b (hLout_out sc2 hsc2 b hb) ?_
        intro h
        have hbk := htmem b h
        rcases Nat.lt_or_gt_of_ne hsk with hlt | hgt
        · exact fl_flat_disjoint Lout _ sc2 k b hflat_nodup hlt hkF hb hbk
        · exact fl_flat_disjoint Lout _ k sc2 b hflat_nodup hgt hsc2 hbk hb
      · show (if (sc2 : Int) = sc then some a else fltl sc2) = _
        rw [if_neg hcast]; exact g2
      · intro b hb
        rw [hsz_out b (hLout_out sc2 hsc2 b hb)]
        exact g4 b hb
  · -- all the fragments on the lists
    exact (fl_flat_snoc_perm Lout k a _ hkF).trans (List.Perm.cons a h5)
  · intro o ho
    rcases List.mem_cons.mp ho with h | h
    · rw [h, hsz_a]
      exact ⟨ha.1, hszb_pos, hr5, hr4⟩
    · rw [hsz_out o h]
      obtain ⟨q1, q2, q3, q4⟩ := h6 o h
      exact ⟨q1, q2, q3, fun b hb => q4 b (List.mem_cons_of_mem _ (hrest1_mem b hb))⟩
  · refine List.pairwise_cons.mpr ⟨?_, ?_⟩
    · intro o ho
      rw [hsz_out o ho]
      exact hout_lt o ho
    · refine List.Pairwise.imp_of_mem ?_ h7
      intro x y _ hy hxy
      rw [hsz_out y hy]
      exact hxy
  · -- the counters
    rw [hfl2, h8, List.length_cons]
    have : out.length + (a :: rest0).length ≤ N := h10
    rw [List.length_cons] at this
    exact Nat.mod_eq_of_lt (by omega)
  · rw [hfl1, h9, List.map_cons, List.sum_cons, hsz_a,
      sum_map_congr (fun b => rd cxA b 0) (fun b => rd cx b 0) out hsz_out]
    have hsum : (out.map (fun b => rd cx b 0)).sum
        + ((a :: rest0).map (fun b => rd cx b 0)).sum = B := h11
    rw [List.map_cons, List.sum_cons, hr1, List.map_append, List.sum_append] at hsum
    rw [Nat.mod_eq_of_lt (by omega)]
    omega
  · rw [List.length_cons]
    have : out.length + (a :: rest0).length ≤ N := h10
    rw [List.length_cons, hr1, List.length_append] at this
    omega
  · rw [List.map_cons, List.sum_cons, hsz_a,
      sum_map_congr (fun b => rd cxA b 0) (fun b => rd cx b 0) out hsz_out,
      sum_map_congr (fun b => rd cxA b 0) (fun b => rd cx b 0) rest1
        (fun b hb => hsz_rest b (hrest1_mem b hb))]
    have hsum : (out.map (fun b => rd cx b 0)).sum
        + ((a :: rest0).map (fun b => rd cx b 0)).sum = B := h11
    rw [List.map_cons, List.sum_cons, hr1, List.map_append, List.sum_append] at hsum
    omega
  · -- the bytes covered
    intro x
    rw [← h12 x, hr1]
    rw [List.cons_append, fl_covers_cons, fl_covers_append, fl_covers_append, fl_covers_cons,
      fl_covers_append, hsz_a, fl_covers_congr cx cxA out hsz_out,
      fl_covers_congr cx cxA rest1 (fun b hb => hsz_rest b (hrest1_mem b hb))]
    have h6x := hr6 x
    constructor
    · rintro (h | h | h)
      · by_cases hx : x < a + rd cx a 0
        · exact Or.inr (Or.inl ⟨h.1, hx⟩)
        · exact Or.inr (Or.inr (Or.inl (h6x.mp ⟨by omega, h.2⟩)))
      · exact Or.inl h
      · exact Or.inr (Or.inr (Or.inr h))
    · rintro (h | h | h | h)
      · exact Or.inr (Or.inl h)
      · exact Or.inl ⟨h.1, by omega⟩
      · have := h6x.mpr h
        exact Or.inl ⟨by omega, this.2⟩
      · exact Or.inr (Or.inr h)

theorem coalesce_loop_spec (K : wikrt_fl_consts) (F N B : Nat) (C : Nat → Prop)
    (hK : wikrt_fl_consts_ok K) (hN : N < 2 ^ 64) (hB : B < 2 ^ 64) (hF65 : 65 ≤ F) :
    ∀ (fuel : Nat) (cx : wikrt_cx wikrt_fl) (fltl : Int → Option Nat) (lst : Nat)
      (rest out : List Nat) (Lout : Nat → List Nat),
      rest.length ≤ fuel → rest.length ≤ F →
      wikrt_coalesce_inv K F N B C cx fltl lst rest out Lout →
      ∃ (cx1 : wikrt_cx wikrt_fl) (fltl1 : Int → Option Nat) (out1 : List Nat)
        (Lout1 : Nat → List Nat),
        wikrt_coalesce_loop K F fuel cx fltl lst = some (cx1, fltl1) ∧
        wikrt_coalesce_inv K F N B C cx1 fltl1 0 [] out1 Lout1 := by
  intro fuel
  induction fuel with
  | zero =>
    intro cx fltl lst rest out Lout hf _ hinv
    have hnil : rest = [] := List.length_eq_zero.mp (by omega)
    subst hnil
    have h0 : lst = 0 := hinv.1
    subst h0
    refine ⟨cx, fltl, out, Lout, ?_, hinv⟩
    rw [wikrt_coalesce_loop]
    simp only [ne_eq, not_true_eq_false, if_false]
  | succ f ih =>
    intro cx fltl lst rest out Lout hf hF hinv
    cases rest with
    | nil =>
      have h0 : lst = 0 := hinv.1
      subst h0
      refine ⟨cx, fltl, out, Lout, ?_, hinv⟩
      rw [wikrt_coalesce_loop]
      simp only [ne_eq, not_true_eq_false, if_false]
    | cons a rest0 =>
      have ha : lst = a := hinv.1.1
      subst ha
      have ha0 : lst ≠ 0 := hinv.1.2.1
      simp only [List.length_cons] at hf hF
      obtain ⟨szb, nxt1, sc, rest1, out1, Lout1, hr, hsc, hlen, hinv1⟩ :=
        coalesce_step K F N B C hK hN hB hF65 cx fltl lst rest0 out Lout (by omega) hinv
      obtain ⟨cx1, fltl1, out2, Lout2, hloop, hinv2⟩ :=
        ih _ _ nxt1 rest1 out1 Lout1 (by omega) (by omega) hinv1
      refine ⟨cx1, fltl1, out2, Lout2, ?_, hinv2⟩
      rw [wikrt_coalesce_loop]
      simp only [if_pos (Ne.symm ha0), hr, hsc]
      exact hloop

theorem fl_flat_nil : ∀ n, wikrt_fl_flat (fun _ => ([] : List Nat)) n = [] := by
  intro n
  induction n with
  | zero => rfl
  | succ n ih => simp only [wikrt_fl_flat, ih, List.append_nil]

/-- What `wikrt_coalesce` does to a well-formed free list: it returns, and the
free list is well formed again, with the same bytes free and covered, no more
fragments, every list in the order of the addresses, every fragment on the list
of its size, and a gap between any two fragments. -/
theorem coalesce_spec (K : wikrt_fl_consts) (fuel : Nat) (cx : wikrt_cx wikrt_fl)
    (L : Nat → List Nat) (hK : wikrt_fl_consts_ok K) (hwf : wikrt_fl_wf K cx L)
    (hf : cx.fl.frag_count + 65 ≤ fuel) :
    ∃ (cx1 : wikrt_cx wikrt_fl) (L1 : Nat → List Nat),
      wikrt_coalesce K fuel cx = wikrt_outcome.ret cx1 ∧ wikrt_fl_wf K cx1 L1 ∧
      cx1.fl.free_bytes = cx.fl.free_bytes ∧ cx1.fl.frag_count ≤ cx.fl.frag_count ∧
      (∀ x, wikrt_fl_covers cx1 (wikrt_fl_flat L1 K.WIKRT_FLCT) x
        ↔ wikrt_fl_covers cx (wikrt_fl_flat L K.WIKRT_FLCT) x) ∧
      (∀ sc, sc < K.WIKRT_FLCT → (L1 sc).Pairwise (fun a b => a < b) ∧
        ∀ a ∈ L1 sc, wikrt_size_class K fuel (rd cx1 a 0) = some (sc : Int)) ∧
      (wikrt_fl_flat L1 K.WIKRT_FLCT).Pairwise
        (fun a b => a + rd cx1 a 0 < b ∨ b + rd cx1 b 0 < a) := by
  obtain ⟨w1, w2, w3, w4, w5, w6, w7⟩ := hwf
  obtain ⟨Fl, hFl⟩ : ∃ Fl, Fl = wikrt_fl_flat L K.WIKRT_FLCT := ⟨_, rfl⟩
  rw [← hFl] at w2 w3 w4 w5 ⊢
  have h16 : ∀ a ∈ Fl, a % 16 = 0 ∧ a < 2 ^ 64 := fun a ha =>
    ⟨(w2 a ha).1, by have := (w2 a ha).2.2; omega⟩
  have hnd : Fl.Nodup := by
    refine List.Pairwise.imp_of_mem ?_ w3
    intro x y hx _ hxy heq
    subst heq
    have := (w2 x hx).2.1
    omega
  have hn : wikrt_fl_nodes Fl := ⟨hnd, h16⟩
  -- the lists are joined
  obtain ⟨cx1, lst, hflat, hlist1, hmem1⟩ :=
    flatten_spec K fuel L cx hK.1 w1 (by rw [← hFl]; exact hn) (by rw [← hFl]; omega)
  rw [← hFl] at hlist1 hmem1
  -- the list is sorted
  obtain ⟨cx2, lst2, hms, S, hperm, hsorted, hlist2, hframe⟩ :=
    fl_mergesort_spec fuel cx1 lst Fl hlist1 hn (by omega)
  rw [← w4] at hms
  have hS16 : ∀ a ∈ S, a % 16 = 0 ∧ a < 2 ^ 64 := fun a ha => h16 a (hperm.mem_iff.mp ha)
  have hsz2 : ∀ a ∈ Fl, rd cx2 a 0 = rd cx a 0 := by
    intro a ha
    have ha16 := h16 a ha
    rw [rd_node cx2 a 0 ha16, rd_node cx a 0 ha16]
    have hne : ∀ b ∈ Fl, a + 8 * 0 ≠ b + 8 := by
      intro b hb
      have := h16 b hb
      omega
    rw [hframe.2 _ hne, hmem1 _ hne]
  -- the loop starts
  obtain ⟨cx3, hcx3⟩ : ∃ c : wikrt_cx wikrt_fl, c = { cx2 with fl := wikrt_fl_zero } :=
    ⟨_, rfl⟩
  have hrd3 : ∀ a i, rd cx3 a i = rd cx2 a i := by
    intro a i; rw [hcx3]; rfl
  have hsz3 : ∀ a ∈ Fl, rd cx3 a 0 = rd cx a 0 := fun a ha => by rw [hrd3, hsz2 a ha]
  have hsz3S : ∀ a ∈ S, rd cx3 a 0 = rd cx a 0 := fun a ha => hsz3 a (hperm.mem_iff.mp ha)
  have hw3S : S.Pairwise (fun a b => a + rd cx a 0 ≤ b ∨ b + rd cx b 0 ≤ a) := by
    refine (List.Perm.pairwise_iff ?_ hperm).mpr w3
    intro x y hxy
    exact hxy.symm
  have hinv : wikrt_coalesce_inv K fuel Fl.length
      ((Fl.map (fun a => rd cx a 0)).sum) (wikrt_fl_covers cx Fl) cx3 (fun _ => none) lst2 S []
      (fun _ => []) := by
    refine ⟨?_, ?_, ?_, ?_, ?_, ?_, List.Pairwise.nil, ?_, ?_, ?_, ?_, ?_⟩
    · exact fl_list_congr cx2 cx3 S lst2 (fun a _ => hrd3 a 1) hlist2
    · intro a ha
      rw [hsz3S a ha]
      exact w2 a (hperm.mem_iff.mp ha)
    · refine List.Pairwise.imp_of_mem ?_ (List.Pairwise.and hsorted hw3S)
      intro x y hx hy hxy
      rw [hsz3S x hx]
      have := (w2 y (hperm.mem_iff.mp hy)).2.1
      have := hxy.1
      rcases hxy.2 with h | h
      · exact h
      · omega
    · intro sc _
      rw [hcx3]
      exact ⟨rfl, rfl, List.Pairwise.nil, fun a ha => absurd ha (List.not_mem_nil a)⟩
    · rw [fl_flat_nil]
    · intro a ha
      exact absurd ha (List.not_mem_nil a)
    · rw [hcx3]; rfl
    · rw [hcx3]; rfl
    · rw [List.length_nil, Nat.zero_add, hperm.length_eq]
    · rw [List.map_nil, List.sum_nil, Nat.zero_add,
        sum_map_congr (fun a => rd cx3 a 0) (fun a => rd cx a 0) S hsz3S]
      exact (hperm.map _).sum_eq
    · intro x
      rw [List.nil_append, fl_covers_congr cx cx3 S hsz3S]
      exact fl_covers_perm cx S Fl hperm x
  obtain ⟨cx4, fltl4, out, L1, hloop, hinv4⟩ :=
    coalesce_loop_spec K fuel Fl.length ((Fl.map (fun a => rd cx a 0)).sum)
      (wikrt_fl_covers cx Fl) hK (by omega) (by omega) (by omega) fuel cx3 (fun _ => none) lst2
      S [] (fun _ => []) (by rw [hperm.length_eq]; omega) (by rw [hperm.length_eq]; omega) hinv
  rw [hcx3] at hloop
  obtain ⟨_, _, _, i4, i5, i6, i7, i8, i9, i10, i11, i12⟩ := hinv4
  -- the result
  obtain ⟨cx5, hcx5⟩ : ∃ c : wikrt_cx wikrt_fl,
      c = { cx4 with fl := { cx4.fl with frag_count_df := cx4.fl.frag_count } } := ⟨_, rfl⟩
  have hrd5 : ∀ a i, rd cx5 a i = rd cx4 a i := by
    intro a i; rw [hcx5]; rfl
  have hfc5 : cx5.fl.frag_count = out.length := by rw [hcx5]; exact i8
  have hfb5 : cx5.fl.free_bytes = (out.map (fun a => rd cx4 a 0)).sum := by rw [hcx5]; exact i9
  have hsum : (out.map (fun a => rd cx4 a 0)).sum = cx.fl.free_bytes := by
    rw [w5]
    simpa using i11
  have hlen : out.length ≤ cx.fl.frag_count := by
    rw [w4]
    simpa using i10
  have hsep : (wikrt_fl_flat L1 K.WIKRT_FLCT).Pairwise
      (fun a b => a + rd cx5 a 0 < b ∨ b + rd cx5 b 0 < a) := by
    refine (List.Perm.pairwise_iff ?_ i5).mpr ?_
    · intro x y hxy
      exact hxy.symm
    · refine List.Pairwise.imp ?_ i7
      intro x y hxy
      rw [hrd5, hrd5]
      exact Or.inr hxy
  refine ⟨cx5, L1, ?_, ?_, ?_, ?_, ?_, ?_, hsep⟩
  · unfold wikrt_coalesce
    simp only [hflat, hms, hloop]
    rw [if_pos ⟨by rw [i8]; exact hlen, by rw [i9, hsum]⟩, hcx5]
  · refine ⟨?_, ?_, ?_, ?_, ?_, ?_, ?_⟩
    · intro sc hsc
      have hsame : cx5.fl.size_class (sc : Int) = cx4.fl.size_class (sc : Int) := by
        rw [hcx5]
      rw [hsame]
      exact fl_list_congr cx4 cx5 (L1 sc) _ (fun a _ => hrd5 a 1) (i4 sc hsc).1
    · intro a ha
      have hao := i5.mem_iff.mp ha
      rw [hrd5]
      exact ⟨(i6 a hao).1, (i6 a hao).2.1, (i6 a hao).2.2.1⟩
    · refine List.Pairwise.imp ?_ hsep
      intro x y hxy
      rcases hxy with h | h
      · exact Or.inl (Nat.le_of_lt h)
      · exact Or.inr (Nat.le_of_lt h)
    · rw [hfc5, i5.length_eq]
    · rw [hfb5, sum_map_congr (fun a => rd cx5 a 0) (fun a => rd cx4 a 0) _
        (fun a _ => hrd5 a 0)]
      exact ((i5.map _).sum_eq).symm
    · rw [hfc5]; omega
    · rw [hfb5, hsum]; exact w7
  · rw [hfb5, hsum]
  · rw [hfc5]; exact hlen
  · intro x
    rw [fl_covers_congr cx4 cx5 _ (fun a _ => hrd5 a 0), fl_covers_perm cx4 _ out i5 x]
    have := i12 x
    rw [List.append_nil] at this
    exact this
  · intro sc hsc
    obtain ⟨_, _, g3, g4⟩ := i4 sc hsc
    refine ⟨g3, fun a ha => ?_⟩
    rw [hrd5]
    exact g4 a ha

/-! ### The examples of free lists -/

theorem size_class_ff_loop_bound (sz : Nat) :
    ∀ (fuel szt k : Nat) (sc0 r : Int), szt < sz * 2 ^ k →
      wikrt_size_class_ff_loop sz fuel szt sc0 = some r → sc0 - k ≤ r ∧ r ≤ sc0 := by
  intro fuel
  induction fuel with
  | zero =>
    intro szt k sc0 r _ h
    simp [wikrt_size_class_ff_loop] at h
  | succ f ih =>
    intro szt k sc0 r hk h
    rw [wikrt_size_class_ff_loop] at h
    by_cases hge : szt ≥ sz
    · rw [if_pos hge] at h
      cases k with
      | zero => simp at hk; omega
      | succ k =>
        have := ih (szt >>> 1) k (sc0 - 1) r
          (by
            rw [Nat.shiftRight_eq_div_pow]
            rw [Nat.pow_succ, ← Nat.mul_assoc] at hk
            omega) h
        push_cast
        omega
    · rw [if_neg hge] at h
      have : sc0 = r := Option.some.inj h
      omega

theorem fl_consts_ok : wikrt_fl_consts_ok fl_consts := by
  refine ⟨by decide, by decide, ?_⟩
  intro fuel sz sc hsz h
  unfold wikrt_size_class at h
  by_cases hq : sz ≤ fl_consts.WIKRT_QFSIZE
  · rw [if_pos hq] at h
    have hq2 : sz ≤ 256 := hq
    have : ((((sz - 1) / 16 : Nat) : Int)) = sc := Option.some.inj h
    have h2 : (sz - 1) / 16 < 26 := by omega
    show 0 ≤ sc ∧ sc < ((26 : Nat) : Int)
    omega
  · rw [if_neg hq] at h
    have hq2 : 256 < sz := by
      have : ¬ sz ≤ 256 := hq
      omega
    have := size_class_ff_loop_bound sz fuel 131072 9 (((26 : Nat) : Int) - 1) sc (by omega) h
    show 0 ≤ sc ∧ sc < ((26 : Nat) : Int)
    omega

theorem frags_flat : wikrt_fl_flat frags_lists fl_consts.WIKRT_FLCT = [96, 48, 16, 32] := by
  decide

theorem cx_frags_wf : wikrt_fl_wf fl_consts cx_frags frags_lists := by
  unfold wikrt_fl_wf
  rw [frags_flat]
  refine ⟨?_, by decide, by decide, by decide, by decide, by decide, by decide⟩
  intro sc _
  by_cases h0 : sc = 0
  · subst h0
    exact ⟨rfl, by decide, rfl, by decide, rfl, by decide, rfl⟩
  · by_cases h1 : sc = 1
    · subst h1
      exact ⟨rfl, by decide, rfl⟩
    · have hl : frags_lists sc = [] := by simp [frags_lists, h0, h1]
      have hs : cx_frags.fl.size_class (sc : Int) = 0 := by
        have e0 : ¬ (sc : Int) = 0 := by omega
        have e1 : ¬ (sc : Int) = 1 := by omega
        show (if (sc : Int) = 0 then 48 else if (sc : Int) = 1 then 96 else 0) = 0
        rw [if_neg e0, if_neg e1]
      rw [hl, hs]
      rfl

/-- C21: the merge sort of a free list. For every list in the context memory
that starts at `*hd`, ends with 0 and holds `count` nodes at pairwise distinct
cell addresses, `wikrt_fl_mergesort` returns (a fuel of `count` is enough) and
leaves in `*hd` a list that ends with 0 and holds the same nodes in the strictly
increasing order of their addresses: no node is merged, the first word of every
node, its size, is what it was, and the memory changes in the second words of
the nodes at most. -/
theorem wikrt_fl_mergesort_sorts {FL : Type} (fuel : Nat) (cx : wikrt_cx FL) (hd : Nat)
    (l : List Nat) (hl : wikrt_fl_list cx hd l) (hn : wikrt_fl_nodes l)
    (hf : l.length ≤ fuel) :
    ∃ (cx1 : wikrt_cx FL) (hd1 : Nat) (l1 : List Nat),
      wikrt_fl_mergesort fuel cx hd l.length = some (cx1, hd1) ∧
      l1.Perm l ∧ l1.Pairwise (fun a b => a < b) ∧ wikrt_fl_list cx1 hd1 l1 ∧
      (∀ a ∈ l, rd cx1 a 0 = rd cx a 0) ∧ cx1.fl = cx.fl ∧
      (∀ x, (∀ a ∈ l, x ≠ a + 8) → cx1.memory x = cx.memory x) := by
  obtain ⟨cx1, hd1, h1, l1, h2, h3, h4, h5⟩ := fl_mergesort_spec fuel cx hd l hl hn hf
  exact ⟨cx1, hd1, l1, h1, h2, h3, h4,
    fun a ha => rd_frame_size l cx cx1 a hn.2 (hn.2 a ha) h5, h5.1, h5.2⟩

theorem wikrt_fl_mergesort_sorts_witness :
    ∃ (cx1 : wikrt_cx wikrt_fl) (hd1 : Nat) (l1 : List Nat),
      wikrt_fl_mergesort 3 cx_frags 48 [48, 16, 32].length = some (cx1, hd1) ∧
      l1.Perm [48, 16, 32] ∧ l1.Pairwise (fun a b => a < b) ∧ wikrt_fl_list cx1 hd1 l1 ∧
      (∀ a ∈ [48, 16, 32], rd cx1 a 0 = rd cx_frags a 0) ∧ cx1.fl = cx_frags.fl ∧
      (∀ x, (∀ a ∈ [48, 16, 32], x ≠ a + 8) → cx1.memory x = cx_frags.memory x) :=
  wikrt_fl_mergesort_sorts 3 cx_frags 48 [48, 16, 32]
    ⟨rfl, by decide, rfl, by decide, rfl, by decide, rfl⟩ ⟨by decide, by decide⟩ (by decide)

/-- C22: coalescing loses no space. For every well-formed free list, one whose
fragments do not overlap and are counted by `frag_count` and `free_bytes`,
`wikrt_coalesce` returns, so its assertion holds (a fuel of `frag_count + 65`
is enough for its loops): `free_bytes` is what it was, `frag_count` is not
greater than it was, the free list is well formed again, and the bytes that
its fragments cover are the bytes covered before. The constants of the size
classes, which the sources do not define, are any that give every size a class
below `WIKRT_FLCT`. -/
theorem wikrt_coalesce_keeps_space (K : wikrt_fl_consts) (fuel : Nat) (cx : wikrt_cx wikrt_fl)
    (L : Nat → List Nat) (hK : wikrt_fl_consts_ok K) (hwf : wikrt_fl_wf K cx L)
    (hf : cx.fl.frag_count + 65 ≤ fuel) :
    ∃ cx1 : wikrt_cx wikrt_fl,
      wikrt_coalesce K fuel cx = wikrt_outcome.ret cx1 ∧
      cx1.fl.free_bytes = cx.fl.free_bytes ∧ cx1.fl.frag_count ≤ cx.fl.frag_count ∧
      ∃ L1 : Nat → List Nat, wikrt_fl_wf K cx1 L1 ∧
        ∀ x, wikrt_fl_covers cx1 (wikrt_fl_flat L1 K.WIKRT_FLCT) x
          ↔ wikrt_fl_covers cx (wikrt_fl_flat L K.WIKRT_FLCT) x := by
  obtain ⟨cx1, L1, h1, h2, h3, h4, h5, _, _⟩ := coalesce_spec K fuel cx L hK hwf hf
  exact ⟨cx1, h1, h3, h4, L1, h2, h5⟩

theorem wikrt_coalesce_keeps_space_witness :
    ∃ cx1 : wikrt_cx wikrt_fl,
      wikrt_coalesce fl_consts 69 cx_frags = wikrt_outcome.ret cx1 ∧
      cx1.fl.free_bytes = cx_frags.fl.free_bytes ∧
      cx1.fl.frag_count ≤ cx_frags.fl.frag_count ∧
      ∃ L1 : Nat → List Nat, wikrt_fl_wf fl_consts cx1 L1 ∧
        ∀ x, wikrt_fl_covers cx1 (wikrt_fl_flat L1 fl_consts.WIKRT_FLCT) x
          ↔ wikrt_fl_covers cx_frags (wikrt_fl_flat frags_lists fl_consts.WIKRT_FLCT) x :=
  wikrt_coalesce_keeps_space fl_consts 69 cx_frags frags_lists fl_consts_ok cx_frags_wf
    (by decide)

/-- C29: the result of coalescing. For every well-formed free list
`wikrt_coalesce` returns (a fuel of `frag_count + 65` is enough for its loops)
and leaves a well-formed free list in which the list of every size class is in
the strictly increasing order of the addresses, every fragment is on the list
of the class that `wikrt_size_class` gives its size, and no fragment ends where
another one starts. The constants of the size classes, which the sources do
not define, are any that give every size a class below `WIKRT_FLCT`. -/
theorem wikrt_coalesce_sorts_and_joins (K : wikrt_fl_consts) (fuel : Nat)
    (cx : wikrt_cx wikrt_fl) (L : Nat → List Nat) (hK : wikrt_fl_consts_ok K)
    (hwf : wikrt_fl_wf K cx L) (hf : cx.fl.frag_count + 65 ≤ fuel) :
    ∃ (cx1 : wikrt_cx wikrt_fl) (L1 : Nat → List Nat),
      wikrt_coalesce K fuel cx = wikrt_outcome.ret cx1 ∧ wikrt_fl_wf K cx1 L1 ∧
      (∀ sc, sc < K.WIKRT_FLCT → (L1 sc).Pairwise (fun a b => a < b)) ∧
      (∀ sc, sc < K.WIKRT_FLCT → ∀ a ∈ L1 sc,
        wikrt_size_class K fuel (rd cx1 a 0) = some (sc : Int)) ∧
      (∀ f ∈ wikrt_fl_flat L1 K.WIKRT_FLCT, ∀ g ∈ wikrt_fl_flat L1 K.WIKRT_FLCT,
        f + rd cx1 f 0 ≠ g) := by
  obtain ⟨cx1, L1, h1, h2, _, _, _, h6, h7⟩ := coalesce_spec K fuel cx L hK hwf hf
  refine ⟨cx1, L1, h1, h2, fun sc hsc => (h6 sc hsc).1, fun sc hsc => (h6 sc hsc).2, ?_⟩
  intro f hf2 g hg heq
  by_cases hfg : f = g
  · have := (h2.2.1 f hf2).2.1
    omega
  · have hsym : Symmetric (fun a b => a + rd cx1 a 0 < b ∨ b + rd cx1 b 0 < a) :=
      fun x y hxy => hxy.symm
    have := List.Pairwise.forall hsym h7 hf2 hg hfg
    have hgpos := (h2.2.1 g hg).2.1
    omega

theorem wikrt_coalesce_sorts_and_joins_witness :
    ∃ (cx1 : wikrt_cx wikrt_fl) (L1 : Nat → List Nat),
      wikrt_coalesce fl_consts 69 cx_frags = wikrt_outcome.ret cx1 ∧
      wikrt_fl_wf fl_consts cx1 L1 ∧
      (∀ sc, sc < fl_consts.WIKRT_FLCT → (L1 sc).Pairwise (fun a b => a < b)) ∧
      (∀ sc, sc < fl_consts.WIKRT_FLCT → ∀ a ∈ L1 sc,
        wikrt_size_class fl_consts 69 (rd cx1 a 0) = some (sc : Int)) ∧
      (∀ f ∈ wikrt_fl_flat L1 fl_consts.WIKRT_FLCT, ∀ g ∈ wikrt_fl_flat L1 fl_consts.WIKRT_FLCT,
        f + rd cx1 f 0 ≠ g) :=
  wikrt_coalesce_sorts_and_joins fl_consts 69 cx_frags frags_lists fl_consts_ok cx_frags_wf
    (by decide)

/-! ### The shape of an allocated text -/

theorem nat_or_tag (t a : Nat) (ht : t < 8) (ha : a % 8 = 0) : t ||| a = a + t := by
  have h1 : a = 2 ^ 3 * (a / 8) := by norm_num; omega
  have h2 := Nat.mul_add_lt_is_or (show t < 2 ^ 3 from ht) (a / 8)
  rw [Nat.lor_comm, h1]
  exact h2.symm

theorem vaddr_mod (v : Nat) : wikrt_vaddr v % 8 = 0 := by
  have h : wikrt_vaddr v % 8 = wikrt_vaddr v &&& 7 := (Nat.and_pow_two_sub_one_eq_mod _ 3).symm
  rw [h]
  unfold wikrt_vaddr
  rw [Nat.and_assoc]
  have : WIKRT_REF_MASK_ADDR &&& 7 = 0 := by decide
  rw [this, Nat.and_zero]

theorem tag_addr_cell (t a : Nat) (ht : t < 8) (ha : a % 8 = 0) (hlt : a + 16 ≤ 2 ^ 64) :
    wikrt_vtag (wikrt_tag_addr t a) = t ∧ wikrt_vaddr (wikrt_tag_addr t a) = a := by
  have hv : wikrt_tag_addr t a = a + t := nat_or_tag t a ht ha
  have h1 := tag_addr_vtag_vaddr (a + t) (by omega)
  have h2 := vaddr_mod (a + t)
  rw [vtag_mod] at h1
  unfold wikrt_tag_addr at h1
  rw [nat_or_tag _ _ (Nat.mod_lt _ (by decide)) h2] at h1
  rw [hv, vtag_mod]
  omega

theorem text_list_congr {FL : Type} (cx cx2 : wikrt_cx FL) (cps : List Nat) :
    ∀ v, (∀ x, cx2.memory x = cx.memory x) → wikrt_text_list cx v cps →
      wikrt_text_list cx2 v cps := by
  induction cps with
  | nil => intro v _ h; exact h
  | cons c cps ih =>
    intro v hm h
    refine ⟨h.1, ?_, ?_⟩
    · rw [rd, hm]; exact h.2.1
    · have : rd cx2 v 1 = rd cx v 1 := by rw [rd, hm]; rfl
      rw [this]
      exact ih _ hm h.2.2

theorem alloc_text_loop_shape {FL : Type} (A : wikrt_allocator FL)
    (good : wikrt_cx FL → List Nat → Prop) (hA : wikrt_alloc_cells A good) (cps : List Nat) :
    ∀ (fuel : Nat) (st : wikrt_text_state FL) (U : List Nat),
      good st.cx U → wikrt_cells U → (∀ t, st.tl = some t → t ∈ U) →
      (∀ c ∈ cps, utf8_scalar c = true ∧ wikrt_text_char c = true) →
      ((cps.map utf8_encode).flatten).length ≤ fuel →
      ((wikrt_alloc_text_loop A fuel st (cps.map utf8_encode).flatten).1 = WIKRT_OK ∨
        (wikrt_alloc_text_loop A fuel st (cps.map utf8_encode).flatten).1 = WIKRT_CXFULL) ∧
      ((wikrt_alloc_text_loop A fuel st (cps.map utf8_encode).flatten).1 = WIKRT_OK →
        wikrt_text_list
          (wikrt_tl_assign (wikrt_alloc_text_loop A fuel st (cps.map utf8_encode).flatten).2
            WIKRT_UNIT_INR).cx
          (wikrt_tl_get
            (wikrt_tl_assign (wikrt_alloc_text_loop A fuel st (cps.map utf8_encode).flatten).2
              WIKRT_UNIT_INR).cx
            (wikrt_tl_assign (wikrt_alloc_text_loop A fuel st (cps.map utf8_encode).flatten).2
              WIKRT_UNIT_INR).hd st.tl) cps ∧
        (∀ a ∈ U,
          (wikrt_tl_assign (wikrt_alloc_text_loop A fuel st (cps.map utf8_encode).flatten).2
            WIKRT_UNIT_INR).cx.memory a = st.cx.memory a ∧
          (st.tl ≠ some a →
            (wikrt_tl_assign (wikrt_alloc_text_loop A fuel st (cps.map utf8_encode).flatten).2
              WIKRT_UNIT_INR).cx.memory (a + 8) = st.cx.memory (a + 8))) ∧
        (st.tl ≠ none →
          (wikrt_tl_assign (wikrt_alloc_text_loop A fuel st (cps.map utf8_encode).flatten).2
            WIKRT_UNIT_INR).hd = st.hd)) := by
  induction cps with
  | nil =>
    intro fuel st U _ hU htl _ _
    have hr : wikrt_alloc_text_loop A fuel st [] = (WIKRT_OK, st) := by
      cases fuel <;> rfl
    simp only [List.map_nil, List.flatten_nil]
    rw [hr]
    refine ⟨Or.inl rfl, fun _ => ?_⟩
    cases htlv : st.tl with
    | none =>
      have hs : wikrt_tl_assign st WIKRT_UNIT_INR = { st with hd := WIKRT_UNIT_INR } := by
        unfold wikrt_tl_assign; rw [htlv]
      rw [hs]
      exact ⟨rfl, fun a _ => ⟨rfl, fun _ => rfl⟩, fun h => absurd rfl h⟩
    | some t =>
      have hs : wikrt_tl_assign st WIKRT_UNIT_INR
          = { st with cx := wr st.cx t 1 WIKRT_UNIT_INR } := by
        unfold wikrt_tl_assign; rw [htlv]
      rw [hs]
      have ht := hU.1 t (htl t htlv)
      have hvt : wikrt_vaddr t = t := vaddr_aligned t ht.1 (by omega)
      refine ⟨rd_wr_same _ _ _ _, ?_, fun _ => rfl⟩
      intro a ha
      have hab := hU.2 a ha t (htl t htlv)
      constructor
      · show (if a = wikrt_vaddr t + 8 * 1 then _ else st.cx.memory a) = _
        rw [hvt, if_neg (by omega)]
      · intro hne
        have : a ≠ t := fun h => hne (by rw [h])
        show (if a + 8 = wikrt_vaddr t + 8 * 1 then _ else st.cx.memory (a + 8)) = _
        rw [hvt, if_neg (by omega)]
  | cons c cps ih =>
    intro fuel st U hg hU htl hc hf
    have hcs := hc c (List.mem_cons_self _ _)
    have hstep := utf8_step_encode c (cps.map utf8_encode).flatten hcs.1
    have hlen := utf8_encode_length_pos c
    simp only [List.map_cons, List.flatten_cons, List.length_append] at hf ⊢
    obtain ⟨b, s1, hb⟩ : ∃ b s1, utf8_encode c = b :: s1 := by
      cases h : utf8_encode c with
      | nil => rw [h] at hlen; exact absurd hlen (by decide)
      | cons b s1 => exact ⟨b, s1, rfl⟩
    obtain ⟨f, hfuel⟩ : ∃ f, fuel = f + 1 := ⟨fuel - 1, by omega⟩
    subst hfuel
    rw [hb, List.cons_append] at hstep ⊢
    rw [hb, List.length_cons] at hf
    rw [wikrt_alloc_text_loop]
    simp only [hstep, hcs.2, Bool.not_true, Bool.false_eq_true, if_false]
    rcases hal : A.wikrt_alloc st.cx WIKRT_CELLSIZE with ⟨_ | dst, cx1⟩ <;> dsimp only
    · -- the allocation fails
      exact ⟨Or.inr rfl, fun h => absurd h (show WIKRT_CXFULL ≠ WIKRT_OK by decide)⟩
    · -- the allocation returns the cell `dst`
      obtain ⟨hd1, hd2, hd3, hd4⟩ := hA.1 st.cx cx1 U dst hg hal
      have hvd : wikrt_vaddr dst = dst := vaddr_aligned dst hd1.1 (by omega)
      have hU1 : wikrt_cells (dst :: U) := by
        refine ⟨?_, ?_⟩
        · intro a ha
          rcases List.mem_cons.mp ha with rfl | ha
          · exact hd1
          · exact hU.1 a ha
        · intro a ha b hb2
          rcases List.mem_cons.mp ha with h1 | h1 <;> rcases List.mem_cons.mp hb2 with h2 | h2
          · exact Or.inl (h1.trans h2.symm)
          · rw [h1]; exact Or.inr (hd2 b h2)
          · have := hd2 a h1
            omega
          · exact hU.2 a h1 b h2
      -- the state that the next pass starts with
      generalize hst1 : wikrt_tl_assign { cx := cx1, hd := st.hd, tl := st.tl }
        (wikrt_tag_addr WIKRT_PL dst) = st1
      generalize hst2 : ({ cx := wr st1.cx dst 0 (wikrt_i2v (c : Int)), hd := st1.hd,
                           tl := some dst } : wikrt_text_state FL) = st2
      have htl2 : st2.tl = some dst := by rw [← hst2]
      have hfacts : good st2.cx (dst :: U) ∧ st2.cx.memory dst = wikrt_i2v c ∧
          (st.tl = none → st2.hd = wikrt_tag_addr WIKRT_PL dst) ∧
          (st.tl ≠ none → st2.hd = st.hd) ∧
          (∀ t, st.tl = some t → st2.cx.memory (t + 8) = wikrt_tag_addr WIKRT_PL dst) ∧
          (∀ a ∈ U, st2.cx.memory a = st.cx.memory a ∧
            (st.tl ≠ some a → st2.cx.memory (a + 8) = st.cx.memory (a + 8))) := by
        cases htlv : st.tl with
        | none =>
          have hs : st2 = { cx := wr cx1 dst 0 (wikrt_i2v c),
                            hd := wikrt_tag_addr WIKRT_PL dst, tl := some dst } := by
            rw [← hst2, ← hst1]; simp only [wikrt_tl_assign, htlv]
          rw [hs]
          refine ⟨hA.2 cx1 _ dst 0 _ hd4 (List.mem_cons_self _ _) (by decide), ?_, fun _ => rfl,
            fun h => absurd rfl h, (fun t ht => by cases ht), ?_⟩
          · show (if dst = wikrt_vaddr dst + 8 * 0 then _ else _) = _
            rw [hvd, if_pos (by omega)]
          · intro a ha
            have hda := hd2 a ha
            constructor
            · show (if a = wikrt_vaddr dst + 8 * 0 then _ else cx1.memory a) = _
              rw [hvd, if_neg (by omega)]
              exact (hd3 a ha).1
            · intro _
              show (if a + 8 = wikrt_vaddr dst + 8 * 0 then _ else cx1.memory (a + 8)) = _
              rw [hvd, if_neg (by omega)]
              exact (hd3 a ha).2
        | some t =>
          have htU := htl t htlv
          have ht := hU.1 t htU
          have hvt : wikrt_vaddr t = t := vaddr_aligned t ht.1 (by omega)
          have hdt := hd2 t htU
          have hs : st2 = { cx := wr (wr cx1 t 1 (wikrt_tag_addr WIKRT_PL dst)) dst 0 (wikrt_i2v c),
                            hd := st.hd, tl := some dst } := by
            rw [← hst2, ← hst1]; simp only [wikrt_tl_assign, htlv]
          rw [hs]
          refine ⟨hA.2 _ _ dst 0 _ (hA.2 cx1 _ t 1 _ hd4 (List.mem_cons_of_mem _ htU) (by decide))
            (List.mem_cons_self _ _) (by decide), ?_, (fun h => by cases h), fun _ => rfl, ?_, ?_⟩
          · show (if dst = wikrt_vaddr dst + 8 * 0 then _ else _) = _
            rw [hvd, if_pos (by omega)]
          · intro t2 ht2
            have : t = t2 := Option.some.inj ht2
            subst this
            show (if t + 8 = wikrt_vaddr dst + 8 * 0 then _
              else (if t + 8 = wikrt_vaddr t + 8 * 1 then _ else _)) = _
            rw [hvd, hvt, if_neg (by omega), if_pos (by omega)]
          · intro a ha
            have hda := hd2 a ha
            have hat := hU.2 a ha t htU
            constructor
            · show (if a = wikrt_vaddr dst + 8 * 0 then _
                else (if a = wikrt_vaddr t + 8 * 1 then _ else cx1.memory a)) = _
              rw [hvd, hvt, if_neg (by omega), if_neg (by omega)]
              exact (hd3 a ha).1
            · intro hne
              have : a ≠ t := fun h => hne (by rw [h])
              show (if a + 8 = wikrt_vaddr dst + 8 * 0 then _
                else (if a + 8 = wikrt_vaddr t + 8 * 1 then _ else cx1.memory (a + 8))) = _
              rw [hvd, hvt, if_neg (by omega), if_neg (by omega)]
              exact (hd3 a ha).2
      obtain ⟨hg2, hm2, hhdn, hhds, hmt, hmU⟩ := hfacts
      have hih := ih f st2 (dst :: U) hg2 hU1
        (fun t ht => by
          rw [htl2] at ht
          rw [← Option.some.inj ht]
          exact List.mem_cons_self _ _)
        (fun x hx => hc x (List.mem_cons_of_mem _ hx))
        (by omega)
      refine ⟨hih.1, fun hok => ?_⟩
      obtain ⟨hl, hmem, hhd⟩ := hih.2 hok
      rw [htl2] at hl hmem hhd
      have hmd := hmem dst (List.mem_cons_self _ _)
      have htag := tag_addr_cell WIKRT_PL dst (by decide) hd1.1 hd1.2
      refine ⟨?_, ?_, ?_⟩
      · -- the list starts at the cell `dst`
        have hget : wikrt_tl_get
            (wikrt_tl_assign (wikrt_alloc_text_loop A f st2 (cps.map utf8_encode).flatten).2
              WIKRT_UNIT_INR).cx
            (wikrt_tl_assign (wikrt_alloc_text_loop A f st2 (cps.map utf8_encode).flatten).2
              WIKRT_UNIT_INR).hd st.tl = wikrt_tag_addr WIKRT_PL dst := by
          cases htlv : st.tl with
          | none =>
            show (wikrt_tl_assign _ WIKRT_UNIT_INR).hd = _
            rw [hhd (by simp)]
            exact hhdn htlv
          | some t =>
            have htU := htl t htlv
            have ht := hU.1 t htU
            have hvt : wikrt_vaddr t = t := vaddr_aligned t ht.1 (by omega)
            have hdt := hd2 t htU
            show (wikrt_tl_assign _ WIKRT_UNIT_INR).cx.memory (wikrt_vaddr t + 8 * 1) = _
            rw [hvt]
            have := (hmem t (List.mem_cons_of_mem _ htU)).2
              (fun h => by have := Option.some.inj h; omega)
            rw [this]
            exact hmt t htlv
        rw [hget]
        refine ⟨htag.1, ?_, ?_⟩
        · show (wikrt_tl_assign _ WIKRT_UNIT_INR).cx.memory
            (wikrt_vaddr (wikrt_tag_addr WIKRT_PL dst) + 8 * 0) = _
          rw [htag.2, Nat.mul_zero, Nat.add_zero, hmd.1]
          exact hm2
        · have : rd (wikrt_tl_assign (wikrt_alloc_text_loop A f st2
              (cps.map utf8_encode).flatten).2 WIKRT_UNIT_INR).cx (wikrt_tag_addr WIKRT_PL dst) 1
              = rd (wikrt_tl_assign (wikrt_alloc_text_loop A f st2
              (cps.map utf8_encode).flatten).2 WIKRT_UNIT_INR).cx dst 1 := by
            unfold rd
            rw [htag.2, hvd]
          rw [this]
          exact hl
      · intro a ha
        have hma := hmem a (List.mem_cons_of_mem _ ha)
        have hda := hd2 a ha
        refine ⟨by rw [hma.1]; exact (hmU a ha).1, fun hne => ?_⟩
        rw [hma.2 (fun h => by have := Option.some.inj h; omega)]
        exact (hmU a ha).2 hne
      · intro hne
        rw [hhd (by simp)]
        exact hhds hne

/-- The loop of `wikrt_alloc_text_fl` ends with `WIKRT_CXFULL` only where
`wikrt_alloc` fails. -/
theorem alloc_text_loop_not_cxfull {FL : Type} (A : wikrt_allocator FL)
    (hall : ∀ c : wikrt_cx FL, (A.wikrt_alloc c WIKRT_CELLSIZE).1 ≠ none) :
    ∀ (fuel : Nat) (st : wikrt_text_state FL) (s : List Nat),
      (wikrt_alloc_text_loop A fuel st s).1 ≠ WIKRT_CXFULL := by
  intro fuel
  induction fuel with
  | zero =>
    intro st s
    cases s <;> exact (show WIKRT_OK ≠ WIKRT_CXFULL by decide)
  | succ f ih =>
    intro st s
    cases s with
    | nil => exact (show WIKRT_OK ≠ WIKRT_CXFULL by decide)
    | cons b s =>
      rw [wikrt_alloc_text_loop]
      cases hstep : utf8_step (b :: s) with
      | none => exact (show WIKRT_OK ≠ WIKRT_CXFULL by decide)
      | some r =>
        obtain ⟨cp, rest⟩ := r
        dsimp only
        by_cases htc : wikrt_text_char cp = true
        · simp only [htc, Bool.not_true, Bool.false_eq_true, if_false]
          rcases hal : A.wikrt_alloc st.cx WIKRT_CELLSIZE with ⟨_ | dst, cx1⟩
          · exact absurd (congrArg Prod.fst hal) (hall st.cx)
          · exact ih _ _
        · have htc2 : wikrt_text_char cp = false := by
            cases h : wikrt_text_char cp
            · rfl
            · exact absurd h htc
          simp only [htc2, Bool.not_false, if_true]
          exact (show WIKRT_INVAL ≠ WIKRT_CXFULL by decide)

theorem alloc_upto_cells : wikrt_alloc_cells alloc_upto alloc_upto_good := by
  refine ⟨?_, ?_⟩
  · intro cx cx1 U dst hg hal
    obtain ⟨hg1, hg2⟩ := hg
    have hal2 : (if cx.fl + WIKRT_CELLSIZE ≤ 4096
        then (some cx.fl, ({ cx with fl := cx.fl + WIKRT_CELLSIZE } : wikrt_cx Nat))
        else (none, cx)) = (some dst, cx1) := hal
    have h16 : WIKRT_CELLSIZE = 16 := rfl
    rw [h16] at hal2
    by_cases hle : cx.fl + 16 ≤ 4096
    · rw [if_pos hle] at hal2
      have hdst : cx.fl = dst := Option.some.inj (congrArg Prod.fst hal2)
      have hcx1 : ({ cx with fl := cx.fl + 16 } : wikrt_cx Nat) = cx1 := congrArg Prod.snd hal2
      subst hdst hcx1
      refine ⟨⟨by omega, by omega⟩, fun a ha => Or.inr (hg2 a ha), fun a _ => ⟨rfl, rfl⟩, ?_, ?_⟩
      · show (cx.fl + 16) % 16 = 0
        omega
      · intro a ha
        show a + 16 ≤ cx.fl + 16
        rcases List.mem_cons.mp ha with h | h
        · omega
        · have := hg2 a h
          omega
    · rw [if_neg hle] at hal2
      exact absurd (congrArg Prod.fst hal2) (by simp)
  · intro cx U a i w hg _ _
    exact hg

/-- C30: the shape of an allocated text. For every valid text `s`, valid UTF-8
with the codepoints `cps`, all of them text characters, `wikrt_alloc_text_fl`
returns `WIKRT_OK` or, where `wikrt_alloc` fails, `WIKRT_CXFULL` (and
`WIKRT_OK` when no cell allocation fails); with `WIKRT_OK` the word left in
`*txt` is a list with one cell in the left of a sum for every codepoint,
holding the codepoints as small integers in their order, and it ends with unit
in the right; for the empty string `*txt` is the bare terminator and the
context is untouched. `wikrt_alloc`, whose body is not in `wikrt.c`, is any
allocator of cells in the sense of `wikrt_alloc_cells`. -/
theorem wikrt_alloc_text_fl_shape {FL : Type} (A : wikrt_allocator FL)
    (good : wikrt_cx FL → List Nat → Prop) (drop : wikrt_cx FL → Nat → Bool → wikrt_cx FL)
    (cx : wikrt_cx FL) (hd : Nat) (s cps : List Nat)
    (hA : wikrt_alloc_cells A good) (hg : good cx [])
    (hv : utf8_valid s cps) (hc : ∀ c ∈ cps, wikrt_text_char c = true) :
    ((wikrt_alloc_text_fl A drop cx hd s).1 = WIKRT_OK ∨
      (wikrt_alloc_text_fl A drop cx hd s).1 = WIKRT_CXFULL) ∧
    ((∀ c : wikrt_cx FL, (A.wikrt_alloc c WIKRT_CELLSIZE).1 ≠ none) →
      (wikrt_alloc_text_fl A drop cx hd s).1 = WIKRT_OK) ∧
    ((wikrt_alloc_text_fl A drop cx hd s).1 = WIKRT_OK →
      wikrt_text_list (wikrt_alloc_text_fl A drop cx hd s).2.1
        (wikrt_alloc_text_fl A drop cx hd s).2.2 cps) ∧
    (cps = [] → wikrt_alloc_text_fl A drop cx hd s = (WIKRT_OK, cx, WIKRT_UNIT_INR)) := by
  obtain ⟨hsc, hs⟩ := hv
  subst hs
  have hloop := alloc_text_loop_shape A good hA cps ((cps.map utf8_encode).flatten).length
    { cx := cx, hd := hd, tl := none } [] hg
    ⟨fun a ha => absurd ha (List.not_mem_nil a), fun a ha => absurd ha (List.not_mem_nil a)⟩
    (fun t ht => by cases ht) (fun c h => ⟨hsc c h, hc c h⟩) (Nat.le_refl _)
  have hcode : (wikrt_alloc_text_fl A drop cx hd (cps.map utf8_encode).flatten).1
      = (wikrt_alloc_text_loop A ((cps.map utf8_encode).flatten).length
          { cx := cx, hd := hd, tl := none } (cps.map utf8_encode).flatten).1 := by
    unfold wikrt_alloc_text_fl
    dsimp only
    by_cases hok : (wikrt_alloc_text_loop A ((cps.map utf8_encode).flatten).length
        { cx := cx, hd := hd, tl := none } (cps.map utf8_encode).flatten).1 = WIKRT_OK
    · rw [if_pos hok, hok]
    · rw [if_neg hok]
  refine ⟨?_, ?_, ?_, ?_⟩
  · rw [hcode]
    exact hloop.1
  · intro hall
    rw [hcode]
    rcases hloop.1 with h | h
    · exact h
    · exact absurd h (alloc_text_loop_not_cxfull A hall _ _ _)
  · unfold wikrt_alloc_text_fl
    dsimp only
    by_cases hok : (wikrt_alloc_text_loop A ((cps.map utf8_encode).flatten).length
        { cx := cx, hd := hd, tl := none } (cps.map utf8_encode).flatten).1 = WIKRT_OK
    · rw [if_pos hok]
      intro _
      exact (hloop.2 hok).1
    · rw [if_neg hok]
      intro h
      exact absurd h hok
  · intro h
    subst h
    rfl

theorem wikrt_alloc_text_fl_shape_witness :
    (wikrt_alloc_text_fl alloc_upto drop_none cx_empty 0 [104, 105]).1 = WIKRT_OK ∧
    wikrt_text_list (wikrt_alloc_text_fl alloc_upto drop_none cx_empty 0 [104, 105]).2.1
      (wikrt_alloc_text_fl alloc_upto drop_none cx_empty 0 [104, 105]).2.2 [104, 105] ∧
    wikrt_alloc_text_fl alloc_upto drop_none cx_empty 0 [] = (WIKRT_OK, cx_empty, WIKRT_UNIT_INR) :=
  have h := wikrt_alloc_text_fl_shape alloc_upto alloc_upto_good drop_none cx_empty 0
    [104, 105] [104, 105] alloc_upto_cells
    ⟨by decide, fun a ha => absurd ha (List.not_mem_nil a)⟩ ⟨by decide, rfl⟩ (by decide)
  ⟨by decide, h.2.2.1 (by decide),
    (wikrt_alloc_text_fl_shape alloc_upto alloc_upto_good drop_none cx_empty 0 [] []
      alloc_upto_cells ⟨by decide, fun a ha => absurd ha (List.not_mem_nil a)⟩
      ⟨by decide, rfl⟩ (by decide)).2.2.2 rfl⟩

end Word

namespace Eval

/-! ### Substructural flags of a block -/

theorem ss_flag_iff (x i : Nat) : x &&& (1 <<< i) ≠ 0 ↔ x.testBit i = true := by
  rw [Nat.shiftLeft_eq, one_mul, Nat.and_two_pow]
  cases x.testBit i <;> simp

theorem capture_block_ss_testBit (otag ss i : Nat) :
    (wikrt_capture_block_ss otag ss).testBit i
      = (ss.testBit i || (decide (i = 0) && decide (WIKRT_BLOCK_RELEVANT &&& otag ≠ 0))
          || (decide (i = 1) && decide (WIKRT_BLOCK_AFFINE &&& otag ≠ 0))) := by
  have h1 : ∀ j : Nat, Nat.testBit 1 j = decide (j = 0) := by
    intro j
    have := @Nat.testBit_two_pow 0 j
    simpa [eq_comm] using this
  have h2 : ∀ j : Nat, Nat.testBit 2 j = decide (j = 1) := by
    intro j
    have := @Nat.testBit_two_pow 1 j
    simpa [eq_comm] using this
  unfold wikrt_capture_block_ss WIKRT_SS_REL WIKRT_SS_AFF
  by_cases hr : WIKRT_BLOCK_RELEVANT &&& otag ≠ 0 <;> by_cases ha : WIKRT_BLOCK_AFFINE &&& otag ≠ 0 <;>
    simp [hr, ha, Nat.testBit_or, h1, h2]

/-- C27: substructural flags are only added. For every block header `otag` and
flag set `ss`, the set that `wikrt_capture_block_ss` leaves in `*ss` contains
`ss`; it has `WIKRT_SS_REL` iff `ss` had it or `WIKRT_BLOCK_RELEVANT` is set in
the header, and `WIKRT_SS_AFF` iff `ss` had it or `WIKRT_BLOCK_AFFINE` is set;
`WIKRT_SS_PEND` and every higher bit are as in `ss`. The header is passed by
value and is not part of the result. -/
theorem wikrt_capture_block_ss_adds_flags (otag ss : Nat) :
    wikrt_capture_block_ss otag ss &&& ss = ss ∧
    (wikrt_capture_block_ss otag ss &&& WIKRT_SS_REL ≠ 0
      ↔ (ss &&& WIKRT_SS_REL ≠ 0 ∨ WIKRT_BLOCK_RELEVANT &&& otag ≠ 0)) ∧
    (wikrt_capture_block_ss otag ss &&& WIKRT_SS_AFF ≠ 0
      ↔ (ss &&& WIKRT_SS_AFF ≠ 0 ∨ WIKRT_BLOCK_AFFINE &&& otag ≠ 0)) ∧
    (wikrt_capture_block_ss otag ss &&& WIKRT_SS_PEND ≠ 0 ↔ ss &&& WIKRT_SS_PEND ≠ 0) ∧
    (∀ i, 2 ≤ i → (wikrt_capture_block_ss otag ss).testBit i = ss.testBit i) := by
  refine ⟨?_, ?_, ?_, ?_, ?_⟩
  · apply Nat.eq_of_testBit_eq
    intro i
    rw [Nat.testBit_and, capture_block_ss_testBit]
    cases ss.testBit i <;> simp
  · unfold WIKRT_SS_REL
    rw [ss_flag_iff, ss_flag_iff, capture_block_ss_testBit]
    simp
  · unfold WIKRT_SS_AFF
    rw [ss_flag_iff, ss_flag_iff, capture_block_ss_testBit]
    simp
  · unfold WIKRT_SS_PEND
    rw [ss_flag_iff, ss_flag_iff, capture_block_ss_testBit]
    simp
  · intro i hi
    rw [capture_block_ss_testBit]
    have h0 : i ≠ 0 := by omega
    have h1 : i ≠ 1 := by omega
    simp [h0, h1]

end Eval

namespace Eval
open wikrt_val

/-! ### The exit of the interpreter loop, tokens and the transaction test -/

/-- A pass of the loop of `wikrt_run_eval_step` returns only from the branch of
the empty operations list, with the state it found, and only for one of the
three reasons the branch tests. -/
theorem run_eval_iter_ret (X : wikrt_ext) (tick_stop : Nat) (cx r : wikrt_cx)
    (h : wikrt_run_eval_iter X tick_stop cx = .ret r) :
    r = cx ∧ cx.pc = UR ∧
      (wikrt_has_error cx = true ∨ cx.compaction_count > tick_stop ∨
        ∃ e, wikrt_pval cx.cc = some (UR, e)) := by
  unfold wikrt_run_eval_iter at h
  split at h
  · split at h <;> cases h
  · rename_i hpc
    by_cases hc : cx.compaction_count > tick_stop
    · simp only [hc, decide_True, Bool.true_or, if_true] at h
      cases h
      exact ⟨rfl, hpc, Or.inr (Or.inl hc)⟩
    · by_cases he : wikrt_has_error cx = true
      · simp only [he, Bool.or_true, if_true] at h
        cases h
        exact ⟨rfl, hpc, Or.inl he⟩
      · have he2 : wikrt_has_error cx = false := by
          cases hh : wikrt_has_error cx
          · rfl
          · exact absurd hh he
        simp only [hc, decide_False, he2, Bool.or_false] at h
        rw [if_neg (by decide)] at h
        split at h
        · cases h
        · rename_i e hcc
          cases h
          exact ⟨rfl, hpc, Or.inr (Or.inr ⟨e, hcc⟩)⟩
        · cases h
  · cases h

/-- The loop of `wikrt_run_eval_step` returns only a state that a pass
returned from. -/
theorem run_eval_loop_ret (X : wikrt_ext) (tick_stop : Nat) :
    ∀ (fuel : Nat) (cx r : wikrt_cx), wikrt_run_eval_loop X tick_stop fuel cx = .ok r →
      r.pc = UR ∧
        (wikrt_has_error r = true ∨ r.compaction_count > tick_stop ∨
          ∃ e, wikrt_pval r.cc = some (UR, e)) := by
  intro fuel
  induction fuel with
  | zero => intro cx r h; cases h
  | succ fuel ih =>
    intro cx r h
    unfold wikrt_run_eval_loop at h
    split at h
    · exact ih _ _ h
    · exact ih _ _ h
    · exact ih _ _ h
    · rename_i cx1 hit
      cases h
      obtain ⟨h1, h2, h3⟩ := run_eval_iter_ret X tick_stop cx r hit
      subst h1
      exact ⟨h2, h3⟩
    · cases h

/-- C31: the exit condition of the loop of `wikrt_run_eval_step`. A call that
returns does so in a state whose `pc` is the empty list and in which an error
is latched, or the compaction count is above `tick_stop` (more than
`tick_steps` compactions since the call started, when the sum is a 64-bit
word), or the call stack is empty. In a state with the empty `pc` and a
well-formed call stack the loop returns that state when one of the three holds,
and otherwise it pops the top frame of the call stack into `pc` and goes on
with the state so made. -/
theorem wikrt_run_eval_step_exit (X : wikrt_ext) :
    (∀ (fuel : Nat) (cx : wikrt_cx) (tick_steps : Nat) (r : wikrt_cx),
      wikrt_run_eval_step X fuel cx tick_steps = .ok r →
        r.pc = WIKRT_UNIT_INR ∧
        (wikrt_has_error r = true ∨
          r.compaction_count > (cx.compaction_count + tick_steps) % 2 ^ 64 ∨
          ∃ e, wikrt_pval r.cc = some (WIKRT_UNIT_INR, e)) ∧
        (cx.compaction_count + tick_steps < 2 ^ 64 →
          (r.compaction_count > (cx.compaction_count + tick_steps) % 2 ^ 64 ↔
            r.compaction_count - cx.compaction_count > tick_steps))) ∧
    (∀ (tick_stop : Nat) (cx : wikrt_cx), cx.pc = WIKRT_UNIT_INR →
      (wikrt_has_error cx = true ∨ cx.compaction_count > tick_stop ∨
        ∃ e, wikrt_pval cx.cc = some (WIKRT_UNIT_INR, e)) →
      wikrt_run_eval_iter X tick_stop cx = .ret cx ∧
      ∀ fuel, wikrt_run_eval_loop X tick_stop (fuel + 1) cx = .ok cx) ∧
    (∀ (tick_stop : Nat) (cx : wikrt_cx) (frame stack e : wikrt_val),
      cx.pc = WIKRT_UNIT_INR → wikrt_has_error cx = false →
      cx.compaction_count ≤ tick_stop →
      wikrt_pval cx.cc = some (PL frame stack, e) →
      wikrt_run_eval_iter X tick_stop cx
        = .pop { cx with pc := frame, cc := wikrt_pval_set0 cx.cc stack } ∧
      ∀ fuel, wikrt_run_eval_loop X tick_stop (fuel + 1) cx
        = wikrt_run_eval_loop X tick_stop fuel
            { cx with pc := frame, cc := wikrt_pval_set0 cx.cc stack }) := by
  refine ⟨?_, ?_, ?_⟩
  · intro fuel cx tick_steps r h
    obtain ⟨h1, h2⟩ := run_eval_loop_ret X _ fuel cx r h
    refine ⟨h1, h2, ?_⟩
    intro hlt
    rw [Nat.mod_eq_of_lt hlt]
    omega
  · intro tick_stop cx hpc hc
    have hit : wikrt_run_eval_iter X tick_stop cx = .ret cx := by
      unfold wikrt_run_eval_iter
      rw [hpc]
      show (if (decide (cx.compaction_count > tick_stop) || wikrt_has_error cx) = true
        then wikrt_iter.ret cx else _) = _
      rcases hc with he | hq | ⟨e, hs⟩
      · rw [he, Bool.or_true, if_pos rfl]
      · rw [decide_eq_true hq, Bool.true_or, if_pos rfl]
      · split
        · rfl
        · rw [hs]
          rfl
    refine ⟨hit, ?_⟩
    intro fuel
    unfold wikrt_run_eval_loop
    rw [hit]
  · intro tick_stop cx frame stack e hpc he hq hs
    have hit : wikrt_run_eval_iter X tick_stop cx
        = .pop { cx with pc := frame, cc := wikrt_pval_set0 cx.cc stack } := by
      unfold wikrt_run_eval_iter
      rw [hpc]
      show (if (decide (cx.compaction_count > tick_stop) || wikrt_has_error cx) = true
        then wikrt_iter.ret cx else _) = _
      rw [he, decide_eq_false (by omega), Bool.or_false, if_neg (by decide), hs]
    refine ⟨hit, ?_⟩
    intro fuel
    conv => lhs; unfold wikrt_run_eval_loop
    rw [hit]

/-- C32: the evaluation of a token by `wikrt_run_eval_token`. A token that
starts with `&` leaves the context as it is. For a token that starts with `.`
the sealer of the value is taken off; when the sealer is `:` followed by the
text that follows the `.` nothing else happens, and otherwise a type error is
latched. A token that starts with `:` wraps the value with the token as the
sealer. Any token that starts with none of `&`, `.`, `:` and the apostrophe,
the empty one included, latches `WIKRT_IMPL`. -/
theorem wikrt_run_eval_token_cases (X : wikrt_ext) (cx : wikrt_cx) (t : List Nat) :
    wikrt_run_eval_token X cx (38 :: t) = cx ∧
    ((X.wikrt_unwrap_seal cx).1 = 58 :: t →
      wikrt_run_eval_token X cx (46 :: t) = (X.wikrt_unwrap_seal cx).2) ∧
    ((X.wikrt_unwrap_seal cx).1 ≠ 58 :: t →
      wikrt_run_eval_token X cx (46 :: t)
        = wikrt_set_error (X.wikrt_unwrap_seal cx).2 WIKRT_ETYPE ∧
      ((X.wikrt_unwrap_seal cx).2.ecode = WIKRT_OK →
        (wikrt_run_eval_token X cx (46 :: t)).ecode = WIKRT_ETYPE)) ∧
    wikrt_run_eval_token X cx (58 :: t) = X.wikrt_wrap_seal cx (58 :: t) ∧
    (∀ token : List Nat, token.headD 0 ≠ 38 → token.headD 0 ≠ 46 → token.headD 0 ≠ 58 →
      token.headD 0 ≠ 39 →
      wikrt_run_eval_token X cx token = wikrt_set_error cx WIKRT_IMPL ∧
      (cx.ecode = WIKRT_OK → (wikrt_run_eval_token X cx token).ecode = WIKRT_IMPL)) := by
  refine ⟨rfl, ?_, ?_, rfl, ?_⟩
  · intro h
    unfold wikrt_run_eval_token
    simp [h]
  · intro h
    have h1 : wikrt_run_eval_token X cx (46 :: t)
        = wikrt_set_error (X.wikrt_unwrap_seal cx).2 WIKRT_ETYPE := by
      unfold wikrt_run_eval_token
      have hm : (((X.wikrt_unwrap_seal cx).1.headD 0 == 58)
          && ((X.wikrt_unwrap_seal cx).1.tail == (46 :: t).tail)) = false := by
        cases hs : (X.wikrt_unwrap_seal cx).1 with
        | nil => rfl
        | cons c s =>
          rw [hs] at h
          by_cases hc : c = 58
          · subst hc
            have hst : s ≠ t := fun e => h (by rw [e])
            simp [hst]
          · simp [hc]
      have e1 : (46 :: t).headD 0 = 46 := rfl
      rw [e1, if_neg (by decide), if_pos rfl]
      dsimp only
      rw [hm, if_pos rfl]
    refine ⟨h1, ?_⟩
    intro hok
    rw [h1]
    unfold wikrt_set_error
    rw [if_pos hok]
  · intro token h1 h2 h3 h4
    have h5 : wikrt_run_eval_token X cx token = wikrt_set_error cx WIKRT_IMPL := by
      unfold wikrt_run_eval_token
      rw [if_neg h1, if_neg h2, if_neg h3, if_neg h4]
    refine ⟨h5, ?_⟩
    intro hok
    rw [h5]
    unfold wikrt_set_error
    rw [if_pos hok]

/-- C39: `wikrt_cx_has_txn` tests the register for equality with its initial
value, so it is true for a context whose `txn` register holds
`WIKRT_REG_TXN_INIT`, a fresh context among them, and false for every other
content of the register: the opposite of the presence of a transaction. -/
theorem wikrt_cx_has_txn_inverted :
    (∀ cx : wikrt_cx, cx.txn = WIKRT_REG_TXN_INIT → wikrt_cx_has_txn cx = true) ∧
    (∀ cx : wikrt_cx, cx.txn ≠ WIKRT_REG_TXN_INIT → wikrt_cx_has_txn cx = false) ∧
    wikrt_cx_has_txn (cx0 WIKRT_UNIT) = true ∧
    wikrt_cx_has_txn { cx0 WIKRT_UNIT with txn := P U WIKRT_REG_TXN_INIT } = false := by
  refine ⟨?_, ?_, by decide, by decide⟩
  · intro cx h
    unfold wikrt_cx_has_txn
    rw [h]
    decide
  · intro cx h
    unfold wikrt_cx_has_txn
    cases hb : (WIKRT_REG_TXN_INIT == cx.txn)
    · rfl
    · exact absurd (of_decide_eq_true hb).symm h

end Eval

namespace WikrtPrivate

/-! ## Small naturals and integers of `wikrt_private.h` -/

theorem and4_mod (v : Nat) : 4 &&& v = 4 &&& (v % 8) := by
  have h : v % 8 = v &&& 7 := (Nat.and_pow_two_sub_one_eq_mod v 3).symm
  rw [h, ← Nat.and_assoc, Nat.and_comm 4 v, Nat.and_assoc]
  rfl

theorem and3_mod (v : Nat) : 3 &&& v = v % 4 := by
  rw [Nat.and_comm]; exact Nat.and_pow_two_sub_one_eq_mod v 2

theorem and31_mod (v : Nat) : v &&& 0x1F = v % 32 :=
  Nat.and_pow_two_sub_one_eq_mod v 5

theorem and15_mod (v : Nat) : v &&& 0x0F = v % 16 :=
  Nat.and_pow_two_sub_one_eq_mod v 4

theorem smallnat_max : WIKRT_SMALLNAT_MAX = 2 ^ 59 - 1 := by decide

theorem to_small_nat_val_eq (n : Nat) (h : n ≤ WIKRT_SMALLNAT_MAX) :
    wikrt_to_small_nat_val n = 32 * n + 20 := by
  rw [smallnat_max] at h
  unfold wikrt_to_small_nat_val
  have h1 : (n <<< 5) % 2 ^ 64 = 2 ^ 5 * n := by
    rw [Nat.shiftLeft_eq]; omega
  rw [h1]
  have h2 := Nat.mul_add_lt_is_or (show 20 < 2 ^ 5 by decide) n
  show 2 ^ 5 * n ||| 20 = 32 * n + 20
  rw [← h2]

theorem to_small_int_val_eq (i : Int) :
    ((wikrt_to_small_int_val i : Nat) : Int) = (16 * i) % 2 ^ 64 + 12 := by
  unfold wikrt_to_small_int_val wikrt_v_of_i
  have hk : ((i * 2 ^ 4) % 2 ^ 64).toNat = 2 ^ 4 * (((i * 2 ^ 4) % 2 ^ 64).toNat / 16) := by
    omega
  rw [hk]
  have h2 := Nat.mul_add_lt_is_or (show 12 < 2 ^ 4 by decide)
    (((i * 2 ^ 4) % 2 ^ 64).toNat / 16)
  show ((2 ^ 4 * (((i * 2 ^ 4) % 2 ^ 64).toNat / 16) ||| 12 : Nat) : Int) = _
  rw [← h2]
  omega

/-- C34: small naturals and small integers of `wikrt_private.h` on 64-bit
words. `WIKRT_SMALLNAT_MAX` is `2^59 - 1`. For every natural number up to it
and for every integer between `WIKRT_SMALLINT_MIN` and `WIKRT_SMALLINT_MAX`
the decoder gives back what the encoder was given; the encoded word is a value
(`wikrt_value`), holds its content in the reference (`wikrt_val_in_ref`, so it
is not a pointer), and satisfies the test of its own constructor and not the
test of the other one. -/
theorem wikrt_small_nat_int_round_trip :
    WIKRT_SMALLNAT_MAX = 2 ^ 59 - 1 ∧
    wikrt_i_of_v WIKRT_SMALLINT_MIN = - (2 ^ 59 - 1) ∧
    (∀ n : Nat, n ≤ WIKRT_SMALLNAT_MAX →
      wikrt_from_small_nat (wikrt_to_small_nat_val n) = n ∧
      wikrt_to_small_nat_val n < 2 ^ 64 ∧
      wikrt_value (wikrt_to_small_nat_val n) = true ∧
      wikrt_val_in_ref (wikrt_to_small_nat_val n) = true ∧
      wikrt_is_ptr (wikrt_to_small_nat_val n) = false ∧
      wikrt_is_small_nat_val (wikrt_to_small_nat_val n) = true ∧
      wikrt_is_small_int_val (wikrt_to_small_nat_val n) = false) ∧
    (∀ i : Int, wikrt_i_of_v WIKRT_SMALLINT_MIN ≤ i → i ≤ (WIKRT_SMALLINT_MAX : Int) →
      wikrt_from_small_int (wikrt_to_small_int_val i) = i ∧
      wikrt_to_small_int_val i < 2 ^ 64 ∧
      wikrt_value (wikrt_to_small_int_val i) = true ∧
      wikrt_val_in_ref (wikrt_to_small_int_val i) = true ∧
      wikrt_is_ptr (wikrt_to_small_int_val i) = false ∧
      wikrt_is_small_int_val (wikrt_to_small_int_val i) = true ∧
      wikrt_is_small_nat_val (wikrt_to_small_int_val i) = false) := by
  refine ⟨smallnat_max, by decide, ?_, ?_⟩
  · intro n hn
    have hv := to_small_nat_val_eq n hn
    rw [smallnat_max] at hn
    have h8 : (32 * n + 20) % 8 = 4 := by omega
    unfold wikrt_from_small_nat wikrt_value wikrt_action wikrt_is_ptr wikrt_val_in_ref wikrt_vtag
      wikrt_is_small_nat_val wikrt_is_small_int_val WIKRT_VAL WIKRT_REF_MASK_TYPE
    rw [hv, and4_mod, h8, and3_mod, and31_mod, and15_mod, Nat.shiftRight_eq_div_pow]
    refine ⟨by omega, by omega, by decide, ?_, ?_, ?_, ?_⟩
    · simp only [beq_iff_eq]; omega
    · simp only [Bool.not_eq_false', beq_iff_eq]; omega
    · simp only [beq_iff_eq]
      show 20 = (32 * n + 20) % 32
      omega
    · simp only [beq_eq_false_iff_ne, ne_eq]
      show ¬ 12 = (32 * n + 20) % 16
      omega
  · intro i h0 h1
    have hv := to_small_int_val_eq i
    have hmin : wikrt_i_of_v WIKRT_SMALLINT_MIN = - (2 ^ 59 - 1) := by decide
    have hmax : (WIKRT_SMALLINT_MAX : Int) = 2 ^ 59 - 1 := by
      show ((WIKRT_SMALLNAT_MAX : Nat) : Int) = _
      rw [smallnat_max]; norm_num
    rw [hmin] at h0
    rw [hmax] at h1
    generalize wikrt_to_small_int_val i = v at hv
    unfold wikrt_from_small_int wikrt_i_of_v wikrt_value wikrt_action wikrt_is_ptr
      wikrt_val_in_ref wikrt_vtag wikrt_is_small_nat_val wikrt_is_small_int_val WIKRT_VAL
      WIKRT_REF_MASK_TYPE
    have h8 : v % 8 = 4 := by omega
    rw [and4_mod, h8, and3_mod, and31_mod, and15_mod, Int.shiftRight_eq_div_pow]
    refine ⟨?_, by omega, by decide, ?_, ?_, ?_, ?_⟩
    · split <;> omega
    · simp only [beq_iff_eq]; omega
    · simp only [Bool.not_eq_false', beq_iff_eq]; omega
    · simp only [beq_iff_eq]
      show 12 = v % 16
      omega
    · simp only [beq_eq_false_iff_ne, ne_eq]
      show ¬ 20 = v % 32
      omega

end WikrtPrivate

namespace Word

/-! ### The first-fit size classes -/

theorem size_class_ff_loop_exact (sz : Nat) :
    ∀ (k fuel szt : Nat) (sc : Int), szt >>> k < sz → (∀ j, j < k → sz ≤ szt >>> j) →
      k < fuel → wikrt_size_class_ff_loop sz fuel szt sc = some (sc - (k : Int)) := by
  intro k
  induction k with
  | zero =>
    intro fuel szt sc hlt _ hf
    cases fuel with
    | zero => omega
    | succ f =>
      have h0 : szt >>> 0 = szt := rfl
      rw [h0] at hlt
      rw [wikrt_size_class_ff_loop, if_neg (by omega)]
      simp
  | succ k ih =>
    intro fuel szt sc hlt hge hf
    cases fuel with
    | zero => omega
    | succ f =>
      have h0 : sz ≤ szt := hge 0 (by omega)
      rw [wikrt_size_class_ff_loop, if_pos h0]
      have h1 : (szt >>> 1) >>> k < sz := by
        rw [← Nat.shiftRight_add, Nat.add_comm]; exact hlt
      have h2 : ∀ j, j < k → sz ≤ (szt >>> 1) >>> j := by
        intro j hj
        rw [← Nat.shiftRight_add, Nat.add_comm]
        exact hge (j + 1) (by omega)
      rw [ih f (szt >>> 1) (sc - 1) h1 h2 (by omega)]
      congr 1
      push_cast
      omega

theorem size_class_ff_loop_inv (sz : Nat) :
    ∀ (fuel szt : Nat) (sc r : Int), wikrt_size_class_ff_loop sz fuel szt sc = some r →
      ∃ k : Nat, r = sc - (k : Int) ∧ szt >>> k < sz ∧ ∀ j, j < k → sz ≤ szt >>> j := by
  intro fuel
  induction fuel with
  | zero =>
    intro szt sc r h
    simp [wikrt_size_class_ff_loop] at h
  | succ f ih =>
    intro szt sc r h
    rw [wikrt_size_class_ff_loop] at h
    by_cases hge : szt ≥ sz
    · rw [if_pos hge] at h
      obtain ⟨k, hr, hlt, hall⟩ := ih _ _ _ h
      refine ⟨k + 1, by push_cast; omega, ?_, ?_⟩
      · rw [Nat.add_comm, Nat.shiftRight_add]; exact hlt
      · intro j hj
        cases j with
        | zero => exact hge
        | succ j =>
          rw [Nat.add_comm, Nat.shiftRight_add]
          exact hall j (by omega)
    · rw [if_neg hge] at h
      refine ⟨0, ?_, ?_, ?_⟩
      · have : sc = r := Option.some.inj h
        simp [this]
      · show szt < sz
        omega
      · intro j hj; omega

theorem size_class_ff_loop_zero : ∀ (fuel szt : Nat) (sc : Int),
    wikrt_size_class_ff_loop 0 fuel szt sc = none := by
  intro fuel
  induction fuel with
  | zero => intro szt sc; rfl
  | succ f ih =>
    intro szt sc
    rw [wikrt_size_class_ff_loop, if_pos (Nat.zero_le _)]
    exact ih _ _

theorem shift_least_exists (m sz : Nat) (hsz : 1 ≤ sz) :
    ∃ k, m >>> k < sz ∧ ∀ j, j < k → sz ≤ m >>> j := by
  have hex : ∃ k, m >>> k < sz := by
    refine ⟨m, ?_⟩
    rw [Nat.shiftRight_eq_div_pow, Nat.div_eq_of_lt (Nat.lt_two_pow m)]
    omega
  refine ⟨Nat.find hex, Nat.find_spec hex, ?_⟩
  intro j hj
  have := Nat.find_min hex hj
  omega

theorem shift_least_unique (m sz k1 k2 : Nat)
    (h1 : m >>> k1 < sz ∧ ∀ j, j < k1 → sz ≤ m >>> j)
    (h2 : m >>> k2 < sz ∧ ∀ j, j < k2 → sz ≤ m >>> j) : k1 = k2 := by
  rcases Nat.lt_trichotomy k1 k2 with h | h | h
  · have := h2.2 k1 h
    omega
  · exact h
  · have := h1.2 k2 h
    omega

/-- C38: the first-fit size classes. For every size `sz ≥ 1` there is a least
number `k` of right shifts with `(WIKRT_FFMAX >> k) < sz`; `wikrt_size_class_ff`
returns after `k + 1` tests of its loop, and whatever it returns is
`WIKRT_FLCT - 1 - k`, which is at most `WIKRT_FLCT - 1`. A larger size never
gets a lower class. For the size 0 the loop is still running after any number
of tests. -/
theorem wikrt_size_class_ff_least_shift (K : wikrt_fl_consts) :
    (∀ sz : Nat, 1 ≤ sz →
      ∃ k : Nat, K.WIKRT_FFMAX >>> k < sz ∧ (∀ j, j < k → sz ≤ K.WIKRT_FFMAX >>> j) ∧
        (∀ fuel, k < fuel →
          wikrt_size_class_ff K fuel sz = some ((K.WIKRT_FLCT : Int) - 1 - (k : Int))) ∧
        (∀ fuel r, wikrt_size_class_ff K fuel sz = some r →
          r = (K.WIKRT_FLCT : Int) - 1 - (k : Int) ∧ r ≤ (K.WIKRT_FLCT : Int) - 1)) ∧
    (∀ (fuel1 fuel2 sz1 sz2 : Nat) (r1 r2 : Int), 1 ≤ sz1 → sz1 ≤ sz2 →
      wikrt_size_class_ff K fuel1 sz1 = some r1 → wikrt_size_class_ff K fuel2 sz2 = some r2 →
      r1 ≤ r2) ∧
    (∀ fuel : Nat, wikrt_size_class_ff K fuel 0 = none) := by
  refine ⟨?_, ?_, ?_⟩
  · intro sz hsz
    obtain ⟨k, hlt, hall⟩ := shift_least_exists K.WIKRT_FFMAX sz hsz
    refine ⟨k, hlt, hall, ?_, ?_⟩
    · intro fuel hf
      exact size_class_ff_loop_exact sz k fuel _ _ hlt hall hf
    · intro fuel r h
      obtain ⟨k2, hr, hlt2, hall2⟩ := size_class_ff_loop_inv sz fuel _ _ r h
      have := shift_least_unique K.WIKRT_FFMAX sz k k2 ⟨hlt, hall⟩ ⟨hlt2, hall2⟩
      subst this
      exact ⟨hr, by omega⟩
  · intro fuel1 fuel2 sz1 sz2 r1 r2 h1 h12 e1 e2
    obtain ⟨k1, hr1, hlt1, hall1⟩ := size_class_ff_loop_inv sz1 fuel1 _ _ r1 e1
    obtain ⟨k2, hr2, hlt2, hall2⟩ := size_class_ff_loop_inv sz2 fuel2 _ _ r2 e2
    have hk : k2 ≤ k1 := by
      by_contra hc
      have := hall2 k1 (by omega)
      omega
    omega
  · intro fuel
    exact size_class_ff_loop_zero fuel _ _

/-! ### The accounting invariant: lists, permutations and sums -/

theorem rd_wr_other {FL : Type} (cx : wikrt_cx FL) (t b i j w : Nat)
    (ht : t % 16 = 0 ∧ t < 2 ^ 64) (hb : b % 16 = 0 ∧ b < 2 ^ 64) (hi : i < 2) (hj : j < 2)
    (h : b ≠ t ∨ j ≠ i) : rd (wr cx t i w) b j = rd cx b j := by
  rw [rd_node _ b j hb, wr_node_memory cx t i w ht, rd_node _ b j hb]
  show (if b + 8 * j = t + 8 * i then w else cx.memory (b + 8 * j)) = _
  rw [if_neg (by omega)]

theorem fl_flat_congr (L L2 : Nat → List Nat) (h : ∀ x, L x = L2 x) (n : Nat) :
    wikrt_fl_flat L n = wikrt_fl_flat L2 n := by
  have : L = L2 := funext h
  rw [this]

theorem fl_flat_remove_perm (L : Nat → List Nat) (k a : Nat) (l2 : List Nat)
    (h : (L k).Perm (a :: l2)) :
    ∀ n, k < n →
      (wikrt_fl_flat L n).Perm (a :: wikrt_fl_flat (fun x => if x = k then l2 else L x) n) := by
  have hsame : ∀ n, n ≤ k →
      wikrt_fl_flat (fun x => if x = k then l2 else L x) n = wikrt_fl_flat L n := by
    intro n
    induction n with
    | zero => intro _; rfl
    | succ n ih =>
      intro h
      have : ¬ n = k := by omega
      simp only [wikrt_fl_flat, if_neg this, ih (by omega)]
  intro n
  induction n with
  | zero => intro h; omega
  | succ n ih =>
    intro hn
    by_cases hnk : n = k
    · subst hnk
      simp only [wikrt_fl_flat, if_true, hsame n (Nat.le_refl _)]
      exact List.Perm.append_right _ h
    · simp only [wikrt_fl_flat, if_neg hnk]
      have h1 := ih (by omega)
      exact (List.Perm.append_left (L n) h1).trans List.perm_middle

theorem fl_flat_push_perm (L : Nat → List Nat) (k v : Nat) (n : Nat) (hk : k < n) :
    (wikrt_fl_flat (fun x => if x = k then v :: L k else L x) n).Perm
      (v :: wikrt_fl_flat L n) := by
  have h := fl_flat_remove_perm (fun x => if x = k then v :: L k else L x) k v (L k)
    (by simp only [if_true]; exact List.Perm.refl _) n hk
  have e : wikrt_fl_flat (fun x => if x = k then L k
      else (fun x => if x = k then v :: L k else L x) x) n = wikrt_fl_flat L n := by
    apply fl_flat_congr
    intro x
    by_cases hx : x = k
    · subst hx; simp
    · simp [hx]
  rw [e] at h
  exact h

theorem fl_flat_class_disjoint (L : Nat → List Nat) (n j k : Nat) (b : Nat)
    (hnd : (wikrt_fl_flat L n).Nodup) (hjk : j ≠ k) (hj : j < n) (hk : k < n)
    (hb : b ∈ L j) : b ∉ L k := by
  rcases Nat.lt_or_gt_of_ne hjk with h | h
  · exact fl_flat_disjoint L n j k b hnd h hk hb
  · intro hbk
    exact fl_flat_disjoint L n k j b hnd h hj hbk hb

theorem fl_pairwise_nodup (s : Nat → Nat) (l : List Nat) (hpos : ∀ a ∈ l, 0 < s a)
    (hpw : l.Pairwise (fun a b => a + s a ≤ b ∨ b + s b ≤ a)) : l.Nodup := by
  refine List.Pairwise.imp_of_mem ?_ hpw
  intro a b ha hb h hab
  subst hab
  have := hpos a ha
  omega

theorem fl_sorted_sum (s : Nat → Nat) (M : Nat) :
    ∀ (l : List Nat) (a : Nat), (∀ b ∈ a :: l, 0 < s b ∧ b + s b ≤ M) →
      (a :: l).Pairwise (fun x y => x ≤ y) →
      (a :: l).Pairwise (fun x y => x + s x ≤ y ∨ y + s y ≤ x) →
      a + ((a :: l).map s).sum ≤ M := by
  intro l
  induction l with
  | nil =>
    intro a h _ _
    have := h a (List.mem_cons_self _ _)
    simp only [List.map_cons, List.map_nil, List.sum_cons, List.sum_nil]
    omega
  | cons b l ih =>
    intro a h hs hd
    have ha := h a (List.mem_cons_self _ _)
    have hb := h b (List.mem_cons_of_mem _ (List.mem_cons_self _ _))
    have h1 := ih b (fun x hx => h x (List.mem_cons_of_mem _ hx))
      (List.Pairwise.of_cons hs) (List.Pairwise.of_cons hd)
    have hab : a ≤ b := List.rel_of_pairwise_cons hs (List.mem_cons_self _ _)
    have hdab := List.rel_of_pairwise_cons hd (List.mem_cons_self b l)
    simp only [List.map_cons, List.sum_cons] at h1 ⊢
    omega

theorem fl_sum_bound (s : Nat → Nat) (M : Nat) (l : List Nat)
    (h : ∀ b ∈ l, 0 < s b ∧ b + s b ≤ M)
    (hd : l.Pairwise (fun x y => x + s x ≤ y ∨ y + s y ≤ x)) :
    (l.map s).sum ≤ M := by
  have hp : (l.insertionSort (fun x y => x ≤ y)).Perm l := List.perm_insertionSort _ l
  have hs : (l.insertionSort (fun x y => x ≤ y)).Sorted (fun x y => x ≤ y) :=
    List.sorted_insertionSort _ l
  have hsym : Symmetric (fun x y => x + s x ≤ y ∨ y + s y ≤ x) := by
    intro x y h
    exact h.symm
  have hd2 : (l.insertionSort (fun x y => x ≤ y)).Pairwise
      (fun x y => x + s x ≤ y ∨ y + s y ≤ x) := (hp.pairwise_iff (fun {x y} h => hsym h)).mpr hd
  have hsum : ((l.insertionSort (fun x y => x ≤ y)).map s).sum = (l.map s).sum :=
    (hp.map s).sum_eq
  rw [← hsum]
  generalize l.insertionSort (fun x y => x ≤ y) = l2 at hp hs hd2
  cases l2 with
  | nil => simp
  | cons a l3 =>
    have := fl_sorted_sum s M l3 a (fun b hb => h b (hp.mem_iff.mp hb)) hs hd2
    omega

theorem fl_length_le_sum (s : Nat → Nat) (l : List Nat) (h : ∀ b ∈ l, 0 < s b) :
    l.length ≤ (l.map s).sum := by
  induction l with
  | nil => simp
  | cons a l ih =>
    have h1 := h a (List.mem_cons_self _ _)
    have h2 := ih (fun b hb => h b (List.mem_cons_of_mem _ hb))
    simp only [List.length_cons, List.map_cons, List.sum_cons]
    omega

theorem fl_list_unlink {FL : Type} (cx : wikrt_cx FL) (a t : Nat) (post : List Nat) :
    ∀ (pre : List Nat) (hd : Nat), wikrt_fl_list cx hd (pre ++ t :: a :: post) →
      (∀ b ∈ pre ++ t :: a :: post, b % 16 = 0 ∧ b < 2 ^ 64) →
      (pre ++ t :: a :: post).Nodup →
      wikrt_fl_list (wr cx t 1 (rd cx a 1)) hd (pre ++ t :: post) := by
  intro pre
  induction pre with
  | nil =>
    intro hd h hn hnd
    obtain ⟨h1, h2, h3⟩ := h
    obtain ⟨_, _, h6⟩ := h3
    have ht := hn t (List.mem_cons_self _ _)
    refine ⟨h1, h2, ?_⟩
    rw [rd_wr_next]
    refine fl_list_congr cx _ post _ ?_ h6
    intro b hb
    have hbn := hn b (List.mem_cons_of_mem _ (List.mem_cons_of_mem _ hb))
    refine rd_wr_other cx t b 1 1 _ ht hbn (by omega) (by omega) (Or.inl ?_)
    intro e
    subst e
    simp only [List.nil_append, List.nodup_cons, List.mem_cons] at hnd
    exact hnd.1 (Or.inr hb)
  | cons x pre ih =>
    intro hd h hn hnd
    obtain ⟨h1, h2, h3⟩ := h
    have ht := hn t (by simp)
    have hx := hn x (by simp)
    refine ⟨h1, h2, ?_⟩
    have hxt : x ≠ t := by
      intro e
      subst e
      have hmem : x ∈ pre ++ x :: a :: post :=
        List.mem_append_right _ (List.mem_cons_self _ _)
      exact (List.nodup_cons.mp hnd).1 hmem
    rw [rd_wr_other cx t x 1 1 _ ht hx (by omega) (by omega) (Or.inl hxt)]
    exact ih _ h3 (fun b hb => hn b (List.mem_cons_of_mem _ hb)) (List.Nodup.of_cons hnd)

theorem size_sub_le (a b : Nat) (h : b ≤ a) : wikrt_size_sub a b = a - b := by
  unfold wikrt_size_sub
  rw [if_pos h]

theorem fl_wf_nodes (K : wikrt_fl_consts) (cx : wikrt_cx wikrt_fl) (L : Nat → List Nat)
    (h : wikrt_fl_wf K cx L) :
    ∀ a ∈ wikrt_fl_flat L K.WIKRT_FLCT, a % 16 = 0 ∧ a < 2 ^ 64 := by
  intro a ha
  have := h.2.1 a ha
  omega

theorem fl_wf_nodup (K : wikrt_fl_consts) (cx : wikrt_cx wikrt_fl) (L : Nat → List Nat)
    (h : wikrt_fl_wf K cx L) : (wikrt_fl_flat L K.WIKRT_FLCT).Nodup :=
  fl_pairwise_nodup (fun a => rd cx a 0) _ (fun a ha => (h.2.1 a ha).2.1) h.2.2.1

theorem fl_wf_ne_zero (K : wikrt_fl_consts) (cx : wikrt_cx wikrt_fl) (L : Nat → List Nat)
    (h : wikrt_fl_wf K cx L) : ∀ a ∈ wikrt_fl_flat L K.WIKRT_FLCT, a ≠ 0 := by
  intro a ha
  obtain ⟨sc, hsc, hm⟩ := (fl_flat_mem L a _).mp ha
  exact fl_list_ne_zero cx (L sc) _ (h.1 sc hsc) a hm

/-- The free list after a fragment has been taken off its list and counted
out: the invariant holds for the lists without the fragment. -/
theorem fl_unlink_inv (K : wikrt_fl_consts) (F : Nat) (cx cx1 : wikrt_cx wikrt_fl)
    (L : Nat → List Nat) (k a : Nat) (pre post : List Nat)
    (hinv : wikrt_fl_inv K F cx L) (hk : k < K.WIKRT_FLCT) (hL : L k = pre ++ a :: post)
    (hcx1 : cx1 = wikrt_fl_assign
      { cx with fl := { cx.fl with
          free_bytes := wikrt_size_sub cx.fl.free_bytes (rd cx a 0),
          frag_count := wikrt_size_sub cx.fl.frag_count 1 } }
      (k : Int) pre.getLast? (rd cx a 1)) :
    wikrt_fl_inv K F cx1 (fun x => if x = k then pre ++ post else L x) ∧
    (wikrt_fl_flat L K.WIKRT_FLCT).Perm
      (a :: wikrt_fl_flat (fun x => if x = k then pre ++ post else L x) K.WIKRT_FLCT) ∧
    (∀ b, b % 16 = 0 ∧ b < 2 ^ 64 → rd cx1 b 0 = rd cx b 0) ∧
    cx1.fl.free_bytes + rd cx a 0 = cx.fl.free_bytes ∧
    cx1.fl.frag_count + 1 = cx.fl.frag_count ∧
    cx1.fl.frag_count_df = cx.fl.frag_count_df := by
  obtain ⟨hwf, hcls, hal⟩ := hinv
  have hnodes := fl_wf_nodes K cx L hwf
  have hnd := fl_wf_nodup K cx L hwf
  obtain ⟨hlists, hsz, hpw, hfc, hfb, hfc64, hfb64⟩ := hwf
  have hperm : (wikrt_fl_flat L K.WIKRT_FLCT).Perm
      (a :: wikrt_fl_flat (fun x => if x = k then pre ++ post else L x) K.WIKRT_FLCT) :=
    fl_flat_remove_perm L k a (pre ++ post) (by rw [hL]; exact List.perm_middle) _ hk
  have hmemk : ∀ b ∈ L k, b ∈ wikrt_fl_flat L K.WIKRT_FLCT := fun b hb =>
    (fl_flat_mem L b _).mpr ⟨k, hk, hb⟩
  have ha_mem : a ∈ wikrt_fl_flat L K.WIKRT_FLCT := hmemk a (by rw [hL]; simp)
  have hsub : ∀ b ∈ wikrt_fl_flat (fun x => if x = k then pre ++ post else L x) K.WIKRT_FLCT,
      b ∈ wikrt_fl_flat L K.WIKRT_FLCT := fun b hb =>
    hperm.mem_iff.mpr (List.mem_cons_of_mem _ hb)
  have hndk : (L k).Nodup := by
    have := fl_flat_class_nodes L K.WIKRT_FLCT k hk ⟨hnd, hnodes⟩
    exact this.1.1
  -- the counters and the heads of the lists
  have hfbsum : cx.fl.free_bytes = rd cx a 0 +
      ((wikrt_fl_flat (fun x => if x = k then pre ++ post else L x) K.WIKRT_FLCT).map
        (fun a => rd cx a 0)).sum := by
    rw [hfb, (hperm.map (fun a => rd cx a 0)).sum_eq]
    simp
  have hfclen : cx.fl.frag_count =
      (wikrt_fl_flat (fun x => if x = k then pre ++ post else L x) K.WIKRT_FLCT).length + 1 := by
    rw [hfc, hperm.length_eq]
    simp
  have hfb1 : cx1.fl.free_bytes = cx.fl.free_bytes - rd cx a 0 := by
    rw [hcx1]
    cases pre.getLast? <;>
      exact size_sub_le _ _ (by omega)
  have hfc1 : cx1.fl.frag_count = cx.fl.frag_count - 1 := by
    rw [hcx1]
    cases pre.getLast? <;>
      exact size_sub_le _ _ (by omega)
  have hdf1 : cx1.fl.frag_count_df = cx.fl.frag_count_df := by
    rw [hcx1]
    cases pre.getLast? <;> rfl
  -- the memory
  have hframe : (∀ b, b % 16 = 0 ∧ b < 2 ^ 64 → rd cx1 b 0 = rd cx b 0) ∧
      (∀ sc, sc < K.WIKRT_FLCT →
        wikrt_fl_list cx1 (cx1.fl.size_class (sc : Int))
          ((fun x => if x = k then pre ++ post else L x) sc)) := by
    rcases List.eq_nil_or_concat pre with hp | ⟨pre2, t, hp⟩
    · subst hp
      have hcx : cx1 = { cx with fl := wikrt_fl_set { cx.fl with
          free_bytes := wikrt_size_sub cx.fl.free_bytes (rd cx a 0),
          frag_count := wikrt_size_sub cx.fl.frag_count 1 } (k : Int) (rd cx a 1) } := hcx1
      have hmem : cx1.memory = cx.memory := by rw [hcx]
      have hrd : ∀ b i, rd cx1 b i = rd cx b i := by
        intro b i
        unfold rd
        rw [hmem]
      refine ⟨fun b _ => hrd b 0, ?_⟩
      intro sc hsc
      by_cases hsk : sc = k
      · subst hsk
        have h1 := hlists sc hsc
        rw [hL] at h1
        have e : cx1.fl.size_class (sc : Int) = rd cx a 1 := by
          rw [hcx]
          simp [wikrt_fl_set]
        rw [e]
        simp only [if_true, List.nil_append]
        exact fl_list_congr cx cx1 post _ (fun b _ => hrd b 1) h1.2.2
      · have e : cx1.fl.size_class (sc : Int) = cx.fl.size_class (sc : Int) := by
          rw [hcx]
          have : ¬ (sc : Int) = (k : Int) := by omega
          simp [wikrt_fl_set, this]
        rw [e]
        simp only [if_neg hsk]
        exact fl_list_congr cx cx1 (L sc) _ (fun b _ => hrd b 1) (hlists sc hsc)
    · rw [List.concat_eq_append] at hp
      subst hp
      have hg : (pre2 ++ [t]).getLast? = some t := by simp
      rw [hg] at hcx1
      have hcx : cx1 = wr { cx with fl := { cx.fl with
          free_bytes := wikrt_size_sub cx.fl.free_bytes (rd cx a 0),
          frag_count := wikrt_size_sub cx.fl.frag_count 1 } } t 1 (rd cx a 1) := hcx1
      have htk : t ∈ L k := by rw [hL]; simp
      have htn := hnodes t (hmemk t htk)
      have hrd0 : ∀ b, b % 16 = 0 ∧ b < 2 ^ 64 → rd cx1 b 0 = rd cx b 0 := by
        intro b hb
        rw [hcx]
        exact rd_wr_other _ t b 1 0 _ htn hb (by omega) (by omega) (Or.inr (by omega))
      have hrd1 : ∀ b, b % 16 = 0 ∧ b < 2 ^ 64 → b ≠ t → rd cx1 b 1 = rd cx b 1 := by
        intro b hb hbt
        rw [hcx]
        exact rd_wr_other _ t b 1 1 _ htn hb (by omega) (by omega) (Or.inl hbt)
      refine ⟨hrd0, ?_⟩
      intro sc hsc
      have e : cx1.fl.size_class (sc : Int) = cx.fl.size_class (sc : Int) := by
        rw [hcx]; rfl
      rw [e]
      by_cases hsk : sc = k
      · subst hsk
        have h1 := hlists sc hsc
        rw [hL, List.append_assoc] at h1
        simp only [if_true]
        rw [hcx, List.append_assoc]
        have hn2 : ∀ b ∈ pre2 ++ t :: a :: post, b % 16 = 0 ∧ b < 2 ^ 64 := by
          intro b hb
          refine hnodes b (hmemk b ?_)
          rw [hL, List.append_assoc]
          exact hb
        have hnd2 : (pre2 ++ t :: a :: post).Nodup := by
          rw [hL, List.append_assoc] at hndk
          exact hndk
        exact fl_list_unlink
          ({ cx with fl := { cx.fl with
            free_bytes := wikrt_size_sub cx.fl.free_bytes (rd cx a 0),
            frag_count := wikrt_size_sub cx.fl.frag_count 1 } } : wikrt_cx wikrt_fl)
          a t post pre2 _ (fl_list_congr cx _ _ _ (fun _ _ => rfl) h1) hn2 hnd2
      · simp only [if_neg hsk]
        refine fl_list_congr cx cx1 (L sc) _ ?_ (hlists sc hsc)
        intro b hb
        have hbf : b ∈ wikrt_fl_flat L K.WIKRT_FLCT := (fl_flat_mem L b _).mpr ⟨sc, hsc, hb⟩
        refine hrd1 b (hnodes b hbf) ?_
        intro e2
        subst e2
        exact fl_flat_class_disjoint L _ sc k b hnd hsk hsc hk hb htk
  obtain ⟨hrd0, hlists1⟩ := hframe
  have hsz1 : ∀ b ∈ wikrt_fl_flat (fun x => if x = k then pre ++ post else L x) K.WIKRT_FLCT,
      rd cx1 b 0 = rd cx b 0 := fun b hb => hrd0 b (hnodes b (hsub b hb))
  have hpw1 : (wikrt_fl_flat (fun x => if x = k then pre ++ post else L x)
      K.WIKRT_FLCT).Pairwise (fun a b => a + rd cx a 0 ≤ b ∨ b + rd cx b 0 ≤ a) := by
    have hsym : ∀ {x y : Nat}, (x + rd cx x 0 ≤ y ∨ y + rd cx y 0 ≤ x) →
        (y + rd cx y 0 ≤ x ∨ x + rd cx x 0 ≤ y) := fun h => h.symm
    exact List.Pairwise.of_cons ((hperm.pairwise_iff hsym).mp hpw)
  refine ⟨⟨⟨hlists1, ?_, ?_, ?_, ?_, ?_, ?_⟩, ?_, ?_⟩, hperm, hrd0, ?_, ?_, hdf1⟩
  · intro b hb
    rw [hsz1 b hb]
    exact hsz b (hsub b hb)
  · refine List.Pairwise.imp_of_mem ?_ hpw1
    intro x y hx hy h
    rw [hsz1 x hx, hsz1 y hy]
    exact h
  · rw [hfc1]; omega
  · rw [hfb1, sum_map_congr _ _ _ hsz1]; omega
  · rw [hfc1]; omega
  · rw [hfb1]; omega
  · intro sc hsc b hb
    have hbL : b ∈ L sc := by
      by_cases hsk : sc = k
      · subst hsk
        simp only [if_true] at hb
        rw [hL]
        rcases List.mem_append.mp hb with h | h
        · exact List.mem_append_left _ h
        · exact List.mem_append_right _ (List.mem_cons_of_mem _ h)
      · simp only [if_neg hsk] at hb
        exact hb
    have hbf : b ∈ wikrt_fl_flat L K.WIKRT_FLCT := (fl_flat_mem L b _).mpr ⟨sc, hsc, hbL⟩
    rw [hrd0 b (hnodes b hbf)]
    exact hcls sc hsc b hbL
  · intro b hb
    rw [hsz1 b hb]
    exact hal b (hsub b hb)
  · rw [hfb1]; omega
  · rw [hfc1]; omega

/-- The free list after `wikrt_free_b` of a block that is disjoint from all
fragments: the invariant holds for the lists with the block on the list of the
class of its size. -/
theorem fl_free_inv (K : wikrt_fl_consts) (F : Nat) (cx : wikrt_cx wikrt_fl)
    (L : Nat → List Nat) (v szb : Nat)
    (hK : wikrt_fl_consts_ok K) (hF : 65 ≤ F) (hinv : wikrt_fl_inv K F cx L)
    (hv : v % 16 = 0) (hv0 : v ≠ 0) (hsz : 0 < szb) (hal : szb % 16 = 0)
    (hend : v + szb < 2 ^ 64)
    (hdis : ∀ a ∈ wikrt_fl_flat L K.WIKRT_FLCT, a + rd cx a 0 ≤ v ∨ v + szb ≤ a) :
    ∃ (cx1 : wikrt_cx wikrt_fl) (k : Nat),
      wikrt_free_b K F cx v szb = some cx1 ∧ k < K.WIKRT_FLCT ∧
      wikrt_fl_inv K F cx1 (fun x => if x = k then v :: L k else L x) ∧
      (wikrt_fl_flat (fun x => if x = k then v :: L k else L x) K.WIKRT_FLCT).Perm
        (v :: wikrt_fl_flat L K.WIKRT_FLCT) ∧
      rd cx1 v 0 = szb ∧
      (∀ b ∈ wikrt_fl_flat L K.WIKRT_FLCT, rd cx1 b 0 = rd cx b 0) ∧
      cx1.fl.free_bytes = cx.fl.free_bytes + szb ∧
      cx1.fl.frag_count = cx.fl.frag_count + 1 ∧
      cx1.fl.frag_count_df = cx.fl.frag_count_df ∧
      (∀ x, x ≠ v → x ≠ v + 8 → cx1.memory x = cx.memory x) := by
  obtain ⟨hwf, hcls, hals⟩ := hinv
  have hnodes := fl_wf_nodes K cx L hwf
  obtain ⟨hlists, hszs, hpw, hfc, hfb, hfc64, hfb64⟩ := hwf
  obtain ⟨sc, hsc⟩ := size_class_some K F szb hsz hK.2.1 hF
  obtain ⟨hsc0, hsc1⟩ := hK.2.2 F szb sc hsz hsc
  obtain ⟨k, hk⟩ : ∃ k : Nat, (k : Int) = sc := ⟨sc.toNat, by omega⟩
  subst hk
  have hkn : k < K.WIKRT_FLCT := by omega
  have hvn : v % 16 = 0 ∧ v < 2 ^ 64 := ⟨hv, by omega⟩
  have hperm := fl_flat_push_perm L k v K.WIKRT_FLCT hkn
  have hfree : wikrt_free_b K F cx v szb = some
      { wr (wr cx v 0 szb) v 1 (cx.fl.size_class (k : Int)) with
        fl := { wikrt_fl_set cx.fl (k : Int) v with
          free_bytes := (cx.fl.free_bytes + szb) % 2 ^ 64,
          frag_count := (cx.fl.frag_count + 1) % 2 ^ 64 } } := by
    unfold wikrt_free_b
    rw [hsc]
    rfl
  generalize hcx1 : ({ wr (wr cx v 0 szb) v 1 (cx.fl.size_class (k : Int)) with
        fl := { wikrt_fl_set cx.fl (k : Int) v with
          free_bytes := (cx.fl.free_bytes + szb) % 2 ^ 64,
          frag_count := (cx.fl.frag_count + 1) % 2 ^ 64 } } : wikrt_cx wikrt_fl) = cx1 at hfree
  have hmem : cx1.memory = (wr (wr cx v 0 szb) v 1 (cx.fl.size_class (k : Int))).memory := by
    rw [← hcx1]
  have hrdeq : ∀ b i, rd cx1 b i = rd (wr (wr cx v 0 szb) v 1 (cx.fl.size_class (k : Int))) b i := by
    intro b i
    unfold rd
    rw [hmem]
  have hrdv0 : rd cx1 v 0 = szb := by
    rw [hrdeq, rd_wr_other _ v v 1 0 _ hvn hvn (by omega) (by omega) (Or.inr (by omega))]
    exact rd_wr_same _ _ _ _
  have hrdv1 : rd cx1 v 1 = cx.fl.size_class (k : Int) := by
    rw [hrdeq]
    exact rd_wr_same _ _ _ _
  have hrdo : ∀ b i, b % 16 = 0 ∧ b < 2 ^ 64 → b ≠ v → i < 2 → rd cx1 b i = rd cx b i := by
    intro b i hb hbv hi
    rw [hrdeq, rd_wr_other _ v b 1 i _ hvn hb (by omega) hi (Or.inl hbv),
      rd_wr_other _ v b 0 i _ hvn hb (by omega) hi (Or.inl hbv)]
  have hmemx : ∀ x, x ≠ v → x ≠ v + 8 → cx1.memory x = cx.memory x := by
    intro x h1 h2
    rw [hmem, wr_node_memory _ v 1 _ hvn]
    show (if x = v + 8 * 1 then _ else (wr cx v 0 szb).memory x) = _
    rw [if_neg (by omega), wr_node_memory _ v 0 _ hvn]
    show (if x = v + 8 * 0 then _ else cx.memory x) = _
    rw [if_neg (by omega)]
  have hne : ∀ b ∈ wikrt_fl_flat L K.WIKRT_FLCT, b ≠ v := by
    intro b hb e
    have h1 := hdis b hb
    have h2 := hszs b hb
    omega
  have hsz0 : ∀ b ∈ wikrt_fl_flat L K.WIKRT_FLCT, rd cx1 b 0 = rd cx b 0 := fun b hb =>
    hrdo b 0 (hnodes b hb) (hne b hb) (by omega)
  have hsz1 : ∀ b ∈ wikrt_fl_flat L K.WIKRT_FLCT, rd cx1 b 1 = rd cx b 1 := fun b hb =>
    hrdo b 1 (hnodes b hb) (hne b hb) (by omega)
  have hflmem : ∀ sc b, sc < K.WIKRT_FLCT → b ∈ L sc → b ∈ wikrt_fl_flat L K.WIKRT_FLCT :=
    fun sc b hsc hb => (fl_flat_mem L b _).mpr ⟨sc, hsc, hb⟩
  have hfbv : cx1.fl.free_bytes = (cx.fl.free_bytes + szb) % 2 ^ 64 := by rw [← hcx1]
  have hfcv : cx1.fl.frag_count = (cx.fl.frag_count + 1) % 2 ^ 64 := by rw [← hcx1]
  have hdfv : cx1.fl.frag_count_df = cx.fl.frag_count_df := by rw [← hcx1]; rfl
  have hscv : ∀ sc : Nat, cx1.fl.size_class (sc : Int)
      = if sc = k then v else cx.fl.size_class (sc : Int) := by
    intro sc
    rw [← hcx1]
    show (if (sc : Int) = (k : Int) then v else _) = _
    by_cases h : sc = k
    · rw [if_pos h, if_pos (by omega)]
    · rw [if_neg h, if_neg (by omega)]
  -- the fragments with the block
  have hnodes1 : ∀ b ∈ v :: wikrt_fl_flat L K.WIKRT_FLCT,
      b % 16 = 0 ∧ 0 < rd cx1 b 0 ∧ b + rd cx1 b 0 < 2 ^ 64 := by
    intro b hb
    rcases List.mem_cons.mp hb with h | h
    · subst h
      rw [hrdv0]
      exact ⟨hv, hsz, hend⟩
    · rw [hsz0 b h]
      exact hszs b h
  have hpw1 : (v :: wikrt_fl_flat L K.WIKRT_FLCT).Pairwise
      (fun a b => a + rd cx1 a 0 ≤ b ∨ b + rd cx1 b 0 ≤ a) := by
    refine List.pairwise_cons.mpr ⟨?_, ?_⟩
    · intro b hb
      rw [hrdv0, hsz0 b hb]
      exact (hdis b hb).symm
    · refine List.Pairwise.imp_of_mem ?_ hpw
      intro x y hx hy h
      rw [hsz0 x hx, hsz0 y hy]
      exact h
  have hsum1 : ((v :: wikrt_fl_flat L K.WIKRT_FLCT).map (fun a => rd cx1 a 0)).sum
      = szb + cx.fl.free_bytes := by
    simp only [List.map_cons, List.sum_cons]
    rw [hrdv0, sum_map_congr _ _ _ hsz0, hfb]
  have hbound := fl_sum_bound (fun a => rd cx1 a 0) (2 ^ 64 - 1)
    (v :: wikrt_fl_flat L K.WIKRT_FLCT)
    (fun b hb => by
      have := hnodes1 b hb
      show 0 < rd cx1 b 0 ∧ b + rd cx1 b 0 ≤ 2 ^ 64 - 1
      omega) hpw1
  have hlen := fl_length_le_sum (fun a => rd cx1 a 0) (v :: wikrt_fl_flat L K.WIKRT_FLCT)
    (fun b hb => (hnodes1 b hb).2.1)
  rw [hsum1] at hbound hlen
  simp only [List.length_cons] at hlen
  have hfb2 : cx1.fl.free_bytes = cx.fl.free_bytes + szb := by
    rw [hfbv]; omega
  have hfc2 : cx1.fl.frag_count = cx.fl.frag_count + 1 := by
    rw [hfcv]; omega
  have hsym : ∀ {x y : Nat}, (x + rd cx1 x 0 ≤ y ∨ y + rd cx1 y 0 ≤ x) →
      (y + rd cx1 y 0 ≤ x ∨ x + rd cx1 x 0 ≤ y) := fun h => h.symm
  refine ⟨cx1, k, hfree, hkn, ⟨⟨?_, ?_, ?_, ?_, ?_, ?_, ?_⟩, ?_, ?_⟩, hperm, hrdv0, hsz0,
    hfb2, hfc2, hdfv, hmemx⟩
  · intro sc hscn
    rw [hscv sc]
    by_cases h : sc = k
    · subst h
      simp only [if_true]
      refine ⟨rfl, hv0, ?_⟩
      rw [hrdv1]
      exact fl_list_congr cx cx1 (L sc) _ (fun b hb => hsz1 b (hflmem sc b hscn hb))
        (hlists sc hscn)
    · simp only [if_neg h]
      exact fl_list_congr cx cx1 (L sc) _ (fun b hb => hsz1 b (hflmem sc b hscn hb))
        (hlists sc hscn)
  · intro b hb
    exact hnodes1 b (hperm.mem_iff.mp hb)
  · exact (hperm.pairwise_iff hsym).mpr hpw1
  · rw [hfc2, hperm.length_eq, hfc]
    simp
  · rw [hfb2, (hperm.map (fun a => rd cx1 a 0)).sum_eq, hsum1]
    omega
  · rw [hfc2]; omega
  · rw [hfb2]; omega
  · intro sc hscn b hb
    by_cases h : sc = k
    · subst h
      simp only [if_true] at hb
      rcases List.mem_cons.mp hb with h1 | h1
      · subst h1
        rw [hrdv0]
        exact hsc
      · rw [hsz0 b (hflmem sc b hscn h1)]
        exact hcls sc hscn b h1
    · simp only [if_neg h] at hb
      rw [hsz0 b (hflmem sc b hscn hb)]
      exact hcls sc hscn b hb
  · intro b hb
    rcases List.mem_cons.mp (hperm.mem_iff.mp hb) with h1 | h1
    · subst h1
      rw [hrdv0]
      exact hal
    · rw [hsz0 b h1]
      exact hals b h1

/-- The success branch of the first-fit search: the fragment `a` of the list
of the class `k` is taken, the block of `szb` bytes at `a` leaves the free
bytes and the rest of the fragment stays free. -/
theorem alloc_ff_take_spec (K : wikrt_fl_consts) (F : Nat) (cx : wikrt_cx wikrt_fl)
    (L : Nat → List Nat) (k a : Nat) (pre post : List Nat) (szb : Nat)
    (hK : wikrt_fl_consts_ok K) (hF : 65 ≤ F) (hinv : wikrt_fl_inv K F cx L)
    (hk : k < K.WIKRT_FLCT) (hL : L k = pre ++ a :: post)
    (hfit : szb ≤ rd cx a 0) (hsz : 0 < szb) (hal : szb % 16 = 0) :
    ∃ (cx1 : wikrt_cx wikrt_fl) (L1 : Nat → List Nat),
      wikrt_alloc_ff_take K F cx (k : Int) pre.getLast? a szb = some cx1 ∧
      wikrt_fl_inv K F cx1 L1 ∧
      cx1.fl.free_bytes + szb = cx.fl.free_bytes ∧
      cx1.fl.frag_count ≤ cx.fl.frag_count ∧
      cx1.fl.frag_count_df = cx.fl.frag_count_df ∧
      (∀ x, wikrt_fl_covers cx1 (wikrt_fl_flat L1 K.WIKRT_FLCT) x ↔
        (wikrt_fl_covers cx (wikrt_fl_flat L K.WIKRT_FLCT) x ∧ ¬ (a ≤ x ∧ x < a + szb))) := by
  have hwf := hinv.1
  have hnodes := fl_wf_nodes K cx L hwf
  have hnd := fl_wf_nodup K cx L hwf
  have ha_mem : a ∈ wikrt_fl_flat L K.WIKRT_FLCT :=
    (fl_flat_mem L a _).mpr ⟨k, hk, by rw [hL]; simp⟩
  have han := hwf.2.1 a ha_mem
  have haal := hinv.2.2 a ha_mem
  have ha0 := fl_wf_ne_zero K cx L hwf a ha_mem
  obtain ⟨hinv2, hperm, hrd0, hfb2, hfc2, hdf2⟩ := fl_unlink_inv K F cx _ L k a pre post hinv hk hL rfl
  generalize hcx2 : wikrt_fl_assign
      { cx with fl := { cx.fl with
          free_bytes := wikrt_size_sub cx.fl.free_bytes (rd cx a 0),
          frag_count := wikrt_size_sub cx.fl.frag_count 1 } }
      (k : Int) pre.getLast? (rd cx a 1) = cx2 at hinv2 hrd0 hfb2 hfc2 hdf2
  generalize hL2 : (fun x => if x = k then pre ++ post else L x) = L2 at hinv2 hperm
  have hsub : ∀ b ∈ wikrt_fl_flat L2 K.WIKRT_FLCT, b ∈ wikrt_fl_flat L K.WIKRT_FLCT :=
    fun b hb => hperm.mem_iff.mpr (List.mem_cons_of_mem _ hb)
  have hsz2 : ∀ b ∈ wikrt_fl_flat L2 K.WIKRT_FLCT, rd cx2 b 0 = rd cx b 0 :=
    fun b hb => hrd0 b (hnodes b (hsub b hb))
  have hsym : ∀ {x y : Nat}, (x + rd cx x 0 ≤ y ∨ y + rd cx y 0 ≤ x) →
      (y + rd cx y 0 ≤ x ∨ x + rd cx x 0 ≤ y) := fun h => h.symm
  have hpwa := (hperm.pairwise_iff hsym).mp hwf.2.2.1
  have hsep : ∀ b ∈ wikrt_fl_flat L2 K.WIKRT_FLCT,
      a + rd cx a 0 ≤ b ∨ b + rd cx b 0 ≤ a := fun b hb =>
    List.rel_of_pairwise_cons hpwa hb
  have hcov0 : ∀ x, wikrt_fl_covers cx (wikrt_fl_flat L K.WIKRT_FLCT) x ↔
      ((a ≤ x ∧ x < a + rd cx a 0) ∨ wikrt_fl_covers cx (wikrt_fl_flat L2 K.WIKRT_FLCT) x) := by
    intro x
    rw [fl_covers_perm cx _ _ hperm x, fl_covers_cons]
  have hcov2 : ∀ x, wikrt_fl_covers cx2 (wikrt_fl_flat L2 K.WIKRT_FLCT) x ↔
      wikrt_fl_covers cx (wikrt_fl_flat L2 K.WIKRT_FLCT) x := fun x =>
    fl_covers_congr cx cx2 _ hsz2 x
  have hdisj : ∀ x, wikrt_fl_covers cx (wikrt_fl_flat L2 K.WIKRT_FLCT) x →
      ¬ (a ≤ x ∧ x < a + rd cx a 0) := by
    rintro x ⟨b, hb, h1⟩ h2
    have := hsep b hb
    omega
  have htake : wikrt_alloc_ff_take K F cx (k : Int) pre.getLast? a szb
      = if rd cx a 0 > szb then
          wikrt_free_b K F cx2 ((a + szb) % 2 ^ 64) (wikrt_size_sub (rd cx a 0) szb)
        else some cx2 := by
    rw [← hcx2]
    rfl
  rw [htake]
  by_cases hgt : rd cx a 0 > szb
  · rw [if_pos hgt, Nat.mod_eq_of_lt (by omega), size_sub_le _ _ hfit]
    obtain ⟨cx3, k3, hfree, hk3, hinv3, hperm3, hrdv, hsz3, hfb3, hfc3, hdf3, _⟩ :=
      fl_free_inv K F cx2 L2 (a + szb) (rd cx a 0 - szb) hK hF hinv2 (by omega) (by omega)
        (by omega) (by omega) (by omega)
        (by
          intro b hb
          rw [hsz2 b hb]
          have := hsep b hb
          omega)
    refine ⟨cx3, _, hfree, hinv3, by omega, by omega, by omega, ?_⟩
    intro x
    rw [fl_covers_perm cx3 _ _ hperm3 x, fl_covers_cons, hrdv,
      fl_covers_congr cx2 cx3 _ hsz3 x, hcov2, hcov0]
    have := hdisj x
    constructor
    · rintro (h | h)
      · exact ⟨Or.inl (by omega), by omega⟩
      · exact ⟨Or.inr h, fun h2 => this h (by omega)⟩
    · rintro ⟨h | h, h2⟩
      · exact Or.inl (by omega)
      · exact Or.inr h
  · rw [if_neg hgt]
    have heq : rd cx a 0 = szb := by omega
    refine ⟨cx2, L2, rfl, hinv2, by omega, by omega, hdf2, ?_⟩
    intro x
    rw [hcov2, hcov0, heq]
    have := hdisj x
    rw [heq] at this
    constructor
    · intro h
      exact ⟨Or.inr h, this h⟩
    · rintro ⟨h | h, h2⟩
      · exact absurd h h2
      · exact h

theorem alloc_ff_list_walk (K : wikrt_fl_consts) (F : Nat) (cx : wikrt_cx wikrt_fl) (sc : Int)
    (szb : Nat) :
    ∀ (rest pre : List Nat) (fuel : Nat),
      wikrt_fl_list cx (wikrt_tl_get cx (cx.fl.size_class sc) pre.getLast?) rest →
      rest.length ≤ fuel →
      ((∀ b ∈ rest, rd cx b 0 < szb) ∧
        wikrt_alloc_ff_list K F cx sc szb fuel pre.getLast? = some none) ∨
      (∃ (mid : List Nat) (a : Nat) (post : List Nat), rest = mid ++ a :: post ∧
        (∀ b ∈ mid, rd cx b 0 < szb) ∧ szb ≤ rd cx a 0 ∧
        ∀ cx1, wikrt_alloc_ff_take K F cx sc (pre ++ mid).getLast? a szb = some cx1 →
          wikrt_alloc_ff_list K F cx sc szb fuel pre.getLast? = some (some (a, cx1))) := by
  intro rest
  induction rest with
  | nil =>
    intro pre fuel hl _
    left
    refine ⟨(fun b hb => by cases hb), ?_⟩
    have h0 : wikrt_tl_get cx (cx.fl.size_class sc) pre.getLast? = 0 := hl
    unfold wikrt_alloc_ff_list
    rw [h0, if_neg (by omega)]
  | cons a r ih =>
    intro pre fuel hl hlen
    obtain ⟨h1, h2, h3⟩ := hl
    cases fuel with
    | zero => simp at hlen
    | succ f =>
      have hne : 0 ≠ wikrt_tl_get cx (cx.fl.size_class sc) pre.getLast? := by
        rw [h1]; exact fun e => h2 e.symm
      by_cases hfit : rd cx a 0 ≥ szb
      · right
        refine ⟨[], a, r, rfl, (fun b hb => by cases hb), hfit, ?_⟩
        intro cx1 ht
        rw [List.append_nil] at ht
        unfold wikrt_alloc_ff_list
        rw [if_pos hne]
        simp only []
        rw [h1, if_pos hfit, ht]
      · have hg : (pre ++ [a]).getLast? = some a := by simp
        have hstep : wikrt_alloc_ff_list K F cx sc szb (f + 1) pre.getLast?
            = wikrt_alloc_ff_list K F cx sc szb f (pre ++ [a]).getLast? := by
          conv => lhs; unfold wikrt_alloc_ff_list
          rw [if_pos hne]
          simp only []
          rw [h1, if_neg hfit, hg]
        have hl2 : wikrt_fl_list cx
            (wikrt_tl_get cx (cx.fl.size_class sc) (pre ++ [a]).getLast?) r := by
          rw [hg]
          exact h3
        rcases ih (pre ++ [a]) f hl2 (by simp at hlen; omega) with ⟨hall, hres⟩ |
          ⟨mid, a2, post, hr, hmid, hfit2, hres⟩
        · left
          refine ⟨?_, by rw [hstep, hres]⟩
          intro b hb
          rcases List.mem_cons.mp hb with h | h
          · subst h; omega
          · exact hall b h
        · right
          refine ⟨a :: mid, a2, post, by rw [hr]; rfl, ?_, hfit2, ?_⟩
          · intro b hb
            rcases List.mem_cons.mp hb with h | h
            · subst h; omega
            · exact hmid b h
          · intro cx1 ht
            rw [hstep]
            refine hres cx1 ?_
            rw [List.append_assoc]
            exact ht

theorem alloc_ff_classes_walk (K : wikrt_fl_consts) (F : Nat) (cx : wikrt_cx wikrt_fl)
    (L : Nat → List Nat) (szb : Nat)
    (hlists : ∀ sc, sc < K.WIKRT_FLCT → wikrt_fl_list cx (cx.fl.size_class (sc : Int)) (L sc))
    (hlen : ∀ sc, sc < K.WIKRT_FLCT → (L sc).length ≤ F) :
    ∀ (n c fuel : Nat), c < K.WIKRT_FLCT → K.WIKRT_FLCT - c ≤ n → n ≤ fuel →
      ((∀ j, c ≤ j → j < K.WIKRT_FLCT → ∀ b ∈ L j, rd cx b 0 < szb) ∧
        wikrt_alloc_ff_classes K F cx szb fuel (c : Int) = some (none, cx)) ∨
      (∃ (j : Nat) (pre : List Nat) (a : Nat) (post : List Nat),
        c ≤ j ∧ j < K.WIKRT_FLCT ∧ L j = pre ++ a :: post ∧ szb ≤ rd cx a 0 ∧
        ∀ cx1, wikrt_alloc_ff_take K F cx (j : Int) pre.getLast? a szb = some cx1 →
          wikrt_alloc_ff_classes K F cx szb fuel (c : Int) = some (some a, cx1)) := by
  intro n
  induction n with
  | zero => intro c fuel hc hn _; omega
  | succ n ih =>
    intro c fuel hc hn hf
    cases fuel with
    | zero => omega
    | succ f =>
      have hw := alloc_ff_list_walk K F cx (c : Int) szb (L c) [] F (hlists c hc) (hlen c hc)
      rcases hw with ⟨hall, hres⟩ | ⟨mid, a, post, hr, _, hfit, hres⟩
      · have hres2 : wikrt_alloc_ff_list K F cx (c : Int) szb F none = some none := hres
        by_cases hlast : (c : Int) + 1 < (K.WIKRT_FLCT : Int)
        · have hstep : wikrt_alloc_ff_classes K F cx szb (f + 1) (c : Int)
              = wikrt_alloc_ff_classes K F cx szb f ((c + 1 : Nat) : Int) := by
            conv => lhs; unfold wikrt_alloc_ff_classes
            rw [hres2]
            simp only []
            rw [if_pos hlast]
            push_cast
            rfl
          rcases ih (c + 1) f (by omega) (by omega) (by omega) with ⟨hall2, hres3⟩ |
            ⟨j, pre, a, post, hcj, hj, hL, hfit, hres3⟩
          · left
            refine ⟨?_, by rw [hstep, hres3]⟩
            intro j hcj hj b hb
            by_cases e : j = c
            · subst e; exact hall b hb
            · exact hall2 j (by omega) hj b hb
          · right
            exact ⟨j, pre, a, post, by omega, hj, hL, hfit,
              fun cx1 ht => by rw [hstep]; exact hres3 cx1 ht⟩
        · left
          constructor
          · intro j hcj hj b hb
            have e : j = c := by omega
            subst e
            exact hall b hb
          · unfold wikrt_alloc_ff_classes
            rw [hres2]
            simp only []
            rw [if_neg hlast]
      · right
        refine ⟨c, mid, a, post, Nat.le_refl _, hc, hr, hfit, ?_⟩
        intro cx1 ht
        have hres2 : wikrt_alloc_ff_list K F cx (c : Int) szb F none = some (some (a, cx1)) :=
          hres cx1 (by rw [List.nil_append]; exact ht)
        unfold wikrt_alloc_ff_classes
        rw [hres2]

theorem fl_class_length_le (L : Nat → List Nat) (n k : Nat) (hk : k < n) :
    (L k).length ≤ (wikrt_fl_flat L n).length := by
  induction n with
  | zero => omega
  | succ n ih =>
    simp only [wikrt_fl_flat, List.length_append]
    by_cases h : k = n
    · subst h; omega
    · have := ih (by omega)
      omega

/-- The call `wikrt_alloc_ff` on a free list that satisfies the invariant
returns. When it fails the context is as before and the lists from the class
of `szb` on hold no fragment of `szb` bytes or more. When it succeeds the
address is that of a free fragment of `szb` bytes or more, and the block of
`szb` bytes there leaves the free bytes. -/
theorem alloc_ff_spec (K : wikrt_fl_consts) (F : Nat) (cx : wikrt_cx wikrt_fl)
    (L : Nat → List Nat) (szb : Nat)
    (hK : wikrt_fl_consts_ok K) (hinv : wikrt_fl_inv K F cx L)
    (hsz : 0 < szb) (hal : szb % 16 = 0)
    (hF : K.WIKRT_FLCT + cx.fl.frag_count + 65 ≤ F) :
    ∃ (r : Option Nat) (cx1 : wikrt_cx wikrt_fl) (L1 : Nat → List Nat),
      wikrt_alloc_ff K F cx szb = some (r, cx1) ∧ wikrt_fl_inv K F cx1 L1 ∧
      (r = none → cx1 = cx ∧ L1 = L ∧ ∃ c : Nat, wikrt_size_class K F szb = some (c : Int) ∧
        ∀ j, c ≤ j → j < K.WIKRT_FLCT → ∀ b ∈ L j, rd cx b 0 < szb) ∧
      (∀ a, r = some a →
        a ∈ wikrt_fl_flat L K.WIKRT_FLCT ∧ szb ≤ rd cx a 0 ∧
        cx1.fl.free_bytes + szb = cx.fl.free_bytes ∧
        cx1.fl.frag_count ≤ cx.fl.frag_count ∧
        cx1.fl.frag_count_df = cx.fl.frag_count_df ∧
        (∀ x, wikrt_fl_covers cx1 (wikrt_fl_flat L1 K.WIKRT_FLCT) x ↔
          (wikrt_fl_covers cx (wikrt_fl_flat L K.WIKRT_FLCT) x ∧
            ¬ (a ≤ x ∧ x < a + szb)))) := by
  obtain ⟨sc, hsc⟩ := size_class_some K F szb hsz hK.2.1 (by omega)
  obtain ⟨hsc0, hsc1⟩ := hK.2.2 F szb sc hsz hsc
  obtain ⟨c, hc⟩ : ∃ c : Nat, (c : Int) = sc := ⟨sc.toNat, by omega⟩
  subst hc
  have hcn : c < K.WIKRT_FLCT := by omega
  have hlen : ∀ j, j < K.WIKRT_FLCT → (L j).length ≤ F := by
    intro j hj
    have h1 := fl_class_length_le L K.WIKRT_FLCT j hj
    have h2 := hinv.1.2.2.2.1
    omega
  have hff : wikrt_alloc_ff K F cx szb = wikrt_alloc_ff_classes K F cx szb F (c : Int) := by
    unfold wikrt_alloc_ff
    rw [hsc]
  rcases alloc_ff_classes_walk K F cx L szb hinv.1.1 hlen (K.WIKRT_FLCT - c) c F hcn
      (Nat.le_refl _) (by omega) with ⟨hall, hres⟩ | ⟨j, pre, a, post, hcj, hj, hL, hfit, hres⟩
  · refine ⟨none, cx, L, by rw [hff, hres], hinv, ?_, ?_⟩
    · intro _
      exact ⟨rfl, rfl, c, hsc, hall⟩
    · intro a h
      cases h
  · obtain ⟨cx1, L1, htake, hinv1, hfb, hfc, hdf, hcov⟩ :=
      alloc_ff_take_spec K F cx L j a pre post szb hK (by omega) hinv hj hL hfit hsz hal
    refine ⟨some a, cx1, L1, by rw [hff, hres cx1 htake], hinv1, ?_, ?_⟩
    · intro h
      cases h
    · intro a2 h
      have e : a = a2 := Option.some.inj h
      subst e
      exact ⟨(fl_flat_mem L a _).mpr ⟨j, hj, by rw [hL]; simp⟩, hfit, hfb, hfc, hdf, hcov⟩

theorem coalesce_df (K : wikrt_fl_consts) (F : Nat) (cx cx1 : wikrt_cx wikrt_fl)
    (h : wikrt_coalesce K F cx = .ret cx1) : cx1.fl.frag_count_df = cx1.fl.frag_count := by
  unfold wikrt_coalesce at h
  simp only [] at h
  split at h
  · cases h
  · split at h
    · cases h
    · split at h
      · cases h
      · split at h
        · cases h
          rfl
        · cases h

theorem fl_block_disjoint {FL : Type} (cx : wikrt_cx FL) (l : List Nat) (v n : Nat)
    (hn : 0 < n) (h : ∀ x, v ≤ x → x < v + n → ¬ wikrt_fl_covers cx l x) :
    ∀ b ∈ l, 0 < rd cx b 0 → b + rd cx b 0 ≤ v ∨ v + n ≤ b := by
  intro b hb hpos
  by_contra hc
  have h1 : ¬ (b + rd cx b 0 ≤ v) := fun e => hc (Or.inl e)
  have h2 : ¬ (v + n ≤ b) := fun e => hc (Or.inr e)
  by_cases hvb : v ≤ b
  · exact h b hvb (by omega) ⟨b, hb, Nat.le_refl _, by omega⟩
  · exact h v (Nat.le_refl _) (by omega) ⟨b, hb, by omega, by omega⟩

/-- A coalescing keeps the accounting invariant: the sizes of the joined
fragments are whole cells again. -/
theorem coalesce_inv_spec (K : wikrt_fl_consts) (F : Nat) (cx : wikrt_cx wikrt_fl)
    (L : Nat → List Nat) (hK : wikrt_fl_consts_ok K) (hinv : wikrt_fl_inv K F cx L)
    (hf : cx.fl.frag_count + 65 ≤ F) :
    ∃ (cx1 : wikrt_cx wikrt_fl) (L1 : Nat → List Nat),
      wikrt_coalesce K F cx = wikrt_outcome.ret cx1 ∧ wikrt_fl_inv K F cx1 L1 ∧
      cx1.fl.free_bytes = cx.fl.free_bytes ∧ cx1.fl.frag_count ≤ cx.fl.frag_count ∧
      cx1.fl.frag_count_df = cx1.fl.frag_count ∧
      (∀ x, wikrt_fl_covers cx1 (wikrt_fl_flat L1 K.WIKRT_FLCT) x
        ↔ wikrt_fl_covers cx (wikrt_fl_flat L K.WIKRT_FLCT) x) := by
  obtain ⟨cx1, L1, hco, hwf1, hfb, hfc, hcov, hcls, hgap⟩ :=
    coalesce_spec K F cx L hK hinv.1 hf
  refine ⟨cx1, L1, hco, ⟨hwf1, fun sc hsc => (hcls sc hsc).2, ?_⟩, hfb, hfc,
    coalesce_df K F cx cx1 hco, hcov⟩
  intro b hb
  obtain ⟨hb16, hbpos, hbend⟩ := hwf1.2.1 b hb
  -- the last byte of the fragment was free before
  have hlast : wikrt_fl_covers cx1 (wikrt_fl_flat L1 K.WIKRT_FLCT) (b + rd cx1 b 0 - 1) :=
    ⟨b, hb, by omega, by omega⟩
  obtain ⟨c, hc, hc1, hc2⟩ := (hcov _).mp hlast
  -- the byte after it is not free
  have hnext : ¬ wikrt_fl_covers cx1 (wikrt_fl_flat L1 K.WIKRT_FLCT) (b + rd cx1 b 0) := by
    rintro ⟨b2, hb2, h1, h2⟩
    by_cases e : b2 = b
    · subst e; omega
    · have hsym : Symmetric (fun a b => a + rd cx1 a 0 < b ∨ b + rd cx1 b 0 < a) := by
        intro x y h
        exact h.symm
      have := hgap.forall hsym hb hb2 (fun e2 => e e2.symm)
      omega
  have hend : c + rd cx c 0 = b + rd cx1 b 0 := by
    by_contra hne
    apply hnext
    exact (hcov _).mpr ⟨c, hc, by omega, by omega⟩
  have hc16 := (hinv.1.2.1 c hc).1
  have hcal := hinv.2.2 c hc
  omega

/-- The call `wikrt_coalesce_maybe` returns, keeps the invariant and the free
bytes, and leaves `frag_count_df` at `frag_count` when it returns true. -/
theorem coalesce_maybe_spec (K : wikrt_fl_consts) (F : Nat) (cx : wikrt_cx wikrt_fl)
    (L : Nat → List Nat) (sz : Nat) (hK : wikrt_fl_consts_ok K)
    (hinv : wikrt_fl_inv K F cx L) (hf : cx.fl.frag_count + 65 ≤ F) :
    ∃ (b : Bool) (cx1 : wikrt_cx wikrt_fl) (L1 : Nat → List Nat),
      wikrt_coalesce_maybe K F cx sz = wikrt_outcome.ret (b, cx1) ∧ wikrt_fl_inv K F cx1 L1 ∧
      cx1.fl.free_bytes = cx.fl.free_bytes ∧ cx1.fl.frag_count ≤ cx.fl.frag_count ∧
      (b = true → cx1.fl.frag_count_df = cx1.fl.frag_count) ∧
      (∀ x, wikrt_fl_covers cx1 (wikrt_fl_flat L1 K.WIKRT_FLCT) x
        ↔ wikrt_fl_covers cx (wikrt_fl_flat L K.WIKRT_FLCT) x) := by
  unfold wikrt_coalesce_maybe
  simp only []
  split
  · exact ⟨false, cx, L, rfl, hinv, rfl, Nat.le_refl _, (fun h => by cases h), fun _ => Iff.rfl⟩
  · obtain ⟨cx1, L1, hco, hinv1, hfb, hfc, hdf, hcov⟩ := coalesce_inv_spec K F cx L hK hinv hf
    rw [hco]
    exact ⟨_, cx1, L1, rfl, hinv1, hfb, hfc, fun _ => hdf, hcov⟩

theorem alloc_post_of_ff (K : wikrt_fl_consts) (F : Nat) (cx : wikrt_cx wikrt_fl)
    (L : Nat → List Nat) (szb : Nat)
    (hK : wikrt_fl_consts_ok K) (hinv : wikrt_fl_inv K F cx L)
    (hsz : 0 < szb) (hal : szb % 16 = 0)
    (hF : K.WIKRT_FLCT + cx.fl.frag_count + 65 ≤ F) :
    ∃ (r : Option Nat) (cx1 : wikrt_cx wikrt_fl),
      wikrt_alloc_ff K F cx szb = some (r, cx1) ∧ wikrt_alloc_post K F cx L szb r cx1 ∧
      (r = none → cx1 = cx) := by
  obtain ⟨r, cx1, L1, hff, hinv1, hnone, hsome⟩ := alloc_ff_spec K F cx L szb hK hinv hsz hal hF
  refine ⟨r, cx1, hff, ⟨L1, hinv1, ?_, ?_⟩, fun h => (hnone h).1⟩
  · intro h
    have e := (hnone h).1
    have e2 := (hnone h).2.1
    subst e
    subst e2
    exact ⟨rfl, Nat.le_refl _, fun _ => Iff.rfl⟩
  · intro a h
    obtain ⟨hmem, hfit, hfb, _, _, hcov⟩ := hsome a h
    obtain ⟨h16, hpos, hend⟩ := hinv.1.2.1 a hmem
    refine ⟨h16, fl_wf_ne_zero K cx L hinv.1 a hmem, by omega, hfb, ?_, hcov⟩
    intro x h1 h2
    exact ⟨a, hmem, h1, by omega⟩

theorem alloc_post_shift (K : wikrt_fl_consts) (F : Nat) (cx cx1 cx2 : wikrt_cx wikrt_fl)
    (L L1 : Nat → List Nat) (szb : Nat) (r : Option Nat)
    (hfb : cx1.fl.free_bytes = cx.fl.free_bytes) (hfc : cx1.fl.frag_count ≤ cx.fl.frag_count)
    (hcov : ∀ x, wikrt_fl_covers cx1 (wikrt_fl_flat L1 K.WIKRT_FLCT) x
      ↔ wikrt_fl_covers cx (wikrt_fl_flat L K.WIKRT_FLCT) x)
    (hp : wikrt_alloc_post K F cx1 L1 szb r cx2) : wikrt_alloc_post K F cx L szb r cx2 := by
  obtain ⟨L2, hinv2, hnone, hsome⟩ := hp
  refine ⟨L2, hinv2, ?_, ?_⟩
  · intro h
    obtain ⟨h1, h2, h3⟩ := hnone h
    exact ⟨by omega, by omega, fun x => (h3 x).trans (hcov x)⟩
  · intro a h
    obtain ⟨h1, h2, h3, h4, h5, h6⟩ := hsome a h
    refine ⟨h1, h2, h3, by omega, fun x hx1 hx2 => (hcov x).mp (h5 x hx1 hx2), ?_⟩
    intro x
    rw [h6 x, hcov x]

/-- The quick-fit hit of `wikrt_alloc_b`: the head of the list of the class of
`szb` is a fragment of `szb` bytes and is handed out whole. -/
theorem alloc_b_hit (K : wikrt_fl_consts) (F fuel : Nat) (cx : wikrt_cx wikrt_fl)
    (L : Nat → List Nat) (szb : Nat)
    (hK : wikrt_fl_consts_ok K) (hX : wikrt_fl_consts_exact K F) (hF : 65 ≤ F)
    (hinv : wikrt_fl_inv K F cx L) (hsz : 0 < szb) (hal : szb % 16 = 0)
    (hq : szb ≤ K.WIKRT_QFSIZE) (hr : 0 ≠ cx.fl.size_class (K.WIKRT_QFCLASS szb)) :
    ∃ (r : Option Nat) (cx1 : wikrt_cx wikrt_fl),
      wikrt_alloc_b K F (fuel + 1) cx szb = .ret (r, cx1) ∧
      wikrt_alloc_post K F cx L szb r cx1 := by
  have hsc : wikrt_size_class K F szb = some (K.WIKRT_QFCLASS szb) := by
    unfold wikrt_size_class
    rw [if_pos hq]
  obtain ⟨hsc0, hsc1⟩ := hK.2.2 F szb _ hsz hsc
  obtain ⟨k, hk⟩ : ∃ k : Nat, (k : Int) = K.WIKRT_QFCLASS szb :=
    ⟨(K.WIKRT_QFCLASS szb).toNat, by omega⟩
  have hkn : k < K.WIKRT_FLCT := by omega
  have hlist := hinv.1.1 k hkn
  rw [hk] at hlist
  cases hLk : L k with
  | nil =>
    rw [hLk] at hlist
    exact absurd hlist.symm hr
  | cons a post =>
    rw [hLk] at hlist
    obtain ⟨hhd, ha0, _⟩ := hlist
    have ha_mem : a ∈ wikrt_fl_flat L K.WIKRT_FLCT :=
      (fl_flat_mem L a _).mpr ⟨k, hkn, by rw [hLk]; simp⟩
    obtain ⟨ha16, hapos, haend⟩ := hinv.1.2.1 a ha_mem
    have hcls := hinv.2.1 k hkn a (by rw [hLk]; simp)
    rw [hk] at hcls
    have hsize : rd cx a 0 = szb :=
      hX.2 szb (rd cx a 0) hsz hal hq hapos (hinv.2.2 a ha_mem) hcls
    obtain ⟨cx1, L1, htake, hinv1, hfb, hfc, hdf, hcov⟩ :=
      alloc_ff_take_spec K F cx L k a [] post szb hK hF hinv hkn hLk (by omega) hsz hal
    have hres : wikrt_alloc_b K F (fuel + 1) cx szb = .ret (some a, cx1) := by
      have ht2 : wikrt_alloc_ff_take K F cx (k : Int) ([] : List Nat).getLast? a szb
          = some { cx with fl := { wikrt_fl_set cx.fl (K.WIKRT_QFCLASS szb) (rd cx a 1) with
              frag_count := wikrt_size_sub cx.fl.frag_count 1,
              free_bytes := wikrt_size_sub cx.fl.free_bytes szb } } := by
        unfold wikrt_alloc_ff_take
        simp only [hsize, gt_iff_lt, lt_self_iff_false, if_false, hk]
        rfl
      rw [ht2] at htake
      have e := Option.some.inj htake
      rw [wikrt_alloc_b, if_pos hq]
      simp only []
      rw [if_pos hr, hhd]
      exact congrArg (fun c => wikrt_outcome.ret (some a, c)) e
    refine ⟨some a, cx1, hres, L1, hinv1, (fun h => by cases h), ?_⟩
    intro a2 h
    have e : a = a2 := Option.some.inj h
    subst e
    refine ⟨ha16, ha0, by omega, hfb, ?_, hcov⟩
    intro x h1 h2
    exact ⟨a, ha_mem, h1, by omega⟩

/-- A large request on a free list that has not changed since the last
coalescing: first fit, and a failure without another coalescing. -/
theorem alloc_b_large_df (K : wikrt_fl_consts) (F fuel : Nat) (cx : wikrt_cx wikrt_fl)
    (L : Nat → List Nat) (szb : Nat)
    (hK : wikrt_fl_consts_ok K) (hinv : wikrt_fl_inv K F cx L)
    (hsz : 0 < szb) (hal : szb % 16 = 0) (hq : ¬ szb ≤ K.WIKRT_QFSIZE)
    (hdf : cx.fl.frag_count_df = cx.fl.frag_count)
    (hF : K.WIKRT_FLCT + cx.fl.frag_count + 65 ≤ F) :
    ∃ (r : Option Nat) (cx1 : wikrt_cx wikrt_fl),
      wikrt_alloc_b K F (fuel + 1) cx szb = .ret (r, cx1) ∧
      wikrt_alloc_post K F cx L szb r cx1 := by
  obtain ⟨r, cx1, hff, hpost, hnone⟩ := alloc_post_of_ff K F cx L szb hK hinv hsz hal hF
  cases r with
  | none =>
    have e := hnone rfl
    subst e
    refine ⟨none, cx1, ?_, hpost⟩
    rw [wikrt_alloc_b, if_neg hq, hff]
    simp only []
    have hcm : wikrt_coalesce_maybe K F cx1 szb = .ret (false, cx1) := by
      unfold wikrt_coalesce_maybe
      simp only []
      rw [if_pos (Or.inr hdf.symm)]
    rw [hcm]
  | some a =>
    refine ⟨some a, cx1, ?_, hpost⟩
    rw [wikrt_alloc_b, if_neg hq, hff]

/-- A large request: first fit, then one coalescing at most and one more
first fit. -/
theorem alloc_b_large (K : wikrt_fl_consts) (F fuel : Nat) (cx : wikrt_cx wikrt_fl)
    (L : Nat → List Nat) (szb : Nat)
    (hK : wikrt_fl_consts_ok K) (hinv : wikrt_fl_inv K F cx L)
    (hsz : 0 < szb) (hal : szb % 16 = 0) (hq : ¬ szb ≤ K.WIKRT_QFSIZE)
    (hF : K.WIKRT_FLCT + cx.fl.frag_count + 65 ≤ F) :
    ∃ (r : Option Nat) (cx1 : wikrt_cx wikrt_fl),
      wikrt_alloc_b K F (fuel + 2) cx szb = .ret (r, cx1) ∧
      wikrt_alloc_post K F cx L szb r cx1 := by
  obtain ⟨r, cx1, hff, hpost, hnone⟩ := alloc_post_of_ff K F cx L szb hK hinv hsz hal hF
  cases r with
  | none =>
    have e := hnone rfl
    subst e
    obtain ⟨b, cx2, L2, hcm, hinv2, hfb2, hfc2, hdf2, hcov2⟩ :=
      coalesce_maybe_spec K F cx1 L szb hK hinv (by omega)
    cases b with
    | false =>
      refine ⟨none, cx2, ?_, L2, hinv2, fun _ => ⟨hfb2, hfc2, hcov2⟩, (fun a h => by cases h)⟩
      rw [wikrt_alloc_b, if_neg hq, hff]
      simp only []
      rw [hcm]
    | true =>
      obtain ⟨r3, cx3, hres3, hpost3⟩ := alloc_b_large_df K F fuel cx2 L2 szb hK hinv2 hsz hal hq
        (hdf2 rfl) (by omega)
      refine ⟨r3, cx3, ?_, alloc_post_shift K F cx1 cx2 cx3 L L2 szb r3 hfb2 hfc2 hcov2 hpost3⟩
      rw [wikrt_alloc_b, if_neg hq, hff]
      simp only []
      rw [hcm]
      exact hres3
  | some a =>
    refine ⟨some a, cx1, ?_, hpost⟩
    rw [wikrt_alloc_b, if_neg hq, hff]

/-- The call `wikrt_alloc_b` on a free list that satisfies the invariant
returns, for a size of whole cells, when the recursion may go as deep as the
doublings up to `WIKRT_QFSIZE` and one retry need, and leaves what an
allocation has to leave (`wikrt_alloc_post`). -/
theorem alloc_b_spec (K : wikrt_fl_consts) (F : Nat)
    (hK : wikrt_fl_consts_ok K) (hX : wikrt_fl_consts_exact K F) :
    ∀ (j fuel : Nat) (cx : wikrt_cx wikrt_fl) (L : Nat → List Nat) (szb : Nat),
      wikrt_fl_inv K F cx L → 0 < szb → szb % 16 = 0 → K.WIKRT_QFSIZE < szb * 2 ^ j →
      j + 2 ≤ fuel → K.WIKRT_FLCT + cx.fl.frag_count + 65 ≤ F →
      ∃ (r : Option Nat) (cx1 : wikrt_cx wikrt_fl),
        wikrt_alloc_b K F fuel cx szb = .ret (r, cx1) ∧
        wikrt_alloc_post K F cx L szb r cx1 := by
  intro j
  induction j with
  | zero =>
    intro fuel cx L szb hinv hsz hal hj hfuel hF
    obtain ⟨f, hf⟩ : ∃ f, fuel = f + 2 := ⟨fuel - 2, by omega⟩
    subst hf
    exact alloc_b_large K F f cx L szb hK hinv hsz hal (by omega) hF
  | succ j ih =>
    intro fuel cx L szb hinv hsz hal hj hfuel hF
    by_cases hq : szb ≤ K.WIKRT_QFSIZE
    · obtain ⟨f, hf⟩ : ∃ f, fuel = f + 1 := ⟨fuel - 1, by omega⟩
      subst hf
      by_cases hr : 0 ≠ cx.fl.size_class (K.WIKRT_QFCLASS szb)
      · exact alloc_b_hit K F f cx L szb hK hX (by omega) hinv hsz hal hq hr
      · have hshift : (szb <<< 1) % 2 ^ 64 = 2 * szb := by
          have := hX.1
          rw [Nat.shiftLeft_eq]
          omega
        obtain ⟨r1, cx1, hrec, L1, hinv1, hnone1, hsome1⟩ := ih f cx L (2 * szb) hinv (by omega)
          (by omega) (by rw [Nat.pow_succ] at hj; nlinarith) (by omega) hF
        cases r1 with
        | none =>
          obtain ⟨hfb1, hfc1, hcov1⟩ := hnone1 rfl
          obtain ⟨r2, cx2, hff, hpost2, _⟩ :=
            alloc_post_of_ff K F cx1 L1 szb hK hinv1 hsz hal (by omega)
          refine ⟨r2, cx2, ?_, alloc_post_shift K F cx cx1 cx2 L L1 szb r2 hfb1 hfc1 hcov1 hpost2⟩
          rw [wikrt_alloc_b, if_pos hq]
          simp only []
          rw [if_neg hr, hshift, hrec]
          simp only []
          rw [hff]
        | some v =>
          obtain ⟨hv16, hv0, hvend, hfb1, hblk, hcov1⟩ := hsome1 v rfl
          have hdis := fl_block_disjoint cx1 (wikrt_fl_flat L1 K.WIKRT_FLCT) (v + szb) szb hsz
            (by
              intro x h1 h2 hc
              exact ((hcov1 x).mp hc).2 ⟨by omega, by omega⟩)
          obtain ⟨cx2, k2, hfree, hk2, hinv2, hperm2, hrdv, hsz2, hfb2, _, _, _⟩ :=
            fl_free_inv K F cx1 L1 (v + szb) szb hK (by omega) hinv1 (by omega) (by omega) hsz hal
              (by omega) (fun b hb => hdis b hb (hinv1.1.2.1 b hb).2.1)
          refine ⟨some v, cx2, ?_, _, hinv2, (fun h => by cases h), ?_⟩
          · rw [wikrt_alloc_b, if_pos hq]
            simp only []
            rw [if_neg hr, hshift, hrec]
            simp only []
            rw [Nat.mod_eq_of_lt (by omega), hfree]
          · intro a h
            have e : v = a := Option.some.inj h
            subst e
            refine ⟨hv16, hv0, by omega, by omega, fun x h1 h2 => hblk x h1 (by omega), ?_⟩
            intro x
            rw [fl_covers_perm cx2 _ _ hperm2 x, fl_covers_cons, hrdv,
              fl_covers_congr cx1 cx2 _ hsz2 x, hcov1 x]
            constructor
            · rintro (h1 | h1)
              · exact ⟨hblk x (by omega) (by omega), by omega⟩
              · exact ⟨h1.1, fun h2 => h1.2 ⟨h2.1, by omega⟩⟩
            · rintro ⟨h1, h2⟩
              by_cases h3 : v + szb ≤ x ∧ x < v + szb + szb
              · exact Or.inl h3
              · exact Or.inr ⟨h1, by omega⟩
    · obtain ⟨f, hf⟩ : ∃ f, fuel = f + 2 := ⟨fuel - 2, by omega⟩
      subst hf
      exact alloc_b_large K F f cx L szb hK hinv hsz hal hq hF

/-! ### The constants and the contexts of the examples -/

theorem fl_consts_class (F s : Nat) :
    wikrt_size_class fl_consts F s
      = if s ≤ 256 then some ((((s - 1) / 16 : Nat)) : Int)
        else wikrt_size_class_ff_loop s F 131072 25 := rfl

theorem fl_consts_ff_ge (F s : Nat) (c : Int) (hs : 256 < s)
    (h : wikrt_size_class_ff_loop s F 131072 25 = some c) : 16 ≤ c := by
  have := size_class_ff_loop_bound s F 131072 9 25 c (by omega) h
  omega

theorem fl_consts_exact (F : Nat) : wikrt_fl_consts_exact fl_consts F := by
  refine ⟨by decide, ?_⟩
  intro s1 s2 h1 a1 q1 h2 a2 hc
  have q1b : s1 ≤ 256 := q1
  rw [fl_consts_class] at hc
  have hcls : fl_consts.WIKRT_QFCLASS s1 = (((s1 - 1) / 16 : Nat) : Int) := rfl
  rw [hcls] at hc
  by_cases hs : s2 ≤ 256
  · rw [if_pos hs] at hc
    have e := Option.some.inj hc
    omega
  · rw [if_neg hs] at hc
    have := fl_consts_ff_ge F s2 _ (by omega) hc
    omega

theorem fl_consts_mono (F : Nat) : wikrt_fl_consts_mono fl_consts F := by
  intro s1 s2 c1 c2 h1 h12 e1 e2
  rw [fl_consts_class] at e1 e2
  by_cases hs1 : s1 ≤ 256
  · rw [if_pos hs1] at e1
    have e1b := Option.some.inj e1
    by_cases hs2 : s2 ≤ 256
    · rw [if_pos hs2] at e2
      have e2b := Option.some.inj e2
      omega
    · rw [if_neg hs2] at e2
      have := fl_consts_ff_ge F s2 _ (by omega) e2
      omega
  · rw [if_neg hs1] at e1
    rw [if_neg (by omega)] at e2
    obtain ⟨k1, hr1, hlt1, hall1⟩ := size_class_ff_loop_inv s1 F _ _ c1 e1
    obtain ⟨k2, hr2, hlt2, hall2⟩ := size_class_ff_loop_inv s2 F _ _ c2 e2
    have hk : k2 ≤ k1 := by
      by_contra hc
      have := hall2 k1 (by omega)
      omega
    omega

theorem cx_frags_inv : wikrt_fl_inv fl_consts 100 cx_frags frags_lists := by
  refine ⟨cx_frags_wf, ?_, ?_⟩
  · intro sc _ a ha
    by_cases h0 : sc = 0
    · subst h0
      have : a = 48 ∨ a = 16 ∨ a = 32 := by simpa [frags_lists] using ha
      rcases this with h | h | h <;> subst h <;> decide
    · by_cases h1 : sc = 1
      · subst h1
        have : a = 96 := by simpa [frags_lists] using ha
        subst this
        decide
      · have hl : frags_lists sc = [] := by simp [frags_lists, h0, h1]
        rw [hl] at ha
        cases ha
  · rw [frags_flat]
    decide

theorem adjacent_flat :
    wikrt_fl_flat adjacent_lists fl_consts.WIKRT_FLCT = [1024, 1280, 4096, 8192] := by
  decide

theorem cx_adjacent_inv : wikrt_fl_inv fl_consts 100 cx_adjacent adjacent_lists := by
  refine ⟨?_, ?_, ?_⟩
  · unfold wikrt_fl_wf
    rw [adjacent_flat]
    refine ⟨?_, by decide, by decide, by decide, by decide, by decide, by decide⟩
    intro sc _
    by_cases h0 : sc = 15
    · subst h0
      exact ⟨rfl, by decide, rfl, by decide, rfl, by decide, rfl, by decide, rfl⟩
    · have hl : adjacent_lists sc = [] := by simp [adjacent_lists, h0]
      have hs : cx_adjacent.fl.size_class (sc : Int) = 0 := by
        have e0 : ¬ (sc : Int) = 15 := by omega
        show (if (sc : Int) = 15 then 1024 else 0) = 0
        rw [if_neg e0]
      rw [hl, hs]
      rfl
  · intro sc _ a ha
    by_cases h0 : sc = 15
    · subst h0
      have : a = 1024 ∨ a = 1280 ∨ a = 4096 ∨ a = 8192 := by simpa [adjacent_lists] using ha
      rcases this with h | h | h | h <;> subst h <;> decide
    · have hl : adjacent_lists sc = [] := by simp [adjacent_lists, h0]
      rw [hl] at ha
      cases ha
  · rw [adjacent_flat]
    decide

theorem grow_flat : wikrt_fl_flat grow_lists fl_consts.WIKRT_FLCT = [2048] := by
  decide

theorem cx_grow_inv : wikrt_fl_inv fl_consts 100 cx_grow grow_lists := by
  refine ⟨?_, ?_, ?_⟩
  · unfold wikrt_fl_wf
    rw [grow_flat]
    refine ⟨?_, by decide, by decide, by decide, by decide, by decide, by decide⟩
    intro sc _
    by_cases h0 : sc = 1
    · subst h0
      exact ⟨rfl, by decide, rfl⟩
    · have hl : grow_lists sc = [] := by simp [grow_lists, h0]
      have hs : cx_grow.fl.size_class (sc : Int) = 0 := by
        have e0 : ¬ (sc : Int) = 1 := by omega
        show (if (sc : Int) = 1 then 2048 else 0) = 0
        rw [if_neg e0]
      rw [hl, hs]
      rfl
  · intro sc _ a ha
    by_cases h0 : sc = 1
    · subst h0
      have : a = 2048 := by simpa [grow_lists] using ha
      subst this
      decide
    · have hl : grow_lists sc = [] := by simp [grow_lists, h0]
      rw [hl] at ha
      cases ha
  · rw [grow_flat]
    decide

theorem qfsize_lt_pow (K : wikrt_fl_consts) (szb : Nat) (hsz : 0 < szb) :
    K.WIKRT_QFSIZE < szb * 2 ^ K.WIKRT_QFSIZE := by
  have h1 := Nat.lt_two_pow K.WIKRT_QFSIZE
  have h2 : 2 ^ K.WIKRT_QFSIZE ≤ szb * 2 ^ K.WIKRT_QFSIZE := Nat.le_mul_of_pos_left _ hsz
  omega

/-! ### Allocation keeps the accounts and hands out free bytes -/

/-- C35: the accounting invariant of the free lists (`wikrt_fl_inv`:
`free_bytes` is the sum of the sizes of the fragments on the lists and
`frag_count` their number, no two fragments overlap, every fragment is on the
list of the class that `wikrt_size_class` gives its size, and the sizes are
whole cells) is preserved by `wikrt_free_b` of a block of whole cells that is
disjoint from all fragments, by `wikrt_alloc_ff` and by `wikrt_alloc_b` for a
size of whole cells, and each of the three calls returns, with success or
failure. The constants that the sources do not define are any for which every
size has a class below `WIKRT_FLCT` and a quick-fit class holds one size of
whole cells only. -/
theorem wikrt_fl_accounting_preserved (K : wikrt_fl_consts) (F : Nat)
    (hK : wikrt_fl_consts_ok K) (hX : wikrt_fl_consts_exact K F) (hF : 65 ≤ F) :
    (∀ (cx : wikrt_cx wikrt_fl) (L : Nat → List Nat) (v szb : Nat),
      wikrt_fl_inv K F cx L → v % 16 = 0 → v ≠ 0 → 0 < szb → szb % 16 = 0 →
      v + szb < 2 ^ 64 →
      (∀ a ∈ wikrt_fl_flat L K.WIKRT_FLCT, a + rd cx a 0 ≤ v ∨ v + szb ≤ a) →
      ∃ (cx1 : wikrt_cx wikrt_fl) (L1 : Nat → List Nat),
        wikrt_free_b K F cx v szb = some cx1 ∧ wikrt_fl_inv K F cx1 L1) ∧
    (∀ (cx : wikrt_cx wikrt_fl) (L : Nat → List Nat) (szb : Nat),
      wikrt_fl_inv K F cx L → 0 < szb → szb % 16 = 0 →
      K.WIKRT_FLCT + cx.fl.frag_count + 65 ≤ F →
      ∃ (r : Option Nat) (cx1 : wikrt_cx wikrt_fl) (L1 : Nat → List Nat),
        wikrt_alloc_ff K F cx szb = some (r, cx1) ∧ wikrt_fl_inv K F cx1 L1) ∧
    (∀ (fuel : Nat) (cx : wikrt_cx wikrt_fl) (L : Nat → List Nat) (szb : Nat),
      wikrt_fl_inv K F cx L → 0 < szb → szb % 16 = 0 →
      K.WIKRT_FLCT + cx.fl.frag_count + 65 ≤ F → K.WIKRT_QFSIZE + 2 ≤ fuel →
      ∃ (r : Option Nat) (cx1 : wikrt_cx wikrt_fl) (L1 : Nat → List Nat),
        wikrt_alloc_b K F fuel cx szb = .ret (r, cx1) ∧ wikrt_fl_inv K F cx1 L1) := by
  refine ⟨?_, ?_, ?_⟩
  · intro cx L v szb hinv hv hv0 hsz hal hend hdis
    obtain ⟨cx1, k, hfree, _, hinv1, _⟩ :=
      fl_free_inv K F cx L v szb hK hF hinv hv hv0 hsz hal hend hdis
    exact ⟨cx1, _, hfree, hinv1⟩
  · intro cx L szb hinv hsz hal hFF
    obtain ⟨r, cx1, L1, hff, hinv1, _⟩ := alloc_ff_spec K F cx L szb hK hinv hsz hal hFF
    exact ⟨r, cx1, L1, hff, hinv1⟩
  · intro fuel cx L szb hinv hsz hal hFF hfuel
    obtain ⟨r, cx1, hres, L1, hinv1, _⟩ := alloc_b_spec K F hK hX K.WIKRT_QFSIZE fuel cx L szb
      hinv hsz hal (qfsize_lt_pow K szb hsz) hfuel hFF
    exact ⟨r, cx1, L1, hres, hinv1⟩

/-- C35, witness: the example constants and the context `cx_frags`, with the
block of two cells at 128 for `wikrt_free_b` and a request of two cells for
`wikrt_alloc_ff` and `wikrt_alloc_b`. -/
theorem wikrt_fl_accounting_preserved_witness :
    wikrt_fl_consts_ok fl_consts ∧ wikrt_fl_consts_exact fl_consts 100 ∧
    wikrt_fl_inv fl_consts 100 cx_frags frags_lists ∧
    (∃ (cx1 : wikrt_cx wikrt_fl) (L1 : Nat → List Nat),
      wikrt_free_b fl_consts 100 cx_frags 128 32 = some cx1 ∧
      wikrt_fl_inv fl_consts 100 cx1 L1) ∧
    (∃ (r : Option Nat) (cx1 : wikrt_cx wikrt_fl) (L1 : Nat → List Nat),
      wikrt_alloc_ff fl_consts 100 cx_frags 32 = some (r, cx1) ∧
      wikrt_fl_inv fl_consts 100 cx1 L1) ∧
    (∃ (r : Option Nat) (cx1 : wikrt_cx wikrt_fl) (L1 : Nat → List Nat),
      wikrt_alloc_b fl_consts 100 258 cx_frags 32 = .ret (r, cx1) ∧
      wikrt_fl_inv fl_consts 100 cx1 L1) :=
  ⟨fl_consts_ok, fl_consts_exact 100, cx_frags_inv,
    (wikrt_fl_accounting_preserved fl_consts 100 fl_consts_ok (fl_consts_exact 100)
      (by decide)).1 cx_frags frags_lists 128 32 cx_frags_inv (by decide) (by decide)
      (by decide) (by decide) (by decide) (by rw [frags_flat]; decide),
    (wikrt_fl_accounting_preserved fl_consts 100 fl_consts_ok (fl_consts_exact 100)
      (by decide)).2.1 cx_frags frags_lists 32 cx_frags_inv (by decide) (by decide)
      (by decide),
    (wikrt_fl_accounting_preserved fl_consts 100 fl_consts_ok (fl_consts_exact 100)
      (by decide)).2.2 258 cx_frags frags_lists 32 cx_frags_inv (by decide) (by decide)
      (by decide) (by decide)⟩

/-- C36, counterexample: `wikrt_alloc_b` may hand out a block that
lies in no single fragment that was free before. In the context `cx_adjacent`
every fragment has 256 bytes; the call for 512 bytes finds no fit, coalesces,
and hands out the block at 1024, which spans the two fragments at 1024 and
1280. -/
theorem wikrt_alloc_b_spans_two_fragments :
    wikrt_fl_inv fl_consts 100 cx_adjacent adjacent_lists ∧
    wikrt_alloc_addr (wikrt_alloc_b fl_consts 100 258 cx_adjacent 512) = some 1024 ∧
    (∀ f ∈ wikrt_fl_flat adjacent_lists fl_consts.WIKRT_FLCT,
      ¬ (f ≤ 1024 ∧ 1024 + 512 ≤ f + rd cx_adjacent f 0)) ∧
    1024 ∈ wikrt_fl_flat adjacent_lists fl_consts.WIKRT_FLCT ∧
    1280 ∈ wikrt_fl_flat adjacent_lists fl_consts.WIKRT_FLCT ∧
    1024 + rd cx_adjacent 1024 0 = 1280 := by
  refine ⟨cx_adjacent_inv, by decide!, ?_, ?_, ?_, by decide⟩
  · rw [adjacent_flat]
    decide
  · rw [adjacent_flat]
    decide
  · rw [adjacent_flat]
    decide

/-- C36, as amended: an allocation hands out free bytes only. On a free list that
satisfies the accounting invariant, for a size `szb > 0` of whole cells, both
calls return. When `wikrt_alloc_ff` succeeds, the address is that of a
fragment that was free before and has `szb` bytes or more, so the block lies
inside that one fragment; when it fails and the size classes do not decrease
with the size, no free fragment has `szb` bytes or more. When `wikrt_alloc_b`
succeeds, every byte of the block was free before the call. In both cases the
block is disjoint from every fragment that remains on the free lists, which
satisfy the invariant again, and `free_bytes` is down by exactly `szb`. -/
theorem wikrt_alloc_hands_out_free_bytes (K : wikrt_fl_consts) (F : Nat)
    (cx : wikrt_cx wikrt_fl) (L : Nat → List Nat) (szb : Nat)
    (hK : wikrt_fl_consts_ok K) (hX : wikrt_fl_consts_exact K F)
    (hinv : wikrt_fl_inv K F cx L) (hsz : 0 < szb) (hal : szb % 16 = 0)
    (hF : K.WIKRT_FLCT + cx.fl.frag_count + 65 ≤ F) :
    (∃ (r : Option Nat) (cx1 : wikrt_cx wikrt_fl),
      wikrt_alloc_ff K F cx szb = some (r, cx1) ∧
      (∀ a, r = some a →
        a ∈ wikrt_fl_flat L K.WIKRT_FLCT ∧ szb ≤ rd cx a 0 ∧
        cx1.fl.free_bytes + szb = cx.fl.free_bytes ∧
        ∃ L1 : Nat → List Nat, wikrt_fl_inv K F cx1 L1 ∧
          ∀ b ∈ wikrt_fl_flat L1 K.WIKRT_FLCT, b + rd cx1 b 0 ≤ a ∨ a + szb ≤ b) ∧
      (r = none → wikrt_fl_consts_mono K F →
        ∀ b ∈ wikrt_fl_flat L K.WIKRT_FLCT, rd cx b 0 < szb)) ∧
    (∀ fuel : Nat, K.WIKRT_QFSIZE + 2 ≤ fuel →
      ∃ (r : Option Nat) (cx1 : wikrt_cx wikrt_fl),
        wikrt_alloc_b K F fuel cx szb = .ret (r, cx1) ∧
        ∀ a, r = some a →
          (∀ x, a ≤ x → x < a + szb → wikrt_fl_covers cx (wikrt_fl_flat L K.WIKRT_FLCT) x) ∧
          cx1.fl.free_bytes + szb = cx.fl.free_bytes ∧
          ∃ L1 : Nat → List Nat, wikrt_fl_inv K F cx1 L1 ∧
            ∀ b ∈ wikrt_fl_flat L1 K.WIKRT_FLCT, b + rd cx1 b 0 ≤ a ∨ a + szb ≤ b) := by
  constructor
  · obtain ⟨r, cx1, L1, hff, hinv1, hnone, hsome⟩ := alloc_ff_spec K F cx L szb hK hinv hsz hal hF
    refine ⟨r, cx1, hff, ?_, ?_⟩
    · intro a h
      obtain ⟨hmem, hfit, hfb, _, _, hcov⟩ := hsome a h
      refine ⟨hmem, hfit, hfb, L1, hinv1, ?_⟩
      intro b hb
      exact fl_block_disjoint cx1 _ a szb hsz
        (fun x h1 h2 hc => ((hcov x).mp hc).2 ⟨h1, h2⟩) b hb (hinv1.1.2.1 b hb).2.1
    · intro h hmono b hb
      obtain ⟨_, _, c, hc, hall⟩ := hnone h
      obtain ⟨j, hj, hbj⟩ := (fl_flat_mem L b _).mp hb
      by_contra hlt
      have hcls := hinv.2.1 j hj b hbj
      have hcj := hmono szb (rd cx b 0) _ _ hsz (by omega) hc hcls
      exact hlt (hall j (by omega) hj b hbj)
  · intro fuel hfuel
    obtain ⟨r, cx1, hres, L1, hinv1, _, hsome⟩ := alloc_b_spec K F hK hX K.WIKRT_QFSIZE fuel cx L
      szb hinv hsz hal (qfsize_lt_pow K szb hsz) hfuel hF
    refine ⟨r, cx1, hres, ?_⟩
    intro a h
    obtain ⟨_, _, _, hfb, hblk, hcov⟩ := hsome a h
    refine ⟨hblk, hfb, L1, hinv1, ?_⟩
    intro b hb
    exact fl_block_disjoint cx1 _ a szb hsz
      (fun x h1 h2 hc => ((hcov x).mp hc).2 ⟨h1, h2⟩) b hb (hinv1.1.2.1 b hb).2.1

/-- C36, witness: the example constants and a request of 512 bytes in the
context `cx_adjacent`. -/
theorem wikrt_alloc_hands_out_free_bytes_witness :
    wikrt_fl_consts_ok fl_consts ∧ wikrt_fl_consts_exact fl_consts 100 ∧
    wikrt_fl_inv fl_consts 100 cx_adjacent adjacent_lists ∧
    wikrt_fl_consts_mono fl_consts 100 ∧
    ((∃ (r : Option Nat) (cx1 : wikrt_cx wikrt_fl),
      wikrt_alloc_ff fl_consts 100 cx_adjacent 512 = some (r, cx1) ∧
      (∀ a, r = some a →
        a ∈ wikrt_fl_flat adjacent_lists fl_consts.WIKRT_FLCT ∧ 512 ≤ rd cx_adjacent a 0 ∧
        cx1.fl.free_bytes + 512 = cx_adjacent.fl.free_bytes ∧
        ∃ L1 : Nat → List Nat, wikrt_fl_inv fl_consts 100 cx1 L1 ∧
          ∀ b ∈ wikrt_fl_flat L1 fl_consts.WIKRT_FLCT, b + rd cx1 b 0 ≤ a ∨ a + 512 ≤ b) ∧
      (r = none → wikrt_fl_consts_mono fl_consts 100 →
        ∀ b ∈ wikrt_fl_flat adjacent_lists fl_consts.WIKRT_FLCT, rd cx_adjacent b 0 < 512)) ∧
    (∀ fuel : Nat, fl_consts.WIKRT_QFSIZE + 2 ≤ fuel →
      ∃ (r : Option Nat) (cx1 : wikrt_cx wikrt_fl),
        wikrt_alloc_b fl_consts 100 fuel cx_adjacent 512 = .ret (r, cx1) ∧
        ∀ a, r = some a →
          (∀ x, a ≤ x → x < a + 512 →
            wikrt_fl_covers cx_adjacent (wikrt_fl_flat adjacent_lists fl_consts.WIKRT_FLCT) x) ∧
          cx1.fl.free_bytes + 512 = cx_adjacent.fl.free_bytes ∧
          ∃ L1 : Nat → List Nat, wikrt_fl_inv fl_consts 100 cx1 L1 ∧
            ∀ b ∈ wikrt_fl_flat L1 fl_consts.WIKRT_FLCT, b + rd cx1 b 0 ≤ a ∨ a + 512 ≤ b)) :=
  ⟨fl_consts_ok, fl_consts_exact 100, cx_adjacent_inv, fl_consts_mono 100,
    wikrt_alloc_hands_out_free_bytes fl_consts 100 cx_adjacent adjacent_lists 512 fl_consts_ok
      (fl_consts_exact 100) cx_adjacent_inv (by decide) (by decide) (by decide)⟩

/-! ### Growing an allocation -/

theorem grow_b_copy_addr (K : wikrt_fl_consts) (F fuel : Nat) (cx cx1 : wikrt_cx wikrt_fl)
    (addr sz0 szf : Nat) (b : Bool) (addr1 : Nat)
    (h : wikrt_grow_b_copy K F fuel cx addr sz0 szf = .ret (b, cx1, addr1)) : addr1 = addr := by
  unfold wikrt_grow_b_copy at h
  simp only [] at h
  split at h
  · cases h; rfl
  · split at h
    · cases h
    · cases h; rfl
  · cases h
  · cases h

/-- C37, at a failing input: `wikrt_grow_b` never assigns `*addr`. Whatever
the call returns, `*addr` is the address that was passed in; so after a move
it still names the old block, which the call has freed. In the context
`cx_grow` the block of one cell at 1024 holds the words 77 and 78 and cannot
grow in place; the call for two cells returns true with `*addr` still 1024,
where the block is now the head of the free list of the class 0 and its first
word is the fragment size 16, while the copy of the contents is at 2048. -/
theorem wikrt_grow_b_keeps_addr :
    (∀ (K : wikrt_fl_consts) (F fuel size : Nat) (cx cx1 : wikrt_cx wikrt_fl)
      (addr sz0 szf : Nat) (b : Bool) (addr1 : Nat),
      wikrt_grow_b K F fuel size cx addr sz0 szf = .ret (b, cx1, addr1) → addr1 = addr) ∧
    wikrt_fl_inv fl_consts 100 cx_grow grow_lists ∧
    rd cx_grow 1024 0 = 77 ∧ rd cx_grow 1024 1 = 78 ∧
    wikrt_try_grow_inplace 4096 cx_grow (1024 + 16) (32 - 16) = false ∧
    ∃ cx1 : wikrt_cx wikrt_fl,
      wikrt_grow_b fl_consts 100 258 4096 cx_grow 1024 16 32 = .ret (true, cx1, 1024) ∧
      cx1.fl.size_class 0 = 1024 ∧ rd cx1 1024 0 = 16 ∧
      rd cx1 2048 0 = 77 ∧ rd cx1 2048 1 = 78 ∧
      cx1.fl.free_bytes + (32 - 16) = cx_grow.fl.free_bytes := by
  refine ⟨?_, cx_grow_inv, by decide, by decide, by decide, ?_⟩
  · intro K F fuel size cx cx1 addr sz0 szf b addr1 h
    unfold wikrt_grow_b at h
    simp only [] at h
    split at h
    · split at h
      · cases h
      · split at h
        · cases h
        · split at h
          · split at h
            · split at h
              · cases h
              · cases h; rfl
            · cases h; rfl
          · exact grow_b_copy_addr K F fuel cx cx1 addr sz0 szf b addr1 h
    · exact grow_b_copy_addr K F fuel cx cx1 addr sz0 szf b addr1 h
  · exact ⟨_, rfl, by decide, by decide, by decide, by decide, by decide⟩

/-! ### Deep sums around a value that is no product -/

/-- C33, at a failing input: the second wrap around a value that is no
product loses the sum. Unit is put in the left, which takes a new deep-sum cell
at 64 with one tag, and the result is put in the right with an out-parameter
that held unit. The second call returns `WIKRT_OK` and writes the two tags into
the header, which keeps `WIKRT_OTAG_DEEPSUM` in its low byte, but it leaves its
out-parameter at unit: `wikrt_split_sum_fl` on what the call returned is a type
error, where the splits of the cell at 64 report right, then left, and give
back unit. -/
theorem wikrt_deep_sum_second_wrap_keeps_c :
    sum_wrap1.1 = WIKRT_OK ∧ sum_wrap1.2.2 = wikrt_tag_addr WIKRT_O 64 ∧
    rd sum_wrap1.2.1 64 0 = ((WIKRT_DEEPSUML <<< 8) ||| WIKRT_OTAG_DEEPSUM) ∧
    sum_wrap2.1 = WIKRT_OK ∧ sum_wrap2.2.2 = WIKRT_UNIT ∧
    rd sum_wrap2.2.1 64 0
      = ((((WIKRT_DEEPSUML <<< 2) ||| WIKRT_DEEPSUMR) <<< 8) ||| WIKRT_OTAG_DEEPSUM) ∧
    wikrt_otag_deepsum (rd sum_wrap2.2.1 64 0) = true ∧
    (wikrt_split_sum_fl alloc_bump sum_wrap2.2.1 sum_wrap2.2.2 false 0).1
      = WIKRT_TYPE_ERROR ∧
    (wikrt_split_sum_fl alloc_bump sum_wrap2.2.1 64 false 0).1 = WIKRT_OK ∧
    (wikrt_split_sum_fl alloc_bump sum_wrap2.2.1 64 false 0).2.2 = (true, 64) ∧
    (wikrt_split_sum_fl alloc_bump
      (wikrt_split_sum_fl alloc_bump sum_wrap2.2.1 64 false 0).2.1 64 true 0).1 = WIKRT_OK ∧
    (wikrt_split_sum_fl alloc_bump
      (wikrt_split_sum_fl alloc_bump sum_wrap2.2.1 64 false 0).2.1 64 true 0).2.2
      = (false, WIKRT_UNIT) := by
  decide

/-! ### A failed allocation of a cell -/

theorem fl_flat_nil_class (L : Nat → List Nat) (n k : Nat) (hk : k < n)
    (h : wikrt_fl_flat L n = []) : L k = [] := by
  cases hL : L k with
  | nil => rfl
  | cons a l =>
    have : a ∈ wikrt_fl_flat L n := (fl_flat_mem L a n).mpr ⟨k, hk, by rw [hL]; simp⟩
    rw [h] at this
    cases this

theorem alloc_ff_empty (K : wikrt_fl_consts) (F : Nat) (cx : wikrt_cx wikrt_fl)
    (L : Nat → List Nat) (szb : Nat)
    (hK : wikrt_fl_consts_ok K) (hinv : wikrt_fl_inv K F cx L)
    (hnil : wikrt_fl_flat L K.WIKRT_FLCT = [])
    (hsz : 0 < szb) (hal : szb % 16 = 0)
    (hF : K.WIKRT_FLCT + cx.fl.frag_count + 65 ≤ F) :
    wikrt_alloc_ff K F cx szb = some (none, cx) := by
  obtain ⟨r, cx1, L1, hff, _, hnone, hsome⟩ := alloc_ff_spec K F cx L szb hK hinv hsz hal hF
  cases r with
  | none =>
    have e := (hnone rfl).1
    subst e
    exact hff
  | some a =>
    have := (hsome a rfl).1
    rw [hnil] at this
    cases this

theorem coalesce_maybe_empty (K : wikrt_fl_consts) (F : Nat) (cx : wikrt_cx wikrt_fl)
    (szb : Nat) (hfb : cx.fl.free_bytes = 0) (hsz : 0 < szb) (hlt : szb < 2 ^ 63) :
    wikrt_coalesce_maybe K F cx szb = .ret (false, cx) := by
  unfold wikrt_coalesce_maybe
  simp only []
  rw [if_pos (Or.inl (by rw [hfb]; omega))]

/-- Without a free fragment `wikrt_alloc_b` fails and leaves the context as it
is: no list has a head, the first fit finds nothing and nothing is
coalesced. -/
theorem alloc_b_empty (K : wikrt_fl_consts) (F : Nat)
    (hK : wikrt_fl_consts_ok K) (hQ : K.WIKRT_QFSIZE < 2 ^ 62) :
    ∀ (j fuel : Nat) (cx : wikrt_cx wikrt_fl) (L : Nat → List Nat) (szb : Nat),
      wikrt_fl_inv K F cx L → wikrt_fl_flat L K.WIKRT_FLCT = [] →
      0 < szb → szb % 16 = 0 → szb < 2 ^ 63 → K.WIKRT_QFSIZE < szb * 2 ^ j →
      j + 1 ≤ fuel → K.WIKRT_FLCT + cx.fl.frag_count + 65 ≤ F →
      wikrt_alloc_b K F fuel cx szb = .ret (none, cx) := by
  have hlarge : ∀ (f : Nat) (cx : wikrt_cx wikrt_fl) (L : Nat → List Nat) (szb : Nat),
      wikrt_fl_inv K F cx L → wikrt_fl_flat L K.WIKRT_FLCT = [] →
      0 < szb → szb % 16 = 0 → szb < 2 ^ 63 → ¬ szb ≤ K.WIKRT_QFSIZE →
      K.WIKRT_FLCT + cx.fl.frag_count + 65 ≤ F →
      wikrt_alloc_b K F (f + 1) cx szb = .ret (none, cx) := by
    intro f cx L szb hinv hnil hsz hal hlt hq hF
    have hff := alloc_ff_empty K F cx L szb hK hinv hnil hsz hal hF
    have hfb : cx.fl.free_bytes = 0 := by
      rw [hinv.1.2.2.2.2.1, hnil]
      rfl
    rw [wikrt_alloc_b, if_neg hq, hff]
    simp only []
    rw [coalesce_maybe_empty K F cx szb hfb hsz hlt]
  intro j
  induction j with
  | zero =>
    intro fuel cx L szb hinv hnil hsz hal hlt hj hfuel hF
    obtain ⟨f, hf⟩ : ∃ f, fuel = f + 1 := ⟨fuel - 1, by omega⟩
    subst hf
    exact hlarge f cx L szb hinv hnil hsz hal hlt (by omega) hF
  | succ j ih =>
    intro fuel cx L szb hinv hnil hsz hal hlt hj hfuel hF
    obtain ⟨f, hf⟩ : ∃ f, fuel = f + 1 := ⟨fuel - 1, by omega⟩
    subst hf
    by_cases hq : szb ≤ K.WIKRT_QFSIZE
    · have hsc : wikrt_size_class K F szb = some (K.WIKRT_QFCLASS szb) := by
        unfold wikrt_size_class
        rw [if_pos hq]
      obtain ⟨hsc0, hsc1⟩ := hK.2.2 F szb _ hsz hsc
      obtain ⟨k, hk⟩ : ∃ k : Nat, (k : Int) = K.WIKRT_QFCLASS szb :=
        ⟨(K.WIKRT_QFCLASS szb).toNat, by omega⟩
      have hkn : k < K.WIKRT_FLCT := by omega
      have hhead : cx.fl.size_class (K.WIKRT_QFCLASS szb) = 0 := by
        have hl := hinv.1.1 k hkn
        rw [fl_flat_nil_class L _ k hkn hnil, hk] at hl
        exact hl
      have hshift : (szb <<< 1) % 2 ^ 64 = 2 * szb := by
        rw [Nat.shiftLeft_eq]
        omega
      have hrec := ih f cx L (2 * szb) hinv hnil (by omega) (by omega) (by omega)
        (by rw [Nat.pow_succ] at hj; nlinarith) (by omega) hF
      have hff := alloc_ff_empty K F cx L szb hK hinv hnil hsz hal hF
      rw [wikrt_alloc_b, if_pos hq]
      simp only []
      rw [if_neg (by rw [hhead]; exact fun h => h rfl), hshift, hrec]
      simp only []
      rw [hff]
    · exact hlarge f cx L szb hinv hnil hsz hal hlt hq hF

/-- With a free fragment, the first fit for one cell succeeds when the size
classes do not decrease with the size: every fragment has a cell or more. -/
theorem alloc_ff_cell_some (K : wikrt_fl_consts) (F : Nat) (cx : wikrt_cx wikrt_fl)
    (L : Nat → List Nat) (hK : wikrt_fl_consts_ok K) (hM : wikrt_fl_consts_mono K F)
    (hinv : wikrt_fl_inv K F cx L) (hne : wikrt_fl_flat L K.WIKRT_FLCT ≠ [])
    (hF : K.WIKRT_FLCT + cx.fl.frag_count + 65 ≤ F) :
    ∃ (a : Nat) (cx1 : wikrt_cx wikrt_fl), wikrt_alloc_ff K F cx 16 = some (some a, cx1) := by
  obtain ⟨r, cx1, L1, hff, _, hnone, _⟩ :=
    alloc_ff_spec K F cx L 16 hK hinv (by omega) (by omega) hF
  cases r with
  | some a => exact ⟨a, cx1, hff⟩
  | none =>
    exfalso
    obtain ⟨_, _, c, hc, hall⟩ := hnone rfl
    obtain ⟨b, hb⟩ := List.exists_mem_of_ne_nil _ hne
    obtain ⟨j, hj, hbj⟩ := (fl_flat_mem L b _).mp hb
    have hpos := (hinv.1.2.1 b hb).2.1
    have h16 := hinv.2.2 b hb
    have hcls := hinv.2.1 j hj b hbj
    have hcj := hM 16 (rd cx b 0) _ _ (by omega) (by omega) hc hcls
    have := hall j (by omega) hj b hbj
    omega

/-- With a free fragment `wikrt_alloc_b` hands out a cell. -/
theorem alloc_b_cell_some (K : wikrt_fl_consts) (F fuel : Nat) (cx : wikrt_cx wikrt_fl)
    (L : Nat → List Nat) (hK : wikrt_fl_consts_ok K) (hX : wikrt_fl_consts_exact K F)
    (hM : wikrt_fl_consts_mono K F) (hinv : wikrt_fl_inv K F cx L)
    (hne : wikrt_fl_flat L K.WIKRT_FLCT ≠ [])
    (hF : K.WIKRT_FLCT + cx.fl.frag_count + 65 ≤ F) (hfuel : K.WIKRT_QFSIZE + 2 ≤ fuel) :
    ∃ (a : Nat) (cx1 : wikrt_cx wikrt_fl), wikrt_alloc_b K F fuel cx 16 = .ret (some a, cx1) := by
  obtain ⟨f, hf⟩ : ∃ f, fuel = f + 1 := ⟨fuel - 1, by omega⟩
  subst hf
  by_cases hq : 16 ≤ K.WIKRT_QFSIZE
  · by_cases hr : 0 ≠ cx.fl.size_class (K.WIKRT_QFCLASS 16)
    · refine ⟨cx.fl.size_class (K.WIKRT_QFCLASS 16),
        { cx with fl := { wikrt_fl_set cx.fl (K.WIKRT_QFCLASS 16)
            (rd cx (cx.fl.size_class (K.WIKRT_QFCLASS 16)) 1) with
          frag_count := wikrt_size_sub cx.fl.frag_count 1,
          free_bytes := wikrt_size_sub cx.fl.free_bytes 16 } }, ?_⟩
      rw [wikrt_alloc_b, if_pos hq]
      simp only []
      rw [if_pos hr]
    · have hshift : (16 <<< 1) % 2 ^ 64 = 2 * 16 := by decide
      have hpow : K.WIKRT_QFSIZE < 2 * 16 * 2 ^ (K.WIKRT_QFSIZE - 1) := by
        have h1 := qfsize_lt_pow K 16 (by omega)
        have h2 : 2 ^ K.WIKRT_QFSIZE = 2 ^ (K.WIKRT_QFSIZE - 1) * 2 := by
          rw [← Nat.pow_succ]
          congr 1
          omega
        rw [h2] at h1
        omega
      obtain ⟨r1, cx1, hrec, L1, hinv1, hnone1, hsome1⟩ := alloc_b_spec K F hK hX
        (K.WIKRT_QFSIZE - 1) f cx L (2 * 16) hinv (by omega) (by omega) hpow (by omega) hF
      cases r1 with
      | none =>
        obtain ⟨_, hfc1, hcov1⟩ := hnone1 rfl
        have hne1 : wikrt_fl_flat L1 K.WIKRT_FLCT ≠ [] := by
          obtain ⟨b, hb⟩ := List.exists_mem_of_ne_nil _ hne
          have hpos := (hinv.1.2.1 b hb).2.1
          have hc : wikrt_fl_covers cx (wikrt_fl_flat L K.WIKRT_FLCT) b :=
            ⟨b, hb, Nat.le_refl _, by omega⟩
          obtain ⟨b1, hb1, _⟩ := (hcov1 b).mpr hc
          exact List.ne_nil_of_mem hb1
        obtain ⟨a, cx2, hff⟩ := alloc_ff_cell_some K F cx1 L1 hK hM hinv1 hne1 (by omega)
        refine ⟨a, cx2, ?_⟩
        rw [wikrt_alloc_b, if_pos hq]
        simp only []
        rw [if_neg hr, hshift, hrec]
        simp only []
        rw [hff]
      | some v =>
        obtain ⟨hv16, hv0, hvend, _, _, hcov1⟩ := hsome1 v rfl
        have hdis := fl_block_disjoint cx1 (wikrt_fl_flat L1 K.WIKRT_FLCT) (v + 16) 16
          (by omega)
          (by
            intro x h1 h2 hc
            exact ((hcov1 x).mp hc).2 ⟨by omega, by omega⟩)
        obtain ⟨cx2, _, hfree, _⟩ :=
          fl_free_inv K F cx1 L1 (v + 16) 16 hK (by omega) hinv1 (by omega) (by omega)
            (by omega) (by omega) (by omega) (fun b hb => hdis b hb (hinv1.1.2.1 b hb).2.1)
        refine ⟨v, cx2, ?_⟩
        rw [wikrt_alloc_b, if_pos hq]
        simp only []
        rw [if_neg hr, hshift, hrec]
        simp only []
        rw [Nat.mod_eq_of_lt (by omega), hfree]
  · obtain ⟨a, cx1, hff⟩ := alloc_ff_cell_some K F cx L hK hM hinv hne hF
    refine ⟨a, cx1, ?_⟩
    rw [wikrt_alloc_b, if_neg hq, hff]

/-- A failed allocation of a cell has found the free lists empty and has left
the context, its memory and its free list, as it was. -/
theorem alloc_b_cell_fail (K : wikrt_fl_consts) (F fuel : Nat) (cx cx1 : wikrt_cx wikrt_fl)
    (L : Nat → List Nat) (hK : wikrt_fl_consts_ok K) (hX : wikrt_fl_consts_exact K F)
    (hM : wikrt_fl_consts_mono K F) (hQ : K.WIKRT_QFSIZE < 2 ^ 62)
    (hinv : wikrt_fl_inv K F cx L)
    (hF : K.WIKRT_FLCT + cx.fl.frag_count + 65 ≤ F) (hfuel : K.WIKRT_QFSIZE + 2 ≤ fuel)
    (h : wikrt_alloc K F fuel cx WIKRT_CELLSIZE = .ret (none, cx1)) :
    cx1 = cx ∧ wikrt_fl_flat L K.WIKRT_FLCT = [] := by
  have hcb : wikrt_cellbuff WIKRT_CELLSIZE = 16 := by decide
  unfold wikrt_alloc at h
  rw [hcb] at h
  by_cases hnil : wikrt_fl_flat L K.WIKRT_FLCT = []
  · have he := alloc_b_empty K F hK hQ K.WIKRT_QFSIZE fuel cx L 16 hinv hnil (by omega)
      (by omega) (by omega) (qfsize_lt_pow K 16 (by omega)) (by omega) hF
    rw [he] at h
    have e : cx = cx1 := by
      injection h with h1
      exact (Prod.mk.inj h1).2
    exact ⟨e.symm, hnil⟩
  · obtain ⟨a, cx2, hs⟩ := alloc_b_cell_some K F fuel cx L hK hX hM hinv hnil hF hfuel
    rw [hs] at h
    injection h with h1
    have := (Prod.mk.inj h1).1
    cases this

theorem cx_full_inv : wikrt_fl_inv fl_consts 100 cx_full full_lists := by
  have hflat : wikrt_fl_flat full_lists fl_consts.WIKRT_FLCT = [] := fl_flat_nil _
  refine ⟨?_, ?_, ?_⟩
  · unfold wikrt_fl_wf
    rw [hflat]
    refine ⟨?_, by decide, by decide, by decide, by decide, by decide, by decide⟩
    intro sc _
    rfl
  · intro sc _ a ha
    cases ha
  · rw [hflat]
    intro a ha
    cases ha

theorem alloc_fl_ret (cx : wikrt_cx wikrt_fl) (sz : Nat)
    (r : Option Nat × wikrt_cx wikrt_fl)
    (h : wikrt_alloc fl_consts 100 258 cx sz = .ret r) :
    wikrt_alloc fl_consts 100 258 cx sz = .ret (alloc_fl.wikrt_alloc cx sz) := by
  have e : alloc_fl.wikrt_alloc cx sz = r := by
    show (match wikrt_alloc fl_consts 100 258 cx sz with
      | .ret r => r
      | _ => (none, cx)) = r
    rw [h]
  rw [e]
  exact h

theorem cx_full_alloc :
    wikrt_alloc fl_consts 100 258 cx_full WIKRT_CELLSIZE
      = .ret (alloc_fl.wikrt_alloc cx_full WIKRT_CELLSIZE) := by
  refine alloc_fl_ret cx_full WIKRT_CELLSIZE (none, cx_full) ?_
  have hcb : wikrt_cellbuff WIKRT_CELLSIZE = 16 := by decide
  unfold wikrt_alloc
  rw [hcb]
  exact alloc_b_empty fl_consts 100 fl_consts_ok (by decide) fl_consts.WIKRT_QFSIZE 258 cx_full
    full_lists 16 cx_full_inv (fl_flat_nil _) (by decide) (by decide) (by decide)
    (qfsize_lt_pow fl_consts 16 (by decide)) (by decide) (by decide)

/-- C19: when `wikrt_split_prod_fl` or `wikrt_split_sum_fl` returns an error
code, the context (its memory and the free list) and the out-parameters are
as they were, for every allocator. When `wikrt_alloc_prod_fl` or
`wikrt_alloc_sum_fl` returns `WIKRT_CXFULL`, the allocation of the cell has
failed, and the context, its memory and with it the cells of the argument
values, and the out-parameter are as they were: the allocation is that of
`wikrt_mem.c` on a free list that satisfies the accounting invariant, and a
failed allocation of one cell has found no fragment at all, so that it has
neither taken a fragment apart nor coalesced. The constants that the sources
do not define are any for which every size has a class below `WIKRT_FLCT`, a
quick-fit class holds one size of whole cells, the classes do not decrease
with the size and `WIKRT_QFSIZE` is below `2 ^ 62`. -/
theorem wikrt_fail_safe :
    (∀ {FL : Type} (A : wikrt_allocator FL) (cx : wikrt_cx FL) (p fst snd : Nat),
      (wikrt_split_prod_fl A cx p fst snd).1 ≠ WIKRT_OK →
      wikrt_split_prod_fl A cx p fst snd = (WIKRT_TYPE_ERROR, cx, fst, snd)) ∧
    (∀ {FL : Type} (A : wikrt_allocator FL) (cx : wikrt_cx FL) (c : Nat) (inRight : Bool)
      (v : Nat),
      (wikrt_split_sum_fl A cx c inRight v).1 ≠ WIKRT_OK →
      ((wikrt_split_sum_fl A cx c inRight v).1 = WIKRT_TYPE_ERROR ∨
        (wikrt_split_sum_fl A cx c inRight v).1 = WIKRT_IMPL) ∧
      (wikrt_split_sum_fl A cx c inRight v).2 = (cx, inRight, v)) ∧
    (∀ (K : wikrt_fl_consts) (F fuel : Nat) (A : wikrt_allocator wikrt_fl)
      (cx : wikrt_cx wikrt_fl) (L : Nat → List Nat),
      wikrt_fl_consts_ok K → wikrt_fl_consts_exact K F → wikrt_fl_consts_mono K F →
      K.WIKRT_QFSIZE < 2 ^ 62 → wikrt_fl_inv K F cx L →
      K.WIKRT_FLCT + cx.fl.frag_count + 65 ≤ F → K.WIKRT_QFSIZE + 2 ≤ fuel →
      wikrt_alloc K F fuel cx WIKRT_CELLSIZE = .ret (A.wikrt_alloc cx WIKRT_CELLSIZE) →
      (∀ p fst snd : Nat, (wikrt_alloc_prod_fl A cx p fst snd).1 = WIKRT_CXFULL →
        (A.wikrt_alloc cx WIKRT_CELLSIZE).1 = none ∧
        wikrt_fl_flat L K.WIKRT_FLCT = [] ∧
        (wikrt_alloc_prod_fl A cx p fst snd).2 = (cx, p)) ∧
      (∀ (c : Nat) (inRight : Bool) (v : Nat),
        (wikrt_alloc_sum_fl A cx c inRight v).1 = WIKRT_CXFULL →
        (A.wikrt_alloc cx WIKRT_CELLSIZE).1 = none ∧
        wikrt_fl_flat L K.WIKRT_FLCT = [] ∧
        (wikrt_alloc_sum_fl A cx c inRight v).2 = (cx, c))) := by
  refine ⟨?_, ?_, ?_⟩
  · intro FL A cx p fst snd h
    unfold wikrt_split_prod_fl at h ⊢
    dsimp only at h ⊢
    split
    · rename_i hp
      rw [if_pos hp] at h
      exact absurd rfl h
    · rfl
  · intro FL A cx c inRight v h
    unfold wikrt_split_sum_fl at h ⊢
    dsimp only at h ⊢
    split
    · rename_i h1
      rw [if_pos h1] at h
      exact absurd rfl h
    · rename_i h1
      rw [if_neg h1] at h
      split
      · rename_i h2
        rw [if_pos h2] at h
        exact absurd rfl h
      · rename_i h2
        rw [if_neg h2] at h
        split
        · rename_i h3
          rw [if_pos h3] at h
          split
          · rename_i h4
            rw [if_pos h4] at h
            split at h <;> exact absurd rfl h
          · split
            · exact ⟨Or.inr rfl, rfl⟩
            · exact ⟨Or.inl rfl, rfl⟩
        · exact ⟨Or.inl rfl, rfl⟩
  · intro K F fuel A cx L hK hX hM hQ hinv hF hfuel hA
    have hfail : ∀ cx1, A.wikrt_alloc cx WIKRT_CELLSIZE = (none, cx1) →
        cx1 = cx ∧ wikrt_fl_flat L K.WIKRT_FLCT = [] := by
      intro cx1 hal
      rw [hal] at hA
      exact alloc_b_cell_fail K F fuel cx cx1 L hK hX hM hQ hinv hF hfuel hA
    constructor
    · intro p fst snd h
      unfold wikrt_alloc_prod_fl at h ⊢
      rcases hal : A.wikrt_alloc cx WIKRT_CELLSIZE with ⟨o, cx1⟩
      rw [hal] at h
      cases o with
      | some dst => exact absurd h (show ¬ WIKRT_OK = WIKRT_CXFULL by decide)
      | none =>
        obtain ⟨e, hnil⟩ := hfail cx1 hal
        subst e
        exact ⟨rfl, hnil, rfl⟩
    · intro c inRight v h
      unfold wikrt_alloc_sum_fl at h ⊢
      dsimp only at h ⊢
      split
      · rename_i h1
        rw [if_pos h1] at h
        exact absurd h (show ¬ WIKRT_OK = WIKRT_CXFULL by decide)
      · rename_i h1
        rw [if_neg h1] at h
        split
        · rename_i h2
          rw [if_pos h2] at h
          exact absurd h (show ¬ WIKRT_OK = WIKRT_CXFULL by decide)
        · rename_i h2
          rw [if_neg h2] at h
          rcases hal : A.wikrt_alloc cx WIKRT_CELLSIZE with ⟨o, cx1⟩
          rw [hal] at h
          cases o with
          | some dst => exact absurd h (show ¬ WIKRT_OK = WIKRT_CXFULL by decide)
          | none =>
            obtain ⟨e, hnil⟩ := hfail cx1 hal
            subst e
            exact ⟨rfl, hnil, rfl⟩

/-- C19, witness: unit is neither a pair nor a sum; and the context `cx_full`,
whose free lists are empty, with the allocator of `wikrt_mem.c`: both
constructors return `WIKRT_CXFULL` and leave the context and the out-parameter
as they were. -/
theorem wikrt_fail_safe_witness :
    wikrt_split_prod_fl alloc_none cx_pair WIKRT_UNIT 1 2 = (WIKRT_TYPE_ERROR, cx_pair, 1, 2) ∧
    (wikrt_split_sum_fl alloc_none cx_pair WIKRT_UNIT false 3).2 = (cx_pair, false, 3) ∧
    wikrt_fl_inv fl_consts 100 cx_full full_lists ∧
    (wikrt_alloc_prod_fl alloc_fl cx_full 0 5 7).1 = WIKRT_CXFULL ∧
    (wikrt_alloc_prod_fl alloc_fl cx_full 0 5 7).2 = (cx_full, 0) ∧
    (wikrt_alloc_sum_fl alloc_fl cx_full 0 true WIKRT_UNIT).1 = WIKRT_CXFULL ∧
    (wikrt_alloc_sum_fl alloc_fl cx_full 0 true WIKRT_UNIT).2 = (cx_full, 0) :=
  ⟨wikrt_fail_safe.1 alloc_none cx_pair WIKRT_UNIT 1 2 (by decide),
    (wikrt_fail_safe.2.1 alloc_none cx_pair WIKRT_UNIT false 3 (by decide)).2,
    cx_full_inv,
    by decide!,
    ((wikrt_fail_safe.2.2 fl_consts 100 258 alloc_fl cx_full full_lists fl_consts_ok
      (fl_consts_exact 100) (fl_consts_mono 100) (by decide) cx_full_inv (by decide)
      (by decide) cx_full_alloc).1 0 5 7 (by decide!)).2.2,
    by decide!,
    ((wikrt_fail_safe.2.2 fl_consts 100 258 alloc_fl cx_full full_lists fl_consts_ok
      (fl_consts_exact 100) (fl_consts_mono 100) (by decide) cx_full_inv (by decide)
      (by decide) cx_full_alloc).2 0 true WIKRT_UNIT (by decide!)).2.2⟩

end Word
